import Mathlib

/-!
# Skiplist-Go: a verification development

A shallow embedding of the skip lists of the repository (`basic`, `la`, `splay`, `Tlist`)
and of the structural validator of `analyTool`, followed by theorems about them.

Modelling conventions.

* Go pointers are addresses into an explicit heap `mem : List Node`; `nil` is `none`.
  A node that is unlinked stays in the heap as garbage, as it does in Go until collected.
* Every operation returns an `Option`: `none` stands for "the Go call does not return
  normally", that is a run-time panic (nil dereference, index out of range, division by
  zero) or a pointer walk that never ends.  A pointer walk gets as many steps as the heap
  has nodes; a walk over distinct nodes cannot need more.
* Keys are `int64` in Go and are only ever compared, so they are integers here.
  Values are `float64` payloads that are only stored and returned.
* A pseudo random source is a stream of draws with a cursor.  `Float64()` yields a value
  `n / 2^53` with `n < 2^53`; a draw is stored as its numerator `n`.
-/

namespace Skiplist

/-- The key type `skiplist.K` (`int64`); keys are only compared. -/
abbrev K := Int

/-- The value type `skiplist.V` (`float64`); values are only stored and returned. -/
abbrev V := ℚ

/-- A Go pointer to a node: an address in the heap, or `nil`. -/
abbrev Ptr := Option Nat

/-- The denominator of a draw: `Float64()` returns `n / 2^53`. -/
def drawScale : Nat := 2 ^ 53

/-- A `*rand.Rand`: the stream of numerators it will produce and a cursor into it. -/
structure Rand where
  draws : Nat → Nat
  pos : Nat

/-- The call `rand.Float64()`: the current draw, and the source moved one draw on. -/
def Rand.Float64 (r : Rand) : Nat × Rand :=
  (r.draws r.pos, { r with pos := r.pos + 1 })

/-- The comparison `draw < probability` with `probability = 0.5`. -/
def belowProbability (d : Nat) : Bool := decide (2 * d < drawScale)

/-- The constant `maxLevel = 32` of the packages `basic`, `la` and `tlist`. -/
def maxLevel : Nat := 32

/-- Wrap-around of `int32` arithmetic. -/
def wrap32 (x : Int) : Int := (x + 2 ^ 31) % 2 ^ 32 - 2 ^ 31

/-- The node layout shared by `basicNode` and `laNode`: key, value and the slice `next`. -/
structure Node where
  key : K
  value : V
  next : List Ptr

/-- The struct `basicNode`. -/
abbrev basicNode := Node

/-- The struct `laNode`. -/
abbrev laNode := Node

/-- The function `newNode(key, value, level)`: a node with `level + 1` nil links. -/
def newNode (key : K) (value : V) (level : Nat) : Node :=
  { key := key, value := value, next := List.replicate (level + 1) none }

/-- The read `cur.next[h]`; `none` is a panic (dangling address or index out of range). -/
def nextAt (mem : List Node) (cur h : Nat) : Option Ptr :=
  match mem[cur]? with
  | none => none
  | some nd => nd.next[h]?

/-- The write `cur.next[h] = p`. -/
def setNext (mem : List Node) (cur h : Nat) (p : Ptr) : Option (List Node) :=
  match mem[cur]? with
  | none => none
  | some nd =>
    if h < nd.next.length then some (mem.set cur { nd with next := nd.next.set h p })
    else none

/-- The write `cur.value = v`. -/
def setValue (mem : List Node) (cur : Nat) (v : V) : Option (List Node) :=
  match mem[cur]? with
  | none => none
  | some nd => some (mem.set cur { nd with value := v })

/-- The inner loop `for cur.next[h] != nil && cur.next[h].key < key { cur = cur.next[h] }`
of `find`, `Put` and `Delete`; the first argument bounds the number of hops. -/
def walk (mem : List Node) (key : K) (h : Nat) : Nat → Nat → Option Nat
  | 0, _ => none
  | fuel + 1, cur =>
    match nextAt mem cur h with
    | none => none
    | some none => some cur
    | some (some nx) =>
      match mem[nx]? with
      | none => none
      | some n => if n.key < key then walk mem key h fuel nx else some cur

/-- The test `cur.next[h] != nil && cur.next[h].key == key`, yielding `cur.next[h]` when it
holds and nil otherwise. -/
def hitAt (mem : List Node) (key : K) (h cur : Nat) : Option Ptr :=
  match nextAt mem cur h with
  | none => none
  | some none => some none
  | some (some nx) =>
    match mem[nx]? with
    | none => none
    | some n => if n.key = key then some (some nx) else some none

/-- The loop `for h := level; h >= 0; h--` of `find`, entered at level `h` with `cur`. -/
def findFrom (mem : List Node) (key : K) : Nat → Nat → Option Ptr
  | 0, cur =>
    match walk mem key 0 mem.length cur with
    | none => none
    | some c => hitAt mem key 0 c
  | h + 1, cur =>
    match walk mem key (h + 1) mem.length cur with
    | none => none
    | some c =>
      match hitAt mem key (h + 1) c with
      | none => none
      | some (some nx) => some (some nx)
      | some none => findFrom mem key h c

/-- One level of the splice loop of `Put`: walk, then link the new node `nw` when
`h <= lvl`. Returns the heap and the node the walk stopped at. -/
def spliceLevel (mem : List Node) (key : K) (lvl nw h cur : Nat) : Option (List Node × Nat) :=
  match walk mem key h mem.length cur with
  | none => none
  | some c =>
    if h ≤ lvl then
      match nextAt mem c h with
      | none => none
      | some p =>
        match setNext mem nw h p with
        | none => none
        | some mem1 =>
          match setNext mem1 c h (some nw) with
          | none => none
          | some mem2 => some (mem2, c)
    else some (mem, c)

/-- The splice loop of `LASkipList.PutWithNP` and `PutWithoutProb`, entered at level `h`. -/
def spliceFrom (key : K) (lvl nw : Nat) : Nat → List Node → Nat → Option (List Node)
  | 0, mem, cur =>
    match spliceLevel mem key lvl nw 0 cur with
    | none => none
    | some (mem1, _) => some mem1
  | h + 1, mem, cur =>
    match spliceLevel mem key lvl nw (h + 1) cur with
    | none => none
    | some (mem1, c) => spliceFrom key lvl nw h mem1 c

/-- One level of the loop of `Delete`: walk, then unlink `cur.next[h]` when it holds `key`. -/
def unlinkLevel (mem : List Node) (key : K) (h cur : Nat) : Option (List Node × Nat) :=
  match walk mem key h mem.length cur with
  | none => none
  | some c =>
    match hitAt mem key h c with
    | none => none
    | some none => some (mem, c)
    | some (some nx) =>
      match nextAt mem nx h with
      | none => none
      | some p =>
        match setNext mem c h p with
        | none => none
        | some mem1 => some (mem1, c)

/-- The loop `for h := level; h >= 0; h--` of `Delete`, entered at level `h`. -/
def unlinkFrom (key : K) : Nat → List Node → Nat → Option (List Node)
  | 0, mem, cur =>
    match unlinkLevel mem key 0 cur with
    | none => none
    | some (mem1, _) => some mem1
  | h + 1, mem, cur =>
    match unlinkLevel mem key (h + 1) cur with
    | none => none
    | some (mem1, c) => unlinkFrom key h mem1 c

/-- The loop `for rand.Float64() < probability && lvl < maxLevel { lvl++ }` of `randomLevel`
(the same text in `basic` and `la`); the first argument bounds the number of rounds. -/
def randomLevelLoop : Nat → Rand → Nat → Option (Nat × Rand)
  | 0, _, _ => none
  | fuel + 1, r, lvl =>
    if belowProbability r.Float64.1 && decide (lvl < maxLevel) then
      randomLevelLoop fuel r.Float64.2 (lvl + 1)
    else some (lvl, r.Float64.2)

/-- The method `randomLevel()`. -/
def randomLevel (r : Rand) : Option (Nat × Rand) := randomLevelLoop (maxLevel + 1) r 0

/-! ## BasicSkipList -/

/-- The struct `BasicSkipList`; `mem` is the heap its nodes live in. -/
structure BasicSkipList where
  mem : List basicNode
  head : Nat
  level : Nat
  rand : Rand
  size : Int

/-- The constructor `NewBasicSkipList(seed)`; the seed is the stream of draws. -/
def NewBasicSkipList (draws : Nat → Nat) : BasicSkipList :=
  { mem := [newNode (-1) 0 maxLevel], head := 0, level := 1,
    rand := { draws := draws, pos := 0 }, size := 0 }

namespace BasicSkipList

/-- The method `find`. -/
def find (sl : BasicSkipList) (key : K) : Option Ptr :=
  findFrom sl.mem key sl.level sl.head

/-- The method `randomLevel`. -/
def randomLevel (sl : BasicSkipList) : Option (Nat × Rand) := Skiplist.randomLevel sl.rand

/-- The splice loop of `Put`, which also runs `sl.size++` once per level. -/
def putFrom (key : K) (lvl nw : Nat) : Nat → List Node → Nat → Int → Option (List Node × Int)
  | 0, mem, cur, size =>
    match spliceLevel mem key lvl nw 0 cur with
    | none => none
    | some (mem1, _) => some (mem1, wrap32 (size + 1))
  | h + 1, mem, cur, size =>
    match spliceLevel mem key lvl nw (h + 1) cur with
    | none => none
    | some (mem1, c) => putFrom key lvl nw h mem1 c (wrap32 (size + 1))

/-- The method `Put`. -/
def Put (sl : BasicSkipList) (key : K) (value : V) : Option BasicSkipList :=
  match sl.find key with
  | none => none
  | some (some cur) =>
    match setValue sl.mem cur value with
    | none => none
    | some mem1 => some { sl with mem := mem1 }
  | some none =>
    match sl.randomLevel with
    | none => none
    | some (lvl, r) =>
      let nw := sl.mem.length
      let mem1 := sl.mem ++ [newNode key value lvl]
      let level := max sl.level lvl
      match putFrom key lvl nw level mem1 sl.head sl.size with
      | none => none
      | some (mem2, size) => some { sl with mem := mem2, level := level, rand := r, size := size }

/-- The method `Get`. -/
def Get (sl : BasicSkipList) (key : K) : Option (V × Bool) :=
  match sl.find key with
  | none => none
  | some (some cur) =>
    match sl.mem[cur]? with
    | none => none
    | some nd => some (nd.value, true)
  | some none => some (0, false)

/-- The method `Contains`. -/
def Contains (sl : BasicSkipList) (key : K) : Option Bool :=
  match sl.find key with
  | none => none
  | some p => some p.isSome

/-- The method `Delete`. -/
def Delete (sl : BasicSkipList) (key : K) : Option BasicSkipList :=
  match unlinkFrom key sl.level sl.mem sl.head with
  | none => none
  | some mem1 => some { sl with mem := mem1, size := wrap32 (sl.size - 1) }

/-- The method `GetMaxStats`. -/
def GetMaxStats (sl : BasicSkipList) : Int × Int := (sl.size, sl.level)

end BasicSkipList

/-! ## LASkipList -/

/-- The struct `LASkipList`; `mem` is the heap its nodes live in. -/
structure LASkipList where
  mem : List laNode
  head : Nat
  level : Nat
  rand : Rand
  size : Int

/-- The constructor `NewLASkipList(seed)`; the seed is the stream of draws. -/
def NewLASkipList (draws : Nat → Nat) : LASkipList :=
  { mem := [newNode 0 0 maxLevel], head := 0, level := 1,
    rand := { draws := draws, pos := 0 }, size := 0 }

namespace LASkipList

/-- The loop `for lvl < maxLevel` of `randomLevelWithNP`: with `l = lvl + 1`, the level grows
when `np >= 2^(l-1)` and otherwise on a draw below `probability`; the first argument bounds
the number of rounds. The predicted count `np` is a `float64` in Go, a rational here. -/
def randomLevelWithNPLoop (np : ℚ) : Nat → Rand → Nat → Option (Nat × Rand)
  | 0, _, _ => none
  | fuel + 1, r, lvl =>
    if lvl < maxLevel then
      if np ≥ (2 : ℚ) ^ (lvl + 1 - 1) then randomLevelWithNPLoop np fuel r (lvl + 1)
      else if belowProbability r.Float64.1 then randomLevelWithNPLoop np fuel r.Float64.2 (lvl + 1)
      else some (lvl, r.Float64.2)
    else some (lvl, r)

/-- The method `randomLevelWithNP(np)`. -/
def randomLevelWithNP (sl : LASkipList) (np : ℚ) : Option (Nat × Rand) :=
  randomLevelWithNPLoop np (maxLevel + 1) sl.rand 0

/-- The method `randomLevel`. -/
def randomLevel (sl : LASkipList) : Option (Nat × Rand) := Skiplist.randomLevel sl.rand

/-- The method `find`; the Go result `(node, found)` has `found` exactly when `node != nil`. -/
def find (sl : LASkipList) (key : K) : Option Ptr :=
  findFrom sl.mem key sl.level sl.head

/-- The part of `PutWithNP` and `PutWithoutProb` after the height is drawn: allocate the
node, raise `sl.level`, splice, `sl.size++`. -/
def insertWith (sl : LASkipList) (key : K) (value : V) (lvl : Nat) (r : Rand) :
    Option LASkipList :=
  let nw := sl.mem.length
  let mem1 := sl.mem ++ [newNode key value lvl]
  let level := max sl.level lvl
  match spliceFrom key lvl nw level mem1 sl.head with
  | none => none
  | some mem2 =>
    some { sl with mem := mem2, level := level, rand := r, size := wrap32 (sl.size + 1) }

/-- The method `PutWithNP`. -/
def PutWithNP (sl : LASkipList) (key : K) (value : V) (np : ℚ) : Option LASkipList :=
  match sl.find key with
  | none => none
  | some (some cur) =>
    match setValue sl.mem cur value with
    | none => none
    | some mem1 => some { sl with mem := mem1 }
  | some none =>
    match sl.randomLevelWithNP np with
    | none => none
    | some (lvl, r) => sl.insertWith key value lvl r

/-- The method `PutWithoutProb`. -/
def PutWithoutProb (sl : LASkipList) (key : K) (value : V) : Option LASkipList :=
  match sl.find key with
  | none => none
  | some (some cur) =>
    match setValue sl.mem cur value with
    | none => none
    | some mem1 => some { sl with mem := mem1 }
  | some none =>
    match sl.randomLevel with
    | none => none
    | some (lvl, r) => sl.insertWith key value lvl r

/-- The method `Put`. -/
def Put (sl : LASkipList) (key : K) (value : V) : Option LASkipList :=
  sl.PutWithoutProb key value

/-- The method `Get`. -/
def Get (sl : LASkipList) (key : K) : Option (V × Bool) :=
  match sl.find key with
  | none => none
  | some (some cur) =>
    match sl.mem[cur]? with
    | none => none
    | some nd => some (nd.value, true)
  | some none => some (0, false)

/-- The method `Contains`. -/
def Contains (sl : LASkipList) (key : K) : Option Bool :=
  match sl.find key with
  | none => none
  | some p => some p.isSome

/-- The loop `for newlvl > 0 && sl.head.next[newlvl] == nil { newlvl-- }` of `Delete`. -/
def lowerLevel (mem : List Node) (head : Nat) : Nat → Option Nat
  | 0 => some 0
  | n + 1 =>
    match nextAt mem head (n + 1) with
    | none => none
    | some none => lowerLevel mem head n
    | some (some _) => some (n + 1)

/-- The method `Delete`. -/
def Delete (sl : LASkipList) (key : K) : Option LASkipList :=
  match unlinkFrom key sl.level sl.mem sl.head with
  | none => none
  | some mem1 =>
    match lowerLevel mem1 sl.head sl.level with
    | none => none
    | some newlvl => some { sl with mem := mem1, level := newlvl, size := wrap32 (sl.size - 1) }

/-- The method `GetMaxStats`. -/
def GetMaxStats (sl : LASkipList) : Int × Int := (sl.size, sl.level)

end LASkipList

end Skiplist

namespace Skiplist

/-! ## Reading the heap -/

/-- The key stored at address `a` (0 for a dangling address). -/
def keyAt (mem : List Node) (a : Nat) : K :=
  match mem[a]? with
  | some nd => nd.key
  | none => 0

/-- The value stored at address `a` (0 for a dangling address). -/
def valAt (mem : List Node) (a : Nat) : V :=
  match mem[a]? with
  | some nd => nd.value
  | none => 0

/-- The length `len(a.next)` of the link slice at address `a`. -/
def lenAt (mem : List Node) (a : Nat) : Nat :=
  match mem[a]? with
  | some nd => nd.next.length
  | none => 0

/-- The nodes of `l` that have a link slot at level `h`. -/
def atLevel (mem : List Node) (h : Nat) (l : List Nat) : List Nat :=
  l.filter (fun a => decide (h < lenAt mem a))

/-- The list `l` is linked at level `h`: each node's `next[h]` is the node after it in `l`,
and the last node's `next[h]` is nil. -/
def Chain (mem : List Node) (h : Nat) : List Nat → Prop
  | [] => True
  | a :: rest => nextAt mem a h = some rest.head? ∧ Chain mem h rest

/-- The part of the representation invariant that does not speak of links: `l` lists
distinct allocated nodes other than the head, with increasing keys, and the head has
`maxLevel + 1` link slots (`maxLevel + 2` in a `TList`). -/
structure Shape (mem : List Node) (head : Nat) (l : List Nat) : Prop where
  nodup : (head :: l).Nodup
  bound : ∀ a ∈ head :: l, a < mem.length
  headLen : maxLevel + 1 ≤ lenAt mem head
  headLe : lenAt mem head ≤ maxLevel + 2
  lenPos : ∀ a ∈ l, 1 ≤ lenAt mem a ∧ lenAt mem a ≤ maxLevel + 1
  sorted : l.Pairwise (fun a b => keyAt mem a < keyAt mem b)

/-- The representation invariant of `BasicSkipList` and `LASkipList`: `l` lists the addresses
of the stored nodes in level-0 order, and on every level the head and the nodes that have
that level are linked in this order. -/
structure Rep (mem : List Node) (head : Nat) (l : List Nat) extends Shape mem head l : Prop where
  chain : ∀ h, Chain mem h (atLevel mem h (head :: l))

/-- The stored entries in level-0 order: key, value and tower height `len(next) - 1`. -/
def towers (mem : List Node) (l : List Nat) : List (K × V × Nat) :=
  l.map (fun a => (keyAt mem a, valAt mem a, lenAt mem a - 1))

end Skiplist

namespace Skiplist

/-- The nodes of `l` that come before `key`: the longest initial run with keys below it. -/
def below (mem : List Node) (key : K) (l : List Nat) : List Nat :=
  l.takeWhile (fun a => decide (keyAt mem a < key))

/-- The nodes of `l` from the first one whose key is not below `key`. -/
def notBelow (mem : List Node) (key : K) (l : List Nat) : List Nat :=
  l.dropWhile (fun a => decide (keyAt mem a < key))

/-- The node that holds `key`, if any: the first node not below `key`, when its key is `key`. -/
def target (mem : List Node) (key : K) (l : List Nat) : Ptr :=
  match notBelow mem key l with
  | [] => none
  | x :: _ => if keyAt mem x = key then some x else none

/-- The node at which the walk on level `h` stops: the last node before `key` on that level. -/
def stopAt (mem : List Node) (key : K) (head : Nat) (l : List Nat) (h : Nat) : Nat :=
  (head :: atLevel mem h (below mem key l)).getLast (List.cons_ne_nil _ _)

end Skiplist

namespace Skiplist

/-- Two heaps hold the same nodes up to their links: same size, keys, values and slice
lengths at every address. -/
structure SameData (m m1 : List Node) : Prop where
  length : m.length = m1.length
  key : keyAt m = keyAt m1
  val : valAt m = valAt m1
  len : lenAt m = lenAt m1

/-- The node list after the node `nw` is spliced in at `key`. -/
def withNew (mem : List Node) (key : K) (nw : Nat) (l : List Nat) : List Nat :=
  below mem key l ++ nw :: notBelow mem key l

end Skiplist

namespace Skiplist

/-- The node list after the node that holds `key` is unlinked. -/
def dropKey (mem : List Node) (key : K) (l : List Nat) : List Nat :=
  l.filter (fun a => decide (keyAt mem a ≠ key))

end Skiplist

namespace Skiplist

/-- The invariant of a `BasicSkipList` or `LASkipList` with fields `head` and `level`: the
heap represents the node list `l`, `level` is at most `maxLevel`, and no tower is higher
than `level`. -/
structure Good (mem : List Node) (head level : Nat) (l : List Nat)
    extends Rep mem head l : Prop where
  levelLe : level ≤ maxLevel
  cover : ∀ a ∈ l, lenAt mem a ≤ level + 1

/-- An entry as seen along level 0: key, value, tower height. -/
abbrev Tower := K × V × Nat

/-- The value stored under `k` in a list of entries. -/
def tGet (ts : List Tower) (k : K) : Option V :=
  (ts.find? (fun t => decide (t.1 = k))).map (fun t => t.2.1)

/-- Replace the value stored under `k`. -/
def tSet (ts : List Tower) (k : K) (v : V) : List Tower :=
  ts.map (fun t => if t.1 = k then (t.1, v, t.2.2) else t)

/-- Insert a new entry in key order. -/
def tInsert (ts : List Tower) (k : K) (v : V) (lvl : Nat) : List Tower :=
  ts.takeWhile (fun t => decide (t.1 < k)) ++ (k, v, lvl) :: ts.dropWhile (fun t => decide (t.1 < k))

/-- Remove the entry stored under `k`. -/
def tDelete (ts : List Tower) (k : K) : List Tower :=
  ts.filter (fun t => decide (t.1 ≠ k))

/-- What `Put(k, v)` does to the entries and the random source, for both `BasicSkipList`
and `LASkipList`: a stored key keeps its tower and draws nothing; a new key gets a tower
of the height `randomLevel` draws. -/
def tPut (st : List Tower × Rand) (k : K) (v : V) : List Tower × Rand :=
  match tGet st.1 k with
  | some _ => (tSet st.1 k v, st.2)
  | none =>
    match randomLevel st.2 with
    | some (lvl, r) => (tInsert st.1 k v lvl, r)
    | none => st

/-- What `PutWithNP(k, v, np)` does to the entries and the random source. -/
def tPutNP (st : List Tower × Rand) (k : K) (v : V) (np : ℚ) : List Tower × Rand :=
  match tGet st.1 k with
  | some _ => (tSet st.1 k v, st.2)
  | none =>
    match LASkipList.randomLevelWithNPLoop np (maxLevel + 1) st.2 0 with
    | some (lvl, r) => (tInsert st.1 k v lvl, r)
    | none => st

/-- The value of `sl.size` after the `h + 1` rounds of the splice loop of
`BasicSkipList.Put`, each of which runs `sl.size++`. -/
def bump : Nat → Int → Int
  | 0, s => wrap32 (s + 1)
  | h + 1, s => bump h (wrap32 (s + 1))

end Skiplist

namespace Skiplist

/-- A call of one of the four mutating or reading methods of the interface `SkipList`. -/
inductive Call where
  | put (k : K) (v : V)
  | get (k : K)
  | contains (k : K)
  | delete (k : K)

/-- What a call returns: nothing (`Put`, `Delete`), a pair `(value, found)` (`Get`) or a
flag (`Contains`). -/
inductive Reply where
  | done
  | value (v : V) (found : Bool)
  | flag (b : Bool)
  deriving DecidableEq

/-- The map a sequence of calls describes: `latest calls k` is `some v` when the most recent
`Put` or `Delete` on `k` is `Put(k, v)`, and `none` when `k` was never put or the most
recent one is `Delete(k)`. The calls are listed oldest first. -/
def latest (calls : List Call) (k : K) : Option V :=
  calls.foldl (fun acc c =>
    match c with
    | Call.put k1 v => if k1 = k then some v else acc
    | Call.delete k1 => if k1 = k then none else acc
    | _ => acc) none

/-- The pair `Get` returns for a key whose stored value is `o`. -/
def getReply (o : Option V) : V × Bool :=
  match o with
  | some v => (v, true)
  | none => (0, false)

namespace BasicSkipList

/-- One call on a `BasicSkipList`: the list afterwards and the reply. -/
def call (sl : BasicSkipList) : Call → Option (BasicSkipList × Reply)
  | Call.put k v => (sl.Put k v).map (fun s => (s, Reply.done))
  | Call.get k => (sl.Get k).map (fun r => (sl, Reply.value r.1 r.2))
  | Call.contains k => (sl.Contains k).map (fun b => (sl, Reply.flag b))
  | Call.delete k => (sl.Delete k).map (fun s => (s, Reply.done))

/-- A sequence of calls, oldest first: the list afterwards and the replies in order. -/
def run (sl : BasicSkipList) : List Call → Option (BasicSkipList × List Reply)
  | [] => some (sl, [])
  | c :: cs =>
    match sl.call c with
    | none => none
    | some (s, r) =>
      match run s cs with
      | none => none
      | some (s1, rs) => some (s1, r :: rs)

end BasicSkipList

/-- A call on an `LASkipList`: the four interface methods and `PutWithNP`. -/
inductive LACall where
  | put (k : K) (v : V)
  | putNP (k : K) (v : V) (np : ℚ)
  | get (k : K)
  | contains (k : K)
  | delete (k : K)

/-- An interface call as a call on an `LASkipList`. -/
def Call.toLA : Call → LACall
  | Call.put k v => LACall.put k v
  | Call.get k => LACall.get k
  | Call.contains k => LACall.contains k
  | Call.delete k => LACall.delete k

namespace LASkipList

/-- One call on an `LASkipList`: the list afterwards and the reply. -/
def call (sl : LASkipList) : LACall → Option (LASkipList × Reply)
  | LACall.put k v => (sl.Put k v).map (fun s => (s, Reply.done))
  | LACall.putNP k v np => (sl.PutWithNP k v np).map (fun s => (s, Reply.done))
  | LACall.get k => (sl.Get k).map (fun r => (sl, Reply.value r.1 r.2))
  | LACall.contains k => (sl.Contains k).map (fun b => (sl, Reply.flag b))
  | LACall.delete k => (sl.Delete k).map (fun s => (s, Reply.done))

/-- A sequence of calls, oldest first: the list afterwards and the replies in order. -/
def run (sl : LASkipList) : List LACall → Option (LASkipList × List Reply)
  | [] => some (sl, [])
  | c :: cs =>
    match sl.call c with
    | none => none
    | some (s, r) =>
      match run s cs with
      | none => none
      | some (s1, rs) => some (s1, r :: rs)

end LASkipList

/-- What a call does to the entries and the random source, and its reply. -/
def tCall (st : List Tower × Rand) : LACall → (List Tower × Rand) × Reply
  | LACall.put k v => (tPut st k v, Reply.done)
  | LACall.putNP k v np => (tPutNP st k v np, Reply.done)
  | LACall.get k => (st, Reply.value (getReply (tGet st.1 k)).1 (getReply (tGet st.1 k)).2)
  | LACall.contains k => (st, Reply.flag (tGet st.1 k).isSome)
  | LACall.delete k => ((tDelete st.1 k, st.2), Reply.done)

/-- What a sequence of calls does to the entries and the random source, and its replies. -/
def tRun (st : List Tower × Rand) : List LACall → (List Tower × Rand) × List Reply
  | [] => (st, [])
  | c :: cs => ((tRun (tCall st c).1 cs).1, (tCall st c).2 :: (tRun (tCall st c).1 cs).2)

/-- The walk `for x := cur.next[h]; x != nil; x = x.next[h]` along level `h`, collecting the
addresses after `cur`; the first argument bounds the number of hops. -/
def chainFrom (mem : List Node) (h : Nat) : Nat → Nat → Option (List Nat)
  | 0, _ => none
  | fuel + 1, cur =>
    match nextAt mem cur h with
    | none => none
    | some none => some []
    | some (some nx) =>
      match chainFrom mem h fuel nx with
      | none => none
      | some rest => some (nx :: rest)

/-- The nodes a traversal of level `h` meets after the head. -/
def levelNodes (mem : List Node) (head h : Nat) : Option (List Nat) :=
  chainFrom mem h mem.length head

/-- The keys a traversal of level `h` meets after the head. -/
def levelKeys (mem : List Node) (head h : Nat) : Option (List K) :=
  (levelNodes mem head h).map (fun l => l.map (keyAt mem))

/-- The entries `(key, value, tower height)` a traversal of level 0 meets after the head,
read through `GetKey`, `GetValue` and `GetLevel` (which is `len(next) - 1`). -/
def levelZero (mem : List Node) (head : Nat) : Option (List Tower) :=
  (levelNodes mem head 0).map (towers mem)

end Skiplist

namespace Skiplist

/-- The entry stored under `k` in a list of entries. -/
def tFind (ts : List Tower) (k : K) : Option Tower :=
  ts.find? (fun t => decide (t.1 = k))

/-- The map a sequence of calls on an `LASkipList` describes: `latestLA calls k` is `some v`
when the most recent `Put`, `PutWithNP` or `Delete` on `k` is a put of `v`, and `none` when
`k` was never put or the most recent one is `Delete(k)`. The calls are listed oldest first. -/
def latestLA (calls : List LACall) (k : K) : Option V :=
  calls.foldl (fun acc c =>
    match c with
    | LACall.put k1 v => if k1 = k then some v else acc
    | LACall.putNP k1 v _ => if k1 = k then some v else acc
    | LACall.delete k1 => if k1 = k then none else acc
    | _ => acc) none

/-- The method `GetLevel` of `basicNode` and `laNode`: `int32(len(nd.next) - 1)`. -/
def GetLevel (mem : List Node) (a : Nat) : Int := (lenAt mem a : Int) - 1

end Skiplist

namespace Skiplist

/-! ## The validator of `analyTool` -/

/-- The interfaces `Analyable` and `Nodelike` as seen by `analyTool`: a list of type `σ`
with its two list methods, which may change the list (the adaptive list synchronises its
nodes in both), and the node methods, read at an address of the list's heap. `none` is a
panic. `steps` bounds the nodes a traversal can meet. -/
structure Analyable (σ : Type) where
  GetMaxStats : σ → Option ((Int × Int) × σ)
  GetHead : σ → Option (Ptr × σ)
  GetKey : σ → Nat → Option K
  GetLevel : σ → Nat → Option Int
  GetNextAt : σ → Nat → Int → Option Ptr
  steps : σ → Nat

/-- The loop `for i := 1; i <= int(nodelv); i++` of `CheckStruct` with `cnt` rounds left:
`none` is a panic, `some none` is `return false`, `some (some list)` is the normal exit.
The failure branch evaluates `nextAtLevel.GetKey()` for its message, which panics when
`nextAtLevel` is nil. -/
def checkLevels {σ : Type} (A : Analyable σ) (s : σ) (node : Nat) :
    Nat → Nat → List Nat → Option (Option (List Nat))
  | 0, _, list => some (some list)
  | cnt + 1, i, list =>
    if i < list.length then
      match list[i]? with
      | none => none
      | some p =>
        match A.GetNextAt s p (wrap32 i) with
        | none => none
        | some nextAtLevel =>
          if nextAtLevel ≠ some node then
            match nextAtLevel with
            | none => none
            | some q =>
              match A.GetKey s q, A.GetKey s node with
              | some _, some _ => some none
              | _, _ => none
          else checkLevels A s node cnt (i + 1) (list.set i node)
    else checkLevels A s node cnt (i + 1) list

/-- The loop `for node != nil` of `CheckStruct`; the first argument bounds the number of
nodes visited. -/
def checkLoop {σ : Type} (A : Analyable σ) (s : σ) (maxLevel : Int) :
    Nat → List Nat → Nat → Option Bool
  | 0, _, _ => none
  | fuel + 1, list, node =>
    match A.GetLevel s node with
    | none => none
    | some nodelv =>
      if nodelv > wrap32 maxLevel then some false
      else
        match checkLevels A s node nodelv.toNat 1 list with
        | none => none
        | some none => some false
        | some (some list1) =>
          match A.GetNextAt s node 0 with
          | none => none
          | some none => some true
          | some (some nx) => checkLoop A s maxLevel fuel list1 nx

/-- The function `CheckStruct`. -/
def CheckStruct {σ : Type} (A : Analyable σ) (sl : σ) : Option Bool :=
  match A.GetMaxStats sl with
  | none => none
  | some ((_, maxLevel), s1) =>
    if maxLevel + 1 < 0 then none
    else
      match A.GetHead s1 with
      | none => none
      | some (none, _) => some true
      | some (some head, s2) =>
        match A.GetNextAt s2 head 0 with
        | none => none
        | some none => some true
        | some (some nx) =>
          checkLoop A s2 maxLevel (A.steps s2) (List.replicate (maxLevel + 1).toNat head) nx

/-- The method `GetKey` of `basicNode` and `laNode`. -/
def GetKey (mem : List Node) (a : Nat) : Option K :=
  match mem[a]? with
  | none => none
  | some nd => some nd.key

/-- The method `GetNextAt` of `basicNode` and `laNode`: nil when `level` is out of range. -/
def GetNextAt (mem : List Node) (a : Nat) (level : Int) : Option Ptr :=
  match mem[a]? with
  | none => none
  | some nd =>
    if level < 0 ∨ level ≥ wrap32 nd.next.length then some none
    else nd.next[level.toNat]?

/-- The method `GetLevel` of `basicNode` and `laNode`, `none` on a dangling address. -/
def GetLevelAt (mem : List Node) (a : Nat) : Option Int :=
  match mem[a]? with
  | none => none
  | some nd => some (wrap32 ((nd.next.length : Int) - 1))

/-- A `BasicSkipList` as an `Analyable`. -/
def BasicSkipList.analyable : Analyable BasicSkipList where
  GetMaxStats := fun sl => some (sl.GetMaxStats, sl)
  GetHead := fun sl => some (some sl.head, sl)
  GetKey := fun sl a => GetKey sl.mem a
  GetLevel := fun sl a => GetLevelAt sl.mem a
  GetNextAt := fun sl a level => GetNextAt sl.mem a level
  steps := fun sl => sl.mem.length

/-- An `LASkipList` as an `Analyable`. -/
def LASkipList.analyable : Analyable LASkipList where
  GetMaxStats := fun sl => some (sl.GetMaxStats, sl)
  GetHead := fun sl => some (some sl.head, sl)
  GetKey := fun sl a => GetKey sl.mem a
  GetLevel := fun sl a => GetLevelAt sl.mem a
  GetNextAt := fun sl a level => GetNextAt sl.mem a level
  steps := fun sl => sl.mem.length

/-- The node that `CheckStruct` tracks on level `i` after it has visited the nodes `pre`:
the last of them whose height reaches `i`, the head when there is none. -/
def tracked (ht : Nat → Nat) (head : Nat) (pre : List Nat) (i : Nat) : Nat :=
  ((pre.filter (fun a => decide (i ≤ ht a))).getLast?).getD head

/-- What `CheckStruct` needs of a structure seen through the node methods: the nodes `l`
follow the head on level 0, each has a height `ht` of at most `top`, and on every level
`1..ht a` the node tracked before `a` links to `a`. -/
structure Valid {σ : Type} (A : Analyable σ) (s : σ) (head : Nat) (l : List Nat)
    (ht : Nat → Nat) (top : Nat) : Prop where
  level : ∀ a ∈ l, A.GetLevel s a = some ((ht a : Nat) : Int)
  htLe : ∀ a ∈ l, ht a ≤ top
  topLe : top < 2 ^ 31
  first : A.GetNextAt s head 0 = some l.head?
  next : ∀ pre a post, l = pre ++ a :: post → A.GetNextAt s a 0 = some post.head?
  link : ∀ pre a post, l = pre ++ a :: post → ∀ i, 1 ≤ i → i ≤ ht a →
    A.GetNextAt s (tracked ht head pre i) i = some (some a)

end Skiplist

namespace Skiplist

/-- Tower contiguity as seen by traversals: every node met on level 0 has a height
`GetLevel` of at most `maxLvl` and is met by the traversal of every level from 0 up to its
height. -/
def TowersLinked (mem : List Node) (head : Nat) (maxLvl : Int) : Prop :=
  ∃ nodes, levelNodes mem head 0 = some nodes ∧
    ∀ a ∈ nodes, GetLevel mem a ≤ maxLvl ∧
      ∀ h : Nat, (h : Int) ≤ GetLevel mem a →
        ∃ ns, levelNodes mem head h = some ns ∧ a ∈ ns

end Skiplist

namespace Skiplist

/-! ## SplayList -/

/-- The constant `MAX_LEVEL = 32` of the package `splay`. -/
def MAX_LEVEL : Int := 32

/-- The struct `SplayNode`; `next` and `hits` are the arrays of `MAX_LEVEL + 1` entries. -/
structure SplayNode where
  key : K
  value : V
  zeroLevel : Int
  topLevel : Int
  selfhits : Int
  next : List Ptr
  hits : List Int
  deleted : Bool

/-- The struct `SplayList`; `mem` is the heap its nodes live in and `rand` the global source
of `math/rand` that `tryUpdate` draws from. -/
structure SplayList where
  mem : List SplayNode
  m : Int
  zeroLevel : Int
  head : Nat
  p : ℚ
  size : Int
  rand : Rand

/-- An array read `xs[i]` with an `int32` index; `none` is the index-out-of-range panic. -/
def idx {α : Type} (xs : List α) (i : Int) : Option α :=
  if i < 0 then none else xs[i.toNat]?

/-- An array write `xs[i] = v` with an `int32` index. -/
def setIdx {α : Type} (xs : List α) (i : Int) (v : α) : Option (List α) :=
  if i < 0 ∨ i ≥ xs.length then none else some (xs.set i.toNat v)

/-- The constructor `NewSplayList(p)`; `draws` is the stream the global source yields. -/
def NewSplayList (p : ℚ) (draws : Nat → Nat) : SplayList :=
  let head : SplayNode :=
    { key := 0, value := 0, zeroLevel := MAX_LEVEL - 1, topLevel := MAX_LEVEL, selfhits := 0,
      next := List.replicate 33 none, hits := List.replicate 33 0, deleted := false }
  { mem := [head],
    m := 0, zeroLevel := MAX_LEVEL - 1, head := 0, p := p, size := 0,
    rand := { draws := draws, pos := 0 } }

/-- The loop `for node.zeroLevel > level` of `updateUpToLevel` on one node; the first
argument bounds the number of rounds. -/
def syncNode (level : Int) : Nat → SplayNode → Option SplayNode
  | 0, _ => none
  | fuel + 1, nd =>
    if nd.zeroLevel > level then
      match setIdx nd.hits (nd.zeroLevel - 1) 0 with
      | none => none
      | some hits1 =>
        match idx nd.next nd.zeroLevel with
        | none => none
        | some p =>
          match setIdx nd.next (nd.zeroLevel - 1) p with
          | none => none
          | some next1 =>
            syncNode level fuel
              { nd with hits := hits1, next := next1, zeroLevel := wrap32 (nd.zeroLevel - 1) }
    else some nd

/-- The method `updateUpToLevel(node, level)`; a nil `node` is left alone. -/
def updateUpToLevel (mem : List SplayNode) (node : Ptr) (level : Int) :
    Option (List SplayNode) :=
  match node with
  | none => some mem
  | some a =>
    match mem[a]? with
    | none => none
    | some nd =>
      match syncNode level 40 nd with
      | none => none
      | some nd1 => some (mem.set a nd1)

/-- The read `a.next[level]`. -/
def sNext (mem : List SplayNode) (a : Nat) (level : Int) : Option Ptr :=
  match mem[a]? with
  | none => none
  | some nd => idx nd.next level

/-- The read `a.key`. -/
def sKey (mem : List SplayNode) (a : Nat) : Option K :=
  match mem[a]? with
  | none => none
  | some nd => some nd.key

/-- The inner loop `for succ != nil && succ.key < key` of `find`, entered with `succ`
synchronised; returns the heap, `pred` and `succ`. -/
def findWalk (key : K) (level : Int) :
    Nat → List SplayNode → Nat → Nat → Option (List SplayNode × Nat × Ptr)
  | 0, _, _, _ => none
  | fuel + 1, mem, pred, succ =>
    match sKey mem succ with
    | none => none
    | some k =>
      if k < key then
        match sNext mem succ level with
        | none => none
        | some none => some (mem, succ, none)
        | some (some nx) =>
          match updateUpToLevel mem (some nx) level with
          | none => none
          | some mem1 => findWalk key level fuel mem1 succ nx
      else some (mem, pred, some succ)

/-- One round of the level loop of `find`: the heap and `pred` afterwards, and the node
found on this level, if any. -/
def findLevel (key : K) (level : Int) (mem : List SplayNode) (pred : Nat) :
    Option (List SplayNode × Nat × Ptr) :=
  match updateUpToLevel mem (some pred) level with
  | none => none
  | some mem1 =>
    match sNext mem1 pred level with
    | none => none
    | some none => some (mem1, pred, none)
    | some (some succ) =>
      match updateUpToLevel mem1 (some succ) level with
      | none => none
      | some mem2 =>
        match findWalk key level (mem2.length + 1) mem2 pred succ with
        | none => none
        | some (mem3, pred1, none) => some (mem3, pred1, none)
        | some (mem3, pred1, some s) =>
          match sKey mem3 s with
          | none => none
          | some k => if k = key then some (mem3, pred1, some s) else some (mem3, pred1, none)

/-- The loop `for level := MAX_LEVEL - 1; level >= list.zeroLevel; level--` of `find`,
entered at level `lv`. -/
def findLevels (key : K) (zero : Int) : Nat → List SplayNode → Nat → Option (List SplayNode × Ptr)
  | 0, mem, pred =>
    if (0 : Int) ≥ zero then
      match findLevel key 0 mem pred with
      | none => none
      | some (mem1, _, some s) => some (mem1, some s)
      | some (mem1, _, none) => if (-1 : Int) ≥ zero then none else some (mem1, none)
    else some (mem, none)
  | lv + 1, mem, pred =>
    if ((lv + 1 : Nat) : Int) ≥ zero then
      match findLevel key ((lv + 1 : Nat) : Int) mem pred with
      | none => none
      | some (mem1, _, some s) => some (mem1, some s)
      | some (mem1, pred1, none) => findLevels key zero lv mem1 pred1
    else some (mem, none)

namespace SplayList

/-- The method `find`; it synchronises the nodes it touches, so the list changes. -/
def find (list : SplayList) (key : K) : Option (SplayList × Ptr) :=
  match findLevels key list.zeroLevel 31 list.mem list.head with
  | none => none
  | some (mem1, r) => some ({ list with mem := mem1 }, r)

end SplayList

/-- The function `getHits(node, h)`. -/
def getHits (mem : List SplayNode) (node : Nat) (h : Int) : Option Int :=
  match mem[node]? with
  | none => none
  | some nd =>
    if nd.zeroLevel > h then some nd.selfhits
    else
      match idx nd.hits h with
      | none => none
      | some x => some (wrap32 (nd.selfhits + x))

/-- The shift `int32(1) << c`; a negative count panics, a count of 32 or more gives 0. -/
def shl32 (c : Int) : Option Int :=
  if c < 0 then none else some (wrap32 (2 ^ c.toNat))

/-- The division `a / b` of `int32` values, truncated; a zero divisor panics. -/
def div32 (a b : Int) : Option Int :=
  if b = 0 then none else some (wrap32 (Int.tdiv a b))

/-- The method `getAscentThreshold(h, M) = M / (1 << (MAX_LEVEL - 1 - h))`. -/
def getAscentThreshold (h M : Int) : Option Int :=
  match shl32 (MAX_LEVEL - 1 - h) with
  | none => none
  | some d => div32 M d

/-- The method `getDescentThreshold(h, M) = M / (1 << (MAX_LEVEL - h))`. -/
def getDescentThreshold (h M : Int) : Option Int :=
  match shl32 (MAX_LEVEL - h) with
  | none => none
  | some d => div32 M d

/-- The increment `a.hits[level]++`. -/
def bumpHits (mem : List SplayNode) (a : Nat) (level : Int) : Option (List SplayNode) :=
  match mem[a]? with
  | none => none
  | some nd =>
    match idx nd.hits level with
    | none => none
    | some x =>
      match setIdx nd.hits level (wrap32 (x + 1)) with
      | none => none
      | some hits1 => some (mem.set a { nd with hits := hits1 })

/-- The write `a.hits[level] = v`. -/
def setHits (mem : List SplayNode) (a : Nat) (level : Int) (v : Int) :
    Option (List SplayNode) :=
  match mem[a]? with
  | none => none
  | some nd =>
    match setIdx nd.hits level v with
    | none => none
    | some hits1 => some (mem.set a { nd with hits := hits1 })

/-- The read `a.hits[level]`. -/
def sHits (mem : List SplayNode) (a : Nat) (level : Int) : Option Int :=
  match mem[a]? with
  | none => none
  | some nd => idx nd.hits level

/-- The write `a.next[level] = p`. -/
def sSetNext (mem : List SplayNode) (a : Nat) (level : Int) (p : Ptr) :
    Option (List SplayNode) :=
  match mem[a]? with
  | none => none
  | some nd =>
    match setIdx nd.next level p with
    | none => none
    | some next1 => some (mem.set a { nd with next := next1 })

/-- The ascent condition `curh+1 < MAX_LEVEL && curh < prepred.topLevel &&
prepred.hits[curh+1]-prepred.hits[curh] > getAscentThreshold(curh, m)` with
`curh = curr.topLevel`, evaluated left to right. -/
def ascentCond (mem : List SplayNode) (m : Int) (curr prepred : Nat) : Option Bool :=
  match mem[curr]?, mem[prepred]? with
  | some c, some pp =>
    if wrap32 (c.topLevel + 1) < MAX_LEVEL ∧ c.topLevel < pp.topLevel then
      match idx pp.hits (wrap32 (c.topLevel + 1)), idx pp.hits c.topLevel,
          getAscentThreshold c.topLevel m with
      | some a, some b, some t => some (decide (wrap32 (a - b) > t))
      | _, _, _ => none
    else some false
  | _, _ => none

/-- One round of the ascent loop: `curr.topLevel++; curh++;
curr.hits[curh] = prepred.hits[curh] - prepred.hits[curh-1] - curr.selfhits;
curr.next[curh] = prepred.next[curh]; prepred.hits[curh] = prepred.hits[curh-1];
prepred.next[curh] = curr`, each statement on the heap the one before left. -/
def ascentStep (mem : List SplayNode) (curr prepred : Nat) : Option (List SplayNode) :=
  match mem[curr]? with
  | none => none
  | some c =>
    let curh := wrap32 (c.topLevel + 1)
    let mem1 := mem.set curr { c with topLevel := curh }
    match sHits mem1 prepred curh, sHits mem1 prepred (wrap32 (curh - 1)), mem1[curr]? with
    | some a, some b, some c1 =>
      match setHits mem1 curr curh (wrap32 (wrap32 (a - b) - c1.selfhits)) with
      | none => none
      | some mem2 =>
        match sNext mem2 prepred curh with
        | none => none
        | some q =>
          match sSetNext mem2 curr curh q with
          | none => none
          | some mem3 =>
            match sHits mem3 prepred (wrap32 (curh - 1)) with
            | none => none
            | some b1 =>
              match setHits mem3 prepred curh b1 with
              | none => none
              | some mem4 => sSetNext mem4 prepred curh (some curr)
    | _, _, _ => none

/-- The ascent loop `for <ascent condition> { ... }`; the first argument bounds the number of
rounds. -/
def ascentLoop (m : Int) (curr prepred : Nat) : Nat → List SplayNode → Option (List SplayNode)
  | 0, _ => none
  | fuel + 1, mem =>
    match ascentCond mem m curr prepred with
    | none => none
    | some false => some mem
    | some true =>
      match ascentStep mem curr prepred with
      | none => none
      | some mem1 => ascentLoop m curr prepred fuel mem1

/-- The descent condition `curr.topLevel == level && curr.next[level] != nil &&
curr.next[level].key <= key && getHits(curr, level)+getHits(pred, level) <=
getDescentThreshold(level, m)`, evaluated left to right. -/
def descentCond (mem : List SplayNode) (m : Int) (key : K) (level : Int) (curr pred : Nat) :
    Option Bool :=
  match mem[curr]? with
  | none => none
  | some c =>
    if c.topLevel = level then
      match idx c.next level with
      | none => none
      | some none => some false
      | some (some nx) =>
        match sKey mem nx with
        | none => none
        | some k =>
          if k ≤ key then
            match getHits mem curr level, getHits mem pred level,
                getDescentThreshold level m with
            | some a, some b, some t => some (decide (wrap32 (a + b) ≤ t))
            | _, _, _ => none
          else some false
    else some false

/-- The body of the descent branch: lower `list.zeroLevel` when `level` is the zero level,
synchronise `curr` and `pred` one level down, move the hits of `curr` to `pred`, unlink
`curr` on `level`, `curr.topLevel--`. Returns the heap and the zero level. -/
def descentStep (mem : List SplayNode) (zero : Int) (level : Int) (curr pred : Nat) :
    Option (List SplayNode × Int) :=
  let zero1 := if level = zero then wrap32 (zero - 1) else zero
  match updateUpToLevel mem (some curr) (wrap32 (level - 1)) with
  | none => none
  | some mem1 =>
    match updateUpToLevel mem1 (some pred) (wrap32 (level - 1)) with
    | none => none
    | some mem2 =>
      match sHits mem2 pred level, getHits mem2 curr level with
      | some ph, some ch =>
        match setHits mem2 pred level (wrap32 (ph + ch)) with
        | none => none
        | some mem3 =>
          match setHits mem3 curr level 0 with
          | none => none
          | some mem4 =>
            match sNext mem4 curr level with
            | none => none
            | some q =>
              match sSetNext mem4 pred level q with
              | none => none
              | some mem5 =>
                match sSetNext mem5 curr level none with
                | none => none
                | some mem6 =>
                  match mem6[curr]? with
                  | none => none
                  | some c =>
                    some (mem6.set curr { c with topLevel := wrap32 (c.topLevel - 1) }, zero1)
      | _, _ => none

/-- The loop `for curr != nil && curr.key <= key` of `update` on one level; the first
argument bounds the number of rounds. Returns the heap, the zero level, `pred` and `found`. -/
def updateWalk (m : Int) (key : K) (level : Int) :
    Nat → List SplayNode → Int → Nat → Nat → Ptr → Option (List SplayNode × Int × Nat × Bool)
  | 0, _, _, _, _, _ => none
  | _ + 1, mem, zero, pred, _, none => some (mem, zero, pred, false)
  | fuel + 1, mem, zero, pred, prepred, some curr =>
    match sKey mem curr with
    | none => none
    | some ck =>
      if ck ≤ key then
        match updateUpToLevel mem (some curr) level with
        | none => none
        | some mem1 =>
          match sNext mem1 curr level with
          | none => none
          | some nx =>
            match (match nx with
                | none => some true
                | some n => (sKey mem1 n).map (fun k => decide (k > key))) with
            | none => none
            | some true =>
              if ck = key then
                match mem1[curr]? with
                | none => none
                | some c =>
                  some (mem1.set curr { c with selfhits := wrap32 (c.selfhits + 1) }, zero,
                    pred, true)
              else
                match bumpHits mem1 curr level with
                | none => none
                | some mem2 => some (mem2, zero, pred, false)
            | some false =>
              match ascentCond mem1 m curr prepred with
              | none => none
              | some true =>
                match ascentLoop m curr prepred 40 mem1 with
                | none => none
                | some mem2 =>
                  match sNext mem2 curr level with
                  | none => none
                  | some nx2 => updateWalk m key level fuel mem2 zero curr curr nx2
              | some false =>
                match descentCond mem1 m key level curr pred with
                | none => none
                | some true =>
                  match descentStep mem1 zero level curr pred with
                  | none => none
                  | some (mem2, zero1) =>
                    match sNext mem2 pred level with
                    | none => none
                    | some nx2 => updateWalk m key level fuel mem2 zero1 pred prepred nx2
                | some false =>
                  match sNext mem1 curr level with
                  | none => none
                  | some nx2 => updateWalk m key level fuel mem1 zero curr prepred nx2
      else some (mem, zero, pred, false)

/-- One round of the level loop of `update`. Returns the heap, the zero level, `pred` and
whether the loop returns (`found`). -/
def updateLevel (m : Int) (key : K) (level : Int) (mem : List SplayNode) (zero : Int)
    (pred : Nat) : Option (List SplayNode × Int × Nat × Bool) :=
  match updateUpToLevel mem (some pred) level with
  | none => none
  | some mem1 =>
    match sNext mem1 pred level with
    | none => none
    | some curr =>
      match updateUpToLevel mem1 curr level with
      | none => none
      | some mem2 =>
        match (match curr with
            | none => some true
            | some c => (sKey mem2 c).map (fun k => decide (k > key))) with
        | none => none
        | some true =>
          match bumpHits mem2 pred level with
          | none => none
          | some mem3 => some (mem3, zero, pred, false)
        | some false => updateWalk m key level (mem2.length + 1) mem2 zero pred pred curr

/-- The loop `for level := MAX_LEVEL - 1; level >= list.zeroLevel; level--` of `update`,
entered at level `lv`; `list.zeroLevel` is read anew in every round. -/
def updateLevels (m : Int) (key : K) :
    Nat → List SplayNode → Int → Nat → Option (List SplayNode × Int)
  | 0, mem, zero, pred =>
    if (0 : Int) ≥ zero then
      match updateLevel m key 0 mem zero pred with
      | none => none
      | some (mem1, zero1, _, true) => some (mem1, zero1)
      | some (mem1, zero1, _, false) => if (-1 : Int) ≥ zero1 then none else some (mem1, zero1)
    else some (mem, zero)
  | lv + 1, mem, zero, pred =>
    if ((lv + 1 : Nat) : Int) ≥ zero then
      match updateLevel m key ((lv + 1 : Nat) : Int) mem zero pred with
      | none => none
      | some (mem1, zero1, _, true) => some (mem1, zero1)
      | some (mem1, zero1, pred1, false) => updateLevels m key lv mem1 zero1 pred1
    else some (mem, zero)

namespace SplayList

/-- The method `update`. -/
def update (list : SplayList) (key : K) : Option SplayList :=
  let m1 := wrap32 (list.m + 1)
  match bumpHits list.mem list.head MAX_LEVEL with
  | none => none
  | some mem1 =>
    match updateLevels m1 key 31 mem1 list.zeroLevel list.head with
    | none => none
    | some (mem2, zero) => some { list with mem := mem2, m := m1, zeroLevel := zero }

/-- The method `tryUpdate`: skip the update when the draw exceeds `p`. -/
def tryUpdate (list : SplayList) (key : K) : Option SplayList :=
  let d := list.rand.Float64
  let list1 := { list with rand := d.2 }
  if ((d.1 : ℚ) / (drawScale : ℚ)) > list.p then some list1 else list1.update key

end SplayList

/-- The inner loop `for curr != nil && curr.key < newNode.key` of `insertNode` on level `h`;
returns the heap, `pred` and `curr`. -/
def insertWalk (key : K) (h : Int) :
    Nat → List SplayNode → Nat → Ptr → Option (List SplayNode × Nat × Ptr)
  | 0, _, _, _ => none
  | _ + 1, mem, pred, none => some (mem, pred, none)
  | fuel + 1, mem, pred, some curr =>
    match sKey mem curr with
    | none => none
    | some k =>
      if k < key then
        match sNext mem curr h with
        | none => none
        | some nx =>
          match updateUpToLevel mem nx h with
          | none => none
          | some mem1 => insertWalk key h fuel mem1 curr nx
      else some (mem, pred, some curr)

/-- One round of the level loop of `insertNode`. -/
def insertLevel (key : K) (nw : Nat) (level : Int) (h : Int) (mem : List SplayNode)
    (pred : Nat) : Option (List SplayNode × Nat) :=
  match updateUpToLevel mem (some pred) h with
  | none => none
  | some mem1 =>
    match sNext mem1 pred h with
    | none => none
    | some curr =>
      match insertWalk key h (mem1.length + 1) mem1 pred curr with
      | none => none
      | some (mem2, pred1, curr1) =>
        if h ≤ level then
          match sSetNext mem2 nw h curr1 with
          | none => none
          | some mem3 =>
            match sSetNext mem3 pred1 h (some nw) with
            | none => none
            | some mem4 => some (mem4, pred1)
        else some (mem2, pred1)

/-- The loop `for h := MAX_LEVEL; h >= list.zeroLevel; h--` of `insertNode`, entered at
level `lv`. -/
def insertLevels (key : K) (nw : Nat) (level zero : Int) :
    Nat → List SplayNode → Nat → Option (List SplayNode)
  | 0, mem, pred =>
    if (0 : Int) ≥ zero then
      match insertLevel key nw level 0 mem pred with
      | none => none
      | some (mem1, _) => if (-1 : Int) ≥ zero then none else some mem1
    else some mem
  | lv + 1, mem, pred =>
    if ((lv + 1 : Nat) : Int) ≥ zero then
      match insertLevel key nw level ((lv + 1 : Nat) : Int) mem pred with
      | none => none
      | some (mem1, pred1) => insertLevels key nw level zero lv mem1 pred1
    else some mem

namespace SplayList

/-- The methods `insertNewNode` and `insertNode`: allocate the node on the zero level with
`selfhits = 1` and link it. -/
def insertNewNode (list : SplayList) (key : K) (value : V) : Option SplayList :=
  let zLevel := list.zeroLevel
  let nw := list.mem.length
  let newNode : SplayNode :=
    { key := key, value := value, topLevel := zLevel, zeroLevel := zLevel, selfhits := 1,
      next := List.replicate 33 none, hits := List.replicate 33 0, deleted := false }
  let mem1 := list.mem ++ [newNode]
  match insertLevels key nw zLevel list.zeroLevel 32 mem1 list.head with
  | none => none
  | some mem2 => some { list with mem := mem2 }

/-- The method `Put`. -/
def Put (list : SplayList) (key : K) (value : V) : Option SplayList :=
  match list.find key with
  | none => none
  | some (list1, some node) =>
    match list1.mem[node]? with
    | none => none
    | some nd =>
      let size1 := if nd.deleted then wrap32 (list1.size + 1) else list1.size
      let nd1 : SplayNode := { nd with deleted := false, value := value }
      let list2 : SplayList := { list1 with mem := list1.mem.set node nd1, size := size1 }
      list2.tryUpdate key
  | some (list1, none) =>
    match list1.insertNewNode key value with
    | none => none
    | some list2 =>
      match list2.update key with
      | none => none
      | some list3 => some { list3 with size := wrap32 (list3.size + 1) }

/-- The method `Delete`. -/
def Delete (list : SplayList) (key : K) : Option SplayList :=
  match list.find key with
  | none => none
  | some (list1, none) => some list1
  | some (list1, some node) =>
    match list1.mem[node]? with
    | none => none
    | some nd =>
      let nd1 : SplayNode := { nd with deleted := true }
      let list2 : SplayList := { list1 with mem := list1.mem.set node nd1 }
      match list2.tryUpdate key with
      | none => none
      | some list3 => some { list3 with size := wrap32 (list3.size - 1) }

/-- The method `Get`. The node is read after `tryUpdate`, which may have changed it. -/
def Get (list : SplayList) (key : K) : Option (SplayList × V × Bool) :=
  match list.find key with
  | none => none
  | some (list1, none) => some (list1, 0, false)
  | some (list1, some node) =>
    match list1.tryUpdate key with
    | none => none
    | some list2 =>
      match list2.mem[node]? with
      | none => none
      | some nd => if nd.deleted then some (list2, 0, false) else some (list2, nd.value, true)

/-- The method `Contains`. -/
def Contains (list : SplayList) (key : K) : Option (SplayList × Bool) :=
  match list.find key with
  | none => none
  | some (list1, none) => some (list1, false)
  | some (list1, some node) =>
    match list1.tryUpdate key with
    | none => none
    | some list2 =>
      match list2.mem[node]? with
      | none => none
      | some nd => some (list2, !nd.deleted)

/-- The loop `for node != nil` of `UpdateAllLvl`; the first argument bounds the number of
nodes visited. -/
def updateAllFrom (h : Int) : Nat → List SplayNode → Ptr → Option (List SplayNode)
  | 0, _, _ => none
  | _ + 1, mem, none => some mem
  | fuel + 1, mem, some a =>
    match updateUpToLevel mem (some a) h with
    | none => none
    | some mem1 =>
      match sNext mem1 a h with
      | none => none
      | some nx => updateAllFrom h fuel mem1 nx

/-- The method `UpdateAllLvl`. -/
def UpdateAllLvl (sl : SplayList) : Option SplayList :=
  match updateAllFrom sl.zeroLevel (sl.mem.length + 1) sl.mem (some sl.head) with
  | none => none
  | some mem1 => some { sl with mem := mem1 }

/-- The method `GetHead`. -/
def GetHead (list : SplayList) : Option (Ptr × SplayList) :=
  match list.UpdateAllLvl with
  | none => none
  | some l1 => some (some l1.head, l1)

/-- The method `GetMaxStats`. -/
def GetMaxStats (list : SplayList) : Option ((Int × Int) × SplayList) :=
  match list.UpdateAllLvl with
  | none => none
  | some l1 => some ((l1.size, MAX_LEVEL - l1.zeroLevel), l1)

/-- The method `SplayNode.GetLevel`. -/
def nodeLevel (list : SplayList) (a : Nat) : Option Int :=
  match list.mem[a]? with
  | none => none
  | some nd => some (wrap32 (nd.topLevel - nd.zeroLevel))

/-- The method `SplayNode.GetNextAt`. -/
def nodeNextAt (list : SplayList) (a : Nat) (level : Int) : Option Ptr :=
  match list.mem[a]? with
  | none => none
  | some nd =>
    let trueLevel := wrap32 (level + nd.zeroLevel)
    if trueLevel < 0 ∨ trueLevel > nd.topLevel then some none
    else idx nd.next trueLevel

/-- A `SplayList` as an `Analyable`. -/
def analyable : Analyable SplayList where
  GetMaxStats := GetMaxStats
  GetHead := GetHead
  GetKey := fun sl a => sKey sl.mem a
  GetLevel := nodeLevel
  GetNextAt := nodeNextAt
  steps := fun sl => sl.mem.length

end SplayList

end Skiplist

namespace Skiplist

/-! ## TList -/

/-- The struct `tNode`. -/
structure tNode where
  key : K
  value : V
  next : List Ptr
  del : Bool

/-- The struct `TList`; `mem` is the heap its nodes live in. -/
structure TList where
  mem : List tNode
  head : Nat
  level : Nat
  size : Int
  span : Int

/-- The function `newNode(key, value, level)` of the package `tlist`. -/
def newTNode (key : K) (value : V) (level : Nat) : tNode :=
  { key := key, value := value, next := List.replicate (level + 1) none, del := false }

/-- The constructor `NewSkipList(span)`. -/
def NewSkipList (span : Int) : TList :=
  { mem := [newTNode (-1) 0 (maxLevel + 1)], head := 0, level := 1, size := 0, span := span }

/-- The read `cur.next[h]` in a heap of `tNode`s. -/
def tNextAt (mem : List tNode) (cur h : Nat) : Option Ptr :=
  match mem[cur]? with
  | none => none
  | some nd => nd.next[h]?

/-- The method `tNode.GetLevel`: `int32(len(nd.next) - 1)`. -/
def tLevel (mem : List tNode) (a : Nat) : Option Int :=
  match mem[a]? with
  | none => none
  | some nd => some (wrap32 ((nd.next.length : Int) - 1))

/-- The method `nd.upgrade(parent)`: when `nd` is lower than `parent`, give `nd` one more
link slot holding `parent.next[lvl]` and make `parent.next[lvl]` point to `nd`. -/
def upgrade (mem : List tNode) (nd parent : Nat) : Option (List tNode) :=
  match tLevel mem nd, tLevel mem parent, mem[nd]?, mem[parent]? with
  | some ln, some lp, some n, some p =>
    if ln ≥ lp then some mem
    else
      match p.next[(ln + 1).toNat]? with
      | none => none
      | some q =>
        let mem1 := mem.set nd { n with next := n.next ++ [q] }
        match mem1[parent]? with
        | none => none
        | some p1 =>
          if (ln + 1).toNat < p1.next.length ∧ 0 ≤ ln + 1 then
            some (mem1.set parent { p1 with next := p1.next.set (ln + 1).toNat (some nd) })
          else none
  | _, _, _, _ => none

/-- The state of `buildTravel` inside its loops: the heap, `sl.level`, `curr`,
`stepCounter` and `stationPointer`. -/
structure Travel where
  mem : List tNode
  level : Nat
  curr : Nat
  stepCounter : Int
  station : Nat

/-- The body of `if stepCounter >= sl.span && level < maxLevel`: promote `curr` under the
station when the node after it is not higher than `level`, and reset the counter. -/
def promote (t : Travel) (h : Nat) : Option Travel :=
  match tNextAt t.mem t.curr h with
  | none => none
  | some nx =>
    match (match nx with
        | none => some true
        | some q => (tLevel t.mem q).map (fun lq => decide (lq ≤ wrap32 h))) with
    | none => none
    | some true =>
      match upgrade t.mem t.curr t.station with
      | none => none
      | some mem1 =>
        some { t with mem := mem1, station := t.curr,
                      level := if h + 1 = t.level then t.level + 1 else t.level,
                      stepCounter := 0 }
    | some false => some { t with stepCounter := 0 }

/-- The inner loop `for curr.next[level] != nil && curr.next[level].key < key` of
`buildTravel` on level `h`; the first argument bounds the number of hops. -/
def travelWalk (key : K) (span : Int) (h : Nat) : Nat → Travel → Option Travel
  | 0, _ => none
  | fuel + 1, t =>
    match tNextAt t.mem t.curr h with
    | none => none
    | some none => some t
    | some (some nx) =>
      match t.mem[nx]? with
      | none => none
      | some n =>
        if n.key < key then
          let t1 := { t with curr := nx, stepCounter := wrap32 (t.stepCounter + 1) }
          if t1.stepCounter ≥ span ∧ h < maxLevel then
            match promote t1 h with
            | none => none
            | some t2 => travelWalk key span h fuel t2
          else travelWalk key span h fuel t1
        else some t

/-- The test `curr.next[level] != nil && curr.next[level].key == key` of `buildTravel`. -/
def tHitAt (mem : List tNode) (key : K) (h cur : Nat) : Option Ptr :=
  match tNextAt mem cur h with
  | none => none
  | some none => some none
  | some (some nx) =>
    match mem[nx]? with
    | none => none
    | some n => if n.key = key then some (some nx) else some none

/-- The loop `for level := sl.level - 1; level >= 0; level--` of `buildTravel`, entered at
level `h`. Returns the heap, `sl.level`, the node returned and `found`. -/
def travelFrom (key : K) (span : Int) : Nat → Travel → Option (List tNode × Nat × Nat × Bool)
  | 0, t =>
    match travelWalk key span 0 t.mem.length t with
    | none => none
    | some t1 =>
      match tHitAt t1.mem key 0 t1.curr with
      | none => none
      | some (some nx) => some (t1.mem, t1.level, nx, true)
      | some none => some (t1.mem, t1.level, t1.curr, false)
  | h + 1, t =>
    match travelWalk key span (h + 1) t.mem.length t with
    | none => none
    | some t1 =>
      match tHitAt t1.mem key (h + 1) t1.curr with
      | none => none
      | some (some nx) => some (t1.mem, t1.level, nx, true)
      | some none => travelFrom key span h { t1 with station := t1.curr, stepCounter := 0 }

namespace TList

/-- The method `buildTravel`: the list afterwards, the node returned and `found`. -/
def buildTravel (sl : TList) (key : K) : Option (TList × Nat × Bool) :=
  match sl.level with
  | 0 => some (sl, sl.head, false)
  | top + 1 =>
    match travelFrom key sl.span top
        { mem := sl.mem, level := sl.level, curr := sl.head, stepCounter := 0,
          station := sl.head } with
    | none => none
    | some (mem1, level1, node, found) =>
      some ({ sl with mem := mem1, level := level1 }, node, found)

/-- The method `Put`. -/
def Put (sl : TList) (key : K) (value : V) : Option TList :=
  match sl.buildTravel key with
  | none => none
  | some (sl1, node, true) =>
    match sl1.mem[node]? with
    | none => none
    | some nd =>
      let nd1 : tNode := { nd with value := value, del := false }
      some { sl1 with mem := sl1.mem.set node nd1, size := wrap32 (sl1.size + 1) }
  | some (sl1, node, false) =>
    match sl1.mem[node]? with
    | none => none
    | some nd =>
      match nd.next[0]? with
      | none => none
      | some q =>
        let nw := sl1.mem.length
        let nn : tNode := { key := key, value := value, next := [q], del := false }
        let nd1 : tNode := { nd with next := nd.next.set 0 (some nw) }
        some { sl1 with mem := (sl1.mem ++ [nn]).set node nd1, size := wrap32 (sl1.size + 1) }

/-- The method `Get`. -/
def Get (sl : TList) (key : K) : Option (TList × V × Bool) :=
  match sl.buildTravel key with
  | none => none
  | some (sl1, node, true) =>
    match sl1.mem[node]? with
    | none => none
    | some nd => if nd.del then some (sl1, 0, false) else some (sl1, nd.value, true)
  | some (sl1, _, false) => some (sl1, 0, false)

/-- The method `Contains`. -/
def Contains (sl : TList) (key : K) : Option (TList × Bool) :=
  match sl.buildTravel key with
  | none => none
  | some (sl1, node, true) =>
    match sl1.mem[node]? with
    | none => none
    | some nd => some (sl1, !nd.del)
  | some (sl1, _, false) => some (sl1, false)

/-- The method `Delete`. -/
def Delete (sl : TList) (key : K) : Option TList :=
  match sl.buildTravel key with
  | none => none
  | some (sl1, node, true) =>
    match sl1.mem[node]? with
    | none => none
    | some nd =>
      let nd1 : tNode := { nd with del := true }
      some { sl1 with mem := sl1.mem.set node nd1, size := wrap32 (sl1.size - 1) }
  | some (sl1, _, false) => some sl1

/-- The method `GetMaxStats`. -/
def GetMaxStats (sl : TList) : Int × Int := (sl.size, sl.level)

/-- The method `tNode.GetNextAt`. -/
def nodeNextAt (sl : TList) (a : Nat) (level : Int) : Option Ptr :=
  match sl.mem[a]? with
  | none => none
  | some nd =>
    if level < 0 ∨ level ≥ wrap32 nd.next.length then some none
    else nd.next[level.toNat]?

/-- A `TList` as an `Analyable`. -/
def analyable : Analyable TList where
  GetMaxStats := fun sl => some (sl.GetMaxStats, sl)
  GetHead := fun sl => some (some sl.head, sl)
  GetKey := fun sl a => (sl.mem[a]?).map (fun nd => nd.key)
  GetLevel := fun sl a => tLevel sl.mem a
  GetNextAt := nodeNextAt
  steps := fun sl => sl.mem.length

/-- One call on a `TList`: the list afterwards and the reply. -/
def call (sl : TList) : Call → Option (TList × Reply)
  | Call.put k v => (sl.Put k v).map (fun s => (s, Reply.done))
  | Call.get k => (sl.Get k).map (fun r => (r.1, Reply.value r.2.1 r.2.2))
  | Call.contains k => (sl.Contains k).map (fun r => (r.1, Reply.flag r.2))
  | Call.delete k => (sl.Delete k).map (fun s => (s, Reply.done))

/-- A sequence of calls, oldest first: the list afterwards and the replies in order. -/
def run (sl : TList) : List Call → Option (TList × List Reply)
  | [] => some (sl, [])
  | c :: cs =>
    match sl.call c with
    | none => none
    | some (s, r) =>
      match run s cs with
      | none => none
      | some (s1, rs) => some (s1, r :: rs)

end TList

end Skiplist

namespace Skiplist

/-- A `tNode` without its tombstone flag, as a node of the shared layout. -/
def tNode.toNode (t : tNode) : Node := { key := t.key, value := t.value, next := t.next }

/-- The heap of a `TList` without the tombstone flags. -/
def nodesOf (mem : List tNode) : List Node := mem.map tNode.toNode

/-- The flag `del` at address `a` (false for a dangling address). -/
def delAt (mem : List tNode) (a : Nat) : Bool :=
  match mem[a]? with
  | some nd => nd.del
  | none => false

/-- Two `TList` heaps hold the same keys, values and tombstones (links and heights may
differ). -/
structure SameKV (m m0 : List tNode) : Prop where
  length : m.length = m0.length
  key : keyAt (nodesOf m) = keyAt (nodesOf m0)
  val : valAt (nodesOf m) = valAt (nodesOf m0)
  del : delAt m = delAt m0

/-- The invariant of a `TList`: the heap represents the node list `l` (tombstoned nodes
included), `level` is between 1 and `maxLevel + 1`, every tower is lower than `level`, and
the head has `maxLevel + 2` link slots. -/
structure TGood (sl : TList) (l : List Nat) : Prop where
  rep : Rep (nodesOf sl.mem) sl.head l
  levelPos : 1 ≤ sl.level
  levelLe : sl.level ≤ maxLevel + 1
  cover : ∀ a ∈ l, lenAt (nodesOf sl.mem) a ≤ sl.level
  headFull : lenAt (nodesOf sl.mem) sl.head = maxLevel + 2

/-- The invariant of the inner loop of `buildTravel` on level `h`: the heap `t.mem`
represents `l`, `curr` is a node before `key` that has level `h`, no node between `curr`
and `key` (the nodes `Q`) is higher than `h`, and the station is the last node before `key`
of level `h + 1` or more. -/
structure TravelInv (head : Nat) (l : List Nat) (key : K) (h : Nat) (t : Travel)
    (P Q : List Nat) : Prop where
  rep : Rep (nodesOf t.mem) head l
  headFull : lenAt (nodesOf t.mem) head = maxLevel + 2
  levelLe : t.level ≤ maxLevel + 1
  levelGt : h + 1 ≤ t.level
  cover : ∀ a ∈ l, lenAt (nodesOf t.mem) a ≤ t.level
  pos : head :: below (nodesOf t.mem) key l = P ++ t.curr :: Q
  low : ∀ a ∈ Q, lenAt (nodesOf t.mem) a ≤ h + 1
  currLevel : h < lenAt (nodesOf t.mem) t.curr
  station : t.station = stopAt (nodesOf t.mem) key head l (h + 1)

/-- The value a `TList` stores under `k`: that of the node holding `k`, unless the node is
tombstoned. -/
def tlLookup (mem : List tNode) (l : List Nat) (k : K) : Option V :=
  match target (nodesOf mem) k l with
  | none => none
  | some a => if delAt mem a then none else some (valAt (nodesOf mem) a)

/-- One step of the fold of `latest`. -/
def latestStep (k : K) (acc : Option V) (c : Call) : Option V :=
  match c with
  | Call.put k1 v => if k1 = k then some v else acc
  | Call.delete k1 => if k1 = k then none else acc
  | _ => acc

/-- No node of the heap `m0` is lower in the heap `m`. -/
def Raised (m m0 : List tNode) : Prop :=
  ∀ a, lenAt (nodesOf m0) a ≤ lenAt (nodesOf m) a

end Skiplist

namespace Skiplist

namespace SplayList

/-- One call on a `SplayList`: the list afterwards and the reply. -/
def call (sl : SplayList) : Call → Option (SplayList × Reply)
  | Call.put k v => (sl.Put k v).map (fun s => (s, Reply.done))
  | Call.get k => (sl.Get k).map (fun r => (r.1, Reply.value r.2.1 r.2.2))
  | Call.contains k => (sl.Contains k).map (fun r => (r.1, Reply.flag r.2))
  | Call.delete k => (sl.Delete k).map (fun s => (s, Reply.done))

/-- A sequence of calls, oldest first: the list afterwards and the replies in order. -/
def run (sl : SplayList) : List Call → Option (SplayList × List Reply)
  | [] => some (sl, [])
  | c :: cs =>
    match sl.call c with
    | none => none
    | some (s, r) =>
      match run s cs with
      | none => none
      | some (s1, rs) => some (s1, r :: rs)

end SplayList

/-- The level fields of the nodes of a heap: `zeroLevel`, `topLevel` and the lengths of the
arrays `next` and `hits`, address by address. -/
def levelsOf (mem : List SplayNode) : List (Int × Int × Nat × Nat) :=
  mem.map (fun nd => (nd.zeroLevel, nd.topLevel, nd.next.length, nd.hits.length))

/-- The level fields are in range for the shared baseline `zero`: the head is allocated, the
arrays have their 33 entries, the head keeps `topLevel = 32`, and every other node has
`zero <= zeroLevel <= topLevel <= 31`. -/
def LevelsOK (lv : List (Int × Int × Nat × Nat)) (zero : Int) (head : Nat) : Prop :=
  head < lv.length ∧ ∀ a e, lv[a]? = some e → e.2.2.1 = 33 ∧ e.2.2.2 = 33 ∧ (a = head → e.2.1 = 32) ∧
    (a ≠ head → zero ≤ e.1 ∧ e.1 ≤ e.2.1 ∧ e.2.1 ≤ 31)

/-- The invariant of the level fields of a `SplayList`: the shared baseline is in `0..31`
and the node fields are in range for it. -/
def SplayList.LevelInv (sl : SplayList) : Prop :=
  LevelsOK (levelsOf sl.mem) sl.zeroLevel sl.head ∧ 0 ≤ sl.zeroLevel ∧ sl.zeroLevel ≤ 31

/-! ## `FindStep` and `AnalyzeStep` of `analyTool` -/

/-- The type `StepMap`, a Go map from keys to step counts, as the list of its entries, one
per key, the key written last first. -/
abbrev StepMap := List (K × Int)

/-- The write `step[k] = v`. -/
def stepPut (m : StepMap) (k : K) (v : Int) : StepMap :=
  (k, v) :: m.filter (fun e => decide (e.1 ≠ k))

/-- The read `step[k]` with its `ok` flag. -/
def stepGet (m : StepMap) (k : K) : Option Int :=
  (m.find? (fun e => decide (e.1 = k))).map Prod.snd

/-- The read `keys[k]` with its `ok` flag, on the entries of the map `keys`. Probabilities
are rationals: the arithmetic of `AnalyzeStep` is taken exactly. -/
def probOf (keys : List (K × ℚ)) (k : K) : Option ℚ :=
  (keys.find? (fun e => decide (e.1 = k))).map Prod.snd

/-- The inner loop `for cur != nil` of `FindStep` on level `h`; the first argument bounds the
number of rounds. Returns `cur` and `levelSteps`. -/
def findStepWalk {σ : Type} (A : Analyable σ) (s : σ) (key : K) (h : Int) :
    Nat → Nat → Int → Option (Nat × Int)
  | 0, _, _ => none
  | fuel + 1, cur, levelSteps =>
    match A.GetNextAt s cur (wrap32 h) with
    | none => none
    | some none => some (cur, levelSteps)
    | some (some nx) =>
      match A.GetKey s nx with
      | none => none
      | some k =>
        if k ≥ key then some (cur, levelSteps)
        else findStepWalk A s key h fuel nx (levelSteps + 1)

/-- One round of the loop `for h := maxLevel; h >= 0; h--` of `FindStep`: whether the
function returns in this round, `cur`, `totalSteps` and `stepsPerLevel` afterwards. -/
def findStepLevel {σ : Type} (A : Analyable σ) (s : σ) (key : K) (h : Nat) (cur : Nat)
    (totalSteps : Int) (stepsPerLevel : List Int) : Option (Bool × Nat × Int × List Int) :=
  match findStepWalk A s key h (A.steps s + 1) cur 0 with
  | none => none
  | some (cur1, levelSteps) =>
    match A.GetNextAt s cur1 (wrap32 h) with
    | none => none
    | some nextNode =>
      match (match nextNode with
          | none => some false
          | some nx => (A.GetKey s nx).map (fun k => decide (k = key))) with
      | none => none
      | some true =>
        match setIdx stepsPerLevel h (levelSteps + 1) with
        | none => none
        | some per1 => some (true, cur1, totalSteps + (levelSteps + 1), per1)
      | some false =>
        match setIdx stepsPerLevel h levelSteps with
        | none => none
        | some per1 => some (false, cur1, totalSteps + (levelSteps + 1), per1)

/-- The loop `for h := maxLevel; h >= 0; h--` of `FindStep`, entered at level `h`. -/
def findStepLevels {σ : Type} (A : Analyable σ) (s : σ) (key : K) :
    Nat → Nat → Int → List Int → Option (Int × List Int)
  | 0, cur, totalSteps, stepsPerLevel =>
    match findStepLevel A s key 0 cur totalSteps stepsPerLevel with
    | none => none
    | some (_, _, total1, per1) => some (total1, per1)
  | h + 1, cur, totalSteps, stepsPerLevel =>
    match findStepLevel A s key (h + 1) cur totalSteps stepsPerLevel with
    | none => none
    | some (true, _, total1, per1) => some (total1, per1)
    | some (false, cur1, total1, per1) => findStepLevels A s key h cur1 total1 per1

/-- The function `FindStep`: the total number of steps and the steps per level, and the
list as the two list methods leave it. -/
def FindStep {σ : Type} (A : Analyable σ) (sl : σ) (key : K) :
    Option ((Int × List Int) × σ) :=
  match A.GetHead sl with
  | none => none
  | some (none, s1) => some ((0, []), s1)
  | some (some cur, s1) =>
    match A.GetMaxStats s1 with
    | none => none
    | some ((_, maxLevel), s2) =>
      if maxLevel + 1 < 0 then none
      else if maxLevel < 0 then some ((0, []), s2)
      else
        (findStepLevels A s2 key maxLevel.toNat cur 0
          (List.replicate (maxLevel + 1).toNat 0)).map (fun r => (r, s2))

/-- The variables `totalExpectedSteps`, `totalProbability` and `step` that the closure `dfs`
of `AnalyzeStep` writes. -/
structure StepAcc where
  totalExpectedSteps : ℚ
  totalProbability : ℚ
  step : StepMap

/-- The first statement of `dfs`: when the node is met on its own top level and its key is
in `keys`, add its weighted steps and record them. -/
def dfsVisit {σ : Type} (A : Analyable σ) (s : σ) (keys : List (K × ℚ)) (node : Nat)
    (level steps : Int) (acc : StepAcc) : Option StepAcc :=
  match A.GetLevel s node with
  | none => none
  | some lv =>
    if lv = wrap32 level then
      match A.GetKey s node with
      | none => none
      | some k =>
        match probOf keys k with
        | some p =>
          some { totalExpectedSteps := acc.totalExpectedSteps + (steps : ℚ) * p,
                 totalProbability := acc.totalProbability + p,
                 step := stepPut acc.step k steps }
        | none => some acc
    else some acc

/-- The closure `dfs(node, level, steps)` of `AnalyzeStep`; the first argument bounds the
depth of the recursion. -/
def dfs {σ : Type} (A : Analyable σ) (s : σ) (keys : List (K × ℚ)) :
    Nat → Ptr → Int → Int → StepAcc → Option StepAcc
  | 0, _, _, _, _ => none
  | _ + 1, none, _, _, acc => some acc
  | fuel + 1, some node, level, steps, acc =>
    match dfsVisit A s keys node level steps acc with
    | none => none
    | some acc1 =>
      match (if level > 0 then dfs A s keys fuel (some node) (level - 1) (steps + 1) acc1
          else some acc1) with
      | none => none
      | some acc2 =>
        match A.GetNextAt s node (wrap32 level) with
        | none => none
        | some none => some acc2
        | some (some nx) =>
          match A.GetLevel s nx with
          | none => none
          | some lv =>
            if lv = wrap32 level then dfs A s keys fuel (some nx) level (steps + 1) acc2
            else some acc2

/-- The function `AnalyzeStep`: the score and the step map, and the list as the two list
methods leave it. An empty `keys` returns the nil map. -/
def AnalyzeStep {σ : Type} (A : Analyable σ) (sl : σ) (keys : List (K × ℚ)) :
    Option ((ℚ × StepMap) × σ) :=
  if keys.length = 0 then some ((0, []), sl)
  else
    match A.GetMaxStats sl with
    | none => none
    | some ((_, maxLevel), s1) =>
      match A.GetHead s1 with
      | none => none
      | some (head, s2) =>
        match (match head with
            | none => some (StepAcc.mk 0 0 [])
            | some h =>
              dfs A s2 keys (A.steps s2 + maxLevel.toNat + 1) (some h) maxLevel 0
                (StepAcc.mk 0 0 [])) with
        | none => none
        | some acc =>
          if acc.totalProbability > 0 then
            some ((acc.totalExpectedSteps / acc.totalProbability, acc.step), s2)
          else some ((0, acc.step), s2)

/-! ## The search path as a function of the towers -/

/-- The steps of a search for `key` along level `lv` over the nodes `rest` that follow the
current node in level-0 order; `cur` lists the nodes after the node the search stands on,
and `down` is the cost of leaving the level there. Nodes without a slot on `lv` are passed
over; a step to the right costs 1, and so does the step onto the node that holds `key`. -/
def levelCost (mem : List Node) (key : K) (lv : Nat) (down : List Nat → Int) :
    List Nat → List Nat → Int
  | [], cur => down cur
  | a :: r, cur =>
    if lenAt mem a ≤ lv then levelCost mem key lv down r cur
    else if keyAt mem a < key then 1 + levelCost mem key lv down r r
    else if keyAt mem a = key then 1
    else down cur

/-- The number of steps of the search for `key` that enters level `lv` at a node followed
by the nodes `rest`: the steps on `lv`, then one step down and the search on the level
below (on level 0, one step for the miss). -/
def searchCost (mem : List Node) (key : K) : Nat → List Nat → Int
  | 0, rest => levelCost mem key 0 (fun _ => 1) rest rest
  | lv + 1, rest => levelCost mem key (lv + 1) (fun cur => 1 + searchCost mem key lv cur) rest rest

/-- The cost of leaving level `lv` at a node followed by `cur`. -/
def downCost (mem : List Node) (key : K) : Nat → List Nat → Int
  | 0, _ => 1
  | lv + 1, cur => 1 + searchCost mem key lv cur

/-- What `dfs` does at a node it meets on its own top level with `steps` steps. -/
def recNode (mem : List Node) (keys : List (K × ℚ)) (steps : Int) (acc : StepAcc) (x : Nat) :
    StepAcc :=
  match probOf keys (keyAt mem x) with
  | some p =>
    { totalExpectedSteps := acc.totalExpectedSteps + (steps : ℚ) * p,
      totalProbability := acc.totalProbability + p,
      step := stepPut acc.step (keyAt mem x) steps }
  | none => acc

/-- The node methods of the list `s` read the heap `mem` of the shared node layout, as they
do for `BasicSkipList` and `LASkipList`. -/
structure Reads {σ : Type} (A : Analyable σ) (s : σ) (mem : List Node) : Prop where
  key : ∀ a, A.GetKey s a = GetKey mem a
  level : ∀ a, A.GetLevel s a = GetLevelAt mem a
  next : ∀ a i, A.GetNextAt s a i = GetNextAt mem a i
  steps : A.steps s = mem.length

/-- The nodes `dfs` reaches from a node on level `lv` followed by `rest` without passing a
higher tower: the initial run of `rest` with towers of height at most `lv`. -/
def region (mem : List Node) (lv : Nat) (rest : List Nat) : List Nat :=
  rest.takeWhile (fun a => decide (lenAt mem a ≤ lv + 1))

/-- The first statement of `dfs` on a node of the shared layout that is met on level `lv`. -/
def visitAcc (mem : List Node) (keys : List (K × ℚ)) (c lv : Nat) (steps : Int)
    (acc : StepAcc) : StepAcc :=
  if lenAt mem c = lv + 1 then recNode mem keys steps acc c else acc

end Skiplist

namespace Skiplist

/-! ## A structure that `CheckStruct` rejects -/

/-- A `BasicSkipList` value whose one node has two link slots (level 1) while the head links
to it on level 0 only: `head.next[1]` is nil. -/
def brokenTower : BasicSkipList :=
  { mem := [{ key := -1, value := 0, next := [some 1, none] },
            { key := 7, value := 0, next := [none, none] }],
    head := 0, level := 1, rand := { draws := fun _ => 0, pos := 0 }, size := 1 }

end Skiplist

namespace Skiplist

/-! ## The benchmark stream writer (`datastream`) -/

/-- The type `OperationType` with its constants `OpQuery`, `OpInsert` and `OpDelete`. -/
inductive OperationType where
  | OpQuery
  | OpInsert
  | OpDelete
  deriving DecidableEq, Repr

/-- The fields of `ZipfDataGenerator` that `Next` reads: `n`, the cumulative weights `cdf`
(each `float64` is the rational it denotes) and the source `rng`. -/
structure ZipfDataGenerator where
  n : Int
  cdf : List ℚ
  rng : Rand

/-- The binary search `for lo < hi { mid := (lo + hi) / 2; if r > z.cdf[mid] { lo = mid + 1 }
else { hi = mid } }` of `Next`; the first argument bounds the number of rounds, and an index
outside `cdf` is a run-time failure. `lo + hi` stays below `2 * len(cdf)`. -/
def zipfSearch (cdf : List ℚ) (r : ℚ) : Nat → Int → Int → Option Int
  | 0, _, _ => none
  | fuel + 1, lo, hi =>
    if lo < hi then
      let mid := (lo + hi).tdiv 2
      if mid < 0 then none
      else
        match cdf[mid.toNat]? with
        | none => none
        | some c =>
          if r > c then zipfSearch cdf r fuel (mid + 1) hi
          else zipfSearch cdf r fuel lo mid
    else some lo

/-- The method `Next()`: one draw, then the binary search over `cdf`. -/
def ZipfDataGenerator.Next (z : ZipfDataGenerator) : Option (Int × ZipfDataGenerator) :=
  let r := z.rng.Float64
  match zipfSearch z.cdf ((r.1 : ℚ) / (drawScale : ℚ)) (z.n.toNat + 1) 0 (z.n - 1) with
  | none => none
  | some lo => some (lo, { z with rng := r.2 })

/-- The `float64` constant `0.90`. -/
def queryShare : ℚ := 8106479329266893 / 9007199254740992

/-- The loop `for i := 0; i < k; i++` of `WriteBenchFileFromZipf`, returning the operations it
writes; `everSeen` lists the keys that the map sends to true. -/
def benchLoop : Nat → ZipfDataGenerator → List Int → Option (List (OperationType × Int))
  | 0, _, _ => some []
  | k + 1, gen, everSeen =>
    match gen.Next with
    | none => none
    | some (idx, g1) =>
      if ¬ idx ∈ everSeen then
        match benchLoop k g1 (idx :: everSeen) with
        | none => none
        | some ops => some ((OperationType.OpInsert, idx) :: ops)
      else
        let r := g1.rng.Float64
        let op := if (r.1 : ℚ) / (drawScale : ℚ) < queryShare then OperationType.OpQuery
          else OperationType.OpInsert
        match benchLoop k { g1 with rng := r.2 } everSeen with
        | none => none
        | some ops => some ((op, idx) :: ops)

/-- The function `WriteBenchFileFromZipf(gen, k, filename)` as the operation records it writes
after the header and the distribution; `none` stands for an error return (`gen == nil`,
`k < 0`) or a run-time failure. Errors of the file system are left out. -/
def WriteBenchFileFromZipf (gen : Option ZipfDataGenerator) (k : Int) :
    Option (List (OperationType × Int)) :=
  match gen with
  | none => none
  | some g => if k < 0 then none else benchLoop k.toNat g []

/-- The property of the operations written from the `i`-th on: none is a `Delete`, and a key
that is not in `seen` and not in an earlier record comes with an `Insert`. -/
def StreamOK (seen : List Int) (ops : List (OperationType × Int)) : Prop :=
  ∀ (i : Nat) (op : OperationType) (key : Int), ops[i]? = some (op, key) →
    op ≠ OperationType.OpDelete ∧
    (key ∉ seen → (∀ (j : Nat) (e : OperationType × Int), j < i → ops[j]? = some e →
      e.2 ≠ key) → op = OperationType.OpInsert)

end Skiplist

namespace Skiplist

/-! ## The level at which `FindStep` returns -/

/-- The loop `for h := maxLevel; h >= 0; h--` of `FindStep` as in `findStepLevels`, returning
also the round whose `return` inside the loop was taken: `some h` for the round of level `h`,
`none` for the `return` after the loop. -/
def findStepLevelsAt {σ : Type} (A : Analyable σ) (s : σ) (key : K) :
    Nat → Nat → Int → List Int → Option (Option Nat × Int × List Int)
  | 0, cur, totalSteps, stepsPerLevel =>
    match findStepLevel A s key 0 cur totalSteps stepsPerLevel with
    | none => none
    | some (true, _, total1, per1) => some (some 0, total1, per1)
    | some (false, _, total1, per1) => some (none, total1, per1)
  | h + 1, cur, totalSteps, stepsPerLevel =>
    match findStepLevel A s key (h + 1) cur totalSteps stepsPerLevel with
    | none => none
    | some (true, _, total1, per1) => some (some (h + 1), total1, per1)
    | some (false, cur1, total1, per1) => findStepLevelsAt A s key h cur1 total1 per1

/-- The function `FindStep` as in `FindStep`, returning also the level of the round in which
the key was found, if any. -/
def FindStepAt {σ : Type} (A : Analyable σ) (sl : σ) (key : K) :
    Option ((Option Nat × Int × List Int) × σ) :=
  match A.GetHead sl with
  | none => none
  | some (none, s1) => some ((none, 0, []), s1)
  | some (some cur, s1) =>
    match A.GetMaxStats s1 with
    | none => none
    | some ((_, maxLevel), s2) =>
      if maxLevel + 1 < 0 then none
      else if maxLevel < 0 then some ((none, 0, []), s2)
      else
        (findStepLevelsAt A s2 key maxLevel.toNat cur 0
          (List.replicate (maxLevel + 1).toNat 0)).map (fun r => (r, s2))

end Skiplist

namespace Skiplist

/-! ## A small splay heap -/

/-- A node with key 0 on all levels up to 32 that links to address 1 on levels 0 and 1 and
has counted 7, 5 and 9 hits on levels 0, 1 and 2. -/
def towerNode : SplayNode :=
  { key := 0, value := 0, zeroLevel := 0, topLevel := 32, selfhits := 1,
    next := [some 1, some 1] ++ List.replicate 31 none,
    hits := [7, 5, 9] ++ List.replicate 30 0, deleted := false }

/-- A node with key 4 on levels 0 and 1 that links to address 2 on both and has counted 3
and 2 hits there and 2 hits of its own. -/
def midNode : SplayNode :=
  { key := 4, value := 0, zeroLevel := 0, topLevel := 1, selfhits := 2,
    next := [some 2, some 2] ++ List.replicate 31 none,
    hits := [3, 2] ++ List.replicate 31 0, deleted := false }

/-- A node with key 6 on levels 0 and 1, the last on both. -/
def lastNode : SplayNode :=
  { key := 6, value := 0, zeroLevel := 0, topLevel := 1, selfhits := 1,
    next := List.replicate 33 none, hits := List.replicate 33 0, deleted := false }

/-- The heap of `towerNode`, `midNode` and `lastNode` at the addresses 0, 1 and 2. -/
def sampleHeap : List SplayNode := [towerNode, midNode, lastNode]

/-- The heap `mem1` holds `c1` at `curr` and `q1` at `pred` and agrees with `mem` at every
other address. -/
def TwoNodes (mem1 mem : List SplayNode) (curr pred : Nat) (c1 q1 : SplayNode) : Prop :=
  mem1[curr]? = some c1 ∧ mem1[pred]? = some q1 ∧
    ∀ x : Nat, x ≠ curr → x ≠ pred → mem1[x]? = mem[x]?

/-- The links `a.next[level]`, then those of the nodes `via` in turn, lead from `a` to `b`. -/
def linkedAt (mem : List SplayNode) (level : Int) : Nat → List Nat → Nat → Prop
  | a, [], b => sNext mem a level = some (some b)
  | a, x :: via, b => sNext mem a level = some (some x) ∧ linkedAt mem level x via b

end Skiplist

namespace Skiplist

/-! ## TList: traversals without promotion -/

/-- The inner loop `for curr.next[level] != nil && curr.next[level].key < key` of
`pureTravel` on level `h`, counting its hops; the first argument bounds their number.
Returns `curr` and the count. -/
def pureWalk (mem : List tNode) (key : K) (h : Nat) : Nat → Nat → Nat → Option (Nat × Nat)
  | 0, _, _ => none
  | fuel + 1, curr, hops =>
    match tNextAt mem curr h with
    | none => none
    | some none => some (curr, hops)
    | some (some nx) =>
      match mem[nx]? with
      | none => none
      | some n =>
        if n.key < key then pureWalk mem key h fuel nx (hops + 1)
        else some (curr, hops)

/-- The loop `for level := sl.level - 1; level >= 0; level--` of `pureTravel`, entered at
level `h`. Returns the node returned, `found`, and the hops counted on the levels visited,
lowest level first. -/
def pureFrom (mem : List tNode) (key : K) :
    Nat → Nat → List Nat → Option (Nat × Bool × List Nat)
  | 0, curr, hs =>
    match pureWalk mem key 0 mem.length curr 0 with
    | none => none
    | some (c1, n) =>
      match tHitAt mem key 0 c1 with
      | none => none
      | some (some nx) => some (nx, true, n :: hs)
      | some none => some (c1, false, n :: hs)
  | h + 1, curr, hs =>
    match pureWalk mem key (h + 1) mem.length curr 0 with
    | none => none
    | some (c1, n) =>
      match tHitAt mem key (h + 1) c1 with
      | none => none
      | some (some nx) => some (nx, true, n :: hs)
      | some none => pureFrom mem key h c1 (n :: hs)

/-- The method `pureTravel`: the node returned and `found`, with the hops made on each
level visited. -/
def TList.pureTravel (sl : TList) (key : K) : Option (Nat × Bool × List Nat) :=
  match sl.level with
  | 0 => some (sl.head, false, [])
  | top + 1 => pureFrom sl.mem key top sl.head []

/-- A sequence of calls `nd.upgrade(parent)`, given as the pairs `(nd, parent)`. -/
def applyUpgrades : List tNode → List (Nat × Nat) → Option (List tNode)
  | mem, [] => some mem
  | mem, (nd, parent) :: rest =>
    match upgrade mem nd parent with
    | none => none
    | some mem1 => applyUpgrades mem1 rest

/-- The list that `NewSkipList(3)` becomes by `Put(1, 0)` and `Put(2, 0)`. -/
def spanList : TList :=
  { mem := [{ key := -1, value := 0, next := some 1 :: List.replicate 33 none, del := false },
            { key := 1, value := 0, next := [some 2], del := false },
            { key := 2, value := 0, next := [none], del := false }],
    head := 0, level := 1, size := 2, span := 3 }

end Skiplist

namespace Skiplist

/-! ## The search path of `FindStep` in terms of the towers -/

/-- The hops a search for `key` makes on level `i` of the node list `l`: read the nodes
before `key` backwards from `key` up to the first one that is taller than level `i`, and
count those that reach level `i`. -/
def hopsOn (mem : List Node) (key : K) (l : List Nat) (i : Nat) : Nat :=
  (((below mem key l).reverse.takeWhile (fun a => decide (lenAt mem a ≤ i + 1))).filter
    (fun a => decide (i < lenAt mem a))).length

/-- The entry of the per-level breakdown on level `i` when the key is found on level `found`
(or not at all): nothing below the level of the find, the hops and the step onto the node
on that level, and the hops on every other level. -/
def breakdownAt (hops : Nat → Nat) (found : Option Nat) (i : Nat) : Int :=
  match found with
  | some h => if i < h then 0 else if i = h then (hops i : Int) + 1 else (hops i : Int)
  | none => (hops i : Int)

end Skiplist

/-! # Theorems -/

namespace Skiplist

/-! ## Heap lemmas -/

theorem nextAt_some_lt {mem : List Node} {a h : Nat} {p : Ptr}
    (hn : nextAt mem a h = some p) : a < mem.length ∧ h < lenAt mem a := by
  unfold nextAt at hn
  unfold lenAt
  cases hm : mem[a]? with
  | none => simp [hm] at hn
  | some nd =>
    simp only [hm] at hn ⊢
    refine ⟨?_, ?_⟩
    · exact (List.getElem?_eq_some_iff.1 hm).1
    · exact (List.getElem?_eq_some_iff.1 hn).1

theorem nextAt_isSome {mem : List Node} {a h : Nat} (ha : a < mem.length)
    (hh : h < lenAt mem a) : ∃ p, nextAt mem a h = some p := by
  unfold nextAt
  unfold lenAt at hh
  rw [List.getElem?_eq_getElem ha] at hh ⊢
  simp only at hh ⊢
  exact ⟨_, List.getElem?_eq_getElem hh⟩

theorem setNext_isSome {mem : List Node} {a h : Nat} (p : Ptr) (ha : a < mem.length)
    (hh : h < lenAt mem a) : ∃ mem1, setNext mem a h p = some mem1 := by
  unfold setNext
  unfold lenAt at hh
  rw [List.getElem?_eq_getElem ha] at hh ⊢
  simp only at hh ⊢
  simp [hh]

theorem setNext_length {mem mem1 : List Node} {a h : Nat} {p : Ptr}
    (hs : setNext mem a h p = some mem1) : mem1.length = mem.length := by
  unfold setNext at hs
  cases hm : mem[a]? with
  | none => simp [hm] at hs
  | some nd =>
    simp only [hm] at hs
    split at hs
    · cases hs; simp
    · cases hs

theorem setNext_keyAt {mem mem1 : List Node} {a h : Nat} {p : Ptr}
    (hs : setNext mem a h p = some mem1) (b : Nat) : keyAt mem1 b = keyAt mem b := by
  unfold setNext at hs
  cases hm : mem[a]? with
  | none => simp [hm] at hs
  | some nd =>
    simp only [hm] at hs
    split at hs
    · cases hs
      unfold keyAt
      by_cases hab : a = b
      · subst hab
        have ha := (List.getElem?_eq_some_iff.1 hm).1
        simp [List.getElem?_set, ha, hm]
      · simp [List.getElem?_set, hab]
    · cases hs

theorem setNext_valAt {mem mem1 : List Node} {a h : Nat} {p : Ptr}
    (hs : setNext mem a h p = some mem1) (b : Nat) : valAt mem1 b = valAt mem b := by
  unfold setNext at hs
  cases hm : mem[a]? with
  | none => simp [hm] at hs
  | some nd =>
    simp only [hm] at hs
    split at hs
    · cases hs
      unfold valAt
      by_cases hab : a = b
      · subst hab
        have ha := (List.getElem?_eq_some_iff.1 hm).1
        simp [List.getElem?_set, ha, hm]
      · simp [List.getElem?_set, hab]
    · cases hs

theorem setNext_lenAt {mem mem1 : List Node} {a h : Nat} {p : Ptr}
    (hs : setNext mem a h p = some mem1) (b : Nat) : lenAt mem1 b = lenAt mem b := by
  unfold setNext at hs
  cases hm : mem[a]? with
  | none => simp [hm] at hs
  | some nd =>
    simp only [hm] at hs
    split at hs
    · cases hs
      unfold lenAt
      by_cases hab : a = b
      · subst hab
        have ha := (List.getElem?_eq_some_iff.1 hm).1
        simp [List.getElem?_set, ha, hm]
      · simp [List.getElem?_set, hab]
    · cases hs

theorem setNext_nextAt_same {mem mem1 : List Node} {a h : Nat} {p : Ptr}
    (hs : setNext mem a h p = some mem1) : nextAt mem1 a h = some p := by
  unfold setNext at hs
  cases hm : mem[a]? with
  | none => simp [hm] at hs
  | some nd =>
    simp only [hm] at hs
    split at hs
    · rename_i hlt
      cases hs
      unfold nextAt
      have ha := (List.getElem?_eq_some_iff.1 hm).1
      simp [List.getElem?_set, ha, hlt]
    · cases hs

theorem setNext_nextAt_other {mem mem1 : List Node} {a h : Nat} {p : Ptr}
    (hs : setNext mem a h p = some mem1) (b g : Nat) (hne : b ≠ a ∨ g ≠ h) :
    nextAt mem1 b g = nextAt mem b g := by
  unfold setNext at hs
  cases hm : mem[a]? with
  | none => simp [hm] at hs
  | some nd =>
    simp only [hm] at hs
    split at hs
    · cases hs
      unfold nextAt
      by_cases hab : a = b
      · subst hab
        have hg : g ≠ h := by
          rcases hne with h1 | h1
          · exact absurd rfl h1
          · exact h1
        have ha := (List.getElem?_eq_some_iff.1 hm).1
        simp [List.getElem?_set, ha, hm, Ne.symm hg]
      · simp [List.getElem?_set, hab]
    · cases hs

theorem setValue_isSome {mem : List Node} {a : Nat} (v : V) (ha : a < mem.length) :
    ∃ mem1, setValue mem a v = some mem1 := by
  unfold setValue
  rw [List.getElem?_eq_getElem ha]
  exact ⟨_, rfl⟩

theorem setValue_length {mem mem1 : List Node} {a : Nat} {v : V}
    (hs : setValue mem a v = some mem1) : mem1.length = mem.length := by
  unfold setValue at hs
  cases hm : mem[a]? with
  | none => simp [hm] at hs
  | some nd => simp only [hm] at hs; cases hs; simp

theorem setValue_keyAt {mem mem1 : List Node} {a : Nat} {v : V}
    (hs : setValue mem a v = some mem1) (b : Nat) : keyAt mem1 b = keyAt mem b := by
  unfold setValue at hs
  cases hm : mem[a]? with
  | none => simp [hm] at hs
  | some nd =>
    simp only [hm] at hs; cases hs
    unfold keyAt
    by_cases hab : a = b
    · subst hab
      have ha := (List.getElem?_eq_some_iff.1 hm).1
      simp [List.getElem?_set, ha, hm]
    · simp [List.getElem?_set, hab]

theorem setValue_lenAt {mem mem1 : List Node} {a : Nat} {v : V}
    (hs : setValue mem a v = some mem1) (b : Nat) : lenAt mem1 b = lenAt mem b := by
  unfold setValue at hs
  cases hm : mem[a]? with
  | none => simp [hm] at hs
  | some nd =>
    simp only [hm] at hs; cases hs
    unfold lenAt
    by_cases hab : a = b
    · subst hab
      have ha := (List.getElem?_eq_some_iff.1 hm).1
      simp [List.getElem?_set, ha, hm]
    · simp [List.getElem?_set, hab]

theorem setValue_nextAt {mem mem1 : List Node} {a : Nat} {v : V}
    (hs : setValue mem a v = some mem1) (b g : Nat) : nextAt mem1 b g = nextAt mem b g := by
  unfold setValue at hs
  cases hm : mem[a]? with
  | none => simp [hm] at hs
  | some nd =>
    simp only [hm] at hs; cases hs
    unfold nextAt
    by_cases hab : a = b
    · subst hab
      have ha := (List.getElem?_eq_some_iff.1 hm).1
      simp [List.getElem?_set, ha, hm]
    · simp [List.getElem?_set, hab]

theorem setValue_valAt {mem mem1 : List Node} {a : Nat} {v : V}
    (hs : setValue mem a v = some mem1) (b : Nat) :
    valAt mem1 b = if b = a then v else valAt mem b := by
  unfold setValue at hs
  cases hm : mem[a]? with
  | none => simp [hm] at hs
  | some nd =>
    simp only [hm] at hs; cases hs
    unfold valAt
    by_cases hab : a = b
    · subst hab
      have ha := (List.getElem?_eq_some_iff.1 hm).1
      simp [List.getElem?_set, ha]
    · simp [List.getElem?_set, hab, Ne.symm hab]

/-! Allocation at the end of the heap. -/

theorem alloc_keyAt (mem : List Node) (nd : Node) (b : Nat) :
    keyAt (mem ++ [nd]) b = if b = mem.length then nd.key else keyAt mem b := by
  unfold keyAt
  rcases Nat.lt_trichotomy b mem.length with h | h | h
  · simp [List.getElem?_append_left h, Nat.ne_of_lt h]
  · subst h; simp
  · have h1 : mem.length ≤ b := Nat.le_of_lt h
    have h2 : (mem ++ [nd])[b]? = none := by
      apply List.getElem?_eq_none; simp; omega
    have h3 : mem[b]? = none := List.getElem?_eq_none h1
    simp [h2, h3, Nat.ne_of_gt h]

theorem alloc_valAt (mem : List Node) (nd : Node) (b : Nat) :
    valAt (mem ++ [nd]) b = if b = mem.length then nd.value else valAt mem b := by
  unfold valAt
  rcases Nat.lt_trichotomy b mem.length with h | h | h
  · simp [List.getElem?_append_left h, Nat.ne_of_lt h]
  · subst h; simp
  · have h1 : mem.length ≤ b := Nat.le_of_lt h
    have h2 : (mem ++ [nd])[b]? = none := by
      apply List.getElem?_eq_none; simp; omega
    have h3 : mem[b]? = none := List.getElem?_eq_none h1
    simp [h2, h3, Nat.ne_of_gt h]

theorem alloc_lenAt (mem : List Node) (nd : Node) (b : Nat) :
    lenAt (mem ++ [nd]) b = if b = mem.length then nd.next.length else lenAt mem b := by
  unfold lenAt
  rcases Nat.lt_trichotomy b mem.length with h | h | h
  · simp [List.getElem?_append_left h, Nat.ne_of_lt h]
  · subst h; simp
  · have h1 : mem.length ≤ b := Nat.le_of_lt h
    have h2 : (mem ++ [nd])[b]? = none := by
      apply List.getElem?_eq_none; simp; omega
    have h3 : mem[b]? = none := List.getElem?_eq_none h1
    simp [h2, h3, Nat.ne_of_gt h]

theorem alloc_nextAt (mem : List Node) (nd : Node) (b g : Nat) (hb : b < mem.length) :
    nextAt (mem ++ [nd]) b g = nextAt mem b g := by
  unfold nextAt
  simp [List.getElem?_append_left hb]

end Skiplist

namespace Skiplist

/-! ## Chains -/

theorem chain_append_right {mem : List Node} {h : Nat} :
    ∀ (A B : List Nat), Chain mem h (A ++ B) → Chain mem h B
  | [], _, hc => hc
  | _ :: A, B, hc => chain_append_right A B hc.2

theorem chain_congr {mem mem1 : List Node} {h : Nat} :
    ∀ (C : List Nat), (∀ a ∈ C, nextAt mem1 a h = nextAt mem a h) →
      Chain mem h C → Chain mem1 h C
  | [], _, _ => trivial
  | a :: rest, heq, hc =>
    ⟨by rw [heq a (List.mem_cons_self _ _)]; exact hc.1,
     chain_congr rest (fun b hb => heq b (List.mem_cons_of_mem _ hb)) hc.2⟩

/-- In a chain `A ++ c :: B`, the link of `c` is the first node of `B`. -/
theorem chain_next_mid {mem : List Node} {h : Nat} (A : List Nat) (c : Nat) (B : List Nat)
    (hc : Chain mem h (A ++ c :: B)) : nextAt mem c h = some B.head? :=
  (chain_append_right A (c :: B) hc).1

theorem chain_mem_lt {mem : List Node} {h : Nat} :
    ∀ (C : List Nat), Chain mem h C → ∀ a ∈ C, a < mem.length ∧ h < lenAt mem a
  | [], _, a, ha => by cases ha
  | b :: rest, hc, a, ha => by
    rcases List.mem_cons.1 ha with h1 | h1
    · subst h1; exact nextAt_some_lt hc.1
    · exact chain_mem_lt rest hc.2 a h1

/-- Linking a new node `nw` after `c`. -/
theorem chain_insert {mem mem1 : List Node} {h : Nat} (nw c : Nat) :
    ∀ (A B : List Nat), Chain mem h (A ++ c :: B) →
      (∀ a ∈ A ++ B, nextAt mem1 a h = nextAt mem a h) →
      nextAt mem1 c h = some (some nw) → nextAt mem1 nw h = some B.head? →
      Chain mem1 h (A ++ c :: nw :: B)
  | [], B, hc, heq, h1, h2 =>
    ⟨h1, h2, chain_congr B (fun a ha => heq a (by simpa using ha)) hc.2⟩
  | a :: A, B, hc, heq, h1, h2 => by
    refine ⟨?_, chain_insert nw c A B hc.2
      (fun b hb => heq b (List.mem_cons_of_mem _ hb)) h1 h2⟩
    rw [heq a (by simp)]
    have := hc.1
    cases A <;> simpa using this

/-- Unlinking the node `x` that follows `c`. -/
theorem chain_remove {mem mem1 : List Node} {h : Nat} (c x : Nat) :
    ∀ (A B : List Nat), Chain mem h (A ++ c :: x :: B) →
      (∀ a ∈ A ++ B, nextAt mem1 a h = nextAt mem a h) →
      nextAt mem1 c h = some B.head? →
      Chain mem1 h (A ++ c :: B)
  | [], B, hc, heq, h1 =>
    ⟨h1, chain_congr B (fun a ha => heq a (by simpa using ha)) hc.2.2⟩
  | a :: A, B, hc, heq, h1 => by
    refine ⟨?_, chain_remove c x A B hc.2
      (fun b hb => heq b (List.mem_cons_of_mem _ hb)) h1⟩
    rw [heq a (by simp)]
    have := hc.1
    cases A <;> simpa using this

/-! ## The inner walk -/

/-- The walk from `cur` along a chain `cur :: Y ++ Z` passes the nodes of `Y`, whose keys are
below `key`, and stops before `Z`, whose first key is not. -/
theorem walk_chain {mem : List Node} {key : K} {h : Nat} :
    ∀ (Y : List Nat) (Z : List Nat) (cur fuel : Nat),
      Chain mem h (cur :: Y ++ Z) →
      (∀ a ∈ Y, keyAt mem a < key) →
      (∀ z ∈ Z.head?, ¬ keyAt mem z < key) →
      Y.length < fuel →
      walk mem key h fuel cur = some ((cur :: Y).getLast (List.cons_ne_nil _ _))
  | [], Z, cur, fuel, hc, _, hz, hf => by
    obtain ⟨f, rfl⟩ : ∃ f, fuel = f + 1 := ⟨fuel - 1, by simp at hf; omega⟩
    have h1 : nextAt mem cur h = some Z.head? := hc.1
    unfold walk
    rw [h1]
    cases Z with
    | nil => simp
    | cons z Z =>
      have hzlt := (chain_mem_lt _ hc.2 z (by simp)).1
      have hk : ¬ keyAt mem z < key := hz z (by simp)
      unfold keyAt at hk
      rw [List.getElem?_eq_getElem hzlt] at hk
      simp only [List.head?_cons, List.getElem?_eq_getElem hzlt]
      simp only at hk
      simp [hk]
  | y :: Y, Z, cur, fuel, hc, hy, hz, hf => by
    obtain ⟨f, rfl⟩ : ∃ f, fuel = f + 1 := ⟨fuel - 1, by simp at hf; omega⟩
    have h1 : nextAt mem cur h = some (some y) := hc.1
    have hylt := (chain_mem_lt _ hc.2 y (by simp)).1
    have hk : keyAt mem y < key := hy y (by simp)
    unfold keyAt at hk
    rw [List.getElem?_eq_getElem hylt] at hk
    simp only at hk
    unfold walk
    rw [h1]
    simp only [List.getElem?_eq_getElem hylt, hk, if_true]
    rw [walk_chain Y Z y f hc.2 (fun a ha => hy a (List.mem_cons_of_mem _ ha)) hz
      (by simp at hf; omega)]
    simp [List.getLast_cons]

end Skiplist

namespace Skiplist

/-! ## Splitting the node list at a key -/

theorem below_append_notBelow (mem : List Node) (key : K) (l : List Nat) :
    below mem key l ++ notBelow mem key l = l :=
  List.takeWhile_append_dropWhile _ l

theorem below_lt {mem : List Node} {key : K} {l : List Nat} {a : Nat}
    (ha : a ∈ below mem key l) : keyAt mem a < key := by
  have := List.mem_takeWhile_imp ha
  simpa using this

theorem below_subset {mem : List Node} {key : K} {l : List Nat} {a : Nat}
    (ha : a ∈ below mem key l) : a ∈ l := by
  rw [← below_append_notBelow mem key l]; exact List.mem_append_left _ ha

theorem notBelow_subset {mem : List Node} {key : K} {l : List Nat} {a : Nat}
    (ha : a ∈ notBelow mem key l) : a ∈ l := by
  rw [← below_append_notBelow mem key l]; exact List.mem_append_right _ ha

theorem notBelow_head_ge {mem : List Node} {key : K} {l : List Nat} {x : Nat} {rest : List Nat}
    (hx : notBelow mem key l = x :: rest) : ¬ keyAt mem x < key := by
  have h1 : (notBelow mem key l).head? = some x := by rw [hx]; rfl
  unfold notBelow at h1
  have := List.head?_dropWhile_not (fun a => decide (keyAt mem a < key)) l
  rw [h1] at this
  simpa using this

theorem notBelow_sorted {mem : List Node} (key : K) {l : List Nat}
    (hs : l.Pairwise (fun a b => keyAt mem a < keyAt mem b)) :
    (notBelow mem key l).Pairwise (fun a b => keyAt mem a < keyAt mem b) :=
  hs.sublist (List.dropWhile_sublist _)

theorem notBelow_ge {mem : List Node} {key : K} {l : List Nat}
    (hs : l.Pairwise (fun a b => keyAt mem a < keyAt mem b)) {a : Nat}
    (ha : a ∈ notBelow mem key l) : ¬ keyAt mem a < key := by
  cases hx : notBelow mem key l with
  | nil => rw [hx] at ha; cases ha
  | cons x rest =>
    have h0 := notBelow_head_ge hx
    have h1 := notBelow_sorted key hs
    rw [hx] at ha h1
    rcases List.mem_cons.1 ha with h2 | h2
    · subst h2; exact h0
    · have := (List.pairwise_cons.1 h1).1 a h2
      exact fun hlt => h0 (lt_trans this hlt)

/-- With sorted keys, a node holding `key` is the target. -/
theorem target_of_mem {mem : List Node} {key : K} {l : List Nat}
    (hs : l.Pairwise (fun a b => keyAt mem a < keyAt mem b)) {a : Nat}
    (ha : a ∈ l) (hk : keyAt mem a = key) : target mem key l = some a := by
  have hmem : a ∈ notBelow mem key l := by
    rw [← below_append_notBelow mem key l] at ha
    rcases List.mem_append.1 ha with h1 | h1
    · exact absurd hk (ne_of_lt (below_lt h1))
    · exact h1
  unfold target
  cases hx : notBelow mem key l with
  | nil => rw [hx] at hmem; cases hmem
  | cons x rest =>
    have h0 := notBelow_head_ge hx
    have h1 := notBelow_sorted key hs
    rw [hx] at hmem h1
    rcases List.mem_cons.1 hmem with h2 | h2
    · subst h2; simp [hk]
    · have := (List.pairwise_cons.1 h1).1 a h2
      exact absurd (hk ▸ this) h0

theorem target_some {mem : List Node} {key : K} {l : List Nat} {a : Nat}
    (ht : target mem key l = some a) : a ∈ l ∧ keyAt mem a = key := by
  unfold target at ht
  cases hx : notBelow mem key l with
  | nil => rw [hx] at ht; cases ht
  | cons x rest =>
    rw [hx] at ht
    simp only at ht
    split at ht
    · cases ht
      exact ⟨notBelow_subset (by rw [hx]; simp), by assumption⟩
    · cases ht

theorem target_none {mem : List Node} {key : K} {l : List Nat}
    (hs : l.Pairwise (fun a b => keyAt mem a < keyAt mem b))
    (ht : target mem key l = none) : ∀ a ∈ l, keyAt mem a ≠ key := by
  intro a ha hk
  rw [target_of_mem hs ha hk] at ht
  cases ht

/-- A duplicate-free list of addresses of a heap is no longer than the heap. -/
theorem nodup_length_le {l : List Nat} {n : Nat} (hn : l.Nodup) (hb : ∀ a ∈ l, a < n) :
    l.length ≤ n := by
  have hsub : l ⊆ List.range n := fun a ha => List.mem_range.2 (hb a ha)
  have := (List.subperm_of_subset hn hsub).length_le
  simpa using this

theorem atLevel_append (mem : List Node) (h : Nat) (A B : List Nat) :
    atLevel mem h (A ++ B) = atLevel mem h A ++ atLevel mem h B :=
  List.filter_append _ _

theorem mem_atLevel {mem : List Node} {h : Nat} {l : List Nat} {a : Nat} :
    a ∈ atLevel mem h l ↔ a ∈ l ∧ h < lenAt mem a := by
  unfold atLevel; simp

theorem atLevel_sublist (mem : List Node) (h : Nat) (l : List Nat) :
    (atLevel mem h l).Sublist l := List.filter_sublist _

theorem atLevel_zero {mem : List Node} {l : List Nat} (hp : ∀ a ∈ l, 1 ≤ lenAt mem a) :
    atLevel mem 0 l = l := by
  unfold atLevel
  apply List.filter_eq_self.2
  intro a ha
  have := hp a ha
  simp; omega

/-- The level-`h` chain of a represented list, split at `key`. -/
theorem atLevel_head {mem : List Node} {head : Nat} (hl : maxLevel + 1 ≤ lenAt mem head)
    {h : Nat} (hh : h ≤ maxLevel) (l : List Nat) :
    atLevel mem h (head :: l) = head :: atLevel mem h l := by
  unfold atLevel
  rw [List.filter_cons_of_pos]
  simp; omega

theorem Shape.chain_split {mem : List Node} {head : Nat} {l : List Nat} (hr : Shape mem head l)
    (key : K) {h : Nat} (hh : h ≤ maxLevel) (hch : Chain mem h (atLevel mem h (head :: l))) :
    Chain mem h ((head :: atLevel mem h (below mem key l)) ++ atLevel mem h (notBelow mem key l)) := by
  have h1 := hch
  have h2 : atLevel mem h (head :: l) = head :: atLevel mem h l := by
    unfold atLevel
    rw [List.filter_cons_of_pos]
    have := hr.headLen
    simp; omega
  rw [h2] at h1
  have h3 : atLevel mem h l = atLevel mem h (below mem key l) ++ atLevel mem h (notBelow mem key l) := by
    rw [← atLevel_append, below_append_notBelow]
  rw [h3] at h1
  exact h1

theorem Shape.split_length {mem : List Node} {head : Nat} {l : List Nat} (hr : Shape mem head l)
    (key : K) (h : Nat) :
    (head :: atLevel mem h (below mem key l)).length ≤ mem.length := by
  have h1 : (head :: atLevel mem h (below mem key l)).Sublist (head :: l) := by
    apply List.Sublist.cons₂
    exact (atLevel_sublist _ _ _).trans (List.takeWhile_sublist _)
  have h2 := nodup_length_le hr.nodup hr.bound
  exact le_trans h1.length_le h2

/-- The walk on level `h` from any node before `key` on that level stops at `stopAt`. -/
theorem Shape.walk_eq {mem : List Node} {head : Nat} {l : List Nat} (hr : Shape mem head l)
    (key : K) {h : Nat} (hh : h ≤ maxLevel) (hch : Chain mem h (atLevel mem h (head :: l)))
    {cur : Nat} (hcur : cur ∈ head :: atLevel mem h (below mem key l)) :
    walk mem key h mem.length cur = some (stopAt mem key head l h) := by
  obtain ⟨X, Y, hXY⟩ := List.append_of_mem hcur
  have hc := hr.chain_split key hh hch
  rw [hXY] at hc
  have hc2 : Chain mem h (cur :: Y ++ atLevel mem h (notBelow mem key l)) := by
    have := chain_append_right X _ (by simpa using hc)
    simpa using this
  have hY : ∀ a ∈ Y, keyAt mem a < key := by
    intro a ha
    have h1 : a ∈ head :: atLevel mem h (below mem key l) := by rw [hXY]; simp [ha]
    have h2 : a ≠ head := by
      intro he
      have hnd : (head :: atLevel mem h (below mem key l)).Nodup :=
        hr.nodup.sublist (List.Sublist.cons₂ _
          ((atLevel_sublist _ _ _).trans (List.takeWhile_sublist _)))
      rw [hXY] at hnd
      cases X with
      | nil =>
        have hc1 : head = cur := by simpa using congrArg List.head? hXY
        exact (List.nodup_cons.1 hnd).1 (hc1 ▸ he ▸ ha)
      | cons x X =>
        have hc1 : head = x := by simpa using congrArg List.head? hXY
        have h4 : a ∈ X ++ cur :: Y := by simp [ha]
        exact (List.nodup_cons.1 hnd).1 (hc1 ▸ he ▸ h4)
    rcases List.mem_cons.1 h1 with h3 | h3
    · exact absurd h3 h2
    · exact below_lt (mem_atLevel.1 h3).1
  have hZ : ∀ z ∈ (atLevel mem h (notBelow mem key l)).head?, ¬ keyAt mem z < key := by
    intro z hz
    have h1 : z ∈ atLevel mem h (notBelow mem key l) := List.mem_of_mem_head? hz
    exact notBelow_ge hr.sorted (mem_atLevel.1 h1).1
  have hlen : Y.length < mem.length := by
    have := hr.split_length key h
    rw [hXY] at this
    simp at this
    omega
  rw [walk_chain Y _ cur mem.length hc2 hY hZ hlen]
  unfold stopAt
  congr 1
  simp only [hXY]
  rw [List.getLast_append_of_ne_nil (List.cons_ne_nil _ _)]

end Skiplist

namespace Skiplist

/-! ## The search -/

theorem stopAt_mem (mem : List Node) (key : K) (head : Nat) (l : List Nat) (h : Nat) :
    stopAt mem key head l h ∈ head :: atLevel mem h (below mem key l) :=
  List.getLast_mem _

theorem mem_level_down {mem : List Node} {key : K} {head : Nat} {l : List Nat} {h : Nat} {a : Nat}
    (ha : a ∈ head :: atLevel mem (h + 1) (below mem key l)) :
    a ∈ head :: atLevel mem h (below mem key l) := by
  rcases List.mem_cons.1 ha with h1 | h1
  · exact List.mem_cons.2 (Or.inl h1)
  · have := mem_atLevel.1 h1
    exact List.mem_cons.2 (Or.inr (mem_atLevel.2 ⟨this.1, by omega⟩))

theorem Shape.stopAt_lt {mem : List Node} {head : Nat} {l : List Nat} (hr : Shape mem head l)
    (key : K) (h : Nat) : stopAt mem key head l h < mem.length := by
  have := stopAt_mem mem key head l h
  rcases List.mem_cons.1 this with h1 | h1
  · rw [h1]; exact hr.bound head (by simp)
  · exact hr.bound _ (List.mem_cons_of_mem _ (below_subset (mem_atLevel.1 h1).1))

/-- The link of the stopping node on level `h` is the first node not below `key` on it. -/
theorem Shape.stopAt_next {mem : List Node} {head : Nat} {l : List Nat} (hr : Shape mem head l)
    (key : K) {h : Nat} (hh : h ≤ maxLevel) (hch : Chain mem h (atLevel mem h (head :: l))) :
    nextAt mem (stopAt mem key head l h) h
      = some (atLevel mem h (notBelow mem key l)).head? := by
  have hc := hr.chain_split key hh hch
  have hsplit := List.dropLast_append_getLast
    (List.cons_ne_nil head (atLevel mem h (below mem key l)))
  rw [← hsplit] at hc
  have := chain_next_mid (List.dropLast (head :: atLevel mem h (below mem key l)))
    (stopAt mem key head l h) (atLevel mem h (notBelow mem key l))
    (by simpa [stopAt] using hc)
  exact this

/-- On a represented list the key test after the walk finds the target or nothing. -/
theorem Shape.hitAt_eq {mem : List Node} {head : Nat} {l : List Nat} (hr : Shape mem head l)
    (key : K) {h : Nat} (hh : h ≤ maxLevel) (hch : Chain mem h (atLevel mem h (head :: l))) :
    hitAt mem key h (stopAt mem key head l h) = some (target mem key l) ∨
    (hitAt mem key h (stopAt mem key head l h) = some none ∧
      (h = 0 → target mem key l = none)) := by
  unfold hitAt
  rw [hr.stopAt_next key hh hch]
  cases hz : (atLevel mem h (notBelow mem key l)).head? with
  | none =>
    right
    refine ⟨rfl, ?_⟩
    intro h0
    subst h0
    have hp : ∀ a ∈ notBelow mem key l, 1 ≤ lenAt mem a :=
      fun a ha => (hr.lenPos a (notBelow_subset ha)).1
    rw [atLevel_zero hp] at hz
    unfold target
    cases hx : notBelow mem key l with
    | nil => rfl
    | cons x rest => rw [hx] at hz; cases hz
  | some nx =>
    have hnx : nx ∈ atLevel mem h (notBelow mem key l) := List.mem_of_mem_head? hz
    have hnx2 : nx ∈ notBelow mem key l := (mem_atLevel.1 hnx).1
    have hlt : nx < mem.length := hr.bound nx (List.mem_cons_of_mem _ (notBelow_subset hnx2))
    simp only [List.getElem?_eq_getElem hlt]
    have hkey : keyAt mem nx = mem[nx].key := by
      unfold keyAt; rw [List.getElem?_eq_getElem hlt]
    rw [← hkey]
    by_cases hk : keyAt mem nx = key
    · left
      simp only [hk, if_true]
      rw [target_of_mem hr.sorted (notBelow_subset hnx2) hk]
    · right
      simp only [hk, if_false]
      refine ⟨trivial, ?_⟩
      intro h0
      subst h0
      have hp : ∀ a ∈ notBelow mem key l, 1 ≤ lenAt mem a :=
        fun a ha => (hr.lenPos a (notBelow_subset ha)).1
      rw [atLevel_zero hp] at hz
      unfold target
      cases hx : notBelow mem key l with
      | nil => rfl
      | cons x rest =>
        rw [hx] at hz
        simp at hz
        subst hz
        simp [hk]

/-- The descent of `find` from level `h` returns the node that holds `key`, or nil. -/
theorem Rep.findFrom_eq {mem : List Node} {head : Nat} {l : List Nat} (hr : Rep mem head l)
    (key : K) : ∀ (h : Nat), h ≤ maxLevel → ∀ (cur : Nat),
      cur ∈ head :: atLevel mem h (below mem key l) →
      findFrom mem key h cur = some (target mem key l)
  | 0, hh, cur, hcur => by
    unfold findFrom
    rw [hr.toShape.walk_eq key hh (hr.chain _) hcur]
    simp only
    rcases hr.toShape.hitAt_eq key hh (hr.chain _) with h1 | ⟨h1, h2⟩
    · exact h1
    · rw [h1, h2 rfl]
  | h + 1, hh, cur, hcur => by
    unfold findFrom
    rw [hr.toShape.walk_eq key hh (hr.chain _) hcur]
    simp only
    rcases hr.toShape.hitAt_eq key hh (hr.chain _) with h1 | ⟨h1, _⟩
    · rw [h1]
      cases ht : target mem key l with
      | none =>
        simp only
        exact ht ▸ hr.findFrom_eq key h (by omega) _ (mem_level_down (stopAt_mem _ _ _ _ _))
      | some x => rfl
    · rw [h1]
      simp only
      exact hr.findFrom_eq key h (by omega) _ (mem_level_down (stopAt_mem _ _ _ _ _))

end Skiplist

namespace Skiplist

/-! ## Heaps with the same node data -/

theorem SameData.refl (m : List Node) : SameData m m := ⟨rfl, rfl, rfl, rfl⟩

theorem SameData.trans {m m1 m2 : List Node} (h1 : SameData m m1) (h2 : SameData m1 m2) :
    SameData m m2 :=
  ⟨h1.length.trans h2.length, h1.key.trans h2.key, h1.val.trans h2.val, h1.len.trans h2.len⟩

theorem SameData.of_setNext {mem mem1 : List Node} {a h : Nat} {p : Ptr}
    (hs : setNext mem a h p = some mem1) : SameData mem1 mem :=
  ⟨setNext_length hs, funext (setNext_keyAt hs), funext (setNext_valAt hs),
    funext (setNext_lenAt hs)⟩

theorem SameData.below {m m1 : List Node} (hd : SameData m m1) (key : K) (l : List Nat) :
    below m key l = below m1 key l := by unfold Skiplist.below; rw [hd.key]

theorem SameData.notBelow {m m1 : List Node} (hd : SameData m m1) (key : K) (l : List Nat) :
    notBelow m key l = notBelow m1 key l := by unfold Skiplist.notBelow; rw [hd.key]

theorem SameData.atLevel {m m1 : List Node} (hd : SameData m m1) (h : Nat) (l : List Nat) :
    atLevel m h l = atLevel m1 h l := by unfold Skiplist.atLevel; rw [hd.len]

theorem SameData.stopAt {m m1 : List Node} (hd : SameData m m1) (key : K) (head : Nat)
    (l : List Nat) (h : Nat) : stopAt m key head l h = stopAt m1 key head l h := by
  unfold Skiplist.stopAt; simp only [hd.below, hd.atLevel]

theorem SameData.target {m m1 : List Node} (hd : SameData m m1) (key : K) (l : List Nat) :
    target m key l = target m1 key l := by
  unfold Skiplist.target; rw [hd.notBelow, hd.key]

theorem SameData.withNew {m m1 : List Node} (hd : SameData m m1) (key : K) (nw : Nat)
    (l : List Nat) : withNew m key nw l = withNew m1 key nw l := by
  unfold Skiplist.withNew; rw [hd.below, hd.notBelow]

theorem Shape.of_same {m m1 : List Node} {head : Nat} {l : List Nat} (hs : Shape m1 head l)
    (hd : SameData m m1) : Shape m head l :=
  ⟨hs.nodup, fun a ha => hd.length ▸ hs.bound a ha, by rw [hd.len]; exact hs.headLen, by rw [hd.len]; exact hs.headLe,
    by rw [hd.len]; exact hs.lenPos, by rw [hd.key]; exact hs.sorted⟩

/-! ## One level of the splice -/

theorem atLevel_withNew_of_le {m : List Node} {key : K} {nw h lvl : Nat} (l : List Nat)
    (hlen : lenAt m nw = lvl + 1) (hle : h ≤ lvl) :
    atLevel m h (withNew m key nw l)
      = atLevel m h (below m key l) ++ nw :: atLevel m h (notBelow m key l) := by
  unfold withNew
  rw [atLevel_append]
  congr 1
  unfold atLevel
  rw [List.filter_cons_of_pos]
  simp; omega

theorem atLevel_withNew_of_gt {m : List Node} {key : K} {nw h lvl : Nat} (l : List Nat)
    (hlen : lenAt m nw = lvl + 1) (hgt : lvl < h) :
    atLevel m h (withNew m key nw l) = atLevel m h l := by
  unfold withNew
  rw [atLevel_append]
  have : atLevel m h (nw :: notBelow m key l) = atLevel m h (notBelow m key l) := by
    unfold atLevel
    rw [List.filter_cons_of_neg]
    simp; omega
  rw [this, ← atLevel_append, below_append_notBelow]

theorem Shape.spliceLevel_eq {m : List Node} {head : Nat} {l : List Nat} (hs : Shape m head l)
    (key : K) {lvl nw h : Nat} (hh : h ≤ maxLevel)
    (hch : Chain m h (atLevel m h (head :: l)))
    (hnw : nw ∉ head :: l) (hnwlt : nw < m.length) (hnwlen : lenAt m nw = lvl + 1)
    (cur : Nat) (hcur : cur ∈ head :: atLevel m h (below m key l)) :
    ∃ m1, spliceLevel m key lvl nw h cur = some (m1, stopAt m key head l h) ∧ SameData m1 m ∧
      (∀ b g, g ≠ h → nextAt m1 b g = nextAt m b g) ∧
      Chain m1 h (atLevel m h (head :: withNew m key nw l)) := by
  unfold spliceLevel
  rw [hs.walk_eq key hh hch hcur]
  simp only
  by_cases hle : h ≤ lvl
  · simp only [hle, if_true]
    rw [hs.stopAt_next key hh hch]
    simp only
    obtain ⟨m1, hm1⟩ := setNext_isSome (atLevel m h (notBelow m key l)).head? hnwlt
      (by omega : h < lenAt m nw)
    rw [hm1]
    simp only
    have hclt : stopAt m key head l h < m1.length := by
      rw [setNext_length hm1]; exact hs.stopAt_lt key h
    have hmemc := stopAt_mem m key head l h
    have hclen : h < lenAt m1 (stopAt m key head l h) := by
      rw [setNext_lenAt hm1]
      rcases List.mem_cons.1 hmemc with h1 | h1
      · rw [h1]; have := hs.headLen; omega
      · exact (mem_atLevel.1 h1).2
    obtain ⟨m2, hm2⟩ := setNext_isSome (some nw) hclt hclen
    rw [hm2]
    refine ⟨m2, rfl, (SameData.of_setNext hm2).trans (SameData.of_setNext hm1), ?_, ?_⟩
    · intro b g hg
      rw [setNext_nextAt_other hm2 b g (Or.inr hg), setNext_nextAt_other hm1 b g (Or.inr hg)]
    · rw [atLevel_head hs.headLen hh, atLevel_withNew_of_le l hnwlen hle]
      have hsplit := List.dropLast_append_getLast
        (List.cons_ne_nil head (atLevel m h (below m key l)))
      have hc0 := hs.chain_split key hh hch
      have hnd : ((head :: atLevel m h (below m key l)) ++ atLevel m h (notBelow m key l)).Nodup := by
        have h1 : ((head :: atLevel m h (below m key l)) ++ atLevel m h (notBelow m key l))
            = atLevel m h (head :: l) := by
          rw [atLevel_head hs.headLen hh, List.cons_append, ← atLevel_append,
            below_append_notBelow]
        rw [h1]
        exact hs.nodup.sublist (atLevel_sublist _ _ _)
      have hsub : ∀ a ∈ (head :: atLevel m h (below m key l)) ++ atLevel m h (notBelow m key l),
          a ∈ head :: l := by
        intro a ha
        rcases List.mem_append.1 ha with h1 | h1
        · rcases List.mem_cons.1 h1 with h2 | h2
          · simp [h2]
          · exact List.mem_cons_of_mem _ (below_subset (mem_atLevel.1 h2).1)
        · exact List.mem_cons_of_mem _ (notBelow_subset (mem_atLevel.1 h1).1)
      rw [← hsplit] at hc0 hnd hsub
      have hc1 : Chain m h ((head :: atLevel m h (below m key l)).dropLast ++
          stopAt m key head l h :: atLevel m h (notBelow m key l)) := by
        simpa [stopAt] using hc0
      have hnd1 : ((head :: atLevel m h (below m key l)).dropLast ++
          stopAt m key head l h :: atLevel m h (notBelow m key l)).Nodup := by
        simpa [stopAt] using hnd
      have hsub1 : ∀ a ∈ (head :: atLevel m h (below m key l)).dropLast ++
          stopAt m key head l h :: atLevel m h (notBelow m key l), a ∈ head :: l := by
        intro a ha
        apply hsub a
        simpa [stopAt] using ha
      have hgoal := @chain_insert m m2 h nw (stopAt m key head l h)
        ((head :: atLevel m h (below m key l)).dropLast) (atLevel m h (notBelow m key l)) hc1
        (by
          intro a ha
          have hane : a ≠ stopAt m key head l h := by
            intro he
            subst he
            have := List.nodup_append.1 hnd1
            rcases List.mem_append.1 ha with h1 | h1
            · exact this.2.2 h1 (List.mem_cons_self _ _) 
            · exact (List.nodup_cons.1 this.2.1).1 h1
          have hanw : a ≠ nw := by
            intro he
            subst he
            apply hnw
            apply hsub1
            rcases List.mem_append.1 ha with h1 | h1
            · exact List.mem_append_left _ h1
            · exact List.mem_append_right _ (List.mem_cons_of_mem _ h1)
          rw [setNext_nextAt_other hm2 a h (Or.inl hane),
            setNext_nextAt_other hm1 a h (Or.inl hanw)])
        (setNext_nextAt_same hm2)
        (by
          have hne : nw ≠ stopAt m key head l h := by
            intro he
            apply hnw
            apply hsub1
            rw [he]
            exact List.mem_append_right _ (List.mem_cons_self _ _)
          rw [setNext_nextAt_other hm2 nw h (Or.inl hne)]
          exact setNext_nextAt_same hm1)
      have hfin : (head :: atLevel m h (below m key l)).dropLast ++
          stopAt m key head l h :: nw :: atLevel m h (notBelow m key l)
          = head :: (atLevel m h (below m key l) ++ nw :: atLevel m h (notBelow m key l)) := by
        have : (head :: atLevel m h (below m key l)).dropLast ++
            [stopAt m key head l h] = head :: atLevel m h (below m key l) := by
          simpa [stopAt] using hsplit
        calc (head :: atLevel m h (below m key l)).dropLast ++
              stopAt m key head l h :: nw :: atLevel m h (notBelow m key l)
            = ((head :: atLevel m h (below m key l)).dropLast ++ [stopAt m key head l h])
                ++ nw :: atLevel m h (notBelow m key l) := by simp
          _ = _ := by rw [this]; simp
      rw [← hfin]
      exact hgoal
  · simp only [hle, if_false]
    refine ⟨m, rfl, SameData.refl m, fun _ _ _ => rfl, ?_⟩
    rw [atLevel_head hs.headLen hh, atLevel_withNew_of_gt l hnwlen (by omega),
      ← atLevel_head hs.headLen hh]
    exact hch

end Skiplist

namespace Skiplist

/-! ## The splice loop -/

theorem spliceFrom_eq {m0 : List Node} {head : Nat} {l : List Nat} (hs0 : Shape m0 head l)
    (key : K) {lvl nw : Nat} (hnw : nw ∉ head :: l) (hnwlt : nw < m0.length)
    (hnwlen : lenAt m0 nw = lvl + 1) :
    ∀ (h : Nat), h ≤ maxLevel → ∀ (m : List Node) (cur : Nat), SameData m m0 →
      (∀ g, g ≤ h → Chain m g (atLevel m0 g (head :: l))) →
      cur ∈ head :: atLevel m0 h (below m0 key l) →
      ∃ m2, spliceFrom key lvl nw h m cur = some m2 ∧ SameData m2 m0 ∧
        (∀ b g, h < g → nextAt m2 b g = nextAt m b g) ∧
        (∀ g, g ≤ h → Chain m2 g (atLevel m0 g (head :: withNew m0 key nw l)))
  | 0, hh, m, cur, hd, hch, hcur => by
    have hs : Shape m head l := hs0.of_same hd
    obtain ⟨m1, h1, h2, h3, h4⟩ := hs.spliceLevel_eq key hh
      (by rw [hd.atLevel]; exact hch 0 (le_refl _)) hnw (hd.length ▸ hnwlt)
      (by rw [hd.len]; exact hnwlen) cur
      (by rw [hd.atLevel, hd.below]; exact hcur)
    unfold spliceFrom
    rw [h1]
    refine ⟨m1, rfl, h2.trans hd, ?_, ?_⟩
    · intro b g hg
      exact h3 b g (by omega)
    · intro g hg
      have : g = 0 := by omega
      subst this
      rw [hd.atLevel, hd.withNew] at h4
      exact h4
  | h + 1, hh, m, cur, hd, hch, hcur => by
    have hs : Shape m head l := hs0.of_same hd
    obtain ⟨m1, h1, h2, h3, h4⟩ := hs.spliceLevel_eq key hh
      (by rw [hd.atLevel]; exact hch (h + 1) (le_refl _)) hnw (hd.length ▸ hnwlt)
      (by rw [hd.len]; exact hnwlen) cur
      (by rw [hd.atLevel, hd.below]; exact hcur)
    unfold spliceFrom
    rw [h1]
    simp only
    have hd1 : SameData m1 m0 := h2.trans hd
    obtain ⟨m2, g1, g2, g3, g4⟩ := spliceFrom_eq hs0 key hnw hnwlt hnwlen h (by omega) m1
      (stopAt m key head l (h + 1)) hd1
      (fun g hg => chain_congr _ (fun b _ => h3 b g (by omega)) (hch g (by omega)))
      (by
        rw [hd.stopAt]
        exact mem_level_down (stopAt_mem _ _ _ _ _))
    refine ⟨m2, g1, g2, ?_, ?_⟩
    · intro b g hg
      rw [g3 b g (by omega), h3 b g (by omega)]
    · intro g hg
      by_cases hgh : g ≤ h
      · exact g4 g hgh
      · have : g = h + 1 := by omega
        subst this
        rw [hd.atLevel, hd.withNew] at h4
        exact chain_congr _ (fun b _ => g3 b (h + 1) (by omega)) h4

/-! ## Heaps that agree on the nodes of a list -/

theorem below_congr {m m1 : List Node} (key : K) :
    ∀ (l : List Nat), (∀ a ∈ l, keyAt m a = keyAt m1 a) → below m key l = below m1 key l
  | [], _ => rfl
  | a :: l, h => by
    unfold below
    simp only [List.takeWhile_cons, h a (List.mem_cons_self _ _)]
    have := below_congr key l (fun b hb => h b (List.mem_cons_of_mem _ hb))
    unfold below at this
    rw [this]

theorem notBelow_congr {m m1 : List Node} (key : K) :
    ∀ (l : List Nat), (∀ a ∈ l, keyAt m a = keyAt m1 a) → notBelow m key l = notBelow m1 key l
  | [], _ => rfl
  | a :: l, h => by
    unfold notBelow
    simp only [List.dropWhile_cons, h a (List.mem_cons_self _ _)]
    have := notBelow_congr key l (fun b hb => h b (List.mem_cons_of_mem _ hb))
    unfold notBelow at this
    rw [this]

theorem atLevel_congr {m m1 : List Node} (h : Nat) (l : List Nat)
    (hl : ∀ a ∈ l, lenAt m a = lenAt m1 a) : atLevel m h l = atLevel m1 h l := by
  unfold atLevel
  apply List.filter_congr
  intro a ha
  rw [hl a ha]

theorem target_congr {m m1 : List Node} (key : K) (l : List Nat)
    (hk : ∀ a ∈ l, keyAt m a = keyAt m1 a) : target m key l = target m1 key l := by
  unfold target
  rw [notBelow_congr key l hk]
  cases hx : notBelow m1 key l with
  | nil => rfl
  | cons x rest =>
    simp only
    rw [hk x (notBelow_subset (by rw [hx]; simp))]

theorem withNew_congr {m m1 : List Node} (key : K) (nw : Nat) (l : List Nat)
    (hk : ∀ a ∈ l, keyAt m a = keyAt m1 a) : withNew m key nw l = withNew m1 key nw l := by
  unfold withNew
  rw [below_congr key l hk, notBelow_congr key l hk]

/-- A shape carries over to a heap that is at least as large and agrees on the nodes. -/
theorem Shape.congr {m m1 : List Node} {head : Nat} {l : List Nat} (hs : Shape m head l)
    (hlen : m.length ≤ m1.length)
    (hk : ∀ a ∈ l, keyAt m1 a = keyAt m a)
    (hl : ∀ a ∈ head :: l, lenAt m1 a = lenAt m a) : Shape m1 head l := by
  refine ⟨hs.nodup, fun a ha => lt_of_lt_of_le (hs.bound a ha) hlen, ?_, ?_, ?_, ?_⟩
  · rw [hl head (by simp)]; exact hs.headLen
  · rw [hl head (by simp)]; exact hs.headLe
  · intro a ha
    rw [hl a (List.mem_cons_of_mem _ ha)]
    exact hs.lenPos a ha
  · refine hs.sorted.imp_of_mem ?_
    intro a b ha hb hab
    rw [hk a ha, hk b hb]
    exact hab

theorem withNew_perm (m : List Node) (key : K) (nw : Nat) (l : List Nat) :
    (withNew m key nw l).Perm (nw :: l) := by
  unfold withNew
  have h1 : (below m key l ++ nw :: notBelow m key l).Perm
      (nw :: (below m key l ++ notBelow m key l)) := List.perm_middle
  rw [below_append_notBelow] at h1
  exact h1

theorem mem_withNew {m : List Node} {key : K} {nw : Nat} {l : List Nat} {a : Nat} :
    a ∈ withNew m key nw l ↔ a = nw ∨ a ∈ l := by
  rw [(withNew_perm m key nw l).mem_iff]
  simp

end Skiplist

namespace Skiplist

/-! ## Insertion of a new node keeps the representation -/

theorem withNew_sorted {m : List Node} {key : K} {nw : Nat} {l : List Nat}
    (hs : l.Pairwise (fun a b => keyAt m a < keyAt m b))
    (hk : keyAt m nw = key) (habs : ∀ a ∈ l, keyAt m a ≠ key) :
    (withNew m key nw l).Pairwise (fun a b => keyAt m a < keyAt m b) := by
  unfold withNew
  have hl := below_append_notBelow m key l
  have hs2 := hs
  rw [← hl] at hs2
  have h3 := List.pairwise_append.1 hs2
  have hgt : ∀ b ∈ notBelow m key l, key < keyAt m b := by
    intro b hb
    have h1 := notBelow_ge hs hb
    have h2 := habs b (notBelow_subset hb)
    exact lt_of_le_of_ne (not_lt.1 h1) (Ne.symm h2)
  refine List.pairwise_append.2 ⟨h3.1, ?_, ?_⟩
  · refine List.pairwise_cons.2 ⟨?_, h3.2.1⟩
    intro b hb
    rw [hk]; exact hgt b hb
  · intro a ha b hb
    rcases List.mem_cons.1 hb with h4 | h4
    · rw [h4, hk]; exact below_lt ha
    · exact h3.2.2 a ha b h4

theorem Rep.insert_rep {mem : List Node} {head : Nat} {l : List Nat} (hr : Rep mem head l)
    (key : K) (value : V) {lvl top : Nat} (hlvl : lvl ≤ top) (htop : top ≤ maxLevel)
    (habs : target mem key l = none) :
    ∃ m2, spliceFrom key lvl mem.length top (mem ++ [newNode key value lvl]) head = some m2 ∧
      Rep m2 head (withNew mem key mem.length l) ∧
      m2.length = mem.length + 1 ∧
      (∀ a, keyAt m2 a = if a = mem.length then key else keyAt mem a) ∧
      (∀ a, valAt m2 a = if a = mem.length then value else valAt mem a) ∧
      (∀ a, lenAt m2 a = if a = mem.length then lvl + 1 else lenAt mem a) := by
  have hne : ∀ a ∈ head :: l, a ≠ mem.length := fun a ha => Nat.ne_of_lt (hr.bound a ha)
  have hnw : mem.length ∉ head :: l := fun hm => hne _ hm rfl
  have hk0 : ∀ a ∈ head :: l, keyAt (mem ++ [newNode key value lvl]) a = keyAt mem a := by
    intro a ha; rw [alloc_keyAt]; simp [hne a ha]
  have hl0 : ∀ a ∈ head :: l, lenAt (mem ++ [newNode key value lvl]) a = lenAt mem a := by
    intro a ha; rw [alloc_lenAt]; simp [hne a ha]
  have hs0 : Shape (mem ++ [newNode key value lvl]) head l :=
    hr.toShape.congr (by simp) (fun a ha => hk0 a (List.mem_cons_of_mem _ ha)) hl0
  have hnwlen : lenAt (mem ++ [newNode key value lvl]) mem.length = lvl + 1 := by
    rw [alloc_lenAt]; simp [newNode]
  have hnwkey : keyAt (mem ++ [newNode key value lvl]) mem.length = key := by
    rw [alloc_keyAt]; simp [newNode]
  have hch0 : ∀ g, Chain (mem ++ [newNode key value lvl]) g
      (atLevel (mem ++ [newNode key value lvl]) g (head :: l)) := by
    intro g
    rw [atLevel_congr g _ hl0]
    refine chain_congr _ ?_ (hr.chain g)
    intro a ha
    exact alloc_nextAt mem _ a g (hr.bound a (mem_atLevel.1 ha).1)
  obtain ⟨m2, h1, h2, h3, h4⟩ := spliceFrom_eq hs0 key hnw (by simp) hnwlen top htop
    (mem ++ [newNode key value lvl]) head (SameData.refl _) (fun g _ => hch0 g) (by simp)
  have hwn : withNew mem key mem.length l
      = withNew (mem ++ [newNode key value lvl]) key mem.length l :=
    (withNew_congr key _ l (fun a ha => hk0 a (List.mem_cons_of_mem _ ha))).symm
  have hkey : ∀ a, keyAt m2 a = if a = mem.length then key else keyAt mem a := by
    intro a; rw [h2.key, alloc_keyAt]; simp [newNode]
  have hval : ∀ a, valAt m2 a = if a = mem.length then value else valAt mem a := by
    intro a; rw [h2.val, alloc_valAt]; simp [newNode]
  have hlen : ∀ a, lenAt m2 a = if a = mem.length then lvl + 1 else lenAt mem a := by
    intro a; rw [h2.len, alloc_lenAt]; simp [newNode]
  have hlength : m2.length = mem.length + 1 := by rw [h2.length]; simp
  refine ⟨m2, h1, ?_, hlength, hkey, hval, hlen⟩
  rw [hwn]
  have hshape : Shape m2 head (withNew (mem ++ [newNode key value lvl]) key mem.length l) := by
    refine ⟨?_, ?_, ?_, ?_, ?_, ?_⟩
    · have hp : (head :: withNew (mem ++ [newNode key value lvl]) key mem.length l).Perm
          (mem.length :: head :: l) :=
        ((withNew_perm _ key mem.length l).cons head).trans (List.Perm.swap _ _ _)
      exact hp.nodup_iff.2 (List.nodup_cons.2 ⟨hnw, hr.nodup⟩)
    · intro a ha
      rw [hlength]
      rcases List.mem_cons.1 ha with h5 | h5
      · rw [h5]; exact Nat.lt_succ_of_lt (hr.bound head (by simp))
      · rcases mem_withNew.1 h5 with h6 | h6
        · omega
        · exact Nat.lt_succ_of_lt (hr.bound a (List.mem_cons_of_mem _ h6))
    · rw [hlen]; simp [hne head (by simp)]; exact hr.headLen
    · rw [hlen]; simp [hne head (by simp)]; exact hr.headLe
    · intro a ha
      rw [hlen]
      rcases mem_withNew.1 ha with h6 | h6
      · simp [h6]; omega
      · simp [hne a (List.mem_cons_of_mem _ h6)]; exact hr.lenPos a h6
    · rw [h2.key]
      refine withNew_sorted hs0.sorted hnwkey ?_
      intro a ha
      rw [hk0 a (List.mem_cons_of_mem _ ha)]
      exact target_none hr.sorted habs a ha
  refine ⟨hshape, ?_⟩
  intro g
  rw [h2.atLevel]
  by_cases hg : g ≤ top
  · exact h4 g hg
  · have hgl : lvl < g := by omega
    have hat : atLevel (mem ++ [newNode key value lvl]) g
        (head :: withNew (mem ++ [newNode key value lvl]) key mem.length l)
        = atLevel (mem ++ [newNode key value lvl]) g (head :: l) := by
      unfold atLevel
      simp only [List.filter_cons]
      have := @atLevel_withNew_of_gt (mem ++ [newNode key value lvl]) key mem.length g lvl l hnwlen hgl
      unfold atLevel at this
      rw [this]
    rw [hat]
    exact chain_congr _ (fun b _ => h3 b g (by omega)) (hch0 g)

end Skiplist

namespace Skiplist

/-! ## Unlinking -/

theorem dropKey_of_absent {m : List Node} {key : K} {l : List Nat}
    (habs : ∀ a ∈ l, keyAt m a ≠ key) : dropKey m key l = l := by
  unfold dropKey
  apply List.filter_eq_self.2
  intro a ha
  simpa using habs a ha

theorem dropKey_of_target {m : List Node} {key : K} {l : List Nat}
    (hs : l.Pairwise (fun a b => keyAt m a < keyAt m b)) {x : Nat} {rest : List Nat}
    (hx : notBelow m key l = x :: rest) (hk : keyAt m x = key) :
    dropKey m key l = below m key l ++ rest := by
  have hl := below_append_notBelow m key l
  rw [hx] at hl
  have hs2 := hs
  rw [← hl] at hs2
  have h3 := List.pairwise_append.1 hs2
  have h4 := List.pairwise_cons.1 h3.2.1
  unfold dropKey
  conv_lhs => rw [← hl]
  rw [List.filter_append, List.filter_cons_of_neg (by simpa using hk)]
  congr 1
  · apply List.filter_eq_self.2
    intro a ha
    have := below_lt ha
    simpa using ne_of_lt this
  · apply List.filter_eq_self.2
    intro a ha
    have := h4.1 a ha
    rw [hk] at this
    simpa using (ne_of_lt this).symm

theorem target_cases {m : List Node} {key : K} {l : List Nat} {x : Nat}
    (ht : target m key l = some x) :
    ∃ rest, notBelow m key l = x :: rest ∧ keyAt m x = key := by
  unfold target at ht
  cases hx : notBelow m key l with
  | nil => rw [hx] at ht; cases ht
  | cons y rest =>
    rw [hx] at ht
    simp only at ht
    split at ht
    · cases ht; exact ⟨rest, rfl, by assumption⟩
    · cases ht

theorem atLevel_cons_pos {m : List Node} {h a : Nat} (l : List Nat) (ha : h < lenAt m a) :
    atLevel m h (a :: l) = a :: atLevel m h l := by
  unfold atLevel; rw [List.filter_cons_of_pos]; simpa using ha

theorem atLevel_cons_neg {m : List Node} {h a : Nat} (l : List Nat) (ha : ¬ h < lenAt m a) :
    atLevel m h (a :: l) = atLevel m h l := by
  unfold atLevel; rw [List.filter_cons_of_neg]; simpa using ha

/-- The key test when the key is stored at `x`: it succeeds on the levels `x` has. -/
theorem Shape.hitAt_target {m : List Node} {head : Nat} {l : List Nat} (hs : Shape m head l)
    (key : K) {h : Nat} (hh : h ≤ maxLevel) (hch : Chain m h (atLevel m h (head :: l)))
    {x : Nat} (ht : target m key l = some x) :
    hitAt m key h (stopAt m key head l h) = some (if h < lenAt m x then some x else none) := by
  obtain ⟨rest, hx, hk⟩ := target_cases ht
  have hxl : x ∈ l := notBelow_subset (by rw [hx]; simp)
  have hxlt : x < m.length := hs.bound x (List.mem_cons_of_mem _ hxl)
  unfold hitAt
  rw [hs.stopAt_next key hh hch, hx]
  by_cases hlen : h < lenAt m x
  · rw [atLevel_cons_pos rest hlen]
    simp only [List.head?_cons, List.getElem?_eq_getElem hxlt, hlen, if_true]
    have : m[x].key = key := by
      unfold keyAt at hk; rw [List.getElem?_eq_getElem hxlt] at hk; exact hk
    simp [this]
  · rw [atLevel_cons_neg rest hlen]
    simp only [hlen, if_false]
    cases hz : (atLevel m h rest).head? with
    | none => rfl
    | some nx =>
      have hnx : nx ∈ rest := (mem_atLevel.1 (List.mem_of_mem_head? hz)).1
      have hnxl : nx ∈ l := notBelow_subset (by rw [hx]; exact List.mem_cons_of_mem _ hnx)
      have hnxlt : nx < m.length := hs.bound nx (List.mem_cons_of_mem _ hnxl)
      have hsn := notBelow_sorted key hs.sorted
      rw [hx] at hsn
      have hgt := (List.pairwise_cons.1 hsn).1 nx hnx
      rw [hk] at hgt
      have hkn : m[nx].key ≠ key := by
        have : keyAt m nx = m[nx].key := by
          unfold keyAt; rw [List.getElem?_eq_getElem hnxlt]
        rw [← this]; exact (ne_of_lt hgt).symm
      simp [List.getElem?_eq_getElem hnxlt, hkn]

theorem Shape.unlinkLevel_absent {m : List Node} {head : Nat} {l : List Nat}
    (hs : Shape m head l) (key : K) {h : Nat} (hh : h ≤ maxLevel)
    (hch : Chain m h (atLevel m h (head :: l))) (ht : target m key l = none)
    {cur : Nat} (hcur : cur ∈ head :: atLevel m h (below m key l)) :
    unlinkLevel m key h cur = some (m, stopAt m key head l h) := by
  unfold unlinkLevel
  rw [hs.walk_eq key hh hch hcur]
  simp only
  rcases hs.hitAt_eq key hh hch with h1 | ⟨h1, _⟩
  · rw [h1, ht]
  · rw [h1]

theorem Shape.unlinkLevel_target {m : List Node} {head : Nat} {l : List Nat}
    (hs : Shape m head l) (key : K) {h : Nat} (hh : h ≤ maxLevel)
    (hch : Chain m h (atLevel m h (head :: l))) {x : Nat} (ht : target m key l = some x)
    (cur : Nat) (hcur : cur ∈ head :: atLevel m h (below m key l)) :
    ∃ m1, unlinkLevel m key h cur = some (m1, stopAt m key head l h) ∧ SameData m1 m ∧
      (∀ b g, g ≠ h → nextAt m1 b g = nextAt m b g) ∧
      Chain m1 h (atLevel m h (head :: dropKey m key l)) := by
  obtain ⟨rest, hx, hk⟩ := target_cases ht
  have hdk := dropKey_of_target hs.sorted hx hk
  unfold unlinkLevel
  rw [hs.walk_eq key hh hch hcur]
  simp only
  rw [hs.hitAt_target key hh hch ht]
  have hc0 := hs.chain_split key hh hch
  rw [hx] at hc0
  by_cases hlen : h < lenAt m x
  · simp only [hlen, if_true]
    rw [atLevel_cons_pos rest hlen] at hc0
    have hp : nextAt m x h = some (atLevel m h rest).head? :=
      chain_next_mid (head :: atLevel m h (below m key l)) x (atLevel m h rest) hc0
    rw [hp]
    simp only
    have hmemc := stopAt_mem m key head l h
    have hclen : h < lenAt m (stopAt m key head l h) := by
      rcases List.mem_cons.1 hmemc with h1 | h1
      · rw [h1]; have := hs.headLen; omega
      · exact (mem_atLevel.1 h1).2
    obtain ⟨m1, hm1⟩ := setNext_isSome (atLevel m h rest).head? (hs.stopAt_lt key h) hclen
    rw [hm1]
    refine ⟨m1, rfl, SameData.of_setNext hm1, ?_, ?_⟩
    · intro b g hg
      exact setNext_nextAt_other hm1 b g (Or.inr hg)
    · rw [atLevel_head hs.headLen hh, hdk, atLevel_append]
      have hsplit := List.dropLast_append_getLast
        (List.cons_ne_nil head (atLevel m h (below m key l)))
      have hnd : ((head :: atLevel m h (below m key l)) ++ x :: atLevel m h rest).Nodup := by
        have h1 : ((head :: atLevel m h (below m key l)) ++ x :: atLevel m h rest)
            = atLevel m h (head :: l) := by
          rw [atLevel_head hs.headLen hh, List.cons_append, ← atLevel_cons_pos rest hlen,
            ← atLevel_append, ← hx, below_append_notBelow]
        rw [h1]
        exact hs.nodup.sublist (atLevel_sublist _ _ _)
      rw [← hsplit] at hc0 hnd
      have hc1 : Chain m h ((head :: atLevel m h (below m key l)).dropLast ++
          stopAt m key head l h :: x :: atLevel m h rest) := by
        simpa [stopAt] using hc0
      have hnd1 : ((head :: atLevel m h (below m key l)).dropLast ++
          stopAt m key head l h :: x :: atLevel m h rest).Nodup := by
        simpa [stopAt] using hnd
      have hgoal := @chain_remove m m1 h (stopAt m key head l h) x
        ((head :: atLevel m h (below m key l)).dropLast) (atLevel m h rest) hc1
        (by
          intro a ha
          have hane : a ≠ stopAt m key head l h := by
            intro he
            subst he
            have := List.nodup_append.1 hnd1
            rcases List.mem_append.1 ha with h1 | h1
            · exact this.2.2 h1 (List.mem_cons_self _ _)
            · exact (List.nodup_cons.1 this.2.1).1 (List.mem_cons_of_mem _ h1)
          exact setNext_nextAt_other hm1 a h (Or.inl hane))
        (setNext_nextAt_same hm1)
      have hfin : (head :: atLevel m h (below m key l)).dropLast ++
          stopAt m key head l h :: atLevel m h rest
          = head :: (atLevel m h (below m key l) ++ atLevel m h rest) := by
        have : (head :: atLevel m h (below m key l)).dropLast ++
            [stopAt m key head l h] = head :: atLevel m h (below m key l) := by
          simpa [stopAt] using hsplit
        calc (head :: atLevel m h (below m key l)).dropLast ++
              stopAt m key head l h :: atLevel m h rest
            = ((head :: atLevel m h (below m key l)).dropLast ++ [stopAt m key head l h])
                ++ atLevel m h rest := by simp
          _ = _ := by rw [this]; simp
      rw [← hfin]
      exact hgoal
  · simp only [hlen, if_false]
    refine ⟨m, rfl, SameData.refl m, fun _ _ _ => rfl, ?_⟩
    rw [atLevel_cons_neg rest hlen] at hc0
    rw [atLevel_head hs.headLen hh, hdk, atLevel_append]
    exact hc0

end Skiplist

namespace Skiplist

/-! ## The unlink loop -/

theorem Rep.unlinkFrom_absent {m : List Node} {head : Nat} {l : List Nat} (hr : Rep m head l)
    (key : K) (ht : target m key l = none) : ∀ (h : Nat), h ≤ maxLevel → ∀ (cur : Nat),
      cur ∈ head :: atLevel m h (below m key l) → unlinkFrom key h m cur = some m
  | 0, hh, cur, hcur => by
    unfold unlinkFrom
    rw [hr.toShape.unlinkLevel_absent key hh (hr.chain _) ht hcur]
  | h + 1, hh, cur, hcur => by
    unfold unlinkFrom
    rw [hr.toShape.unlinkLevel_absent key hh (hr.chain _) ht hcur]
    exact hr.unlinkFrom_absent key ht h (by omega) _ (mem_level_down (stopAt_mem _ _ _ _ _))

theorem SameData.dropKey {m m1 : List Node} (hd : SameData m m1) (key : K) (l : List Nat) :
    dropKey m key l = dropKey m1 key l := by unfold Skiplist.dropKey; rw [hd.key]

theorem unlinkFrom_eq {m0 : List Node} {head : Nat} {l : List Nat} (hs0 : Shape m0 head l)
    (key : K) {x : Nat} (ht : target m0 key l = some x) :
    ∀ (h : Nat), h ≤ maxLevel → ∀ (m : List Node) (cur : Nat), SameData m m0 →
      (∀ g, g ≤ h → Chain m g (atLevel m0 g (head :: l))) →
      cur ∈ head :: atLevel m0 h (below m0 key l) →
      ∃ m2, unlinkFrom key h m cur = some m2 ∧ SameData m2 m0 ∧
        (∀ b g, h < g → nextAt m2 b g = nextAt m b g) ∧
        (∀ g, g ≤ h → Chain m2 g (atLevel m0 g (head :: dropKey m0 key l)))
  | 0, hh, m, cur, hd, hch, hcur => by
    have hs : Shape m head l := hs0.of_same hd
    obtain ⟨m1, h1, h2, h3, h4⟩ := hs.unlinkLevel_target key hh
      (by rw [hd.atLevel]; exact hch 0 (le_refl _)) (x := x) (by rw [hd.target]; exact ht)
      cur (by rw [hd.atLevel, hd.below]; exact hcur)
    unfold unlinkFrom
    rw [h1]
    refine ⟨m1, rfl, h2.trans hd, ?_, ?_⟩
    · intro b g hg
      exact h3 b g (by omega)
    · intro g hg
      have : g = 0 := by omega
      subst this
      rw [hd.atLevel, hd.dropKey] at h4
      exact h4
  | h + 1, hh, m, cur, hd, hch, hcur => by
    have hs : Shape m head l := hs0.of_same hd
    obtain ⟨m1, h1, h2, h3, h4⟩ := hs.unlinkLevel_target key hh
      (by rw [hd.atLevel]; exact hch (h + 1) (le_refl _)) (x := x) (by rw [hd.target]; exact ht)
      cur (by rw [hd.atLevel, hd.below]; exact hcur)
    unfold unlinkFrom
    rw [h1]
    simp only
    have hd1 : SameData m1 m0 := h2.trans hd
    obtain ⟨m2, g1, g2, g3, g4⟩ := unlinkFrom_eq hs0 key ht h (by omega) m1
      (stopAt m key head l (h + 1)) hd1
      (fun g hg => chain_congr _ (fun b _ => h3 b g (by omega)) (hch g (by omega)))
      (by
        rw [hd.stopAt]
        exact mem_level_down (stopAt_mem _ _ _ _ _))
    refine ⟨m2, g1, g2, ?_, ?_⟩
    · intro b g hg
      rw [g3 b g (by omega), h3 b g (by omega)]
    · intro g hg
      by_cases hgh : g ≤ h
      · exact g4 g hgh
      · have : g = h + 1 := by omega
        subst this
        rw [hd.atLevel, hd.dropKey] at h4
        exact chain_congr _ (fun b _ => g3 b (h + 1) (by omega)) h4

theorem dropKey_sublist (m : List Node) (key : K) (l : List Nat) :
    (dropKey m key l).Sublist l := List.filter_sublist _

theorem mem_dropKey {m : List Node} {key : K} {l : List Nat} {a : Nat} :
    a ∈ dropKey m key l ↔ a ∈ l ∧ keyAt m a ≠ key := by
  unfold dropKey; simp

theorem Shape.sublist {m : List Node} {head : Nat} {l l1 : List Nat} (hs : Shape m head l)
    (hsub : l1.Sublist l) : Shape m head l1 :=
  ⟨hs.nodup.sublist (List.Sublist.cons₂ _ hsub),
    fun a ha => hs.bound a (by
      rcases List.mem_cons.1 ha with h1 | h1
      · simp [h1]
      · exact List.mem_cons_of_mem _ (hsub.subset h1)),
    hs.headLen, hs.headLe, fun a ha => hs.lenPos a (hsub.subset ha), hs.sorted.sublist hsub⟩

/-- Deleting keeps the representation; the node that held `key` leaves the list. The loop
must start at or above every tower. -/
theorem Rep.delete_rep {mem : List Node} {head : Nat} {l : List Nat} (hr : Rep mem head l)
    (key : K) {top : Nat} (htop : top ≤ maxLevel) (hcover : ∀ a ∈ l, lenAt mem a ≤ top + 1) :
    ∃ m2, unlinkFrom key top mem head = some m2 ∧ Rep m2 head (dropKey mem key l) ∧
      SameData m2 mem ∧ (target mem key l = none → m2 = mem) := by
  cases ht : target mem key l with
  | none =>
    refine ⟨mem, hr.unlinkFrom_absent key ht top htop head (by simp), ?_, SameData.refl _,
      fun _ => rfl⟩
    rw [dropKey_of_absent (target_none hr.sorted ht)]
    exact hr
  | some x =>
    obtain ⟨m2, h1, h2, h3, h4⟩ := unlinkFrom_eq hr.toShape key ht top htop mem head
      (SameData.refl _) (fun g _ => hr.chain g) (by simp)
    refine ⟨m2, h1, ⟨(hr.toShape.sublist (dropKey_sublist mem key l)).of_same h2, ?_⟩, h2,
      fun hn => by cases hn⟩
    intro g
    rw [h2.atLevel]
    by_cases hg : g ≤ top
    · exact h4 g hg
    · have hat : atLevel mem g (head :: dropKey mem key l) = atLevel mem g (head :: l) := by
        unfold atLevel dropKey
        simp only [List.filter_cons, List.filter_filter]
        have : List.filter (fun a => decide (g < lenAt mem a) && decide (keyAt mem a ≠ key)) l
            = List.filter (fun a => decide (g < lenAt mem a)) l := by
          apply List.filter_congr
          intro a ha
          have := hcover a ha
          have hng : ¬ g < lenAt mem a := by omega
          simp [hng]
        rw [this]
      rw [hat]
      exact chain_congr _ (fun b _ => h3 b g (by omega)) (hr.chain g)

end Skiplist

namespace Skiplist

/-! ## Height draws -/

theorem randomLevelLoop_isSome : ∀ (fuel : Nat) (r : Rand) (lvl : Nat),
    lvl ≤ maxLevel → maxLevel - lvl < fuel →
    ∃ res, randomLevelLoop fuel r lvl = some res ∧ lvl ≤ res.1 ∧ res.1 ≤ maxLevel
  | 0, _, _, _, hf => by omega
  | fuel + 1, r, lvl, hl, hf => by
    unfold randomLevelLoop
    by_cases hc : (belowProbability r.Float64.1 && decide (lvl < maxLevel)) = true
    · rw [if_pos hc]
      have hlt : lvl < maxLevel := by
        have := (Bool.and_eq_true _ _ ▸ hc).2
        simpa using this
      obtain ⟨res, h1, h2, h3⟩ := randomLevelLoop_isSome fuel r.Float64.2 (lvl + 1)
        (by omega) (by omega)
      exact ⟨res, h1, by omega, h3⟩
    · rw [if_neg hc]
      exact ⟨_, rfl, le_refl _, hl⟩

theorem randomLevel_isSome (r : Rand) :
    ∃ res, randomLevel r = some res ∧ res.1 ≤ maxLevel := by
  obtain ⟨res, h1, _, h3⟩ := randomLevelLoop_isSome (maxLevel + 1) r 0 (Nat.zero_le _)
    (by omega)
  exact ⟨res, h1, h3⟩

theorem randomLevelWithNPLoop_isSome (np : ℚ) : ∀ (fuel : Nat) (r : Rand) (lvl : Nat),
    lvl ≤ maxLevel → maxLevel - lvl < fuel →
    ∃ res, LASkipList.randomLevelWithNPLoop np fuel r lvl = some res ∧ lvl ≤ res.1 ∧
      res.1 ≤ maxLevel
  | 0, _, _, _, hf => by omega
  | fuel + 1, r, lvl, hl, hf => by
    unfold LASkipList.randomLevelWithNPLoop
    by_cases hlt : lvl < maxLevel
    · rw [if_pos hlt]
      by_cases hnp : np ≥ (2 : ℚ) ^ (lvl + 1 - 1)
      · rw [if_pos hnp]
        obtain ⟨res, h1, h2, h3⟩ := randomLevelWithNPLoop_isSome np fuel r (lvl + 1)
          (by omega) (by omega)
        exact ⟨res, h1, by omega, h3⟩
      · rw [if_neg hnp]
        by_cases hb : belowProbability r.Float64.1 = true
        · rw [if_pos hb]
          obtain ⟨res, h1, h2, h3⟩ := randomLevelWithNPLoop_isSome np fuel r.Float64.2
            (lvl + 1) (by omega) (by omega)
          exact ⟨res, h1, by omega, h3⟩
        · rw [if_neg hb]
          exact ⟨_, rfl, le_refl _, hl⟩
    · rw [if_neg hlt]
      exact ⟨_, rfl, le_refl _, hl⟩

/-! ## Entries -/

theorem tGet_towers {m : List Node} {l : List Nat}
    (hs : l.Pairwise (fun a b => keyAt m a < keyAt m b)) (k : K) :
    tGet (towers m l) k = (target m k l).map (valAt m) := by
  unfold tGet towers
  rw [List.find?_map]
  cases ht : target m k l with
  | none =>
    have := target_none hs ht
    have hf : List.find? ((fun t : Tower => decide (t.1 = k)) ∘
        fun a => (keyAt m a, valAt m a, lenAt m a - 1)) l = none := by
      apply List.find?_eq_none.2
      intro a ha
      simpa using this a ha
    rw [hf]; rfl
  | some x =>
    obtain ⟨hx1, hx2⟩ := target_some ht
    have hf : List.find? ((fun t : Tower => decide (t.1 = k)) ∘
        fun a => (keyAt m a, valAt m a, lenAt m a - 1)) l = some x := by
      cases hfx : List.find? ((fun t : Tower => decide (t.1 = k)) ∘
        fun a => (keyAt m a, valAt m a, lenAt m a - 1)) l with
      | none =>
        have := List.find?_eq_none.1 hfx x hx1
        simp [hx2] at this
      | some y =>
        have h1 := List.find?_some hfx
        have h2 := List.mem_of_find?_eq_some hfx
        have h3 : keyAt m y = k := by simpa using h1
        have := target_of_mem hs h2 h3
        rw [ht] at this
        cases this
        rfl
    rw [hf]; rfl

theorem towers_withNew {mem m2 : List Node} {l : List Nat} (key : K) (value : V) (lvl : Nat)
    (hb : ∀ a ∈ l, a < mem.length)
    (hk : ∀ a, keyAt m2 a = if a = mem.length then key else keyAt mem a)
    (hv : ∀ a, valAt m2 a = if a = mem.length then value else valAt mem a)
    (hl : ∀ a, lenAt m2 a = if a = mem.length then lvl + 1 else lenAt mem a) :
    towers m2 (withNew mem key mem.length l) = tInsert (towers mem l) key value lvl := by
  have hmap : ∀ (l1 : List Nat), (∀ a ∈ l1, a ∈ l) → towers m2 l1 = towers mem l1 := by
    intro l1 h1
    unfold towers
    apply List.map_congr_left
    intro a ha
    have := Nat.ne_of_lt (hb a (h1 a ha))
    rw [hk, hv, hl]; simp [this]
  unfold withNew tInsert
  have h1 : towers m2 (below mem key l ++ mem.length :: notBelow mem key l)
      = towers m2 (below mem key l) ++ (key, value, lvl) :: towers m2 (notBelow mem key l) := by
    unfold towers
    rw [List.map_append, List.map_cons, hk, hv, hl]
    simp
  rw [h1, hmap _ (fun a ha => below_subset ha), hmap _ (fun a ha => notBelow_subset ha)]
  unfold towers below notBelow
  rw [List.takeWhile_map, List.dropWhile_map]
  rfl

theorem towers_dropKey (m : List Node) (key : K) (l : List Nat) :
    towers m (dropKey m key l) = tDelete (towers m l) key := by
  unfold towers dropKey tDelete
  rw [List.filter_map]
  rfl

theorem towers_same {m m1 : List Node} (hd : SameData m m1) (l : List Nat) :
    towers m l = towers m1 l := by
  unfold towers; rw [hd.key, hd.val, hd.len]

theorem towers_setValue {m m1 : List Node} {l : List Nat} {cur : Nat} {key : K} {v : V}
    (hs : l.Pairwise (fun a b => keyAt m a < keyAt m b))
    (ht : target m key l = some cur) (hset : setValue m cur v = some m1) :
    towers m1 l = tSet (towers m l) key v := by
  unfold towers tSet
  rw [List.map_map]
  apply List.map_congr_left
  intro a ha
  simp only [Function.comp]
  rw [setValue_keyAt hset, setValue_lenAt hset, setValue_valAt hset]
  by_cases hk : keyAt m a = key
  · have := target_of_mem hs ha hk
    rw [ht] at this
    cases this
    simp [hk]
  · have hne : a ≠ cur := by
      intro he
      subst he
      exact hk (target_some ht).2
    simp [hk, hne]

end Skiplist

namespace Skiplist

/-! ## Operations on a good heap -/

theorem Rep.setValue {m m1 : List Node} {head : Nat} {l : List Nat} (hr : Rep m head l)
    {cur : Nat} {v : V} (hset : setValue m cur v = some m1) : Rep m1 head l := by
  have hlen : ∀ a, lenAt m1 a = lenAt m a := setValue_lenAt hset
  refine ⟨hr.toShape.congr (le_of_eq (setValue_length hset).symm)
    (fun a _ => setValue_keyAt hset a) (fun a _ => hlen a), ?_⟩
  intro g
  rw [atLevel_congr g _ (fun a _ => hlen a)]
  exact chain_congr _ (fun a _ => setValue_nextAt hset a g) (hr.chain g)

theorem Good.find_eq {mem : List Node} {head level : Nat} {l : List Nat}
    (hg : Good mem head level l) (key : K) :
    findFrom mem key level head = some (target mem key l) :=
  hg.toRep.findFrom_eq key level hg.levelLe head (by simp)

theorem target_lt {mem : List Node} {head : Nat} {l : List Nat} (hs : Shape mem head l)
    {key : K} {cur : Nat} (ht : target mem key l = some cur) : cur < mem.length :=
  hs.bound cur (List.mem_cons_of_mem _ (target_some ht).1)

/-- Updating the value of a stored key. -/
theorem Good.update {mem : List Node} {head level : Nat} {l : List Nat}
    (hg : Good mem head level l) {key : K} {cur : Nat} (ht : target mem key l = some cur)
    (v : V) : ∃ m1, setValue mem cur v = some m1 ∧ Good m1 head level l ∧
      towers m1 l = tSet (towers mem l) key v := by
  obtain ⟨m1, hm1⟩ := setValue_isSome v (target_lt hg.toShape ht)
  refine ⟨m1, hm1, ⟨hg.toRep.setValue hm1, hg.levelLe, ?_⟩,
    towers_setValue hg.sorted ht hm1⟩
  intro a ha
  rw [setValue_lenAt hm1]
  exact hg.cover a ha

/-- Inserting a new key with a tower of height `lvl`. -/
theorem Good.insert_good {mem : List Node} {head level : Nat} {l : List Nat}
    (hg : Good mem head level l) {key : K} (ht : target mem key l = none) (value : V)
    {lvl : Nat} (hlvl : lvl ≤ maxLevel) :
    ∃ m2, spliceFrom key lvl mem.length (max level lvl) (mem ++ [newNode key value lvl]) head
        = some m2 ∧
      Good m2 head (max level lvl) (withNew mem key mem.length l) ∧
      towers m2 (withNew mem key mem.length l) = tInsert (towers mem l) key value lvl := by
  obtain ⟨m2, h1, h2, _, h4, h5, h6⟩ := hg.toRep.insert_rep key value
    (le_max_right level lvl) (max_le hg.levelLe hlvl) ht
  refine ⟨m2, h1, ⟨h2, max_le hg.levelLe hlvl, ?_⟩, ?_⟩
  · intro a ha
    rw [h6]
    rcases mem_withNew.1 ha with h7 | h7
    · simp [h7]
    · have hne : a ≠ mem.length := Nat.ne_of_lt (hg.bound a (List.mem_cons_of_mem _ h7))
      have := hg.cover a h7
      simp only [hne, if_false]
      have := le_max_left level lvl
      omega
  · exact towers_withNew key value lvl (fun a ha => hg.bound a (List.mem_cons_of_mem _ ha))
      h4 h5 h6

/-- Unlinking a key. -/
theorem Good.delete_good {mem : List Node} {head level : Nat} {l : List Nat}
    (hg : Good mem head level l) (key : K) :
    ∃ m2, unlinkFrom key level mem head = some m2 ∧
      Good m2 head level (dropKey mem key l) ∧
      towers m2 (dropKey mem key l) = tDelete (towers mem l) key ∧ SameData m2 mem ∧
      (target mem key l = none → m2 = mem) := by
  obtain ⟨m2, h1, h2, h3, h4⟩ := hg.toRep.delete_rep key hg.levelLe hg.cover
  refine ⟨m2, h1, ⟨h2, hg.levelLe, ?_⟩, ?_, h3, h4⟩
  · intro a ha
    rw [h3.len]
    exact hg.cover a (dropKey_sublist _ _ _ |>.subset ha)
  · rw [towers_same h3, towers_dropKey]

theorem putFrom_eq (key : K) (lvl nw : Nat) : ∀ (h : Nat) (mem : List Node) (cur : Nat)
    (size : Int), BasicSkipList.putFrom key lvl nw h mem cur size
      = (spliceFrom key lvl nw h mem cur).map (fun m => (m, bump h size))
  | 0, mem, cur, size => by
    unfold BasicSkipList.putFrom spliceFrom
    cases spliceLevel mem key lvl nw 0 cur with
    | none => rfl
    | some p => rfl
  | h + 1, mem, cur, size => by
    unfold BasicSkipList.putFrom spliceFrom
    cases spliceLevel mem key lvl nw (h + 1) cur with
    | none => rfl
    | some p =>
      simp only
      rw [putFrom_eq key lvl nw h]
      rfl

/-- The loop of `LASkipList.Delete` that lowers `level` stops at a level that still covers
every tower. -/
theorem Rep.lowerLevel {m : List Node} {head : Nat} {l : List Nat} (hr : Rep m head l) :
    ∀ (top : Nat), top ≤ maxLevel → (∀ a ∈ l, lenAt m a ≤ top + 1) →
      ∃ n, LASkipList.lowerLevel m head top = some n ∧ n ≤ top ∧ ∀ a ∈ l, lenAt m a ≤ n + 1
  | 0, _, hc => ⟨0, rfl, le_refl _, hc⟩
  | top + 1, ht, hc => by
    unfold LASkipList.lowerLevel
    have hch := hr.chain (top + 1)
    rw [atLevel_head hr.headLen ht] at hch
    rw [hch.1]
    cases hz : (atLevel m (top + 1) l).head? with
    | none =>
      simp only
      have hnil : atLevel m (top + 1) l = [] := by
        cases hl : atLevel m (top + 1) l with
        | nil => rfl
        | cons a rest => rw [hl] at hz; cases hz
      obtain ⟨n, h1, h2, h3⟩ := hr.lowerLevel top (by omega) (by
        intro a ha
        have h4 := hc a ha
        have h5 : a ∉ atLevel m (top + 1) l := by rw [hnil]; simp
        have h6 : ¬ (top + 1 < lenAt m a) := fun h7 => h5 (mem_atLevel.2 ⟨ha, h7⟩)
        omega)
      exact ⟨n, h1, by omega, h3⟩
    | some x => exact ⟨top + 1, rfl, le_refl _, hc⟩

end Skiplist

namespace Skiplist

/-! ## The methods of `BasicSkipList` -/

namespace BasicSkipList

theorem NewBasicSkipList_good (draws : Nat → Nat) :
    Good (NewBasicSkipList draws).mem (NewBasicSkipList draws).head
      (NewBasicSkipList draws).level [] := by
  refine ⟨⟨⟨by simp, ?_, ?_, ?_, by simp, by simp⟩, ?_⟩, by simp [NewBasicSkipList, NewLASkipList, maxLevel], by simp⟩
  · intro a ha
    simp [NewBasicSkipList] at ha ⊢
    omega
  · simp [NewBasicSkipList, lenAt, newNode]
  · simp [NewBasicSkipList, lenAt, newNode]
  · intro h
    unfold atLevel
    by_cases hh : h < maxLevel + 1
    · have : lenAt (NewBasicSkipList draws).mem (NewBasicSkipList draws).head = maxLevel + 1 := by
        simp [NewBasicSkipList, lenAt, newNode]
      simp only [List.filter_cons, this, hh, decide_True, if_true, List.filter_nil]
      refine ⟨?_, trivial⟩
      simp only [NewBasicSkipList, nextAt, newNode, List.head?_nil]
      simp [List.getElem?_replicate, hh]
    · have : lenAt (NewBasicSkipList draws).mem (NewBasicSkipList draws).head = maxLevel + 1 := by
        simp [NewBasicSkipList, lenAt, newNode]
      simp [List.filter_cons, this, hh, Chain]

theorem basic_Put_good {sl : BasicSkipList} {l : List Nat} (hg : Good sl.mem sl.head sl.level l)
    (k : K) (v : V) :
    ∃ sl1 l1, sl.Put k v = some sl1 ∧ Good sl1.mem sl1.head sl1.level l1 ∧
      (towers sl1.mem l1, sl1.rand) = tPut (towers sl.mem l, sl.rand) k v := by
  unfold Put find
  rw [hg.find_eq k]
  unfold tPut
  simp only
  rw [tGet_towers hg.sorted]
  cases ht : target sl.mem k l with
  | some cur =>
    obtain ⟨m1, h1, h2, h3⟩ := hg.update ht v
    simp only [h1, Option.map_some']
    exact ⟨_, l, rfl, h2, by rw [h3]⟩
  | none =>
    obtain ⟨res, h1, h2⟩ := randomLevel_isSome sl.rand
    obtain ⟨m2, h3, h4, h5⟩ := hg.insert_good ht v h2
    simp only [Option.map_none', BasicSkipList.randomLevel, h1]
    rw [putFrom_eq, h3]
    simp only [Option.map_some']
    exact ⟨_, _, rfl, h4, by rw [h5]⟩

theorem basic_Get_good {sl : BasicSkipList} {l : List Nat} (hg : Good sl.mem sl.head sl.level l)
    (k : K) : sl.Get k = some (getReply (tGet (towers sl.mem l) k)) := by
  unfold Get find
  rw [hg.find_eq k, tGet_towers hg.sorted]
  cases ht : target sl.mem k l with
  | some cur =>
    have hlt := target_lt hg.toShape ht
    simp only [List.getElem?_eq_getElem hlt, Option.map_some', getReply]
    unfold valAt
    rw [List.getElem?_eq_getElem hlt]
  | none => rfl

theorem basic_Contains_good {sl : BasicSkipList} {l : List Nat} (hg : Good sl.mem sl.head sl.level l)
    (k : K) : sl.Contains k = some (tGet (towers sl.mem l) k).isSome := by
  unfold Contains find
  rw [hg.find_eq k, tGet_towers hg.sorted]
  cases target sl.mem k l <;> rfl

theorem basic_Delete_good {sl : BasicSkipList} {l : List Nat} (hg : Good sl.mem sl.head sl.level l)
    (k : K) :
    ∃ sl1 l1, sl.Delete k = some sl1 ∧ Good sl1.mem sl1.head sl1.level l1 ∧
      (towers sl1.mem l1, sl1.rand) = (tDelete (towers sl.mem l) k, sl.rand) := by
  obtain ⟨m2, h1, h2, h3, _⟩ := hg.delete_good k
  unfold Delete
  rw [h1]
  exact ⟨_, _, rfl, h2, by rw [h3]⟩

theorem basic_call_good {sl : BasicSkipList} {l : List Nat} (hg : Good sl.mem sl.head sl.level l)
    (c : Call) :
    ∃ sl1 l1 r, sl.call c = some (sl1, r) ∧ Good sl1.mem sl1.head sl1.level l1 ∧
      ((towers sl1.mem l1, sl1.rand), r) = tCall (towers sl.mem l, sl.rand) c.toLA := by
  cases c with
  | put k v =>
    obtain ⟨sl1, l1, h1, h2, h3⟩ := basic_Put_good hg k v
    exact ⟨sl1, l1, Reply.done, by simp [call, h1], h2, by simp [tCall, Call.toLA, h3]⟩
  | get k =>
    exact ⟨sl, l, Reply.value (getReply (tGet (towers sl.mem l) k)).1
      (getReply (tGet (towers sl.mem l) k)).2, by simp [call, basic_Get_good hg k], hg,
      by simp [tCall, Call.toLA]⟩
  | contains k =>
    exact ⟨sl, l, Reply.flag (tGet (towers sl.mem l) k).isSome,
      by simp [call, basic_Contains_good hg k], hg, by simp [tCall, Call.toLA]⟩
  | delete k =>
    obtain ⟨sl1, l1, h1, h2, h3⟩ := basic_Delete_good hg k
    exact ⟨sl1, l1, Reply.done, by simp [call, h1], h2, by simp [tCall, Call.toLA, h3]⟩

theorem basic_run_good : ∀ (cs : List Call) {sl : BasicSkipList} {l : List Nat},
    Good sl.mem sl.head sl.level l →
    ∃ sl1 l1 rs, sl.run cs = some (sl1, rs) ∧ Good sl1.mem sl1.head sl1.level l1 ∧
      ((towers sl1.mem l1, sl1.rand), rs) = tRun (towers sl.mem l, sl.rand) (cs.map Call.toLA)
  | [], sl, l, hg => ⟨sl, l, [], rfl, hg, rfl⟩
  | c :: cs, sl, l, hg => by
    obtain ⟨sl1, l1, r, h1, h2, h3⟩ := basic_call_good hg c
    obtain ⟨sl2, l2, rs, g1, g2, g3⟩ := basic_run_good cs h2
    refine ⟨sl2, l2, r :: rs, ?_, g2, ?_⟩
    · simp [run, h1, g1]
    · simp only [List.map_cons, tRun, ← h3, ← g3]

end BasicSkipList

/-! ## The methods of `LASkipList` -/

namespace LASkipList

theorem NewLASkipList_good (draws : Nat → Nat) :
    Good (NewLASkipList draws).mem (NewLASkipList draws).head
      (NewLASkipList draws).level [] := by
  refine ⟨⟨⟨by simp, ?_, ?_, ?_, by simp, by simp⟩, ?_⟩, by simp [NewBasicSkipList, NewLASkipList, maxLevel], by simp⟩
  · intro a ha
    simp [NewLASkipList] at ha ⊢
    omega
  · simp [NewLASkipList, lenAt, newNode]
  · simp [NewLASkipList, lenAt, newNode]
  · intro h
    unfold atLevel
    by_cases hh : h < maxLevel + 1
    · have : lenAt (NewLASkipList draws).mem (NewLASkipList draws).head = maxLevel + 1 := by
        simp [NewLASkipList, lenAt, newNode]
      simp only [List.filter_cons, this, hh, decide_True, if_true, List.filter_nil]
      refine ⟨?_, trivial⟩
      simp only [NewLASkipList, nextAt, newNode, List.head?_nil]
      simp [List.getElem?_replicate, hh]
    · have : lenAt (NewLASkipList draws).mem (NewLASkipList draws).head = maxLevel + 1 := by
        simp [NewLASkipList, lenAt, newNode]
      simp [List.filter_cons, this, hh, Chain]

theorem insertWith_good {sl : LASkipList} {l : List Nat} (hg : Good sl.mem sl.head sl.level l)
    {k : K} (ht : target sl.mem k l = none) (v : V) {lvl : Nat} (hlvl : lvl ≤ maxLevel)
    (r : Rand) :
    ∃ sl1 l1, sl.insertWith k v lvl r = some sl1 ∧ Good sl1.mem sl1.head sl1.level l1 ∧
      (towers sl1.mem l1, sl1.rand) = (tInsert (towers sl.mem l) k v lvl, r) := by
  obtain ⟨m2, h3, h4, h5⟩ := hg.insert_good ht v hlvl
  unfold insertWith
  simp only [h3]
  exact ⟨_, _, rfl, h4, by rw [h5]⟩

theorem la_PutWithNP_good {sl : LASkipList} {l : List Nat} (hg : Good sl.mem sl.head sl.level l)
    (k : K) (v : V) (np : ℚ) :
    ∃ sl1 l1, sl.PutWithNP k v np = some sl1 ∧ Good sl1.mem sl1.head sl1.level l1 ∧
      (towers sl1.mem l1, sl1.rand) = tPutNP (towers sl.mem l, sl.rand) k v np := by
  unfold PutWithNP find
  rw [hg.find_eq k]
  unfold tPutNP
  simp only
  rw [tGet_towers hg.sorted]
  cases ht : target sl.mem k l with
  | some cur =>
    obtain ⟨m1, h1, h2, h3⟩ := hg.update ht v
    simp only [h1, Option.map_some']
    exact ⟨_, l, rfl, h2, by rw [h3]⟩
  | none =>
    obtain ⟨res, h1, _, h2⟩ := randomLevelWithNPLoop_isSome np (maxLevel + 1) sl.rand 0
      (Nat.zero_le _) (by omega)
    obtain ⟨sl1, l1, g1, g2, g3⟩ := insertWith_good hg ht v h2 res.2
    simp only [Option.map_none', randomLevelWithNP, h1]
    exact ⟨sl1, l1, g1, g2, g3⟩

theorem la_Put_good {sl : LASkipList} {l : List Nat} (hg : Good sl.mem sl.head sl.level l)
    (k : K) (v : V) :
    ∃ sl1 l1, sl.Put k v = some sl1 ∧ Good sl1.mem sl1.head sl1.level l1 ∧
      (towers sl1.mem l1, sl1.rand) = tPut (towers sl.mem l, sl.rand) k v := by
  unfold Put PutWithoutProb find
  rw [hg.find_eq k]
  unfold tPut
  simp only
  rw [tGet_towers hg.sorted]
  cases ht : target sl.mem k l with
  | some cur =>
    obtain ⟨m1, h1, h2, h3⟩ := hg.update ht v
    simp only [h1, Option.map_some']
    exact ⟨_, l, rfl, h2, by rw [h3]⟩
  | none =>
    obtain ⟨res, h1, h2⟩ := randomLevel_isSome sl.rand
    obtain ⟨sl1, l1, g1, g2, g3⟩ := insertWith_good hg ht v h2 res.2
    simp only [Option.map_none', LASkipList.randomLevel, h1]
    exact ⟨sl1, l1, g1, g2, g3⟩

theorem la_Get_good {sl : LASkipList} {l : List Nat} (hg : Good sl.mem sl.head sl.level l)
    (k : K) : sl.Get k = some (getReply (tGet (towers sl.mem l) k)) := by
  unfold Get find
  rw [hg.find_eq k, tGet_towers hg.sorted]
  cases ht : target sl.mem k l with
  | some cur =>
    have hlt := target_lt hg.toShape ht
    simp only [List.getElem?_eq_getElem hlt, Option.map_some', getReply]
    unfold valAt
    rw [List.getElem?_eq_getElem hlt]
  | none => rfl

theorem la_Contains_good {sl : LASkipList} {l : List Nat} (hg : Good sl.mem sl.head sl.level l)
    (k : K) : sl.Contains k = some (tGet (towers sl.mem l) k).isSome := by
  unfold Contains find
  rw [hg.find_eq k, tGet_towers hg.sorted]
  cases target sl.mem k l <;> rfl

theorem la_Delete_good {sl : LASkipList} {l : List Nat} (hg : Good sl.mem sl.head sl.level l)
    (k : K) :
    ∃ sl1, sl.Delete k = some sl1 ∧ Good sl1.mem sl1.head sl1.level (dropKey sl.mem k l) ∧
      (towers sl1.mem (dropKey sl.mem k l), sl1.rand) = (tDelete (towers sl.mem l) k, sl.rand) ∧
      SameData sl1.mem sl.mem ∧ sl1.head = sl.head := by
  obtain ⟨m2, h1, h2, h3, h4, _⟩ := hg.delete_good k
  obtain ⟨n, g1, g2, g3⟩ := h2.toRep.lowerLevel sl.level hg.levelLe h2.cover
  unfold Delete
  rw [h1]
  simp only [g1]
  exact ⟨_, rfl, ⟨h2.toRep, le_trans g2 hg.levelLe, g3⟩, by rw [h3], h4, rfl⟩

theorem la_call_good {sl : LASkipList} {l : List Nat} (hg : Good sl.mem sl.head sl.level l)
    (c : LACall) :
    ∃ sl1 l1 r, sl.call c = some (sl1, r) ∧ Good sl1.mem sl1.head sl1.level l1 ∧
      ((towers sl1.mem l1, sl1.rand), r) = tCall (towers sl.mem l, sl.rand) c := by
  cases c with
  | put k v =>
    obtain ⟨sl1, l1, h1, h2, h3⟩ := la_Put_good hg k v
    exact ⟨sl1, l1, Reply.done, by simp [call, h1], h2, by simp [tCall, h3]⟩
  | putNP k v np =>
    obtain ⟨sl1, l1, h1, h2, h3⟩ := la_PutWithNP_good hg k v np
    exact ⟨sl1, l1, Reply.done, by simp [call, h1], h2, by simp [tCall, h3]⟩
  | get k =>
    exact ⟨sl, l, Reply.value (getReply (tGet (towers sl.mem l) k)).1
      (getReply (tGet (towers sl.mem l) k)).2, by simp [call, la_Get_good hg k], hg,
      by simp [tCall]⟩
  | contains k =>
    exact ⟨sl, l, Reply.flag (tGet (towers sl.mem l) k).isSome,
      by simp [call, la_Contains_good hg k], hg, by simp [tCall]⟩
  | delete k =>
    obtain ⟨sl1, h1, h2, h3, _⟩ := la_Delete_good hg k
    exact ⟨sl1, _, Reply.done, by simp [call, h1], h2, by simp [tCall, h3]⟩

theorem la_run_good : ∀ (cs : List LACall) {sl : LASkipList} {l : List Nat},
    Good sl.mem sl.head sl.level l →
    ∃ sl1 l1 rs, sl.run cs = some (sl1, rs) ∧ Good sl1.mem sl1.head sl1.level l1 ∧
      ((towers sl1.mem l1, sl1.rand), rs) = tRun (towers sl.mem l, sl.rand) cs
  | [], sl, l, hg => ⟨sl, l, [], rfl, hg, rfl⟩
  | c :: cs, sl, l, hg => by
    obtain ⟨sl1, l1, r, h1, h2, h3⟩ := la_call_good hg c
    obtain ⟨sl2, l2, rs, g1, g2, g3⟩ := la_run_good cs h2
    refine ⟨sl2, l2, r :: rs, ?_, g2, ?_⟩
    · simp [run, h1, g1]
    · simp only [tRun, ← h3, ← g3]

end LASkipList

end Skiplist

namespace Skiplist

/-! ## Entries as a finite map -/

theorem tGet_tSet (ts : List Tower) (k : K) (v : V) (k1 : K) :
    tGet (tSet ts k v) k1 = if k1 = k then (tGet ts k).map (fun _ => v) else tGet ts k1 := by
  induction ts with
  | nil => simp [tGet, tSet]
  | cons t ts ih =>
    unfold tGet tSet at ih ⊢
    by_cases h1 : k1 = k
    · subst h1
      simp only [if_true] at ih ⊢
      by_cases h2 : t.1 = k1
      · simp [List.find?_cons, h2]
      · simp only [List.map_cons, h2, if_false, List.find?_cons, decide_False]
        exact ih
    · simp only [h1, if_false] at ih ⊢
      by_cases h2 : t.1 = k
      · have h3 : ¬ t.1 = k1 := fun h => h1 (h ▸ h2 ▸ rfl)
        have h4 : ¬ k = k1 := fun h => h1 h.symm
        simp only [List.map_cons, h2, if_true, List.find?_cons, h4, decide_False]
        exact ih
      · simp only [List.map_cons, h2, if_false, List.find?_cons]
        by_cases h3 : t.1 = k1
        · simp [h3]
        · simp only [h3, decide_False]
          exact ih

theorem tGet_none_iff {ts : List Tower} {k : K} :
    tGet ts k = none ↔ ∀ t ∈ ts, t.1 ≠ k := by
  unfold tGet
  rw [Option.map_eq_none', List.find?_eq_none]
  simp

theorem tGet_append (A B : List Tower) (k : K) :
    tGet (A ++ B) k = (tGet A k).orElse (fun _ => tGet B k) := by
  unfold tGet
  rw [List.find?_append]
  cases List.find? (fun t : Tower => decide (t.1 = k)) A <;> rfl

theorem tGet_tInsert {ts : List Tower} {k : K} (v : V) (lvl : Nat) (k1 : K)
    (habs : tGet ts k = none) :
    tGet (tInsert ts k v lvl) k1 = if k1 = k then some v else tGet ts k1 := by
  have hsplit := List.takeWhile_append_dropWhile (fun t : Tower => decide (t.1 < k)) ts
  unfold tInsert
  by_cases h1 : k1 = k
  · subst h1
    simp only [if_true]
    rw [tGet_append]
    have h2 : tGet (List.takeWhile (fun t : Tower => decide (t.1 < k1)) ts) k1 = none := by
      rw [tGet_none_iff]
      intro t ht
      exact tGet_none_iff.1 habs t (List.takeWhile_sublist _ |>.subset ht)
    rw [h2]
    simp [tGet]
  · simp only [h1, if_false]
    conv_rhs => rw [← hsplit]
    rw [tGet_append, tGet_append]
    congr 1
    funext _
    have h2 : ¬ k = k1 := fun h => h1 h.symm
    simp [tGet, List.find?_cons, h2]

theorem tGet_tDelete (ts : List Tower) (k : K) (k1 : K) :
    tGet (tDelete ts k) k1 = if k1 = k then none else tGet ts k1 := by
  induction ts with
  | nil => simp [tGet, tDelete]
  | cons t ts ih =>
    unfold tGet tDelete at ih ⊢
    by_cases h2 : t.1 = k
    · rw [List.filter_cons_of_neg (by simpa using h2)]
      rw [ih]
      by_cases h1 : k1 = k
      · simp [h1]
      · have h3 : ¬ t.1 = k1 := fun h => h1 (h ▸ h2 ▸ rfl)
        simp [h1, List.find?_cons, h3]
    · rw [List.filter_cons_of_pos (by simpa using h2)]
      by_cases h1 : k1 = k
      · have h3 : ¬ t.1 = k1 := fun h => h2 (h.trans h1)
        simp only [List.find?_cons, h3, decide_False]
        rw [ih]
      · simp only [h1, if_false] at ih ⊢
        by_cases h3 : t.1 = k1
        · simp [List.find?_cons, h3]
        · simp only [List.find?_cons, h3, decide_False]
          exact ih

theorem tGet_tPut (st : List Tower × Rand) (k : K) (v : V) (k1 : K) :
    tGet (tPut st k v).1 k1 = if k1 = k then some v else tGet st.1 k1 := by
  unfold tPut
  cases ht : tGet st.1 k with
  | some w =>
    simp only
    rw [tGet_tSet, ht]
    rfl
  | none =>
    obtain ⟨res, h1, _⟩ := randomLevel_isSome st.2
    simp only [h1]
    exact tGet_tInsert v res.1 k1 ht

theorem tGet_tPutNP (st : List Tower × Rand) (k : K) (v : V) (np : ℚ) (k1 : K) :
    tGet (tPutNP st k v np).1 k1 = if k1 = k then some v else tGet st.1 k1 := by
  unfold tPutNP
  cases ht : tGet st.1 k with
  | some w =>
    simp only
    rw [tGet_tSet, ht]
    rfl
  | none =>
    obtain ⟨res, h1, _⟩ := randomLevelWithNPLoop_isSome np (maxLevel + 1) st.2 0
      (Nat.zero_le _) (by omega)
    simp only [h1]
    exact tGet_tInsert v res.1 k1 ht

/-- After a sequence of interface calls the entries are the map `latest` describes, on top
of what was stored before. -/
theorem tGet_tRun (k : K) : ∀ (cs : List Call) (st : List Tower × Rand),
    tGet (tRun st (cs.map Call.toLA)).1.1 k
      = cs.foldl (fun acc c =>
          match c with
          | Call.put k1 v => if k1 = k then some v else acc
          | Call.delete k1 => if k1 = k then none else acc
          | _ => acc) (tGet st.1 k)
  | [], _ => rfl
  | c :: cs, st => by
    simp only [List.map_cons, tRun, List.foldl_cons]
    rw [tGet_tRun k cs]
    congr 1
    cases c with
    | put k1 v =>
      simp only [Call.toLA, tCall]
      rw [tGet_tPut]
      by_cases h : k = k1
      · simp [h]
      · have h2 : ¬ k1 = k := fun h3 => h h3.symm
        simp [h, h2]
    | get k1 => rfl
    | contains k1 => rfl
    | delete k1 =>
      simp only [Call.toLA, tCall]
      rw [tGet_tDelete]
      by_cases h : k = k1
      · simp [h]
      · have h2 : ¬ k1 = k := fun h3 => h h3.symm
        simp [h, h2]

end Skiplist

namespace Skiplist

/-! ## Traversals -/

theorem chainFrom_chain {mem : List Node} {h : Nat} : ∀ (C : List Nat) (cur fuel : Nat),
    Chain mem h (cur :: C) → C.length < fuel → chainFrom mem h fuel cur = some C
  | [], cur, fuel, hc, hf => by
    obtain ⟨f, rfl⟩ : ∃ f, fuel = f + 1 := ⟨fuel - 1, by simp at hf; omega⟩
    unfold chainFrom
    rw [hc.1]
    rfl
  | a :: C, cur, fuel, hc, hf => by
    obtain ⟨f, rfl⟩ : ∃ f, fuel = f + 1 := ⟨fuel - 1, by simp at hf; omega⟩
    unfold chainFrom
    rw [hc.1]
    simp only [List.head?_cons]
    rw [chainFrom_chain C a f hc.2 (by simp at hf; omega)]

theorem Rep.levelNodes_eq {mem : List Node} {head : Nat} {l : List Nat} (hr : Rep mem head l)
    {h : Nat} (hh : h ≤ maxLevel) : levelNodes mem head h = some (atLevel mem h l) := by
  unfold levelNodes
  have hc := hr.chain h
  rw [atLevel_head hr.headLen hh] at hc
  apply chainFrom_chain _ _ _ hc
  have h1 : (head :: atLevel mem h l).Sublist (head :: l) :=
    List.Sublist.cons₂ _ (atLevel_sublist _ _ _)
  have h2 := nodup_length_le hr.nodup hr.bound
  have h3 := h1.length_le
  simp at h3 h2
  omega

theorem Rep.levelZero_eq {mem : List Node} {head : Nat} {l : List Nat} (hr : Rep mem head l) :
    levelZero mem head = some (towers mem l) := by
  unfold levelZero
  rw [hr.levelNodes_eq (Nat.zero_le _), atLevel_zero (fun a ha => (hr.lenPos a ha).1)]
  rfl

theorem Rep.levelKeys_eq {mem : List Node} {head : Nat} {l : List Nat} (hr : Rep mem head l)
    {h : Nat} (hh : h ≤ maxLevel) :
    levelKeys mem head h = some ((atLevel mem h l).map (keyAt mem)) := by
  unfold levelKeys
  rw [hr.levelNodes_eq hh]
  rfl

theorem Rep.levelKeys_sorted {mem : List Node} {head : Nat} {l : List Nat}
    (hr : Rep mem head l) (h : Nat) :
    ((atLevel mem h l).map (keyAt mem)).Pairwise (fun a b => a < b) := by
  rw [List.pairwise_map]
  exact hr.sorted.sublist (atLevel_sublist _ _ _)

/-! ## Entries, continued -/

theorem tGet_eq_tFind (ts : List Tower) (k : K) :
    tGet ts k = (tFind ts k).map (fun t => t.2.1) := rfl

theorem tFind_towers {m : List Node} {l : List Nat}
    (hs : l.Pairwise (fun a b => keyAt m a < keyAt m b)) (k : K) :
    tFind (towers m l) k
      = (target m k l).map (fun a => (keyAt m a, valAt m a, lenAt m a - 1)) := by
  unfold tFind towers
  rw [List.find?_map]
  cases ht : target m k l with
  | none =>
    have := target_none hs ht
    have hf : List.find? ((fun t : Tower => decide (t.1 = k)) ∘
        fun a => (keyAt m a, valAt m a, lenAt m a - 1)) l = none := by
      apply List.find?_eq_none.2
      intro a ha
      simpa using this a ha
    rw [hf]
  | some x =>
    obtain ⟨hx1, hx2⟩ := target_some ht
    have hf : List.find? ((fun t : Tower => decide (t.1 = k)) ∘
        fun a => (keyAt m a, valAt m a, lenAt m a - 1)) l = some x := by
      cases hfx : List.find? ((fun t : Tower => decide (t.1 = k)) ∘
        fun a => (keyAt m a, valAt m a, lenAt m a - 1)) l with
      | none =>
        have := List.find?_eq_none.1 hfx x hx1
        simp [hx2] at this
      | some y =>
        have h1 := List.find?_some hfx
        have h2 := List.mem_of_find?_eq_some hfx
        have h3 : keyAt m y = k := by simpa using h1
        have := target_of_mem hs h2 h3
        rw [ht] at this
        cases this
        rfl
    rw [hf]

theorem tFind_tInsert_same {ts : List Tower} {k : K} (v : V) (lvl : Nat)
    (habs : tGet ts k = none) : tFind (tInsert ts k v lvl) k = some (k, v, lvl) := by
  unfold tFind tInsert
  rw [List.find?_append]
  have h2 : List.find? (fun t : Tower => decide (t.1 = k))
      (List.takeWhile (fun t : Tower => decide (t.1 < k)) ts) = none := by
    apply List.find?_eq_none.2
    intro t ht
    have := tGet_none_iff.1 habs t (List.takeWhile_sublist _ |>.subset ht)
    simpa using this
  rw [h2]
  simp [List.find?_cons]

theorem mem_keys_towers {m : List Node} {l : List Nat}
    (hs : l.Pairwise (fun a b => keyAt m a < keyAt m b)) (k : K) :
    k ∈ l.map (keyAt m) ↔ (tGet (towers m l) k).isSome = true := by
  rw [tGet_towers hs]
  constructor
  · intro hk
    obtain ⟨a, ha, hka⟩ := List.mem_map.1 hk
    rw [target_of_mem hs ha hka]
    rfl
  · intro hk
    cases ht : target m k l with
    | none => rw [ht] at hk; cases hk
    | some a =>
      obtain ⟨h1, h2⟩ := target_some ht
      exact List.mem_map.2 ⟨a, h1, h2⟩

/-- After a sequence of calls on an `LASkipList` the entries are the map `latestLA`
describes, on top of what was stored before. -/
theorem tGet_tRunLA (k : K) : ∀ (cs : List LACall) (st : List Tower × Rand),
    tGet (tRun st cs).1.1 k
      = cs.foldl (fun acc c =>
          match c with
          | LACall.put k1 v => if k1 = k then some v else acc
          | LACall.putNP k1 v _ => if k1 = k then some v else acc
          | LACall.delete k1 => if k1 = k then none else acc
          | _ => acc) (tGet st.1 k)
  | [], _ => rfl
  | c :: cs, st => by
    simp only [tRun, List.foldl_cons]
    rw [tGet_tRunLA k cs]
    congr 1
    cases c with
    | put k1 v =>
      simp only [tCall]
      rw [tGet_tPut]
      by_cases h : k = k1
      · simp [h]
      · have h2 : ¬ k1 = k := fun h3 => h h3.symm
        simp [h, h2]
    | putNP k1 v np =>
      simp only [tCall]
      rw [tGet_tPutNP]
      by_cases h : k = k1
      · simp [h]
      · have h2 : ¬ k1 = k := fun h3 => h h3.symm
        simp [h, h2]
    | get k1 => rfl
    | contains k1 => rfl
    | delete k1 =>
      simp only [tCall]
      rw [tGet_tDelete]
      by_cases h : k = k1
      · simp [h]
      · have h2 : ¬ k1 = k := fun h3 => h h3.symm
        simp [h, h2]

theorem tRun_append (st : List Tower × Rand) (cs ds : List LACall) :
    (tRun st (cs ++ ds)).1 = (tRun (tRun st cs).1 ds).1 := by
  induction cs generalizing st with
  | nil => rfl
  | cons c cs ih => simp only [List.cons_append, tRun]; exact ih _

end Skiplist

namespace Skiplist

/-! ## Helper lemmas for the claims -/

theorem NewBasic_towers (draws : Nat → Nat) :
    (towers (NewBasicSkipList draws).mem [], (NewBasicSkipList draws).rand)
      = (([] : List Tower), ({ draws := draws, pos := 0 } : Rand)) := rfl

theorem NewLA_towers (draws : Nat → Nat) :
    (towers (NewLASkipList draws).mem [], (NewLASkipList draws).rand)
      = (([] : List Tower), ({ draws := draws, pos := 0 } : Rand)) := rfl

theorem BasicSkipList.basic_run_latest (draws : Nat → Nat) (calls : List Call) :
    ∃ sl l rs, (NewBasicSkipList draws).run calls = some (sl, rs) ∧
      Good sl.mem sl.head sl.level l ∧ ∀ k, tGet (towers sl.mem l) k = latest calls k := by
  obtain ⟨sl, l, rs, h1, h2, h3⟩ :=
    BasicSkipList.basic_run_good calls (BasicSkipList.NewBasicSkipList_good draws)
  refine ⟨sl, l, rs, h1, h2, ?_⟩
  intro k
  have h4 := congrArg (fun p => tGet p.1.1 k) h3
  simp only at h4
  rw [h4, tGet_tRun]
  rfl

theorem LASkipList.la_run_latest (draws : Nat → Nat) (calls : List LACall) :
    ∃ sl l rs, (NewLASkipList draws).run calls = some (sl, rs) ∧
      Good sl.mem sl.head sl.level l ∧ ∀ k, tGet (towers sl.mem l) k = latestLA calls k := by
  obtain ⟨sl, l, rs, h1, h2, h3⟩ :=
    LASkipList.la_run_good calls (LASkipList.NewLASkipList_good draws)
  refine ⟨sl, l, rs, h1, h2, ?_⟩
  intro k
  have h4 := congrArg (fun p => tGet p.1.1 k) h3
  simp only at h4
  rw [h4, tGet_tRunLA]
  rfl

theorem latestLA_puts (k : K) (v : V) (pre : List LACall) :
    ∀ (puts : List (K × V)), (∀ p ∈ puts, p.1 ≠ k) →
      latestLA (pre ++ LACall.put k v :: puts.map (fun p => LACall.put p.1 p.2)) k = some v := by
  intro puts hne
  unfold latestLA
  rw [List.foldl_append, List.foldl_cons]
  simp only [if_true]
  induction puts with
  | nil => rfl
  | cons p puts ih =>
    simp only [List.map_cons, List.foldl_cons]
    have h1 : ¬ p.1 = k := hne p (by simp)
    simp only [h1, if_false]
    exact ih (fun q hq => hne q (List.mem_cons_of_mem _ hq))

theorem randomLevelWithNPLoop_mono (np : ℚ) : ∀ (fuel : Nat) (r : Rand) (lvl : Nat)
    (res : Nat × Rand), LASkipList.randomLevelWithNPLoop np fuel r lvl = some res →
    lvl ≤ res.1
  | 0, _, _, _, h => by simp [LASkipList.randomLevelWithNPLoop] at h
  | fuel + 1, r, lvl, res, h => by
    unfold LASkipList.randomLevelWithNPLoop at h
    split at h
    · split at h
      · have := randomLevelWithNPLoop_mono np fuel _ _ _ h; omega
      · split at h
        · have := randomLevelWithNPLoop_mono np fuel _ _ _ h; omega
        · cases h; exact le_refl _
    · cases h; exact le_refl _

/-- With `np = 2^h` the height grows without draws up to `h + 1` (or to the cap). -/
theorem randomLevelWithNPLoop_pow (h : Nat) : ∀ (fuel : Nat) (r : Rand) (lvl : Nat)
    (res : Nat × Rand), lvl ≤ h →
    LASkipList.randomLevelWithNPLoop ((2 : ℚ) ^ h) fuel r lvl = some res →
    min (h + 1) maxLevel ≤ res.1
  | 0, _, _, _, _, hl => by simp [LASkipList.randomLevelWithNPLoop] at hl
  | fuel + 1, r, lvl, res, hlvl, hl => by
    unfold LASkipList.randomLevelWithNPLoop at hl
    split at hl
    · have hge : (2 : ℚ) ^ h ≥ (2 : ℚ) ^ (lvl + 1 - 1) := by
        simp only [Nat.add_sub_cancel]
        exact pow_le_pow_right₀ (by norm_num) hlvl
      rw [if_pos hge] at hl
      by_cases h1 : lvl + 1 ≤ h
      · exact randomLevelWithNPLoop_pow h fuel r (lvl + 1) res h1 hl
      · have := randomLevelWithNPLoop_mono _ fuel _ _ _ hl
        have : h + 1 ≤ res.1 := by omega
        exact le_trans (min_le_left _ _) this
    · cases hl
      rename_i hnl
      simp only
      exact le_trans (min_le_right _ _) (by omega)

end Skiplist

namespace Skiplist

/-! ## Claims about `BasicSkipList` and `LASkipList` -/

/-- C1: `BasicSkipList` behaves as a finite map. For every stream of draws and every
sequence of calls (oldest first) on a list made by `NewBasicSkipList`, the calls return, and
afterwards for every key `k`, `Get(k)` returns `(v, true)` when the most recent `Put` or
`Delete` on `k` was `Put(k, v)` and `(0, false)` when `k` was never put or was last deleted;
`Contains(k)` returns the same found flag. -/
theorem basic_finite_map (draws : Nat → Nat) (calls : List Call) :
    ∃ sl rs, (NewBasicSkipList draws).run calls = some (sl, rs) ∧
      ∀ k, sl.Get k = some (getReply (latest calls k)) ∧
        sl.Contains k = some (latest calls k).isSome := by
  obtain ⟨sl, l, rs, h1, h2, h3⟩ := BasicSkipList.basic_run_latest draws calls
  refine ⟨sl, rs, h1, fun k => ⟨?_, ?_⟩⟩
  · rw [BasicSkipList.basic_Get_good h2 k, h3 k]
  · rw [BasicSkipList.basic_Contains_good h2 k, h3 k]

/-- C4: on every `LASkipList` state reached by `Put`, `PutWithNP` and `Delete` calls (the
calls `pre`), with every stream of draws: after `Put(k, v)` followed by any number of `Put`s
of keys other than `k`, `Get(k)` returns `(v, true)` and `Contains(k)` returns true. -/
theorem la_put_then_get (draws : Nat → Nat) (pre : List LACall) (k : K) (v : V)
    (puts : List (K × V)) (hne : ∀ p ∈ puts, p.1 ≠ k) :
    ∃ sl rs, (NewLASkipList draws).run
        (pre ++ LACall.put k v :: puts.map (fun p => LACall.put p.1 p.2)) = some (sl, rs) ∧
      sl.Get k = some (v, true) ∧ sl.Contains k = some true := by
  obtain ⟨sl, l, rs, h1, h2, h3⟩ := LASkipList.la_run_latest draws
    (pre ++ LACall.put k v :: puts.map (fun p => LACall.put p.1 p.2))
  refine ⟨sl, rs, h1, ?_, ?_⟩
  · rw [LASkipList.la_Get_good h2 k, h3 k, latestLA_puts k v pre puts hne]
    rfl
  · rw [LASkipList.la_Contains_good h2 k, h3 k, latestLA_puts k v pre puts hne]
    rfl

/-- A witness for `la_put_then_get`: after `Put(7, 1)`, `Delete(7)`, then `Put(7, 5)` and a
`Put(9, 2)`, the key 7 holds 5. -/
theorem la_put_then_get_witness :
    (∀ p ∈ [((9 : K), (2 : V))], p.1 ≠ 7) ∧
    ∃ sl rs, (NewLASkipList (fun _ => 0)).run
        ([LACall.put 7 1, LACall.delete 7] ++ LACall.put 7 5 ::
          [((9 : K), (2 : V))].map (fun p => LACall.put p.1 p.2)) = some (sl, rs) ∧
      sl.Get 7 = some (5, true) ∧ sl.Contains 7 = some true :=
  ⟨by decide, la_put_then_get (fun _ => 0) [LACall.put 7 1, LACall.delete 7] 7 5 [(9, 2)]
    (by decide)⟩

/-- C5: on every reachable `LASkipList` state and for every key `k`, `Delete(k)` returns,
and afterwards `Contains(k)` is false and `Get(k)` is `(0, false)`; on no level does the
traversal from the head meet a node with key `k`, nor the node `find` returned for `k`
before; and `Get(j)` for every other key `j` returns what it returned before. -/
theorem la_delete (draws : Nat → Nat) (calls : List LACall) (k : K) :
    ∃ sl rs sl1, (NewLASkipList draws).run calls = some (sl, rs) ∧ sl.Delete k = some sl1 ∧
      sl1.Contains k = some false ∧ sl1.Get k = some (0, false) ∧
      (∀ h : Fin (maxLevel + 1), ∃ nodes, levelNodes sl1.mem sl1.head h = some nodes ∧
        (∀ a ∈ nodes, keyAt sl1.mem a ≠ k) ∧ (∀ a ∈ nodes, sl.find k ≠ some (some a))) ∧
      ∀ j, j ≠ k → sl1.Get j = sl.Get j := by
  obtain ⟨sl, l, rs, h1, h2, _⟩ := LASkipList.la_run_latest draws calls
  obtain ⟨sl1, g1, g2, g3, g4, g5⟩ := LASkipList.la_Delete_good h2 k
  have hts : towers sl1.mem (dropKey sl.mem k l) = tDelete (towers sl.mem l) k :=
    congrArg Prod.fst g3
  refine ⟨sl, rs, sl1, h1, g1, ?_, ?_, ?_, ?_⟩
  · rw [LASkipList.la_Contains_good g2 k, hts, tGet_tDelete]; simp
  · rw [LASkipList.la_Get_good g2 k, hts, tGet_tDelete]; simp [getReply]
  · intro h
    refine ⟨_, g2.toRep.levelNodes_eq (Nat.lt_succ_iff.1 h.2), ?_, ?_⟩
    · intro a ha
      rw [g4.key]
      exact (mem_dropKey.1 (mem_atLevel.1 ha).1).2
    · intro a ha hf
      have h3 : sl.find k = some (target sl.mem k l) := h2.find_eq k
      rw [h3] at hf
      have h4 : target sl.mem k l = some a := Option.some.inj hf
      exact (mem_dropKey.1 (mem_atLevel.1 ha).1).2 (target_some h4).2
  · intro j hj
    rw [LASkipList.la_Get_good g2 j, LASkipList.la_Get_good h2 j, hts, tGet_tDelete]
    simp [hj]

/-- C6: for every `h` in {0, 1, 5, 31}, every reachable `LASkipList` state that does not
contain `k` and every stream of draws, `PutWithNP(k, v, 2^h)` returns and creates a node,
the one `find` then returns for `k`, whose `GetLevel()` is at least `h`. -/
theorem la_putWithNP_height (draws : Nat → Nat) (calls : List LACall) (k : K) (v : V)
    (h : Nat) (hh : h ∈ [0, 1, 5, 31]) (sl : LASkipList) (rs : List Reply)
    (hrun : (NewLASkipList draws).run calls = some (sl, rs))
    (habs : sl.Contains k = some false) :
    ∃ sl1 a, sl.PutWithNP k v ((2 : ℚ) ^ h) = some sl1 ∧ sl1.find k = some (some a) ∧
      (h : Int) ≤ GetLevel sl1.mem a := by
  obtain ⟨sl0, l, rs0, h1, h2, _⟩ := LASkipList.la_run_latest draws calls
  rw [hrun] at h1
  cases h1
  obtain ⟨sl1, l1, g1, g2, g3⟩ := LASkipList.la_PutWithNP_good h2 k v ((2 : ℚ) ^ h)
  have hnone : tGet (towers sl.mem l) k = none := by
    rw [LASkipList.la_Contains_good h2 k] at habs
    cases ht : tGet (towers sl.mem l) k with
    | none => rfl
    | some w => rw [ht] at habs; simp at habs
  obtain ⟨res, hres, _, _⟩ := randomLevelWithNPLoop_isSome ((2 : ℚ) ^ h) (maxLevel + 1)
    sl.rand 0 (Nat.zero_le _) (by omega)
  have hge := randomLevelWithNPLoop_pow h (maxLevel + 1) sl.rand 0 res (Nat.zero_le _) hres
  have hts : towers sl1.mem l1 = tInsert (towers sl.mem l) k v res.1 := by
    have := congrArg Prod.fst g3
    simp only [tPutNP, hnone, hres] at this
    exact this
  have hfind := tFind_towers g2.sorted k
  rw [hts, tFind_tInsert_same v res.1 hnone] at hfind
  cases ht : target sl1.mem k l1 with
  | none => rw [ht] at hfind; cases hfind
  | some a =>
    rw [ht] at hfind
    simp only [Option.map_some', Option.some.injEq, Prod.mk.injEq] at hfind
    refine ⟨sl1, a, g1, ?_, ?_⟩
    · have := g2.find_eq k
      unfold LASkipList.find
      rw [this, ht]
    · unfold GetLevel
      have h5 : res.1 = lenAt sl1.mem a - 1 := hfind.2.2
      have h6 : h ≤ 31 := by
        simp at hh
        omega
      have h7 : min (h + 1) maxLevel ≤ res.1 := hge
      have h8 : h + 1 ≤ maxLevel := by unfold maxLevel; omega
      rw [min_eq_left h8] at h7
      omega

/-- A witness for `la_putWithNP_height`: `PutWithNP(3, 1, 2^5)` on the list that holds
key 1, with draws that never promote. -/
theorem la_putWithNP_height_witness :
    (5 ∈ [0, 1, 5, 31]) ∧
    (NewLASkipList (fun _ => 2 ^ 52)).run [LACall.put 1 1]
      = some ({ mem := [{ key := 0, value := 0, next := some 1 :: List.replicate 32 none },
                        { key := 1, value := 1, next := [none] }],
                head := 0, level := 1, rand := { draws := fun _ => 2 ^ 52, pos := 1 },
                size := 1 }, [Reply.done]) ∧
    ∃ sl1 a, LASkipList.PutWithNP
        { mem := [{ key := 0, value := 0, next := some 1 :: List.replicate 32 none },
                  { key := 1, value := 1, next := [none] }],
          head := 0, level := 1, rand := { draws := fun _ => 2 ^ 52, pos := 1 }, size := 1 }
        3 1 ((2 : ℚ) ^ 5) = some sl1 ∧
      sl1.find 3 = some (some a) ∧ ((5 : Nat) : Int) ≤ GetLevel sl1.mem a :=
  ⟨by decide, by rfl,
    la_putWithNP_height (fun _ => 2 ^ 52) [LACall.put 1 1] 3 1 5 (by decide)
      { mem := [{ key := 0, value := 0, next := some 1 :: List.replicate 32 none },
                { key := 1, value := 1, next := [none] }],
        head := 0, level := 1, rand := { draws := fun _ => 2 ^ 52, pos := 1 }, size := 1 }
      [Reply.done] (by rfl) (by decide)⟩

/-- C7: given the same stream of draws and the same sequence of `Put`, `Get`, `Contains` and
`Delete` calls, `LASkipList` and `BasicSkipList` both return from every call, give the same
replies to every `Get` and `Contains`, and hold the same sequence of (key, value, tower
height) along level 0 afterwards; as this holds for every sequence, it holds after every
call of a sequence. -/
theorem la_refines_basic (draws : Nat → Nat) (calls : List Call) :
    ∃ b rb la rl ts, (NewBasicSkipList draws).run calls = some (b, rb) ∧
      (NewLASkipList draws).run (calls.map Call.toLA) = some (la, rl) ∧ rb = rl ∧
      levelZero b.mem b.head = some ts ∧ levelZero la.mem la.head = some ts := by
  obtain ⟨b, lb, rb, h1, h2, h3⟩ :=
    BasicSkipList.basic_run_good calls (BasicSkipList.NewBasicSkipList_good draws)
  obtain ⟨la, ll, rl, g1, g2, g3⟩ :=
    LASkipList.la_run_good (calls.map Call.toLA) (LASkipList.NewLASkipList_good draws)
  rw [NewBasic_towers] at h3
  rw [NewLA_towers] at g3
  have h4 := h3.trans g3.symm
  simp only [Prod.mk.injEq] at h4
  refine ⟨b, rb, la, rl, towers b.mem lb, h1, g1, h4.2, h2.toRep.levelZero_eq, ?_⟩
  rw [g2.toRep.levelZero_eq, h4.1.1]

/-- C8: after every sequence of calls on a `BasicSkipList` (`cb`) or on an `LASkipList`
(`cl`, which may hold `PutWithNP`), on every level 0..32 the keys met after the head are
strictly increasing; and the level-0 traversal lists exactly the stored keys (those for
which `Contains` returns true), each once since the keys increase strictly. -/
theorem levels_sorted (draws : Nat → Nat) (cb : List Call) (cl : List LACall) :
    (∃ sl rs, (NewBasicSkipList draws).run cb = some (sl, rs) ∧
      (∀ h : Fin (maxLevel + 1), ∃ ks, levelKeys sl.mem sl.head h = some ks ∧
        ks.Pairwise (fun a b => a < b)) ∧
      ∃ ks, levelKeys sl.mem sl.head 0 = some ks ∧ ks.Pairwise (fun a b => a < b) ∧
        ∀ k, k ∈ ks ↔ sl.Contains k = some true) ∧
    (∃ sl rs, (NewLASkipList draws).run cl = some (sl, rs) ∧
      (∀ h : Fin (maxLevel + 1), ∃ ks, levelKeys sl.mem sl.head h = some ks ∧
        ks.Pairwise (fun a b => a < b)) ∧
      ∃ ks, levelKeys sl.mem sl.head 0 = some ks ∧ ks.Pairwise (fun a b => a < b) ∧
        ∀ k, k ∈ ks ↔ sl.Contains k = some true) := by
  constructor
  · obtain ⟨sl, l, rs, h1, h2, _⟩ := BasicSkipList.basic_run_latest draws cb
    refine ⟨sl, rs, h1, ?_, ?_⟩
    · intro h
      exact ⟨_, h2.toRep.levelKeys_eq (Nat.lt_succ_iff.1 h.2), h2.toRep.levelKeys_sorted _⟩
    · refine ⟨_, h2.toRep.levelKeys_eq (Nat.zero_le _), h2.toRep.levelKeys_sorted _, ?_⟩
      intro k
      rw [atLevel_zero (fun a ha => (h2.lenPos a ha).1), mem_keys_towers h2.sorted,
        BasicSkipList.basic_Contains_good h2 k]
      simp
  · obtain ⟨sl, l, rs, h1, h2, _⟩ := LASkipList.la_run_latest draws cl
    refine ⟨sl, rs, h1, ?_, ?_⟩
    · intro h
      exact ⟨_, h2.toRep.levelKeys_eq (Nat.lt_succ_iff.1 h.2), h2.toRep.levelKeys_sorted _⟩
    · refine ⟨_, h2.toRep.levelKeys_eq (Nat.zero_le _), h2.toRep.levelKeys_sorted _, ?_⟩
      intro k
      rw [atLevel_zero (fun a ha => (h2.lenPos a ha).1), mem_keys_towers h2.sorted,
        LASkipList.la_Contains_good h2 k]
      simp

end Skiplist

namespace Skiplist

/-! ## The validator on a valid structure -/

theorem wrap32_of_small {x : Int} (h0 : 0 ≤ x) (h1 : x < 2 ^ 31) : wrap32 x = x := by
  unfold wrap32
  omega

theorem wrap32_nat {n : Nat} (h : n < 2 ^ 31) : wrap32 (n : Int) = (n : Int) :=
  wrap32_of_small (Int.ofNat_nonneg n) (by exact_mod_cast h)

theorem map_range_set (n : Nat) (f : Nat → Nat) (i a : Nat) :
    ((List.range n).map f).set i a = (List.range n).map (fun j => if j = i then a else f j) := by
  apply List.ext_getElem?
  intro j
  rw [List.getElem?_set]
  by_cases hj : j < n
  · by_cases hij : i = j
    · subst hij
      simp [hj]
    · have hji : ¬ j = i := fun h => hij h.symm
      simp [hij, hji, List.getElem?_range hj, List.getElem?_map]
  · have h1 : ((List.range n).map f)[j]? = none := by
      apply List.getElem?_eq_none; simp; omega
    have h2 : ((List.range n).map (fun j => if j = i then a else f j))[j]? = none := by
      apply List.getElem?_eq_none; simp; omega
    rw [h2]
    by_cases hij : i = j
    · subst hij
      simp
      omega
    · simp [hij, h1]

theorem tracked_nil (ht : Nat → Nat) (head i : Nat) : tracked ht head [] i = head := rfl

theorem tracked_snoc (ht : Nat → Nat) (head : Nat) (pre : List Nat) (a i : Nat) :
    tracked ht head (pre ++ [a]) i = if i ≤ ht a then a else tracked ht head pre i := by
  unfold tracked
  rw [List.filter_append]
  by_cases h : i ≤ ht a
  · simp only [h, if_true]
    rw [List.filter_cons_of_pos (by simpa using h)]
    simp
  · simp only [h, if_false]
    rw [List.filter_cons_of_neg (by simpa using h)]
    simp

/-- The inner loop of `CheckStruct` on node `a`, entered at level `i` with the tracked nodes
already replaced by `a` below `i`, ends normally with `a` tracked on all its levels. -/
theorem checkLevels_valid {σ : Type} {A : Analyable σ} {s : σ} {head : Nat} {l : List Nat}
    {ht : Nat → Nat} {top : Nat} (hv : Valid A s head l ht top) (n : Nat)
    {pre : List Nat} {a : Nat} {post : List Nat} (hl : l = pre ++ a :: post) :
    ∀ (cnt i : Nat), 1 ≤ i → cnt + i = ht a + 1 →
      checkLevels A s a cnt i ((List.range n).map
        (fun j => if j = 0 then head else if j < i ∧ j ≤ ht a then a
          else tracked ht head pre j))
      = some (some ((List.range n).map
        (fun j => if j = 0 then head else tracked ht head (pre ++ [a]) j)))
  | 0, i, hi, hc => by
    unfold checkLevels
    congr 2
    apply List.map_congr_left
    intro j _
    rw [tracked_snoc]
    by_cases h0 : j = 0
    · simp [h0]
    · by_cases h1 : j ≤ ht a
      · have : j < i ∧ j ≤ ht a := ⟨by omega, h1⟩
        simp [h0, this, h1]
      · have : ¬ (j < i ∧ j ≤ ht a) := fun h => h1 h.2
        simp [h0, this, h1]
  | cnt + 1, i, hi, hc => by
    have hia : i ≤ ht a := by omega
    have hal : a ∈ l := by rw [hl]; simp
    have hitop : i < 2 ^ 31 := lt_of_le_of_lt (le_trans hia (hv.htLe a hal)) hv.topLe
    unfold checkLevels
    by_cases hin : i < n
    · have hlen : i < ((List.range n).map
        (fun j => if j = 0 then head else if j < i ∧ j ≤ ht a then a
          else tracked ht head pre j)).length := by simpa using hin
      rw [if_pos hlen]
      have hget : ((List.range n).map
        (fun j => if j = 0 then head else if j < i ∧ j ≤ ht a then a
          else tracked ht head pre j))[i]? = some (tracked ht head pre i) := by
        rw [List.getElem?_map, List.getElem?_range hin]
        have h0 : ¬ i = 0 := by omega
        have h1 : ¬ (i < i ∧ i ≤ ht a) := fun h => absurd h.1 (lt_irrefl _)
        simp [h0]
      rw [hget]
      simp only
      rw [wrap32_nat hitop, hv.link pre a post hl i hi hia]
      simp only [ne_eq, not_true_eq_false, if_false]
      rw [map_range_set]
      have hfun : (fun j => if j = i then a else
          if j = 0 then head else if j < i ∧ j ≤ ht a then a else tracked ht head pre j)
          = (fun j => if j = 0 then head else if j < i + 1 ∧ j ≤ ht a then a
              else tracked ht head pre j) := by
        funext j
        by_cases hji : j = i
        · subst hji
          have h0 : ¬ j = 0 := by omega
          have : j < j + 1 ∧ j ≤ ht a := ⟨by omega, hia⟩
          simp [h0, this]
        · by_cases h0 : j = 0
          · subst h0
            simp only [hji, if_false, if_true]
          · by_cases h1 : j < i ∧ j ≤ ht a
            · have : j < i + 1 ∧ j ≤ ht a := ⟨by omega, h1.2⟩
              simp [hji, h0, h1, this]
            · have : ¬ (j < i + 1 ∧ j ≤ ht a) := fun h => h1 ⟨by omega, h.2⟩
              simp [hji, h0, h1, this]
      rw [hfun]
      exact checkLevels_valid hv n hl cnt (i + 1) (by omega) (by omega)
    · have hlen : ¬ i < ((List.range n).map
        (fun j => if j = 0 then head else if j < i ∧ j ≤ ht a then a
          else tracked ht head pre j)).length := by simpa using hin
      rw [if_neg hlen]
      have hfun : (List.range n).map (fun j => if j = 0 then head else
            if j < i ∧ j ≤ ht a then a else tracked ht head pre j)
          = (List.range n).map (fun j => if j = 0 then head else if j < i + 1 ∧ j ≤ ht a then a
              else tracked ht head pre j) := by
        apply List.map_congr_left
        intro j hj
        have hjn : j < n := List.mem_range.1 hj
        by_cases h0 : j = 0
        · simp [h0]
        · by_cases h1 : j < i ∧ j ≤ ht a
          · have : j < i + 1 ∧ j ≤ ht a := ⟨by omega, h1.2⟩
            simp [h0, h1, this]
          · have : ¬ (j < i + 1 ∧ j ≤ ht a) := fun h => h1 ⟨by omega, h.2⟩
            simp [h0, h1, this]
      rw [hfun]
      exact checkLevels_valid hv n hl cnt (i + 1) (by omega) (by omega)

/-- The outer loop of `CheckStruct` on a valid structure returns true. -/
theorem checkLoop_valid {σ : Type} {A : Analyable σ} {s : σ} {head : Nat} {l : List Nat}
    {ht : Nat → Nat} {top : Nat} (hv : Valid A s head l ht top) (n : Nat) :
    ∀ (post pre : List Nat) (a fuel : Nat), l = pre ++ a :: post → post.length < fuel →
      checkLoop A s (top : Int) fuel ((List.range n).map
        (fun j => if j = 0 then head else tracked ht head pre j)) a = some true
  | post, pre, a, fuel, hl, hf => by
    obtain ⟨f, rfl⟩ : ∃ f, fuel = f + 1 := ⟨fuel - 1, by omega⟩
    have hal : a ∈ l := by rw [hl]; simp
    unfold checkLoop
    rw [hv.level a hal]
    simp only
    have htop : wrap32 (top : Int) = (top : Int) := wrap32_nat hv.topLe
    have hle : ¬ ((ht a : Int) > wrap32 (top : Int)) := by
      rw [htop]
      have := hv.htLe a hal
      omega
    rw [if_neg hle]
    have hlev := checkLevels_valid hv n hl (ht a) 1 (le_refl _) (by omega)
    have hfun : (fun j => if j = 0 then head else if j < 1 ∧ j ≤ ht a then a
          else tracked ht head pre j)
        = (fun j => if j = 0 then head else tracked ht head pre j) := by
      funext j
      by_cases h0 : j = 0
      · simp [h0]
      · have : ¬ (j < 1 ∧ j ≤ ht a) := fun h => h0 (by omega)
        simp [h0, this]
    rw [hfun] at hlev
    rw [Int.toNat_ofNat, hlev]
    rw [hv.next pre a post hl]
    cases post with
    | nil => rfl
    | cons b post =>
      simp only [List.head?_cons]
      exact checkLoop_valid hv n post (pre ++ [a]) b f (by rw [hl]; simp)
        (by simp at hf; omega)

end Skiplist

namespace Skiplist

/-! ## The validator on `BasicSkipList` and `LASkipList` -/

theorem getNextAt_eq_nextAt {mem : List Node} {a h : Nat} {p : Ptr}
    (hn : nextAt mem a h = some p) (hl : lenAt mem a ≤ maxLevel + 2) :
    GetNextAt mem a (h : Int) = some p := by
  obtain ⟨h1, h2⟩ := nextAt_some_lt hn
  unfold nextAt at hn
  unfold lenAt at h2 hl
  unfold GetNextAt
  rw [List.getElem?_eq_getElem h1] at hn h2 hl ⊢
  simp only at hn h2 hl ⊢
  have hw : wrap32 (mem[a].next.length : Int) = (mem[a].next.length : Int) :=
    wrap32_nat (by unfold maxLevel at hl; omega)
  rw [hw]
  have hc : ¬ ((h : Int) < 0 ∨ (h : Int) ≥ (mem[a].next.length : Int)) := by omega
  rw [if_neg hc]
  simpa using hn

theorem tracked_eq_last {mem : List Node} {head : Nat} {pre : List Nat} {i : Nat}
    (hi : 1 ≤ i) :
    tracked (fun a => lenAt mem a - 1) head pre i
      = (head :: atLevel mem i pre).getLast (List.cons_ne_nil _ _) := by
  unfold tracked atLevel
  have hf : List.filter (fun a => decide (i ≤ lenAt mem a - 1)) pre
      = List.filter (fun a => decide (i < lenAt mem a)) pre := by
    apply List.filter_congr
    intro a _
    have : (i ≤ lenAt mem a - 1) ↔ (i < lenAt mem a) := by omega
    simp [this]
  rw [hf]
  cases hx : List.filter (fun a => decide (i < lenAt mem a)) pre with
  | nil => rfl
  | cons b rest =>
    rw [List.getLast_cons (List.cons_ne_nil _ _)]
    rw [List.getLast?_eq_getLast _ (List.cons_ne_nil _ _)]
    rfl

/-- A good heap is valid for `CheckStruct` through the node methods. -/
theorem Good.valid {σ : Type} {A : Analyable σ} {s : σ} {mem : List Node} {head level : Nat}
    {l : List Nat} (hg : Good mem head level l)
    (hlev : ∀ a, A.GetLevel s a = GetLevelAt mem a)
    (hnext : ∀ a i, A.GetNextAt s a i = GetNextAt mem a i) :
    Valid A s head l (fun a => lenAt mem a - 1) level := by
  have hlen : ∀ a ∈ head :: l, lenAt mem a ≤ maxLevel + 2 := by
    intro a ha
    rcases List.mem_cons.1 ha with h1 | h1
    · rw [h1]; exact hg.headLe
    · exact le_trans (hg.lenPos a h1).2 (Nat.le_succ _)
  have hzero : ∀ (pre : List Nat) (a : Nat) (post : List Nat), head :: l = pre ++ a :: post →
      GetNextAt mem a 0 = some post.head? := by
    intro pre a post hl
    have hc := hg.chain 0
    have h0 : atLevel mem 0 (head :: l) = head :: l := by
      rw [atLevel_head hg.headLen (Nat.zero_le _), atLevel_zero (fun b hb => (hg.lenPos b hb).1)]
    rw [h0, hl] at hc
    have := chain_next_mid pre a post hc
    exact getNextAt_eq_nextAt this (hlen a (by rw [hl]; simp))
  refine ⟨?_, ?_, ?_, ?_, ?_, ?_⟩
  · intro a ha
    rw [hlev]
    unfold GetLevelAt
    have hlt := hg.bound a (List.mem_cons_of_mem _ ha)
    have h1 := hg.lenPos a ha
    unfold lenAt at h1 ⊢
    rw [List.getElem?_eq_getElem hlt] at h1 ⊢
    simp only at h1 ⊢
    rw [wrap32_of_small (by omega) (by unfold maxLevel at h1; omega)]
    congr 1
    omega
  · intro a ha
    have := hg.cover a ha
    show lenAt mem a - 1 ≤ level
    omega
  · have := hg.levelLe
    unfold maxLevel at this
    omega
  · rw [hnext]
    exact hzero [] head l rfl
  · intro pre a post hl
    rw [hnext]
    exact hzero (head :: pre) a post (by rw [hl]; rfl)
  · intro pre a post hl i hi hia
    rw [hnext, tracked_eq_last hi]
    have hal : a ∈ l := by rw [hl]; simp
    have hila : i < lenAt mem a := by
      have := (hg.lenPos a hal).1
      simp only at hia
      omega
    have himax : i ≤ maxLevel := by
      have := (hg.lenPos a hal).2
      omega
    have hc := hg.chain i
    rw [atLevel_head hg.headLen himax, hl, atLevel_append, atLevel_cons_pos post hila] at hc
    have hsplit := List.dropLast_append_getLast
      (List.cons_ne_nil head (atLevel mem i pre))
    have hc2 : Chain mem i ((head :: atLevel mem i pre).dropLast ++
        (head :: atLevel mem i pre).getLast (List.cons_ne_nil _ _) :: a :: atLevel mem i post) := by
      have h3 : (head :: atLevel mem i pre).dropLast ++
          (head :: atLevel mem i pre).getLast (List.cons_ne_nil _ _) :: a :: atLevel mem i post
          = head :: (atLevel mem i pre ++ a :: atLevel mem i post) := by
        calc (head :: atLevel mem i pre).dropLast ++
            (head :: atLevel mem i pre).getLast (List.cons_ne_nil _ _) :: a :: atLevel mem i post
            = ((head :: atLevel mem i pre).dropLast ++
              [(head :: atLevel mem i pre).getLast (List.cons_ne_nil _ _)])
                ++ a :: atLevel mem i post := by simp
          _ = _ := by rw [hsplit]; simp
      rw [h3]
      exact hc
    have hnx := chain_next_mid _ _ _ hc2
    have hmem : (head :: atLevel mem i pre).getLast (List.cons_ne_nil _ _) ∈ head :: l := by
      have := List.getLast_mem (List.cons_ne_nil head (atLevel mem i pre))
      rcases List.mem_cons.1 this with h1 | h1
      · rw [h1]; simp
      · refine List.mem_cons_of_mem _ ?_
        rw [hl]
        exact List.mem_append_left _ (mem_atLevel.1 h1).1
    exact getNextAt_eq_nextAt hnx (hlen _ hmem)

theorem replicate_eq_tracked (ht : Nat → Nat) (head n : Nat) :
    List.replicate n head
      = (List.range n).map (fun j => if j = 0 then head else tracked ht head [] j) := by
  apply List.ext_getElem?
  intro j
  by_cases hj : j < n
  · simp [List.getElem?_replicate, hj, List.getElem?_range hj, tracked_nil]
  · have h1 : (List.replicate n head)[j]? = none := by
      apply List.getElem?_eq_none; simp; omega
    have h2 : ((List.range n).map (fun j => if j = 0 then head
        else tracked ht head [] j))[j]? = none := by
      apply List.getElem?_eq_none; simp; omega
    rw [h1, h2]

/-- `CheckStruct` on a structure that is valid after its two list methods have run. -/
theorem CheckStruct_valid {σ : Type} {A : Analyable σ} {sl s1 s2 : σ} {head : Nat}
    {l : List Nat} {ht : Nat → Nat} {top : Nat} {size : Int}
    (hstats : A.GetMaxStats sl = some ((size, (top : Int)), s1))
    (hhead : A.GetHead s1 = some (some head, s2))
    (hv : Valid A s2 head l ht top) (hsteps : l.length ≤ A.steps s2) :
    CheckStruct A sl = some true := by
  unfold CheckStruct
  rw [hstats]
  simp only
  have h0 : ¬ ((top : Int) + 1 < 0) := by omega
  rw [if_neg h0, hhead]
  simp only
  rw [hv.first]
  cases l with
  | nil => rfl
  | cons a post =>
    simp only [List.head?_cons]
    have h1 : ((top : Int) + 1).toNat = top + 1 := by omega
    rw [h1, replicate_eq_tracked ht head (top + 1)]
    exact checkLoop_valid hv (top + 1) post [] a (A.steps s2) rfl (by simp at hsteps; omega)

theorem Good.length_lt {mem : List Node} {head level : Nat} {l : List Nat}
    (hg : Good mem head level l) : l.length < mem.length := by
  have := nodup_length_le hg.nodup hg.bound
  simp at this
  omega

theorem Good.towersLinked {mem : List Node} {head level : Nat} {l : List Nat}
    (hg : Good mem head level l) : TowersLinked mem head (level : Int) := by
  refine ⟨l, ?_, ?_⟩
  · rw [hg.toRep.levelNodes_eq (Nat.zero_le _), atLevel_zero (fun a ha => (hg.lenPos a ha).1)]
  · intro a ha
    have h1 := hg.lenPos a ha
    have h2 := hg.cover a ha
    unfold GetLevel
    refine ⟨by omega, ?_⟩
    intro h hh
    have h3 : h < lenAt mem a := by omega
    exact ⟨_, hg.toRep.levelNodes_eq (by omega), mem_atLevel.2 ⟨ha, h3⟩⟩

/-- C9: `CheckStruct` returns true on a `BasicSkipList` (calls `cb`) and on an `LASkipList`
(calls `cl`) after every sequence of calls, hence after every single `Put` and `Delete` of
any sequence; every node met on level 0 is met on every level from 0 up to its reported
height, and no height exceeds the `maxLevel` that `GetMaxStats` reports. -/
theorem checkStruct_basic_la (draws : Nat → Nat) (cb : List Call) (cl : List LACall) :
    (∃ sl rs, (NewBasicSkipList draws).run cb = some (sl, rs) ∧
      CheckStruct BasicSkipList.analyable sl = some true ∧
      TowersLinked sl.mem sl.head sl.GetMaxStats.2) ∧
    (∃ sl rs, (NewLASkipList draws).run cl = some (sl, rs) ∧
      CheckStruct LASkipList.analyable sl = some true ∧
      TowersLinked sl.mem sl.head sl.GetMaxStats.2) := by
  constructor
  · obtain ⟨sl, l, rs, h1, h2, _⟩ := BasicSkipList.basic_run_latest draws cb
    refine ⟨sl, rs, h1, ?_, h2.towersLinked⟩
    exact @CheckStruct_valid _ BasicSkipList.analyable sl sl sl _ _ _ _ _ rfl rfl
      (h2.valid (fun _ => rfl) (fun _ _ => rfl)) (le_of_lt h2.length_lt)
  · obtain ⟨sl, l, rs, h1, h2, _⟩ := LASkipList.la_run_latest draws cl
    refine ⟨sl, rs, h1, ?_, h2.towersLinked⟩
    exact @CheckStruct_valid _ LASkipList.analyable sl sl sl _ _ _ _ _ rfl rfl
      (h2.valid (fun _ => rfl) (fun _ _ => rfl)) (le_of_lt h2.length_lt)

end Skiplist

namespace Skiplist

/-! ## TList: reading the heap -/

theorem nodesOf_length (mem : List tNode) : (nodesOf mem).length = mem.length := by
  simp [nodesOf]

theorem nodesOf_getElem? (mem : List tNode) (a : Nat) :
    (nodesOf mem)[a]? = (mem[a]?).map tNode.toNode := by
  simp [nodesOf, List.getElem?_map]

theorem nextAt_nodesOf (mem : List tNode) (a h : Nat) :
    nextAt (nodesOf mem) a h = tNextAt mem a h := by
  unfold nextAt tNextAt
  rw [nodesOf_getElem?]
  cases mem[a]? <;> rfl

theorem lenAt_nodesOf {mem : List tNode} {a : Nat} {nd : tNode} (h : mem[a]? = some nd) :
    lenAt (nodesOf mem) a = nd.next.length := by
  unfold lenAt
  rw [nodesOf_getElem?, h]
  rfl

theorem keyAt_nodesOf {mem : List tNode} {a : Nat} {nd : tNode} (h : mem[a]? = some nd) :
    keyAt (nodesOf mem) a = nd.key := by
  unfold keyAt
  rw [nodesOf_getElem?, h]
  rfl

theorem valAt_nodesOf {mem : List tNode} {a : Nat} {nd : tNode} (h : mem[a]? = some nd) :
    valAt (nodesOf mem) a = nd.value := by
  unfold valAt
  rw [nodesOf_getElem?, h]
  rfl

theorem delAt_eq {mem : List tNode} {a : Nat} {nd : tNode} (h : mem[a]? = some nd) :
    delAt mem a = nd.del := by
  unfold delAt
  rw [h]

theorem tLevel_eq {mem : List tNode} {a : Nat} (ha : a < mem.length)
    (hl : 1 ≤ lenAt (nodesOf mem) a) (hu : lenAt (nodesOf mem) a ≤ maxLevel + 2) :
    tLevel mem a = some ((lenAt (nodesOf mem) a : Int) - 1) := by
  unfold tLevel
  have h1 : mem[a]? = some mem[a] := List.getElem?_eq_getElem ha
  rw [lenAt_nodesOf h1] at hl hu ⊢
  rw [h1]
  simp only
  rw [wrap32_of_small (by omega) (by unfold maxLevel at hu; omega)]

theorem tHitAt_eq (mem : List tNode) (key : K) (h cur : Nat) :
    tHitAt mem key h cur = hitAt (nodesOf mem) key h cur := by
  unfold tHitAt hitAt
  rw [nextAt_nodesOf]
  cases tNextAt mem cur h with
  | none => rfl
  | some p =>
    cases p with
    | none => rfl
    | some nx =>
      simp only
      rw [nodesOf_getElem?]
      cases mem[nx]? <;> rfl

theorem SameKV.kvRefl (m : List tNode) : SameKV m m := ⟨rfl, rfl, rfl, rfl⟩

theorem SameKV.kvTrans {m m1 m2 : List tNode} (h1 : SameKV m m1) (h2 : SameKV m1 m2) :
    SameKV m m2 :=
  ⟨h1.length.trans h2.length, h1.key.trans h2.key, h1.val.trans h2.val, h1.del.trans h2.del⟩

theorem SameKV.kvBelow {m m1 : List tNode} (hd : SameKV m m1) (key : K) (l : List Nat) :
    below (nodesOf m) key l = below (nodesOf m1) key l := by
  unfold Skiplist.below; rw [hd.key]

theorem SameKV.kvNotBelow {m m1 : List tNode} (hd : SameKV m m1) (key : K) (l : List Nat) :
    notBelow (nodesOf m) key l = notBelow (nodesOf m1) key l := by
  unfold Skiplist.notBelow; rw [hd.key]

theorem SameKV.kvTarget {m m1 : List tNode} (hd : SameKV m m1) (key : K) (l : List Nat) :
    target (nodesOf m) key l = target (nodesOf m1) key l := by
  unfold Skiplist.target; rw [hd.kvNotBelow, hd.key]

theorem SameKV.tlLookup {m m1 : List tNode} (hd : SameKV m m1) (l : List Nat) (k : K) :
    tlLookup m l k = tlLookup m1 l k := by
  unfold Skiplist.tlLookup; rw [hd.kvTarget, hd.del, hd.val]

/-! ## TList: the promotion -/

/-- What `upgrade` does to a node of height `h` under a parent that has level `h + 1`. -/
theorem upgrade_spec {mem : List tNode} {nd parent h : Nat}
    (hnd : nd < mem.length) (hp : parent < mem.length)
    (hlen : lenAt (nodesOf mem) nd = h + 1) (hpl : h + 1 < lenAt (nodesOf mem) parent)
    (hpu : lenAt (nodesOf mem) parent ≤ maxLevel + 2) :
    ∃ mem1, upgrade mem nd parent = some mem1 ∧ SameKV mem1 mem ∧
      (∀ a, lenAt (nodesOf mem1) a = if a = nd then h + 2 else lenAt (nodesOf mem) a) ∧
      nextAt (nodesOf mem1) parent (h + 1) = some (some nd) ∧
      nextAt (nodesOf mem1) nd (h + 1) = nextAt (nodesOf mem) parent (h + 1) ∧
      (∀ a g, ¬ (g = h + 1 ∧ (a = nd ∨ a = parent)) → g < lenAt (nodesOf mem) a →
        nextAt (nodesOf mem1) a g = nextAt (nodesOf mem) a g) := by
  have hne : nd ≠ parent := by
    intro he; subst he; omega
  have h1 : mem[nd]? = some mem[nd] := List.getElem?_eq_getElem hnd
  have h2 : mem[parent]? = some mem[parent] := List.getElem?_eq_getElem hp
  have hl1 := lenAt_nodesOf h1
  have hl2 := lenAt_nodesOf h2
  have hlev1 : tLevel mem nd = some ((h : Int)) := by
    rw [tLevel_eq hnd (by omega) (by omega), hlen]
    congr 1
    push_cast
    omega
  have hlev2 : tLevel mem parent = some ((lenAt (nodesOf mem) parent : Int) - 1) :=
    tLevel_eq hp (by omega) hpu
  have hq : ∃ q, mem[parent].next[h + 1]? = some q := by
    rw [hl2] at hpl
    exact ⟨_, List.getElem?_eq_getElem hpl⟩
  obtain ⟨q, hq⟩ := hq
  unfold upgrade
  rw [hlev1, hlev2, h1, h2]
  simp only
  have hge : ¬ ((h : Int) ≥ (lenAt (nodesOf mem) parent : Int) - 1) := by omega
  rw [if_neg hge]
  have htn : ((h : Int) + 1).toNat = h + 1 := by omega
  rw [htn, hq]
  simp only
  have hp1 : (mem.set nd { mem[nd] with next := mem[nd].next ++ [q] })[parent]?
      = some mem[parent] := by
    rw [List.getElem?_set_ne hne]; exact h2
  rw [hp1]
  simp only
  have hc : h + 1 < mem[parent].next.length ∧ (0 : Int) ≤ (h : Int) + 1 := by
    rw [hl2] at hpl
    exact ⟨hpl, by omega⟩
  rw [if_pos hc]
  refine ⟨_, rfl, ?_, ?_, ?_, ?_, ?_⟩
  · refine ⟨by simp, ?_, ?_, ?_⟩
    · funext a
      unfold keyAt
      rw [nodesOf_getElem?, nodesOf_getElem?, List.getElem?_set, List.getElem?_set]
      by_cases ha : parent = a
      · subst ha; simp [hp, tNode.toNode, hne]
      · by_cases hb : nd = a
        · subst hb; simp [hnd, tNode.toNode, ha]
        · simp [ha, hb]
    · funext a
      unfold valAt
      rw [nodesOf_getElem?, nodesOf_getElem?, List.getElem?_set, List.getElem?_set]
      by_cases ha : parent = a
      · subst ha; simp [hp, tNode.toNode, hne]
      · by_cases hb : nd = a
        · subst hb; simp [hnd, tNode.toNode, ha]
        · simp [ha, hb]
    · funext a
      unfold delAt
      rw [List.getElem?_set, List.getElem?_set]
      by_cases ha : parent = a
      · subst ha; simp [hp, hne]
      · by_cases hb : nd = a
        · subst hb; simp [hnd, ha]
        · simp [ha, hb]
  · intro a
    unfold lenAt
    rw [nodesOf_getElem?, nodesOf_getElem?, List.getElem?_set, List.getElem?_set]
    by_cases ha : parent = a
    · subst ha
      have : ¬ parent = nd := fun h => hne h.symm
      simp [hp, tNode.toNode, hne, this]
    · by_cases hb : nd = a
      · subst hb
        rw [hl1] at hlen
        simp [hnd, tNode.toNode, ha, hlen]
      · have : ¬ a = nd := fun h => hb h.symm
        simp [ha, hb, this]
  · unfold nextAt
    rw [nodesOf_getElem?, List.getElem?_set]
    simp [hp, tNode.toNode, hc.1]
  · unfold nextAt
    rw [nodesOf_getElem?, nodesOf_getElem?, List.getElem?_set, List.getElem?_set]
    have : ¬ parent = nd := fun h => hne h.symm
    rw [hl1] at hlen
    simp [this, hnd, tNode.toNode, h2, hlen, hq]
  · intro a g hcond hg
    unfold nextAt
    rw [nodesOf_getElem?, nodesOf_getElem?, List.getElem?_set, List.getElem?_set]
    by_cases ha : parent = a
    · subst ha
      have hgne : ¬ (h + 1 = g) := fun h3 => hcond ⟨h3.symm, Or.inr rfl⟩
      simp [hp, tNode.toNode, hne, h2, List.getElem?_set, hgne]
    · by_cases hb : nd = a
      · subst hb
        rw [hl1] at hg
        simp [hnd, tNode.toNode, ha, h1, List.getElem?_append_left hg]
      · simp [ha, hb]

end Skiplist

namespace Skiplist

/-! ## Raising a node by one level keeps the representation -/

theorem below_of_keyAt_eq {m m1 : List Node} (hk : keyAt m1 = keyAt m) (key : K)
    (l : List Nat) : below m1 key l = below m key l := by
  unfold below; rw [hk]

theorem notBelow_of_keyAt_eq {m m1 : List Node} (hk : keyAt m1 = keyAt m) (key : K)
    (l : List Nat) : notBelow m1 key l = notBelow m key l := by
  unfold notBelow; rw [hk]

theorem atLevel_nil_of_le {m : List Node} {g : Nat} {l : List Nat}
    (h : ∀ a ∈ l, lenAt m a ≤ g) : atLevel m g l = [] := by
  unfold atLevel
  apply List.filter_eq_nil_iff.2
  intro a ha
  have := h a ha
  simp
  omega

/-- Raising `curr`, a node of height `h` before `key` with no higher node between it and
`key`, to level `h + 1` behind the last node before `key` that has that level. -/
theorem Rep.raise {m m1 : List Node} {head : Nat} {l : List Nat} (hr : Rep m head l)
    (key : K) {h curr : Nat} (hh : h + 1 ≤ maxLevel) {P Q : List Nat}
    (hpos : head :: below m key l = P ++ curr :: Q) (hQ : ∀ a ∈ Q, lenAt m a ≤ h + 1)
    (hcl : lenAt m curr = h + 1)
    (hlength : m1.length = m.length) (hkey : keyAt m1 = keyAt m)
    (hlen : ∀ a, lenAt m1 a = if a = curr then h + 2 else lenAt m a)
    (hn1 : nextAt m1 (stopAt m key head l (h + 1)) (h + 1) = some (some curr))
    (hn2 : nextAt m1 curr (h + 1) = nextAt m (stopAt m key head l (h + 1)) (h + 1))
    (hn3 : ∀ a g, ¬ (g = h + 1 ∧ (a = curr ∨ a = stopAt m key head l (h + 1))) →
      g < lenAt m a → nextAt m1 a g = nextAt m a g) :
    Rep m1 head l ∧ stopAt m1 key head l (h + 1) = curr := by
  have hhead : curr ≠ head := by
    intro he
    have := hr.headLen
    rw [← he, hcl] at this
    omega
  obtain ⟨P1, hP, hbel⟩ : ∃ P1, P = head :: P1 ∧ below m key l = P1 ++ curr :: Q := by
    cases P with
    | nil =>
      have : head = curr := by simpa using congrArg List.head? hpos
      exact absurd this.symm hhead
    | cons x P1 =>
      have h1 := List.cons.inj hpos
      exact ⟨P1, by rw [← h1.1], by simpa using h1.2⟩
  have hl : l = P1 ++ curr :: Q ++ notBelow m key l := by
    rw [← hbel, below_append_notBelow]
  have hcurl : curr ∈ l := by rw [hl]; simp
  have hnd : (P1 ++ curr :: Q ++ notBelow m key l).Nodup := by
    rw [← hl]; exact (List.nodup_cons.1 hr.nodup).2
  have hQne : ∀ a ∈ Q, a ≠ curr := by
    intro a ha he
    subst he
    have h1 : (P1 ++ a :: Q).Nodup := (List.nodup_append.1 hnd).1
    have h2 := (List.nodup_append.1 h1).2.1
    exact (List.nodup_cons.1 h2).1 ha
  have hshape : Shape m1 head l := by
    refine ⟨hr.nodup, fun a ha => hlength ▸ hr.bound a ha, ?_, ?_, ?_, ?_⟩
    · rw [hlen]; simp [Ne.symm hhead]; exact hr.headLen
    · rw [hlen]; simp [Ne.symm hhead]; exact hr.headLe
    · intro a ha
      rw [hlen]
      by_cases hac : a = curr
      · simp [hac]; omega
      · simp [hac]; exact hr.lenPos a ha
    · rw [hkey]; exact hr.sorted
  -- the level-(h+1) part before `key`, in the old and in the new heap
  have hold : atLevel m (h + 1) (below m key l) = atLevel m (h + 1) P1 := by
    rw [hbel, atLevel_append, atLevel_cons_neg Q (by omega),
      atLevel_nil_of_le hQ, List.append_nil]
  have hP1 : atLevel m1 (h + 1) P1 = atLevel m (h + 1) P1 := by
    apply atLevel_congr
    intro a ha
    rw [hlen]
    have : a ≠ curr := by
      intro he
      subst he
      have h1 : (P1 ++ a :: Q).Nodup := (List.nodup_append.1 hnd).1
      exact (List.nodup_append.1 h1).2.2 ha (List.mem_cons_self _ _)
    simp [this]
  have hQ1 : atLevel m1 (h + 1) Q = [] := by
    apply atLevel_nil_of_le
    intro a ha
    rw [hlen]
    simp [hQne a ha]
    exact hQ a ha
  have hnb : atLevel m1 (h + 1) (notBelow m key l) = atLevel m (h + 1) (notBelow m key l) := by
    apply atLevel_congr
    intro a ha
    rw [hlen]
    have : a ≠ curr := by
      intro he
      subst he
      exact (List.nodup_append.1 hnd).2.2 (by simp) ha
    simp [this]
  have hnew : atLevel m1 (h + 1) (below m key l) = atLevel m (h + 1) P1 ++ [curr] := by
    rw [hbel, atLevel_append, hP1, atLevel_cons_pos Q (by rw [hlen]; simp), hQ1]
  have hstop : stopAt m key head l (h + 1)
      = (head :: atLevel m (h + 1) P1).getLast (List.cons_ne_nil _ _) := by
    unfold stopAt
    simp only [hold]
  refine ⟨⟨hshape, ?_⟩, ?_⟩
  · intro g
    by_cases hg : g = h + 1
    · subst hg
      have hstoplen : stopAt m key head l (h + 1) ≠ curr := by
        intro he
        have hmem := stopAt_mem m key head l (h + 1)
        rw [he] at hmem
        rcases List.mem_cons.1 hmem with h1 | h1
        · exact hhead h1
        · have := (mem_atLevel.1 h1).2
          omega
      have hc0 := hr.toShape.chain_split key hh (hr.chain _)
      rw [hold] at hc0
      have hsplit := List.dropLast_append_getLast
        (List.cons_ne_nil head (atLevel m (h + 1) P1))
      rw [← hstop] at hsplit
      have hc1 : Chain m (h + 1) ((head :: atLevel m (h + 1) P1).dropLast ++
          stopAt m key head l (h + 1) :: atLevel m (h + 1) (notBelow m key l)) := by
        have : (head :: atLevel m (h + 1) P1).dropLast ++
            stopAt m key head l (h + 1) :: atLevel m (h + 1) (notBelow m key l)
            = ((head :: atLevel m (h + 1) P1).dropLast ++ [stopAt m key head l (h + 1)])
              ++ atLevel m (h + 1) (notBelow m key l) := by simp
        rw [this, hsplit]
        exact hc0
      have hndc : ((head :: atLevel m (h + 1) P1).dropLast ++
          stopAt m key head l (h + 1) :: atLevel m (h + 1) (notBelow m key l)).Nodup := by
        have h1 : (head :: atLevel m (h + 1) P1).dropLast ++
            stopAt m key head l (h + 1) :: atLevel m (h + 1) (notBelow m key l)
            = atLevel m (h + 1) (head :: l) := by
          have : (head :: atLevel m (h + 1) P1).dropLast ++
              stopAt m key head l (h + 1) :: atLevel m (h + 1) (notBelow m key l)
              = ((head :: atLevel m (h + 1) P1).dropLast ++ [stopAt m key head l (h + 1)])
                ++ atLevel m (h + 1) (notBelow m key l) := by simp
          rw [this, hsplit, atLevel_head hr.headLen hh, List.cons_append, ← hold,
            ← atLevel_append, below_append_notBelow]
        rw [h1]
        exact hr.nodup.sublist (atLevel_sublist _ _ _)
      have hgoal := @chain_insert m m1 (h + 1) curr (stopAt m key head l (h + 1))
        ((head :: atLevel m (h + 1) P1).dropLast) (atLevel m (h + 1) (notBelow m key l)) hc1
        (by
          intro a ha
          have hmemc : a ∈ (head :: atLevel m (h + 1) P1).dropLast ++
              stopAt m key head l (h + 1) :: atLevel m (h + 1) (notBelow m key l) := by
            rcases List.mem_append.1 ha with h1 | h1
            · exact List.mem_append_left _ h1
            · exact List.mem_append_right _ (List.mem_cons_of_mem _ h1)
          have hlt := (chain_mem_lt _ hc1 a hmemc).2
          have hane : a ≠ stopAt m key head l (h + 1) := by
            intro he
            subst he
            have := List.nodup_append.1 hndc
            rcases List.mem_append.1 ha with h1 | h1
            · exact this.2.2 h1 (List.mem_cons_self _ _)
            · exact (List.nodup_cons.1 this.2.1).1 h1
          have hanc : a ≠ curr := by
            intro he
            subst he
            omega
          exact hn3 a (h + 1) (fun hx => by
            rcases hx.2 with h5 | h5
            · exact hanc h5
            · exact hane h5) hlt)
        hn1
        (by rw [hn2]; exact chain_next_mid _ _ _ hc1)
      have hfin : atLevel m1 (h + 1) (head :: l)
          = (head :: atLevel m (h + 1) P1).dropLast ++
            stopAt m key head l (h + 1) :: curr :: atLevel m (h + 1) (notBelow m key l) := by
        have : (head :: atLevel m (h + 1) P1).dropLast ++
            stopAt m key head l (h + 1) :: curr :: atLevel m (h + 1) (notBelow m key l)
            = ((head :: atLevel m (h + 1) P1).dropLast ++ [stopAt m key head l (h + 1)])
              ++ curr :: atLevel m (h + 1) (notBelow m key l) := by simp
        rw [this, hsplit, atLevel_head hshape.headLen hh]
        have hl2 : l = below m key l ++ notBelow m key l := (below_append_notBelow m key l).symm
        conv_lhs => rw [hl2]
        rw [atLevel_append, hnew, hnb]
        simp
      rw [hfin]
      exact hgoal
    · have hat : atLevel m1 g (head :: l) = atLevel m g (head :: l) := by
        apply List.filter_congr
        intro a _
        rw [hlen]
        by_cases hac : a = curr
        · subst hac
          simp only [if_true, hcl]
          have : (g < h + 2) ↔ (g < h + 1) := by omega
          simp [this]
        · simp [hac]
      rw [hat]
      refine chain_congr _ ?_ (hr.chain g)
      intro a ha
      exact hn3 a g (fun hx => hg hx.1) (mem_atLevel.1 ha).2
  · unfold stopAt
    have e : head :: atLevel m1 (h + 1) (below m1 key l)
        = (head :: atLevel m (h + 1) P1) ++ [curr] := by
      rw [below_of_keyAt_eq hkey, hnew]; simp
    rw [List.getLast_congr _ (by simp) e]
    exact List.getLast_append_singleton _

end Skiplist

namespace Skiplist

/-! ## TList: the traversal -/

theorem TravelInv.full {head : Nat} {l : List Nat} {key : K} {h : Nat} {t : Travel}
    {P Q : List Nat} (hi : TravelInv head l key h t P Q) :
    head :: l = P ++ t.curr :: (Q ++ notBelow (nodesOf t.mem) key l) := by
  have h1 : head :: l = (head :: below (nodesOf t.mem) key l) ++ notBelow (nodesOf t.mem) key l := by
    rw [List.cons_append, below_append_notBelow]
  rw [h1, hi.pos]
  simp

theorem TravelInv.hle {head : Nat} {l : List Nat} {key : K} {h : Nat} {t : Travel}
    {P Q : List Nat} (hi : TravelInv head l key h t P Q) : h ≤ maxLevel := by
  have := hi.levelLe
  have := hi.levelGt
  omega

theorem TravelInv.curr_mem {head : Nat} {l : List Nat} {key : K} {h : Nat} {t : Travel}
    {P Q : List Nat} (hi : TravelInv head l key h t P Q) : t.curr ∈ head :: l := by
  rw [hi.full]; simp

theorem TravelInv.len_le {head : Nat} {l : List Nat} {key : K} {h : Nat} {t : Travel}
    {P Q : List Nat} (hi : TravelInv head l key h t P Q) {a : Nat} (ha : a ∈ head :: l) :
    1 ≤ lenAt (nodesOf t.mem) a ∧ lenAt (nodesOf t.mem) a ≤ maxLevel + 2 := by
  rcases List.mem_cons.1 ha with h1 | h1
  · rw [h1, hi.headFull]; omega
  · have := hi.rep.lenPos a h1
    omega

/-- The link of `curr` on level `h` is the first node of level `h` after it. -/
theorem TravelInv.next_eq {head : Nat} {l : List Nat} {key : K} {h : Nat} {t : Travel}
    {P Q : List Nat} (hi : TravelInv head l key h t P Q) :
    nextAt (nodesOf t.mem) t.curr h
      = some (atLevel (nodesOf t.mem) h Q ++
          atLevel (nodesOf t.mem) h (notBelow (nodesOf t.mem) key l)).head? := by
  have hc := hi.rep.chain h
  rw [hi.full, atLevel_append, atLevel_cons_pos _ hi.currLevel, atLevel_append] at hc
  exact chain_next_mid _ _ _ hc

theorem TravelInv.gap_lt {head : Nat} {l : List Nat} {key : K} {h : Nat} {t : Travel}
    {P Q : List Nat} (hi : TravelInv head l key h t P Q) : Q.length < t.mem.length := by
  have h1 := nodup_length_le hi.rep.nodup hi.rep.bound
  rw [hi.full, nodesOf_length] at h1
  simp at h1
  omega

/-- The station of a travel state has level `h + 1`. -/
theorem TravelInv.station_len {head : Nat} {l : List Nat} {key : K} {h : Nat} {t : Travel}
    {P Q : List Nat} (hi : TravelInv head l key h t P Q) (hh : h < maxLevel) :
    h + 1 < lenAt (nodesOf t.mem) t.station ∧ t.station ∈ head :: l := by
  rw [hi.station]
  have := stopAt_mem (nodesOf t.mem) key head l (h + 1)
  rcases List.mem_cons.1 this with h1 | h1
  · rw [h1, hi.headFull]
    exact ⟨by omega, by simp⟩
  · exact ⟨(mem_atLevel.1 h1).2, List.mem_cons_of_mem _ (below_subset (mem_atLevel.1 h1).1)⟩

/-- The promotion step keeps the invariant of the traversal. -/
theorem promote_inv {head : Nat} {l : List Nat} {key : K} {h : Nat} {t : Travel}
    {P Q : List Nat} (hi : TravelInv head l key h t P Q) (hh : h < maxLevel)
    (hcl : lenAt (nodesOf t.mem) t.curr = h + 1) :
    ∃ t2, promote t h = some t2 ∧ TravelInv head l key h t2 P Q ∧ SameKV t2.mem t.mem := by
  have hcm := hi.curr_mem
  have hclt : t.curr < t.mem.length := by
    have := hi.rep.bound _ hcm
    rwa [nodesOf_length] at this
  have hfalse : ∃ t2, some ({ t with stepCounter := 0 } : Travel) = some t2 ∧
      TravelInv head l key h t2 P Q ∧ SameKV t2.mem t.mem :=
    ⟨_, rfl, ⟨hi.rep, hi.headFull, hi.levelLe, hi.levelGt, hi.cover, hi.pos, hi.low,
      hi.currLevel, hi.station⟩, SameKV.kvRefl _⟩
  have htrue : ∃ mem1, upgrade t.mem t.curr t.station = some mem1 ∧
      TravelInv head l key h
        (Travel.mk mem1 (if h + 1 = t.level then t.level + 1 else t.level) t.curr 0 t.curr)
        P Q ∧ SameKV mem1 t.mem := by
    obtain ⟨hsl, hsm⟩ := hi.station_len hh
    have hslt : t.station < t.mem.length := by
      have := hi.rep.bound _ hsm
      rwa [nodesOf_length] at this
    obtain ⟨mem1, h1, h2, h3, h4, h5, h6⟩ := upgrade_spec hclt hslt hcl hsl (hi.len_le hsm).2
    have hst := hi.station
    rw [hst] at h4 h5 h6
    obtain ⟨hrep, hstop⟩ := hi.rep.raise key (by omega) hi.pos hi.low hcl
      (by rw [nodesOf_length, nodesOf_length]; exact h2.length) h2.key h3 h4 h5 h6
    have hcurrhead : t.curr ≠ head := by
      intro he
      rw [he, hi.headFull] at hcl
      omega
    refine ⟨mem1, h1, ⟨hrep, ?_, ?_, ?_, ?_, ?_, ?_, ?_, ?_⟩, h2⟩
    · simp only
      rw [h3]; simp [Ne.symm hcurrhead]; exact hi.headFull
    · simp only
      have := hi.levelLe
      split <;> omega
    · simp only
      have := hi.levelGt
      split <;> omega
    · intro a ha
      simp only
      rw [h3]
      have h7 := hi.cover a ha
      have h8 := hi.levelGt
      by_cases hac : a = t.curr
      · simp only [hac, if_true]
        split <;> omega
      · simp only [hac, if_false]
        split <;> omega
    · simp only
      rw [h2.kvBelow]; exact hi.pos
    · intro a ha
      simp only
      rw [h3]
      have hne : a ≠ t.curr := by
        intro he
        rw [he] at ha
        have hnd : (P ++ t.curr :: Q).Nodup := by
          rw [← hi.pos]
          exact hi.rep.nodup.sublist (List.Sublist.cons₂ _ (List.takeWhile_sublist _))
        exact (List.nodup_cons.1 (List.nodup_append.1 hnd).2.1).1 ha
      simp only [hne, if_false]
      exact hi.low a ha
    · simp only
      rw [h3]; simp
    · simp only
      exact hstop.symm
  unfold promote
  rw [← nextAt_nodesOf, hi.next_eq]
  simp only
  cases hz : (atLevel (nodesOf t.mem) h Q ++
      atLevel (nodesOf t.mem) h (notBelow (nodesOf t.mem) key l)).head? with
  | none =>
    obtain ⟨mem1, hu, hinv, hs⟩ := htrue
    simp only [hu]
    exact ⟨_, rfl, hinv, hs⟩
  | some q =>
    have hq : q ∈ head :: l := by
      have h1 := List.mem_of_mem_head? hz
      rw [hi.full]
      rcases List.mem_append.1 h1 with h2 | h2
      · simp [(mem_atLevel.1 h2).1]
      · simp [(mem_atLevel.1 h2).1]
    have hqlt : q < t.mem.length := by
      have := hi.rep.bound _ hq
      rwa [nodesOf_length] at this
    have hql := hi.len_le hq
    simp only
    rw [tLevel_eq hqlt hql.1 hql.2]
    rw [Option.map_some']
    generalize decide (((lenAt (nodesOf t.mem) q : Nat) : Int) - 1 ≤ wrap32 h) = b
    cases b with
    | true =>
      obtain ⟨mem1, hu, hinv, hs⟩ := htrue
      simp only [hu]
      exact ⟨_, rfl, hinv, hs⟩
    | false => exact hfalse

/-- The inner loop of `buildTravel` on level `h` returns, keeps the invariant and stops at
the last node before `key` on level `h`. -/
theorem travelWalk_inv {head : Nat} {l : List Nat} {key : K} (span : Int) {h : Nat} :
    ∀ (fuel : Nat) (t : Travel) (P Q : List Nat), TravelInv head l key h t P Q →
      Q.length < fuel →
      ∃ t1 P1 Q1, travelWalk key span h fuel t = some t1 ∧ TravelInv head l key h t1 P1 Q1 ∧
        SameKV t1.mem t.mem ∧ (∀ a ∈ Q1, lenAt (nodesOf t1.mem) a ≤ h)
  | 0, _, _, _, _, hf => by omega
  | fuel + 1, t, P, Q, hi, hf => by
    unfold travelWalk
    rw [← nextAt_nodesOf, hi.next_eq]
    cases hz : atLevel (nodesOf t.mem) h Q with
    | nil =>
      have hcomplete : ∀ a ∈ Q, lenAt (nodesOf t.mem) a ≤ h := by
        intro a ha
        have h1 : ¬ (a ∈ atLevel (nodesOf t.mem) h Q) := by rw [hz]; simp
        have h2 : ¬ (h < lenAt (nodesOf t.mem) a) := fun h3 => h1 (mem_atLevel.2 ⟨ha, h3⟩)
        omega
      simp only [List.nil_append]
      cases hn : (atLevel (nodesOf t.mem) h (notBelow (nodesOf t.mem) key l)).head? with
      | none => exact ⟨t, P, Q, rfl, hi, SameKV.kvRefl _, hcomplete⟩
      | some z =>
        have hzm : z ∈ notBelow (nodesOf t.mem) key l :=
          (mem_atLevel.1 (List.mem_of_mem_head? hn)).1
        have hzlt : z < t.mem.length := by
          have := hi.rep.bound z (List.mem_cons_of_mem _ (notBelow_subset hzm))
          rwa [nodesOf_length] at this
        have hge := notBelow_ge hi.rep.sorted hzm
        have hzk : t.mem[z]? = some t.mem[z] := List.getElem?_eq_getElem hzlt
        rw [keyAt_nodesOf hzk] at hge
        simp only [hzk, hge, if_false]
        exact ⟨t, P, Q, rfl, hi, SameKV.kvRefl _, hcomplete⟩
    | cons x rest =>
      obtain ⟨Qa, Qb, hQ, hQa, hpx, _⟩ := List.filter_eq_cons_iff.1 hz
      have hxQ : x ∈ Q := by rw [hQ]; simp
      have hxb : x ∈ below (nodesOf t.mem) key l := by
        have h1 : x ∈ head :: below (nodesOf t.mem) key l := by rw [hi.pos]; simp [hxQ]
        rcases List.mem_cons.1 h1 with h2 | h2
        · exfalso
          have h3 := hi.low x hxQ
          rw [h2, hi.headFull] at h3
          have := hi.hle
          have := hi.levelGt
          have := hi.levelLe
          omega
        · exact h2
      have hxlt : x < t.mem.length := by
        have := hi.rep.bound x (List.mem_cons_of_mem _ (below_subset hxb))
        rwa [nodesOf_length] at this
      have hxk : t.mem[x]? = some t.mem[x] := List.getElem?_eq_getElem hxlt
      have hlt := below_lt hxb
      rw [keyAt_nodesOf hxk] at hlt
      have hxlev : h < lenAt (nodesOf t.mem) x := by simpa using hpx
      have hxlen : lenAt (nodesOf t.mem) x = h + 1 := by
        have := hi.low x hxQ
        omega
      simp only [List.cons_append, List.head?_cons, hxk, hlt, if_true]
      have hi1 : TravelInv head l key h
          { t with curr := x, stepCounter := wrap32 (t.stepCounter + 1) } (P ++ t.curr :: Qa) Qb := by
        refine ⟨hi.rep, hi.headFull, hi.levelLe, hi.levelGt, hi.cover, ?_, ?_, hxlev,
          hi.station⟩
        · simp only
          rw [hi.pos, hQ]
          simp
        · intro a ha
          exact hi.low a (by rw [hQ]; simp [ha])
      have hfb : Qb.length < fuel := by
        rw [hQ] at hf
        simp at hf
        omega
      by_cases hc : wrap32 (t.stepCounter + 1) ≥ span ∧ h < maxLevel
      · rw [if_pos hc]
        obtain ⟨t2, g1, g2, g3⟩ := promote_inv hi1 hc.2 hxlen
        rw [g1]
        simp only
        obtain ⟨t3, P3, Q3, k1, k2, k3, k4⟩ := travelWalk_inv span fuel t2 _ _ g2 hfb
        exact ⟨t3, P3, Q3, k1, k2, k3.kvTrans g3, k4⟩
      · rw [if_neg hc]
        obtain ⟨t3, P3, Q3, k1, k2, k3, k4⟩ := travelWalk_inv span fuel _ _ _ hi1 hfb
        exact ⟨t3, P3, Q3, k1, k2, k3, k4⟩

end Skiplist

namespace Skiplist

/-- The node reached when nothing between it and `key` is higher than `h` is the node at
which the walk on level `h` stops. -/
theorem stopAt_of_pos {m : List Node} {head : Nat} {l : List Nat} {key : K} {h curr : Nat}
    {P Q : List Nat} (hpos : head :: below m key l = P ++ curr :: Q)
    (hhead : h < lenAt m head) (hc : h < lenAt m curr) (hQ : ∀ a ∈ Q, lenAt m a ≤ h) :
    stopAt m key head l h = curr := by
  unfold stopAt
  have h1 : head :: atLevel m h (below m key l) = atLevel m h P ++ [curr] := by
    rw [← atLevel_cons_pos _ hhead, hpos, atLevel_append, atLevel_cons_pos _ hc]
    have h2 : atLevel m h Q = [] := by
      unfold atLevel
      rw [List.filter_eq_nil_iff]
      intro a ha
      have := hQ a ha
      simp
      omega
    rw [h2]
  rw [List.getLast_congr _ (by simp) h1]
  simp

/-- The loop of `buildTravel` from level `h` down returns; it keeps keys, values and
tombstones, and it returns the node holding `key`, or else the last node before `key`. -/
theorem travelFrom_spec {head : Nat} {l : List Nat} {key : K} (span : Int) :
    ∀ (h : Nat) (t : Travel) (P Q : List Nat), TravelInv head l key h t P Q →
      ∃ mem1 level1 node found, travelFrom key span h t = some (mem1, level1, node, found) ∧
        Rep (nodesOf mem1) head l ∧ lenAt (nodesOf mem1) head = maxLevel + 2 ∧
        1 ≤ level1 ∧ level1 ≤ maxLevel + 1 ∧ (∀ a ∈ l, lenAt (nodesOf mem1) a ≤ level1) ∧
        SameKV mem1 t.mem ∧
        (found = true → target (nodesOf mem1) key l = some node) ∧
        (found = false → target (nodesOf mem1) key l = none ∧
          node = stopAt (nodesOf mem1) key head l 0)
  | 0, t, P, Q, hi => by
    obtain ⟨t1, P1, Q1, k1, k2, k3, k4⟩ := travelWalk_inv span t.mem.length t P Q hi hi.gap_lt
    unfold travelFrom
    rw [k1]
    simp only
    have hstop : stopAt (nodesOf t1.mem) key head l 0 = t1.curr :=
      stopAt_of_pos k2.pos (by rw [k2.headFull]; omega) k2.currLevel k4
    rw [tHitAt_eq, ← hstop]
    have hlev := k2.levelGt
    rcases k2.rep.toShape.hitAt_eq key (Nat.zero_le _) (k2.rep.chain 0) with h1 | ⟨h1, h2⟩
    · rw [h1]
      cases hz : target (nodesOf t1.mem) key l with
      | none =>
        exact ⟨_, _, _, _, rfl, k2.rep, k2.headFull, by omega, k2.levelLe, k2.cover, k3,
          fun hf => (by cases hf), fun _ => ⟨hz, rfl⟩⟩
      | some nx =>
        exact ⟨_, _, _, _, rfl, k2.rep, k2.headFull, by omega, k2.levelLe, k2.cover, k3,
          fun _ => hz, fun hf => by cases hf⟩
    · rw [h1]
      exact ⟨_, _, _, _, rfl, k2.rep, k2.headFull, by omega, k2.levelLe, k2.cover, k3,
        fun hf => (by cases hf), fun _ => ⟨h2 rfl, rfl⟩⟩
  | h + 1, t, P, Q, hi => by
    obtain ⟨t1, P1, Q1, k1, k2, k3, k4⟩ := travelWalk_inv span t.mem.length t P Q hi hi.gap_lt
    unfold travelFrom
    rw [k1]
    simp only
    have hle := k2.hle
    have hstop : stopAt (nodesOf t1.mem) key head l (h + 1) = t1.curr :=
      stopAt_of_pos k2.pos (by rw [k2.headFull]; omega) k2.currLevel k4
    have hlev := k2.levelGt
    have hdown : TravelInv head l key h
        { t1 with station := t1.curr, stepCounter := 0 } P1 Q1 :=
      ⟨k2.rep, k2.headFull, k2.levelLe, by simp only; omega, k2.cover, k2.pos, k4,
        by have := k2.currLevel; simp only; omega, hstop.symm⟩
    have hrec := travelFrom_spec span h _ P1 Q1 hdown
    rw [tHitAt_eq, ← hstop]
    rcases k2.rep.toShape.hitAt_eq key hle (k2.rep.chain (h + 1)) with h1 | ⟨h1, _⟩
    · rw [h1]
      cases hz : target (nodesOf t1.mem) key l with
      | none =>
        simp only
        rw [hstop]
        obtain ⟨m, lv, nd, f, g1, g2, g3, g4, g5, g6, g7, g8⟩ := hrec
        exact ⟨m, lv, nd, f, g1, g2, g3, g4, g5, g6, g7.kvTrans k3, g8⟩
      | some nx =>
        exact ⟨_, _, _, _, rfl, k2.rep, k2.headFull, by omega, k2.levelLe, k2.cover, k3,
          fun _ => hz, fun hf => by cases hf⟩
    · rw [h1]
      simp only
      rw [hstop]
      obtain ⟨m, lv, nd, f, g1, g2, g3, g4, g5, g6, g7, g8⟩ := hrec
      exact ⟨m, lv, nd, f, g1, g2, g3, g4, g5, g6, g7.kvTrans k3, g8⟩

/-- The method `buildTravel` returns and keeps the invariant, the keys, the values and the
tombstones; it returns the node holding `key` when there is one, and otherwise the last
node before `key`. -/
theorem TList.buildTravel_spec {sl : TList} {l : List Nat} (hg : TGood sl l) (key : K) :
    ∃ sl1 node found, sl.buildTravel key = some (sl1, node, found) ∧ TGood sl1 l ∧
      sl1.head = sl.head ∧ sl1.span = sl.span ∧ SameKV sl1.mem sl.mem ∧
      (found = true → target (nodesOf sl1.mem) key l = some node) ∧
      (found = false → target (nodesOf sl1.mem) key l = none ∧
        node = stopAt (nodesOf sl1.mem) key sl.head l 0) := by
  unfold TList.buildTravel
  have hp := hg.levelPos
  cases hlv : sl.level with
  | zero => omega
  | succ top =>
    simp only
    have hi : TravelInv sl.head l key top
        { mem := sl.mem, level := sl.level, curr := sl.head, stepCounter := 0,
          station := sl.head } [] (below (nodesOf sl.mem) key l) := by
      refine ⟨hg.rep, hg.headFull, hg.levelLe, by simp only; omega, hg.cover, rfl, ?_, ?_, ?_⟩
      · intro a ha
        have := hg.cover a (below_subset ha)
        show lenAt (nodesOf sl.mem) a ≤ top + 1
        omega
      · simp only
        rw [hg.headFull]
        have := hg.levelLe
        omega
      · simp only
        unfold stopAt
        have h2 : atLevel (nodesOf sl.mem) (top + 1) (below (nodesOf sl.mem) key l) = [] := by
          unfold atLevel
          rw [List.filter_eq_nil_iff]
          intro a ha
          have := hg.cover a (below_subset ha)
          simp
          omega
        simp [h2]
    obtain ⟨m, lv, nd, f, g1, g2, g3, g4, g5, g6, g7, g8, g9⟩ :=
      travelFrom_spec sl.span top _ _ _ hi
    rw [hlv] at g1
    rw [g1]
    exact ⟨_, nd, f, rfl, ⟨g2, g4, g5, g6, g3⟩, rfl, rfl, g7, g8, g9⟩

end Skiplist

namespace Skiplist

/-! ## TList: the writes -/

theorem nodesOf_set (mem : List tNode) (a : Nat) (nd : tNode) :
    nodesOf (mem.set a nd) = (nodesOf mem).set a nd.toNode := by
  unfold nodesOf
  rw [List.map_set]

theorem nodesOf_append (mem : List tNode) (nd : tNode) :
    nodesOf (mem ++ [nd]) = nodesOf mem ++ [nd.toNode] := by
  unfold nodesOf
  rw [List.map_append]
  rfl

theorem delAt_set {mem : List tNode} {a : Nat} (nd : tNode) (ha : a < mem.length) (b : Nat) :
    delAt (mem.set a nd) b = if b = a then nd.del else delAt mem b := by
  unfold delAt
  by_cases hb : b = a
  · subst hb
    simp [List.getElem?_set_self, ha]
  · rw [List.getElem?_set_ne (Ne.symm hb)]
    simp [hb]

theorem delAt_append (mem : List tNode) (nd : tNode) (b : Nat) :
    delAt (mem ++ [nd]) b = if b = mem.length then nd.del else delAt mem b := by
  unfold delAt
  rcases Nat.lt_trichotomy b mem.length with h | h | h
  · simp [List.getElem?_append_left h, Nat.ne_of_lt h]
  · subst h; simp
  · have h1 : (mem ++ [nd])[b]? = none := by
      apply List.getElem?_eq_none
      simp; omega
    have h2 : mem[b]? = none := List.getElem?_eq_none (by omega)
    simp [h1, h2, Nat.ne_of_gt h]

/-- The splice of a node of one level, written out. -/
theorem spliceFrom_bottom {m : List Node} {key : K} {nw cur c : Nat} {p : Ptr} {x nd : Node}
    (hw : walk m key 0 m.length cur = some c) (hnw : m[nw]? = some x)
    (hx : 0 < x.next.length) (hc : m[c]? = some nd) (hp : nd.next[0]? = some p)
    (hne : c ≠ nw) :
    spliceFrom key 0 nw 0 m cur
      = some ((m.set nw { x with next := x.next.set 0 p }).set c
          { nd with next := nd.next.set 0 (some nw) }) := by
  have hnd : 0 < nd.next.length := by
    rcases Nat.eq_zero_or_pos nd.next.length with h | h
    · rw [List.getElem?_eq_none (by omega)] at hp; cases hp
    · exact h
  have h1 : (m.set nw { x with next := x.next.set 0 p })[c]? = some nd := by
    rw [List.getElem?_set_ne (Ne.symm hne)]; exact hc
  unfold spliceFrom spliceLevel
  rw [hw]
  simp only [le_refl, if_true]
  unfold nextAt
  rw [hc]
  simp only [hp]
  unfold setNext
  simp only [hnw, hx, if_true, h1, hnd]

/-- The node that holds `k` in a sorted node list. -/
theorem target_iff {m : List Node} {l : List Nat}
    (hs : l.Pairwise (fun a b => keyAt m a < keyAt m b)) (k : K) (a : Nat) :
    target m k l = some a ↔ a ∈ l ∧ keyAt m a = k :=
  ⟨target_some, fun h => target_of_mem hs h.1 h.2⟩

/-- Looking up a key after a node with a fresh key is added to the node list. -/
theorem target_withNew {m m2 : List Node} {l : List Nat} {key : K} {nw : Nat}
    (hs : l.Pairwise (fun a b => keyAt m a < keyAt m b))
    (hs2 : (withNew m key nw l).Pairwise (fun a b => keyAt m2 a < keyAt m2 b))
    (hnw : nw ∉ l)
    (hk : ∀ a, keyAt m2 a = if a = nw then key else keyAt m a) (k : K) :
    target m2 k (withNew m key nw l) = if key = k then some nw else target m k l := by
  by_cases hkk : key = k
  · rw [if_pos hkk]
    apply target_of_mem hs2 (mem_withNew.2 (Or.inl rfl))
    rw [hk]; simp [hkk]
  · rw [if_neg hkk]
    cases ht : target m k l with
    | some a =>
      obtain ⟨h1, h2⟩ := target_some ht
      have hne : a ≠ nw := fun he => hnw (he ▸ h1)
      apply target_of_mem hs2 (mem_withNew.2 (Or.inr h1))
      rw [hk]; simp [hne, h2]
    | none =>
      cases ht2 : target m2 k (withNew m key nw l) with
      | none => rfl
      | some a =>
        exfalso
        obtain ⟨h1, h2⟩ := target_some ht2
        rw [hk] at h2
        rcases mem_withNew.1 h1 with h3 | h3
        · simp [h3] at h2; exact hkk h2
        · have hne : a ≠ nw := fun he => hnw (he ▸ h3)
          simp [hne] at h2
          exact target_none hs ht a h3 h2

end Skiplist

namespace Skiplist

theorem stopAt_congr {m m1 : List Node} (key : K) (head : Nat) (l : List Nat) (h : Nat)
    (hk : ∀ a ∈ l, keyAt m a = keyAt m1 a) (hl : ∀ a ∈ l, lenAt m a = lenAt m1 a) :
    stopAt m key head l h = stopAt m1 key head l h := by
  unfold stopAt
  apply List.getLast_congr
  rw [below_congr key l hk, atLevel_congr h _ (fun a ha => hl a (below_subset ha))]

/-- A node of one level with a fresh key, linked in after the last node before `key`. -/
theorem Rep.insert_bottom {M : List Node} {head : Nat} {l : List Nat} (hr : Rep M head l)
    (key : K) (value : V) (habs : target M key l = none) {nd : Node} {q : Ptr}
    (hc : M[stopAt M key head l 0]? = some nd) (hq : nd.next[0]? = some q) :
    ∃ m2, m2 = (M ++ [Node.mk key value [q]]).set (stopAt M key head l 0)
          { nd with next := nd.next.set 0 (some M.length) } ∧
      Rep m2 head (withNew M key M.length l) ∧
      (∀ a, keyAt m2 a = if a = M.length then key else keyAt M a) ∧
      (∀ a, valAt m2 a = if a = M.length then value else valAt M a) ∧
      (∀ a, lenAt m2 a = if a = M.length then 1 else lenAt M a) := by
  obtain ⟨m2, h1, h2, _, h4, h5, h6⟩ :=
    hr.insert_rep key value (le_refl 0) (Nat.zero_le _) habs
  have hne : ∀ a ∈ head :: l, a ≠ M.length := fun a ha => Nat.ne_of_lt (hr.bound a ha)
  have hk0 : ∀ a ∈ head :: l, keyAt (M ++ [newNode key value 0]) a = keyAt M a := by
    intro a ha; rw [alloc_keyAt]; simp [hne a ha]
  have hl0 : ∀ a ∈ head :: l, lenAt (M ++ [newNode key value 0]) a = lenAt M a := by
    intro a ha; rw [alloc_lenAt]; simp [hne a ha]
  have hs0 : Shape (M ++ [newNode key value 0]) head l :=
    hr.toShape.congr (by simp) (fun a ha => hk0 a (List.mem_cons_of_mem _ ha)) hl0
  have hch0 : Chain (M ++ [newNode key value 0]) 0
      (atLevel (M ++ [newNode key value 0]) 0 (head :: l)) := by
    rw [atLevel_congr 0 _ hl0]
    refine chain_congr _ ?_ (hr.chain 0)
    intro a ha
    exact alloc_nextAt M _ a 0 (hr.bound a (mem_atLevel.1 ha).1)
  have hstop : stopAt (M ++ [newNode key value 0]) key head l 0 = stopAt M key head l 0 :=
    stopAt_congr key head l 0 (fun a ha => hk0 a (List.mem_cons_of_mem _ ha))
      (fun a ha => hl0 a (List.mem_cons_of_mem _ ha))
  have hw := hs0.walk_eq key (Nat.zero_le _) hch0 (List.mem_cons_self head _)
  rw [hstop] at hw
  have hclt : stopAt M key head l 0 < M.length := hr.toShape.stopAt_lt key 0
  have h7 := @spliceFrom_bottom (M ++ [newNode key value 0]) key M.length head
    (stopAt M key head l 0) q (newNode key value 0) nd hw (by simp)
    (by simp [newNode]) (by rw [List.getElem?_append_left hclt]; exact hc) hq
    (Nat.ne_of_lt hclt)
  rw [h1] at h7
  have h8 := Option.some.inj h7
  refine ⟨m2, ?_, h2, h4, h5, ?_⟩
  · rw [h8]
    simp [newNode]
  · intro a
    rw [h6]

/-- Rewriting the value of a node. -/
theorem nodesOf_setValue {mem : List tNode} {a : Nat} {nd : tNode} (h : mem[a]? = some nd)
    (v : V) (d : Bool) :
    setValue (nodesOf mem) a v = some (nodesOf (mem.set a { nd with value := v, del := d })) := by
  unfold setValue
  rw [nodesOf_getElem?, h, nodesOf_set]
  rfl

theorem nodesOf_setDel {mem : List tNode} {a : Nat} {nd : tNode} (h : mem[a]? = some nd)
    (d : Bool) : nodesOf (mem.set a { nd with del := d }) = nodesOf mem := by
  rw [nodesOf_set]
  apply List.ext_getElem?
  intro i
  by_cases hi : i = a
  · subst hi
    have hlt : i < (nodesOf mem).length := by
      rw [nodesOf_length]
      rcases Nat.lt_or_ge i mem.length with h1 | h1
      · exact h1
      · rw [List.getElem?_eq_none h1] at h; cases h
    rw [List.getElem?_set_self hlt, nodesOf_getElem?, h]
    rfl
  · rw [List.getElem?_set_ne (Ne.symm hi)]

theorem getElem?_of_lt {mem : List tNode} {a : Nat} (h : a < mem.length) :
    ∃ nd, mem[a]? = some nd := ⟨mem[a], List.getElem?_eq_getElem h⟩

theorem TGood.lt {sl : TList} {l : List Nat} (hg : TGood sl l) {a : Nat}
    (ha : a ∈ sl.head :: l) : a < sl.mem.length := by
  have := hg.rep.bound a ha
  rwa [nodesOf_length] at this

end Skiplist

namespace Skiplist

/-- The lookup after the node holding `key` gets the value `v` and loses its tombstone. -/
theorem tlLookup_update {mem mem1 : List tNode} {l : List Nat} {key : K} {node : Nat} {v : V}
    (ht : target (nodesOf mem) key l = some node)
    (hk : ∀ a, keyAt (nodesOf mem1) a = keyAt (nodesOf mem) a)
    (hv : ∀ a, valAt (nodesOf mem1) a = if a = node then v else valAt (nodesOf mem) a)
    (hd : ∀ a, delAt mem1 a = if a = node then false else delAt mem a) (k : K) :
    tlLookup mem1 l k = if key = k then some v else tlLookup mem l k := by
  unfold tlLookup
  rw [target_congr k l (fun a _ => hk a)]
  by_cases hkk : key = k
  · rw [if_pos hkk, ← hkk, ht]
    simp only
    rw [hd, hv]
    simp
  · rw [if_neg hkk]
    cases hz : target (nodesOf mem) k l with
    | none => rfl
    | some a =>
      have hne : a ≠ node := by
        intro he
        have h1 := (target_some hz).2
        have h2 := (target_some ht).2
        rw [he, h2] at h1
        exact hkk h1
      simp only
      rw [hd, hv]
      simp [hne]

/-- The lookup after the node holding `key` gets a tombstone. -/
theorem tlLookup_remove {mem mem1 : List tNode} {l : List Nat} {key : K} {node : Nat}
    (ht : target (nodesOf mem) key l = some node)
    (hk : ∀ a, keyAt (nodesOf mem1) a = keyAt (nodesOf mem) a)
    (hv : ∀ a, valAt (nodesOf mem1) a = valAt (nodesOf mem) a)
    (hd : ∀ a, delAt mem1 a = if a = node then true else delAt mem a) (k : K) :
    tlLookup mem1 l k = if key = k then none else tlLookup mem l k := by
  unfold tlLookup
  rw [target_congr k l (fun a _ => hk a)]
  by_cases hkk : key = k
  · rw [if_pos hkk, ← hkk, ht]
    simp only
    rw [hd]
    simp
  · rw [if_neg hkk]
    cases hz : target (nodesOf mem) k l with
    | none => rfl
    | some a =>
      have hne : a ≠ node := by
        intro he
        have h1 := (target_some hz).2
        have h2 := (target_some ht).2
        rw [he, h2] at h1
        exact hkk h1
      simp only
      rw [hd, hv]
      simp [hne]

/-- The lookup after a node with the fresh key `key` is added. -/
theorem tlLookup_insert {mem mem1 : List tNode} {l : List Nat} {key : K} {v : V}
    (hs : l.Pairwise (fun a b => keyAt (nodesOf mem) a < keyAt (nodesOf mem) b))
    (hs2 : (withNew (nodesOf mem) key mem.length l).Pairwise
      (fun a b => keyAt (nodesOf mem1) a < keyAt (nodesOf mem1) b))
    (hb : ∀ a ∈ l, a < mem.length)
    (hk : ∀ a, keyAt (nodesOf mem1) a = if a = mem.length then key else keyAt (nodesOf mem) a)
    (hv : ∀ a, valAt (nodesOf mem1) a = if a = mem.length then v else valAt (nodesOf mem) a)
    (hd : ∀ a, delAt mem1 a = if a = mem.length then false else delAt mem a) (k : K) :
    tlLookup mem1 (withNew (nodesOf mem) key mem.length l) k
      = if key = k then some v else tlLookup mem l k := by
  have hnw : mem.length ∉ l := fun h => Nat.lt_irrefl _ (hb _ h)
  unfold tlLookup
  rw [target_withNew hs hs2 hnw hk k]
  by_cases hkk : key = k
  · rw [if_pos hkk, if_pos hkk]
    simp only
    rw [hd, hv]
    simp
  · rw [if_neg hkk, if_neg hkk]
    cases hz : target (nodesOf mem) k l with
    | none => rfl
    | some a =>
      have hne : a ≠ mem.length := Nat.ne_of_lt (hb a (target_some hz).1)
      simp only
      rw [hd, hv]
      simp [hne]

/-- What `Get` and `Contains` read at the node `buildTravel` finds. -/
theorem tlLookup_found {mem : List tNode} {l : List Nat} {key : K} {node : Nat} {nd : tNode}
    (ht : target (nodesOf mem) key l = some node) (hnd : mem[node]? = some nd) :
    tlLookup mem l key = if nd.del then none else some nd.value := by
  unfold tlLookup
  rw [ht]
  simp only
  rw [delAt_eq hnd, valAt_nodesOf hnd]

theorem tlLookup_absent {mem : List tNode} {l : List Nat} {key : K}
    (ht : target (nodesOf mem) key l = none) : tlLookup mem l key = none := by
  unfold tlLookup
  rw [ht]

end Skiplist

namespace Skiplist

namespace TList

/-- The method `Get` returns what the list stores under `key`; it keeps the invariant and
the stored map. -/
theorem tlist_Get_spec {sl : TList} {l : List Nat} (hg : TGood sl l) (key : K) :
    ∃ sl1, sl.Get key = some (sl1, getReply (tlLookup sl.mem l key)) ∧ TGood sl1 l ∧
      ∀ k, tlLookup sl1.mem l k = tlLookup sl.mem l k := by
  obtain ⟨sl1, node, found, h1, hg1, _, _, hkv, hf, hn⟩ := buildTravel_spec hg key
  unfold Get
  rw [h1, ← hkv.tlLookup l key]
  cases found with
  | true =>
    have ht := hf rfl
    obtain ⟨nd, hnd⟩ := getElem?_of_lt (hg1.lt (List.mem_cons_of_mem _ (target_some ht).1))
    simp only [hnd]
    rw [tlLookup_found ht hnd]
    cases hd : nd.del with
    | true => exact ⟨sl1, rfl, hg1, hkv.tlLookup l⟩
    | false => exact ⟨sl1, rfl, hg1, hkv.tlLookup l⟩
  | false =>
    rw [tlLookup_absent (hn rfl).1]
    exact ⟨sl1, rfl, hg1, hkv.tlLookup l⟩

/-- The method `Contains` tells whether the list stores a value under `key`. -/
theorem tlist_Contains_spec {sl : TList} {l : List Nat} (hg : TGood sl l) (key : K) :
    ∃ sl1, sl.Contains key = some (sl1, (tlLookup sl.mem l key).isSome) ∧ TGood sl1 l ∧
      ∀ k, tlLookup sl1.mem l k = tlLookup sl.mem l k := by
  obtain ⟨sl1, node, found, h1, hg1, _, _, hkv, hf, hn⟩ := buildTravel_spec hg key
  unfold Contains
  rw [h1, ← hkv.tlLookup l key]
  cases found with
  | true =>
    have ht := hf rfl
    obtain ⟨nd, hnd⟩ := getElem?_of_lt (hg1.lt (List.mem_cons_of_mem _ (target_some ht).1))
    simp only [hnd]
    rw [tlLookup_found ht hnd]
    cases hd : nd.del with
    | true => exact ⟨sl1, rfl, hg1, hkv.tlLookup l⟩
    | false => exact ⟨sl1, rfl, hg1, hkv.tlLookup l⟩
  | false =>
    rw [tlLookup_absent (hn rfl).1]
    exact ⟨sl1, rfl, hg1, hkv.tlLookup l⟩

/-- The method `Delete` removes `key` from the stored map. -/
theorem tlist_Delete_spec {sl : TList} {l : List Nat} (hg : TGood sl l) (key : K) :
    ∃ sl1, sl.Delete key = some sl1 ∧ TGood sl1 l ∧
      ∀ k, tlLookup sl1.mem l k = if key = k then none else tlLookup sl.mem l k := by
  obtain ⟨sl1, node, found, h1, hg1, _, _, hkv, hf, hn⟩ := buildTravel_spec hg key
  unfold Delete
  rw [h1]
  cases found with
  | true =>
    have ht := hf rfl
    have hlt := hg1.lt (List.mem_cons_of_mem _ (target_some ht).1)
    obtain ⟨nd, hnd⟩ := getElem?_of_lt hlt
    simp only [hnd]
    have hsame := nodesOf_setDel hnd true
    refine ⟨_, rfl, ⟨?_, hg1.levelPos, hg1.levelLe, ?_, ?_⟩, ?_⟩
    · show Rep (nodesOf (sl1.mem.set node { nd with del := true })) sl1.head l
      rw [hsame]; exact hg1.rep
    · show ∀ a ∈ l, lenAt (nodesOf (sl1.mem.set node { nd with del := true })) a ≤ sl1.level
      rw [hsame]; exact hg1.cover
    · show lenAt (nodesOf (sl1.mem.set node { nd with del := true })) sl1.head = maxLevel + 2
      rw [hsame]; exact hg1.headFull
    · intro k
      show tlLookup (sl1.mem.set node { nd with del := true }) l k = _
      rw [← hkv.tlLookup l k]
      exact tlLookup_remove ht (fun a => by rw [hsame]) (fun a => by rw [hsame])
        (fun a => delAt_set _ hlt a) k
  | false =>
    refine ⟨sl1, rfl, hg1, ?_⟩
    intro k
    rw [hkv.tlLookup l k]
    by_cases hkk : key = k
    · rw [if_pos hkk, ← hkk, ← hkv.tlLookup l key]
      exact tlLookup_absent (hn rfl).1
    · rw [if_neg hkk]

end TList

end Skiplist

namespace Skiplist

namespace TList

/-- The method `Put` stores `value` under `key`: it returns, keeps the invariant (with one
more node when `key` had no node), and changes the stored map at `key` only. -/
theorem tlist_Put_spec {sl : TList} {l : List Nat} (hg : TGood sl l) (key : K) (value : V) :
    ∃ sl1 l1, sl.Put key value = some sl1 ∧ TGood sl1 l1 ∧
      ∀ k, tlLookup sl1.mem l1 k = if key = k then some value else tlLookup sl.mem l k := by
  obtain ⟨sl1, node, found, h1, hg1, hhead, _, hkv, hf, hn⟩ := buildTravel_spec hg key
  unfold Put
  rw [h1]
  cases found with
  | true =>
    have ht := hf rfl
    have hlt := hg1.lt (List.mem_cons_of_mem _ (target_some ht).1)
    obtain ⟨nd, hnd⟩ := getElem?_of_lt hlt
    simp only [hnd]
    have hset := nodesOf_setValue hnd value false
    have hlen := setValue_lenAt hset
    refine ⟨_, l, rfl, ⟨?_, hg1.levelPos, hg1.levelLe, ?_, ?_⟩, ?_⟩
    · exact hg1.rep.setValue hset
    · intro a ha
      show lenAt (nodesOf (sl1.mem.set node { nd with value := value, del := false })) a
        ≤ sl1.level
      rw [hlen]; exact hg1.cover a ha
    · show lenAt (nodesOf (sl1.mem.set node { nd with value := value, del := false })) sl1.head
        = maxLevel + 2
      rw [hlen]; exact hg1.headFull
    · intro k
      show tlLookup (sl1.mem.set node { nd with value := value, del := false }) l k = _
      rw [← hkv.tlLookup l k]
      exact tlLookup_update ht (setValue_keyAt hset) (setValue_valAt hset)
        (fun a => delAt_set _ hlt a) k
  | false =>
    obtain ⟨ht, hnode⟩ := hn rfl
    rw [← hhead] at hnode
    have hmem : node ∈ sl1.head :: l := by
      rw [hnode]
      rcases List.mem_cons.1 (stopAt_mem (nodesOf sl1.mem) key sl1.head l 0) with h2 | h2
      · rw [h2]; simp
      · exact List.mem_cons_of_mem _ (below_subset (mem_atLevel.1 h2).1)
    have hlt := hg1.lt hmem
    obtain ⟨nd, hnd⟩ := getElem?_of_lt hlt
    have hlen1 : 1 ≤ nd.next.length := by
      rw [← lenAt_nodesOf hnd]
      rcases List.mem_cons.1 hmem with h2 | h2
      · rw [h2, hg1.headFull]; omega
      · exact (hg1.rep.lenPos node h2).1
    have hq : nd.next[0]? = some nd.next[0] := List.getElem?_eq_getElem hlen1
    simp only [hnd, hq]
    have hc : (nodesOf sl1.mem)[stopAt (nodesOf sl1.mem) key sl1.head l 0]?
        = some nd.toNode := by
      rw [← hnode, nodesOf_getElem?, hnd]; rfl
    have hq2 : nd.toNode.next[0]? = some nd.next[0] := hq
    obtain ⟨m2, e1, e2, e3, e4, e5⟩ := hg1.rep.insert_bottom key value ht hc hq2
    rw [← hnode, nodesOf_length] at e1
    have hm2 : nodesOf ((sl1.mem ++ [tNode.mk key value [nd.next[0]] false]).set node
        { nd with next := nd.next.set 0 (some sl1.mem.length) }) = m2 := by
      rw [e1, nodesOf_set, nodesOf_append]
      rfl
    rw [nodesOf_length] at e2 e3 e4 e5
    have hne : ∀ a ∈ sl1.head :: l, a ≠ sl1.mem.length :=
      fun a ha => Nat.ne_of_lt (hg1.lt ha)
    refine ⟨_, withNew (nodesOf sl1.mem) key sl1.mem.length l, rfl,
      ⟨?_, hg1.levelPos, hg1.levelLe, ?_, ?_⟩, ?_⟩
    · show Rep (nodesOf ((sl1.mem ++ [tNode.mk key value [nd.next[0]] false]).set node
        { nd with next := nd.next.set 0 (some sl1.mem.length) })) sl1.head _
      rw [hm2]; exact e2
    · intro a ha
      show lenAt (nodesOf ((sl1.mem ++ [tNode.mk key value [nd.next[0]] false]).set node
        { nd with next := nd.next.set 0 (some sl1.mem.length) })) a ≤ sl1.level
      rw [hm2, e5]
      rcases mem_withNew.1 ha with h3 | h3
      · rw [if_pos h3]; exact hg1.levelPos
      · rw [if_neg (hne a (List.mem_cons_of_mem _ h3))]; exact hg1.cover a h3
    · show lenAt (nodesOf ((sl1.mem ++ [tNode.mk key value [nd.next[0]] false]).set node
        { nd with next := nd.next.set 0 (some sl1.mem.length) })) sl1.head = maxLevel + 2
      rw [hm2, e5, if_neg (hne _ (List.mem_cons_self _ _))]
      exact hg1.headFull
    · intro k
      show tlLookup ((sl1.mem ++ [tNode.mk key value [nd.next[0]] false]).set node
        { nd with next := nd.next.set 0 (some sl1.mem.length) }) _ k = _
      rw [← hkv.tlLookup l k]
      refine tlLookup_insert hg1.rep.sorted ?_
        (fun a ha => hg1.lt (List.mem_cons_of_mem _ ha)) ?_ ?_ ?_ k
      · rw [hm2]; exact e2.sorted
      · rw [hm2]; exact e3
      · rw [hm2]; exact e4
      · intro a
        rw [delAt_set _ (by rw [List.length_append]; exact Nat.lt_succ_of_lt hlt), delAt_append]
        by_cases ha : a = node
        · have hne2 : a ≠ sl1.mem.length := by rw [ha]; exact Nat.ne_of_lt hlt
          simp only [ha, if_true]
          rw [if_neg (Nat.ne_of_lt hlt)]
          exact (delAt_eq hnd).symm
        · simp only [ha, if_false]

end TList

end Skiplist

namespace Skiplist

theorem latest_eq_foldl (calls : List Call) (k : K) :
    latest calls k = calls.foldl (latestStep k) none := rfl

namespace TList

/-- The list made by `NewSkipList` is well formed and stores nothing. -/
theorem NewSkipList_good (span : Int) :
    TGood (NewSkipList span) [] ∧ ∀ k, tlLookup (NewSkipList span).mem [] k = none := by
  have hlen : lenAt (nodesOf (NewSkipList span).mem) (NewSkipList span).head = maxLevel + 2 := by
    simp [NewSkipList, nodesOf, lenAt, newTNode, tNode.toNode]
  refine ⟨⟨⟨⟨?_, ?_, ?_, ?_, ?_, ?_⟩, ?_⟩, Nat.le_refl 1, Nat.le_add_left 1 maxLevel, ?_,
    hlen⟩, ?_⟩
  · simp
  · intro a ha
    simp at ha
    subst ha
    simp [NewSkipList, nodesOf]
  · rw [hlen]; omega
  · rw [hlen]
  · intro a ha; cases ha
  · exact List.Pairwise.nil
  · intro g
    by_cases hg : g < maxLevel + 2
    · have h1 : atLevel (nodesOf (NewSkipList span).mem) g [(NewSkipList span).head]
          = [(NewSkipList span).head] := by
        apply atLevel_cons_pos
        exact hg
      rw [h1]
      refine ⟨?_, trivial⟩
      show nextAt (nodesOf (NewSkipList span).mem) 0 g = some none
      unfold nextAt
      show (List.replicate (maxLevel + 1 + 1) (none : Ptr))[g]? = some none
      rw [List.getElem?_replicate]
      simp [hg]
    · have h1 : atLevel (nodesOf (NewSkipList span).mem) g [(NewSkipList span).head] = [] := by
        apply atLevel_cons_neg
        exact hg
      rw [h1]
      trivial
  · intro a ha; cases ha
  · intro k; rfl

/-- One call on a well-formed `TList` returns, keeps the list well formed, replies with what
the stored map says, and changes the stored map as the call prescribes. -/
theorem tlist_call_spec {sl : TList} {l : List Nat} (hg : TGood sl l) (c : Call) :
    ∃ sl1 l1 r, sl.call c = some (sl1, r) ∧ TGood sl1 l1 ∧
      ∀ k, tlLookup sl1.mem l1 k = latestStep k (tlLookup sl.mem l k) c := by
  cases c with
  | put k1 v =>
    obtain ⟨sl1, l1, h1, h2, h3⟩ := tlist_Put_spec hg k1 v
    refine ⟨sl1, l1, Reply.done, ?_, h2, h3⟩
    unfold call; simp only; rw [h1]; rfl
  | get k1 =>
    obtain ⟨sl1, h1, h2, h3⟩ := tlist_Get_spec hg k1
    refine ⟨sl1, l, Reply.value (getReply (tlLookup sl.mem l k1)).1
      (getReply (tlLookup sl.mem l k1)).2, ?_, h2, h3⟩
    unfold call; simp only; rw [h1]; rfl
  | contains k1 =>
    obtain ⟨sl1, h1, h2, h3⟩ := tlist_Contains_spec hg k1
    refine ⟨sl1, l, Reply.flag (tlLookup sl.mem l k1).isSome, ?_, h2, h3⟩
    unfold call; simp only; rw [h1]; rfl
  | delete k1 =>
    obtain ⟨sl1, h1, h2, h3⟩ := tlist_Delete_spec hg k1
    refine ⟨sl1, l, Reply.done, ?_, h2, h3⟩
    unfold call; simp only; rw [h1]; rfl

/-- A sequence of calls on a well-formed `TList` returns, and the stored map afterwards is
the one the calls describe. -/
theorem tlist_run_spec : ∀ (calls : List Call) {sl : TList} {l : List Nat}, TGood sl l →
    ∃ sl1 l1 rs, sl.run calls = some (sl1, rs) ∧ TGood sl1 l1 ∧
      ∀ k, tlLookup sl1.mem l1 k = calls.foldl (latestStep k) (tlLookup sl.mem l k)
  | [], sl, l, hg => ⟨sl, l, [], rfl, hg, fun _ => rfl⟩
  | c :: cs, sl, l, hg => by
    obtain ⟨sl1, l1, r, h1, h2, h3⟩ := tlist_call_spec hg c
    obtain ⟨sl2, l2, rs, k1, k2, k3⟩ := tlist_run_spec cs h2
    refine ⟨sl2, l2, r :: rs, ?_, k2, ?_⟩
    · unfold run; rw [h1]; simp only; rw [k1]
    · intro k
      rw [k3 k, h3 k]
      rfl

end TList

/-- C3: the span `TList` behaves as a finite map. For every span threshold and every
sequence of calls (oldest first) on a list made by `NewSkipList`, the calls return, and
afterwards for every key `k`, `Get(k)` and `Contains(k)` return, `Get(k)` gives `(v, true)`
when the most recent `Put` or `Delete` on `k` was `Put(k, v)` and `(0, false)` when `k` was
never put or was last deleted, and `Contains(k)` gives the same found flag. -/
theorem tlist_finite_map (span : Int) (calls : List Call) :
    ∃ sl rs, (NewSkipList span).run calls = some (sl, rs) ∧
      ∀ k, (∃ sl1, sl.Get k = some (sl1, getReply (latest calls k))) ∧
        (∃ sl2, sl.Contains k = some (sl2, (latest calls k).isSome)) := by
  obtain ⟨hg, hl⟩ := TList.NewSkipList_good span
  obtain ⟨sl, l, rs, h1, h2, h3⟩ := TList.tlist_run_spec calls hg
  have h4 : ∀ k, tlLookup sl.mem l k = latest calls k := by
    intro k
    rw [h3 k, hl k, latest_eq_foldl]
  refine ⟨sl, rs, h1, fun k => ⟨?_, ?_⟩⟩
  · obtain ⟨sl1, g1, _, _⟩ := TList.tlist_Get_spec h2 k
    exact ⟨sl1, by rw [g1, h4 k]⟩
  · obtain ⟨sl2, g1, _, _⟩ := TList.tlist_Contains_spec h2 k
    exact ⟨sl2, by rw [g1, h4 k]⟩

end Skiplist

namespace Skiplist

/-! ## TList: the structure seen by the validator -/

theorem Valid.mono {σ : Type} {A : Analyable σ} {s : σ} {head : Nat} {l : List Nat}
    {ht : Nat → Nat} {top top1 : Nat} (hv : Valid A s head l ht top) (h1 : top ≤ top1)
    (h2 : top1 < 2 ^ 31) : Valid A s head l ht top1 :=
  ⟨hv.level, fun a ha => le_trans (hv.htLe a ha) h1, h2, hv.first, hv.next, hv.link⟩

/-- A well-formed `TList` is well formed as a list of towers, with `level - 1` as the
highest level in use. -/
theorem TGood.good {sl : TList} {l : List Nat} (hg : TGood sl l) :
    Good (nodesOf sl.mem) sl.head (sl.level - 1) l := by
  have h1 := hg.levelPos
  have h2 := hg.levelLe
  refine ⟨hg.rep, by omega, ?_⟩
  intro a ha
  have := hg.cover a ha
  omega

theorem tLevel_eq_getLevelAt (mem : List tNode) (a : Nat) :
    tLevel mem a = GetLevelAt (nodesOf mem) a := by
  unfold tLevel GetLevelAt
  rw [nodesOf_getElem?]
  cases mem[a]? <;> rfl

theorem nodeNextAt_eq_getNextAt (sl : TList) (a : Nat) (i : Int) :
    sl.nodeNextAt a i = GetNextAt (nodesOf sl.mem) a i := by
  unfold TList.nodeNextAt GetNextAt
  rw [nodesOf_getElem?]
  cases sl.mem[a]? <;> rfl

/-- The validator accepts every well-formed `TList`. -/
theorem TGood.checkStruct {sl : TList} {l : List Nat} (hg : TGood sl l) :
    CheckStruct TList.analyable sl = some true := by
  have hv : Valid TList.analyable sl sl.head l (fun a => lenAt (nodesOf sl.mem) a - 1)
      (sl.level - 1) :=
    hg.good.valid (fun a => tLevel_eq_getLevelAt sl.mem a)
      (fun a i => nodeNextAt_eq_getNextAt sl a i)
  have h2 := hg.levelLe
  have hv1 := hv.mono (Nat.sub_le sl.level 1)
    (lt_of_le_of_lt h2 (by unfold maxLevel; norm_num))
  have hlen : l.length ≤ sl.mem.length := by
    have := hg.good.length_lt
    rw [nodesOf_length] at this
    exact le_of_lt this
  exact @CheckStruct_valid _ TList.analyable sl sl sl _ _ _ _ sl.size rfl rfl hv1 hlen

/-- C11: after every sequence of calls on a `TList`, for every span threshold, the structure
is a valid skip list: `CheckStruct` returns true; the keys met on level 0 after the head are
strictly increasing; every node after the head is linked, on each level `1..GetLevel`, right
after the nearest node before it whose level reaches that level (the head when there is
none); and the level of every node after the head is at most 32 and below the level count
that `GetMaxStats` reports. -/
theorem tlist_valid_structure (span : Int) (calls : List Call) :
    ∃ sl rs, (NewSkipList span).run calls = some (sl, rs) ∧
      CheckStruct TList.analyable sl = some true ∧
      ∃ nodes, levelNodes (nodesOf sl.mem) sl.head 0 = some nodes ∧
        (nodes.map (keyAt (nodesOf sl.mem))).Pairwise (fun a b => a < b) ∧
        (∀ pre a post, nodes = pre ++ a :: post → ∀ i : Nat, 1 ≤ i →
          (i : Int) ≤ GetLevel (nodesOf sl.mem) a →
          sl.nodeNextAt (tracked (fun b => lenAt (nodesOf sl.mem) b - 1) sl.head pre i) i
            = some (some a)) ∧
        ∀ a ∈ nodes, tLevel sl.mem a = some (GetLevel (nodesOf sl.mem) a) ∧
          GetLevel (nodesOf sl.mem) a ≤ 32 ∧ GetLevel (nodesOf sl.mem) a < sl.GetMaxStats.2 := by
  obtain ⟨hg0, _⟩ := TList.NewSkipList_good span
  obtain ⟨sl, l, rs, h1, hg, _⟩ := TList.tlist_run_spec calls hg0
  refine ⟨sl, rs, h1, hg.checkStruct, l, ?_, ?_, ?_, ?_⟩
  · rw [hg.rep.levelNodes_eq (Nat.zero_le _), atLevel_zero (fun a ha => (hg.rep.lenPos a ha).1)]
  · rw [List.pairwise_map]
    exact hg.rep.sorted
  · intro pre a post hl i hi hle
    have hv : Valid TList.analyable sl sl.head l (fun a => lenAt (nodesOf sl.mem) a - 1)
        (sl.level - 1) :=
      hg.good.valid (fun a => tLevel_eq_getLevelAt sl.mem a)
        (fun a i => nodeNextAt_eq_getNextAt sl a i)
    have := hv.link pre a post hl i hi (by unfold GetLevel at hle; omega)
    exact this
  · intro a ha
    have hlt := hg.lt (List.mem_cons_of_mem _ ha)
    have hp := hg.rep.lenPos a ha
    have hc := hg.cover a ha
    have hnd : sl.mem[a]? = some sl.mem[a] := List.getElem?_eq_getElem hlt
    refine ⟨?_, ?_, ?_⟩
    · rw [tLevel_eq hlt hp.1 (by omega)]
      rfl
    · unfold GetLevel
      unfold maxLevel at hp
      omega
    · show GetLevel (nodesOf sl.mem) a < (sl.level : Int)
      unfold GetLevel
      omega

end Skiplist

namespace Skiplist

/-! ## A repeated `Put` -/

theorem setValue_same {mem : List Node} {cur : Nat} (hlt : cur < mem.length) :
    setValue mem cur (valAt mem cur) = some mem := by
  unfold setValue valAt
  rw [List.getElem?_eq_getElem hlt]
  simp only
  congr 1
  apply List.ext_getElem?
  intro i
  by_cases hi : i = cur
  · subst hi
    rw [List.getElem?_set_self hlt, List.getElem?_eq_getElem hlt]
  · rw [List.getElem?_set_ne (Ne.symm hi)]

/-- On a list that stores `v` under `k`, the search finds the node and writing `v` to it
changes nothing. -/
theorem Good.put_again {mem : List Node} {head level : Nat} {l : List Nat}
    (hg : Good mem head level l) {k : K} {v : V} (hv : tGet (towers mem l) k = some v) :
    ∃ cur, findFrom mem k level head = some (some cur) ∧ setValue mem cur v = some mem := by
  rw [tGet_towers hg.sorted] at hv
  cases ht : target mem k l with
  | none => rw [ht] at hv; cases hv
  | some cur =>
    rw [ht] at hv
    simp only [Option.map_some', Option.some.injEq] at hv
    refine ⟨cur, ?_, ?_⟩
    · rw [hg.find_eq k, ht]
    · rw [← hv]
      exact setValue_same (target_lt hg.toShape ht)

theorem BasicSkipList.basic_put_again {sl : BasicSkipList} {l : List Nat}
    (hg : Good sl.mem sl.head sl.level l) {k : K} {v : V}
    (hv : tGet (towers sl.mem l) k = some v) : sl.Put k v = some sl := by
  obtain ⟨cur, h1, h2⟩ := hg.put_again hv
  unfold BasicSkipList.Put BasicSkipList.find
  rw [h1]
  simp only [h2]

theorem LASkipList.la_put_again {sl : LASkipList} {l : List Nat}
    (hg : Good sl.mem sl.head sl.level l) {k : K} {v : V}
    (hv : tGet (towers sl.mem l) k = some v) : sl.PutWithoutProb k v = some sl := by
  obtain ⟨cur, h1, h2⟩ := hg.put_again hv
  unfold LASkipList.PutWithoutProb LASkipList.find
  rw [h1]
  simp only [h2]

/-- C12: on every state of a `BasicSkipList` (reached by the calls `cb`) or of an
`LASkipList` (reached by the calls `cl`, which may hold `PutWithNP`) and for every `k`, `v`:
a second `Put(k, v)` right after `Put(k, v)` returns the very state the first one left: the
same heap (every node's height, links and value), the same `level` and `size`, hence the
same `GetMaxStats`, and the same random source, so no draw is consumed. -/
theorem put_twice_same (draws : Nat → Nat) (cb : List Call) (cl : List LACall) (k : K) (v : V) :
    (∃ sl rs sl1, (NewBasicSkipList draws).run cb = some (sl, rs) ∧ sl.Put k v = some sl1 ∧
      sl1.Put k v = some sl1) ∧
    (∃ sl rs sl1, (NewLASkipList draws).run cl = some (sl, rs) ∧ sl.Put k v = some sl1 ∧
      sl1.Put k v = some sl1) := by
  constructor
  · obtain ⟨sl, l, rs, h1, h2, _⟩ :=
      BasicSkipList.basic_run_good cb (BasicSkipList.NewBasicSkipList_good draws)
    obtain ⟨sl1, l1, g1, g2, g3⟩ := BasicSkipList.basic_Put_good h2 k v
    refine ⟨sl, rs, sl1, h1, g1, ?_⟩
    apply BasicSkipList.basic_put_again g2
    have := congrArg (fun p => tGet p.1 k) g3
    simp only at this
    rw [this, tGet_tPut]
    simp
  · obtain ⟨sl, l, rs, h1, h2, _⟩ :=
      LASkipList.la_run_good cl (LASkipList.NewLASkipList_good draws)
    obtain ⟨sl1, l1, g1, g2, g3⟩ := LASkipList.la_Put_good h2 k v
    refine ⟨sl, rs, sl1, h1, g1, ?_⟩
    unfold LASkipList.Put
    apply LASkipList.la_put_again g2
    have := congrArg (fun p => tGet p.1 k) g3
    simp only at this
    rw [this, tGet_tPut]
    simp

end Skiplist

namespace Skiplist

/-! ## TList: promotions only raise -/

theorem lenAt_nodesOf_set (mem : List tNode) (i : Nat) (x : tNode) (a : Nat) :
    lenAt (nodesOf (mem.set i x)) a
      = if a = i ∧ i < mem.length then x.next.length else lenAt (nodesOf mem) a := by
  unfold lenAt
  rw [nodesOf_getElem?, nodesOf_getElem?]
  by_cases ha : a = i
  · subst ha
    by_cases hlt : a < mem.length
    · rw [List.getElem?_set_self hlt]
      simp [hlt]
      rfl
    · have h1 : (mem.set a x)[a]? = none := List.getElem?_eq_none (by simp; omega)
      have h2 : mem[a]? = none := List.getElem?_eq_none (by omega)
      simp [h1, h2, hlt]
  · rw [List.getElem?_set_ne (Ne.symm ha)]
    simp [ha]

theorem Raised.raisedRefl (m : List tNode) : Raised m m := fun _ => le_refl _

theorem Raised.raisedTrans {m m1 m2 : List tNode} (h1 : Raised m m1) (h2 : Raised m1 m2) :
    Raised m m2 := fun a => le_trans (h2 a) (h1 a)

theorem upgrade_raised {mem mem1 : List tNode} {nd parent : Nat}
    (h : upgrade mem nd parent = some mem1) : Raised mem1 mem := by
  unfold upgrade at h
  split at h
  · rename_i ln lp n p h1 h2 h3 h4
    split at h
    · cases h; exact Raised.raisedRefl _
    · split at h
      · cases h
      · rename_i q hq
        simp only at h
        split at h
        · cases h
        · rename_i p1 hp1
          split at h
          · rename_i hc
            cases h
            intro a
            rw [lenAt_nodesOf_set, lenAt_nodesOf_set]
            have hp1len : parent < (mem.set nd { n with next := n.next ++ [q] }).length := by
              rcases Nat.lt_or_ge parent (mem.set nd { n with next := n.next ++ [q] }).length
                with h5 | h5
              · exact h5
              · rw [List.getElem?_eq_none h5] at hp1; cases hp1
            have hndlt : nd < mem.length := by
              rcases Nat.lt_or_ge nd mem.length with h5 | h5
              · exact h5
              · rw [List.getElem?_eq_none h5] at h3; cases h3
            have hn := lenAt_nodesOf h3
            have h6 : lenAt (nodesOf (mem.set nd { n with next := n.next ++ [q] })) parent
                = p1.next.length := lenAt_nodesOf hp1
            rw [lenAt_nodesOf_set] at h6
            simp only [List.length_set, List.length_append, List.length_singleton] at h6 hp1len ⊢
            by_cases hap : a = parent
            · rw [hap]
              simp only [true_and, hp1len, if_true]
              rw [← h6]
              by_cases hpn : parent = nd
              · simp only [hpn, true_and, hndlt, if_true]
                rw [hn]; omega
              · simp only [hpn, false_and, if_false]
                exact le_refl _
            · simp only [hap, false_and, if_false]
              by_cases han : a = nd
              · simp only [han, true_and, hndlt, if_true]
                rw [hn]; omega
              · simp only [han, false_and, if_false]
                exact le_refl _
          · cases h
  · cases h

theorem promote_raised {t t1 : Travel} {h : Nat} (hp : promote t h = some t1) :
    Raised t1.mem t.mem := by
  unfold promote at hp
  split at hp
  · cases hp
  · split at hp
    · cases hp
    · split at hp
      · cases hp
      · rename_i mem1 hu
        cases hp
        exact upgrade_raised hu
    · cases hp
      exact Raised.raisedRefl _

theorem travelWalk_raised (key : K) (span : Int) (h : Nat) :
    ∀ (fuel : Nat) (t t1 : Travel), travelWalk key span h fuel t = some t1 →
      Raised t1.mem t.mem
  | 0, _, _, hw => by unfold travelWalk at hw; cases hw
  | fuel + 1, t, t1, hw => by
    unfold travelWalk at hw
    split at hw
    · cases hw
    · cases hw; exact Raised.raisedRefl _
    · split at hw
      · cases hw
      · split at hw
        · simp only at hw
          split at hw
          · split at hw
            · cases hw
            · rename_i t2 hp
              have g1 := promote_raised hp
              have g2 := travelWalk_raised key span h fuel t2 t1 hw
              exact g2.raisedTrans g1
          · have g2 := travelWalk_raised key span h fuel _ t1 hw
            exact g2
        · cases hw; exact Raised.raisedRefl _

theorem travelFrom_raised (key : K) (span : Int) :
    ∀ (h : Nat) (t : Travel) (res : List tNode × Nat × Nat × Bool),
      travelFrom key span h t = some res → Raised res.1 t.mem
  | 0, t, res, hf => by
    unfold travelFrom at hf
    split at hf
    · cases hf
    · rename_i t1 hw
      have := travelWalk_raised key span 0 _ t t1 hw
      split at hf
      · cases hf
      · cases hf; exact this
      · cases hf; exact this
  | h + 1, t, res, hf => by
    unfold travelFrom at hf
    split at hf
    · cases hf
    · rename_i t1 hw
      have := travelWalk_raised key span (h + 1) _ t t1 hw
      split at hf
      · cases hf
      · cases hf; exact this
      · have g2 := travelFrom_raised key span h _ res hf
        exact g2.raisedTrans this

theorem TList.buildTravel_raised {sl sl1 : TList} {key : K} {node : Nat} {found : Bool}
    (hb : sl.buildTravel key = some (sl1, node, found)) : Raised sl1.mem sl.mem := by
  unfold TList.buildTravel at hb
  split at hb
  · cases hb; exact Raised.raisedRefl _
  · split at hb
    · cases hb
    · rename_i mem1 level1 nd f hf
      cases hb
      have g2 := travelFrom_raised key sl.span _ _ _ hf
      exact g2

end Skiplist

namespace Skiplist

theorem tlist_set_same {mem : List tNode} {a : Nat} {nd : tNode} (h : mem[a]? = some nd) :
    mem.set a nd = mem := by
  apply List.ext_getElem?
  intro i
  by_cases hi : i = a
  · subst hi
    have hlt : i < mem.length := by
      rcases Nat.lt_or_ge i mem.length with h1 | h1
      · exact h1
      · rw [List.getElem?_eq_none h1] at h; cases h
    rw [List.getElem?_set_self hlt, h]
  · rw [List.getElem?_set_ne (Ne.symm hi)]

namespace TList

/-- The method `Put(k, v)` on a list that stores `v` under `k`: it returns, adds no node and
changes no key, value or tombstone; its traversal may promote nodes, which lowers none. -/
theorem tlist_Put_stored {sl : TList} {l : List Nat} (hg : TGood sl l) {key : K} {value : V}
    (hv : tlLookup sl.mem l key = some value) :
    ∃ sl1, sl.Put key value = some sl1 ∧ TGood sl1 l ∧ sl1.head = sl.head ∧
      SameKV sl1.mem sl.mem ∧ Raised sl1.mem sl.mem := by
  obtain ⟨s, node, found, h1, hg1, hhead, _, hkv, hf, hn⟩ := buildTravel_spec hg key
  have hr := buildTravel_raised h1
  rw [← hkv.tlLookup l key] at hv
  unfold Put
  rw [h1]
  cases found with
  | false =>
    rw [tlLookup_absent (hn rfl).1] at hv
    cases hv
  | true =>
    have ht := hf rfl
    have hlt := hg1.lt (List.mem_cons_of_mem _ (target_some ht).1)
    obtain ⟨nd, hnd⟩ := getElem?_of_lt hlt
    simp only [hnd]
    rw [tlLookup_found ht hnd] at hv
    have hdel : nd.del = false := by
      cases hd : nd.del with
      | true => rw [hd] at hv; cases hv
      | false => rfl
    have hval : nd.value = value := by
      rw [hdel] at hv
      simpa using hv
    have hsame : s.mem.set node { nd with value := value, del := false } = s.mem := by
      have : ({ nd with value := value, del := false } : tNode) = nd := by
        cases nd
        simp only at hdel hval
        subst hdel hval
        rfl
      rw [this]
      exact tlist_set_same hnd
    refine ⟨_, rfl, ⟨?_, hg1.levelPos, hg1.levelLe, ?_, ?_⟩, hhead, ?_, ?_⟩
    · show Rep (nodesOf (s.mem.set node { nd with value := value, del := false })) s.head l
      rw [hsame]; exact hg1.rep
    · show ∀ a ∈ l, lenAt (nodesOf (s.mem.set node { nd with value := value, del := false })) a
        ≤ s.level
      rw [hsame]; exact hg1.cover
    · show lenAt (nodesOf (s.mem.set node { nd with value := value, del := false })) s.head
        = maxLevel + 2
      rw [hsame]; exact hg1.headFull
    · show SameKV (s.mem.set node { nd with value := value, del := false }) sl.mem
      rw [hsame]; exact hkv
    · show Raised (s.mem.set node { nd with value := value, del := false }) sl.mem
      rw [hsame]; exact hr

end TList

/-- C13, as amended: on every state of a `TList` (reached by the calls `calls`, for every
span threshold) and for every `k`, `v`: a second `Put(k, v)` right after `Put(k, v)` returns;
it adds no node and changes no key, value or tombstone, so the level-0 traversal meets the
same nodes and `Get` and `Contains` answer as before; and it lowers no node's level (its
traversal may promote nodes). -/
theorem tlist_put_twice (span : Int) (calls : List Call) (k : K) (v : V) :
    ∃ sl rs sl1 sl2, (NewSkipList span).run calls = some (sl, rs) ∧ sl.Put k v = some sl1 ∧
      sl1.Put k v = some sl2 ∧ SameKV sl2.mem sl1.mem ∧ Raised sl2.mem sl1.mem ∧
      levelNodes (nodesOf sl2.mem) sl2.head 0 = levelNodes (nodesOf sl1.mem) sl1.head 0 ∧
      ∀ k1, (∃ s3 s4 r, sl1.Get k1 = some (s3, r) ∧ sl2.Get k1 = some (s4, r)) ∧
        (∃ s3 s4 b, sl1.Contains k1 = some (s3, b) ∧ sl2.Contains k1 = some (s4, b)) := by
  obtain ⟨hg0, _⟩ := TList.NewSkipList_good span
  obtain ⟨sl, l, rs, h1, hg, _⟩ := TList.tlist_run_spec calls hg0
  obtain ⟨sl1, l1, g1, g2, g3⟩ := TList.tlist_Put_spec hg k v
  have hv : tlLookup sl1.mem l1 k = some v := by rw [g3 k]; simp
  obtain ⟨sl2, k1, k2, k3, k4, k5⟩ := TList.tlist_Put_stored g2 hv
  refine ⟨sl, rs, sl1, sl2, h1, g1, k1, k4, k5, ?_, ?_⟩
  · rw [k2.rep.levelNodes_eq (Nat.zero_le _), g2.rep.levelNodes_eq (Nat.zero_le _),
      atLevel_zero (fun a ha => (k2.rep.lenPos a ha).1),
      atLevel_zero (fun a ha => (g2.rep.lenPos a ha).1)]
  · intro k1
    obtain ⟨s3, e1, _, _⟩ := TList.tlist_Get_spec g2 k1
    obtain ⟨s4, e2, _, _⟩ := TList.tlist_Get_spec k2 k1
    obtain ⟨s5, e3, _, _⟩ := TList.tlist_Contains_spec g2 k1
    obtain ⟨s6, e4, _, _⟩ := TList.tlist_Contains_spec k2 k1
    rw [k4.tlLookup l1 k1] at e2 e4
    exact ⟨⟨s3, s4, _, e1, e2⟩, ⟨s5, s6, _, e3, e4⟩⟩

/-- C13, the claim as stated fails: with span 1, after `Put(1, 0)`, the second `Put(2, 0)`
right after `Put(2, 0)` raises the size from 2 to 3 and the level of the node holding key 1
(at address 1) from 1 to 2. -/
theorem tlist_put_twice_counterexample :
    ∃ sl s1 s2, (NewSkipList 1).Put 1 0 = some sl ∧ sl.Put 2 0 = some s1 ∧
      s1.Put 2 0 = some s2 ∧ s1.GetMaxStats.1 = 2 ∧ s2.GetMaxStats.1 = 3 ∧
      tLevel s1.mem 1 = some 1 ∧ tLevel s2.mem 1 = some 2 ∧
      keyAt (nodesOf s1.mem) 1 = 1 ∧ keyAt (nodesOf s2.mem) 1 = 1 := by
  refine ⟨_, _, _, by rfl, by rfl, by rfl, by rfl, by rfl, by rfl, by rfl, by rfl, by rfl⟩

end Skiplist

namespace Skiplist

/-! ## Construction parameters -/

/-- C14, as amended: `NewSkipList` validates nothing. For every span threshold that is zero
or negative it returns a list that keeps the threshold as given, reports `(0, 1)` through
`GetMaxStats`, and behaves as a finite map: every sequence of calls returns, and afterwards
`Get(k)` and `Contains(k)` answer from the most recent `Put` or `Delete` on `k`. -/
theorem newSkipList_nonpositive_span (span : Int) (hs : span ≤ 0) (calls : List Call) :
    (NewSkipList span).span = span ∧ (NewSkipList span).GetMaxStats = (0, 1) ∧
    ∃ sl rs, (NewSkipList span).run calls = some (sl, rs) ∧
      ∀ k, (∃ sl1, sl.Get k = some (sl1, getReply (latest calls k))) ∧
        (∃ sl2, sl.Contains k = some (sl2, (latest calls k).isSome)) := by
  have _ := hs
  refine ⟨rfl, rfl, ?_⟩
  obtain ⟨hg, hl⟩ := TList.NewSkipList_good span
  obtain ⟨sl, l, rs, h1, h2, h3⟩ := TList.tlist_run_spec calls hg
  have h4 : ∀ k, tlLookup sl.mem l k = latest calls k := by
    intro k
    rw [h3 k, hl k, latest_eq_foldl]
  refine ⟨sl, rs, h1, fun k => ⟨?_, ?_⟩⟩
  · obtain ⟨sl1, g1, _, _⟩ := TList.tlist_Get_spec h2 k
    exact ⟨sl1, by rw [g1, h4 k]⟩
  · obtain ⟨sl2, g1, _, _⟩ := TList.tlist_Contains_spec h2 k
    exact ⟨sl2, by rw [g1, h4 k]⟩

/-- A witness for `newSkipList_nonpositive_span`: the span threshold -3 and the calls
`Put(1, 5)`, `Delete(1)`, `Put(2, 7)`. -/
theorem newSkipList_nonpositive_span_witness :
    (-3 : Int) ≤ 0 ∧
    ((NewSkipList (-3)).span = -3 ∧ (NewSkipList (-3)).GetMaxStats = (0, 1) ∧
    ∃ sl rs, (NewSkipList (-3)).run [Call.put 1 5, Call.delete 1, Call.put 2 7]
        = some (sl, rs) ∧
      ∀ k, (∃ sl1, sl.Get k
          = some (sl1, getReply (latest [Call.put 1 5, Call.delete 1, Call.put 2 7] k))) ∧
        (∃ sl2, sl.Contains k
          = some (sl2, (latest [Call.put 1 5, Call.delete 1, Call.put 2 7] k).isSome))) :=
  ⟨by decide, newSkipList_nonpositive_span (-3) (by decide)
    [Call.put 1 5, Call.delete 1, Call.put 2 7]⟩

/-- C14, the claim as stated fails: `NewSkipList(0)` and `NewSkipList(-3)` return lists, and
on each of them `Put(1, 5)`, `Get(1)`, `Contains(1)` run and reply `(5, true)` and `true`. -/
theorem newSkipList_nonpositive_span_counterexample :
    (∃ sl, (NewSkipList 0).run [Call.put 1 5, Call.get 1, Call.contains 1]
      = some (sl, [Reply.done, Reply.value 5 true, Reply.flag true])) ∧
    (∃ sl, (NewSkipList (-3)).run [Call.put 1 5, Call.get 1, Call.contains 1]
      = some (sl, [Reply.done, Reply.value 5 true, Reply.flag true])) :=
  ⟨⟨_, by rfl⟩, ⟨_, by rfl⟩⟩

end Skiplist

namespace Skiplist

/-- C15, as amended: `NewSplayList` validates nothing. For every try-update probability `p`,
below 0 and above 1 included, it returns an empty list that keeps `p` as given: `GetMaxStats`
reports `(0, 1)`, and `Get` and `Contains` of every key report absence. -/
theorem newSplayList_any_probability (p : ℚ) (hp : p < 0 ∨ 1 < p) (draws : Nat → Nat) :
    (NewSplayList p draws).p = p ∧
    (∃ s, (NewSplayList p draws).GetMaxStats = some ((0, 1), s)) ∧
    ∀ k, (∃ s, (NewSplayList p draws).Get k = some (s, 0, false)) ∧
      (∃ s, (NewSplayList p draws).Contains k = some (s, false)) := by
  have _ := hp
  exact ⟨rfl, ⟨_, by rfl⟩, fun k => ⟨⟨_, by rfl⟩, ⟨_, by rfl⟩⟩⟩

/-- A witness for `newSplayList_any_probability`: the probability 2. -/
theorem newSplayList_any_probability_witness :
    ((2 : ℚ) < 0 ∨ (1 : ℚ) < 2) ∧
    ((NewSplayList 2 (fun _ => 0)).p = 2 ∧
    (∃ s, (NewSplayList 2 (fun _ => 0)).GetMaxStats = some ((0, 1), s)) ∧
    ∀ k, (∃ s, (NewSplayList 2 (fun _ => 0)).Get k = some (s, 0, false)) ∧
      (∃ s, (NewSplayList 2 (fun _ => 0)).Contains k = some (s, false))) :=
  ⟨Or.inr (by norm_num), newSplayList_any_probability 2 (Or.inr (by norm_num)) (fun _ => 0)⟩

/-- C15, the claim as stated fails: `NewSplayList(2)` and `NewSplayList(-1)` return lists, and
on each of them `Put(1, 5)` followed by `Get(1)` runs and returns `(5, true)`. -/
theorem newSplayList_any_probability_counterexample :
    (((NewSplayList 2 (fun _ => 0)).Put 1 5).bind
        (fun s => (s.Get 1).map (fun r => r.2)) = some (5, true)) ∧
    (((NewSplayList (-1) (fun _ => 0)).Put 1 5).bind
        (fun s => (s.Get 1).map (fun r => r.2)) = some (5, true)) :=
  ⟨by with_unfolding_all rfl, by with_unfolding_all rfl⟩

/-- C18, the code at the failing input `Put(1, 5)`, `Delete(1)`, `Delete(1)` (with `p = 1`
and draws that make every try-update run): the second `Delete` finds the tombstoned node and
runs `list.size--` again, so `GetMaxStats` reports the entry count -1, while `Contains(1)`
is false and no key is stored. -/
theorem splay_size_after_repeated_delete :
    (((NewSplayList 1 (fun _ => 0)).Put 1 5).bind (fun s => (s.Delete 1).bind
        (fun s2 => (s2.Delete 1).bind (fun s3 => s3.GetMaxStats)))).map (fun r => r.1)
      = some (-1, 1) ∧
    (((NewSplayList 1 (fun _ => 0)).Put 1 5).bind (fun s => (s.Delete 1).bind
        (fun s2 => (s2.Delete 1).bind (fun s3 => s3.Contains 1)))).map (fun r => r.2)
      = some false ∧
    (((NewSplayList 1 (fun _ => 0)).Put 1 5).bind (fun s => (s.Delete 1).bind
        (fun s2 => s2.GetMaxStats))).map (fun r => r.1) = some (0, 1) :=
  ⟨by with_unfolding_all rfl, by with_unfolding_all rfl, by with_unfolding_all rfl⟩

end Skiplist

namespace Skiplist

/-! ## Deleting an absent key -/

theorem target_none_of_tGet {m : List Node} {l : List Nat}
    (hs : l.Pairwise (fun a b => keyAt m a < keyAt m b)) {k : K}
    (h : tGet (towers m l) k = none) : target m k l = none := by
  rw [tGet_towers hs] at h
  cases ht : target m k l with
  | none => rfl
  | some a => rw [ht] at h; cases h

/-- C16, as amended: on every state of a `BasicSkipList` (reached by the calls `cb`) or of an
`LASkipList` (reached by the calls `cl`), `Delete(k)` of a key `k` that is not stored returns
and leaves the heap as it is: the stored keys, the values and every link. On a
`BasicSkipList` it leaves `level`, the maxLevel of `GetMaxStats`, unchanged; on an
`LASkipList` the new `level` is what the loop `for newlvl > 0 && head.next[newlvl] == nil`
yields from the old one, which is at most the old one. Nothing is said of the entry count. -/
theorem delete_absent (draws : Nat → Nat) (cb : List Call) (cl : List LACall) (k : K)
    (hb : latest cb k = none) (hl : latestLA cl k = none) :
    (∃ sl rs sl1, (NewBasicSkipList draws).run cb = some (sl, rs) ∧
      sl.Contains k = some false ∧ sl.Delete k = some sl1 ∧
      sl1.mem = sl.mem ∧ sl1.head = sl.head ∧ sl1.rand = sl.rand ∧
      sl1.GetMaxStats.2 = sl.GetMaxStats.2) ∧
    (∃ sl rs sl1, (NewLASkipList draws).run cl = some (sl, rs) ∧
      sl.Contains k = some false ∧ sl.Delete k = some sl1 ∧
      sl1.mem = sl.mem ∧ sl1.head = sl.head ∧ sl1.rand = sl.rand ∧
      LASkipList.lowerLevel sl.mem sl.head sl.level = some sl1.level ∧
      sl1.GetMaxStats.2 ≤ sl.GetMaxStats.2) := by
  constructor
  · obtain ⟨sl, l, rs, h1, h2, h3⟩ := BasicSkipList.basic_run_latest draws cb
    have hg : tGet (towers sl.mem l) k = none := by rw [h3 k, hb]
    have ht := target_none_of_tGet h2.sorted hg
    obtain ⟨m2, g1, _, _, _, g5⟩ := h2.delete_good k
    have hm := g5 ht
    subst hm
    refine ⟨sl, rs, { sl with size := wrap32 (sl.size - 1) }, h1, ?_, ?_, rfl, rfl, rfl, rfl⟩
    · rw [BasicSkipList.basic_Contains_good h2 k, hg]; rfl
    · unfold BasicSkipList.Delete
      rw [g1]
  · obtain ⟨sl, l, rs, h1, h2, h3⟩ := LASkipList.la_run_latest draws cl
    have hg : tGet (towers sl.mem l) k = none := by rw [h3 k, hl]
    have ht := target_none_of_tGet h2.sorted hg
    obtain ⟨m2, g1, _, _, _, g5⟩ := h2.delete_good k
    have hm := g5 ht
    subst hm
    obtain ⟨n, e1, e2, _⟩ := h2.toRep.lowerLevel sl.level h2.levelLe h2.cover
    refine ⟨sl, rs, { sl with level := n, size := wrap32 (sl.size - 1) }, h1, ?_, ?_, rfl, rfl,
      rfl, e1, ?_⟩
    · rw [LASkipList.la_Contains_good h2 k, hg]; rfl
    · unfold LASkipList.Delete
      rw [g1]
      simp only [e1]
    · show ((n : Nat) : Int) ≤ ((sl.level : Nat) : Int)
      exact Int.ofNat_le.2 e2

/-- A witness for `delete_absent`: after `Put(1, 5)`, `Put(2, 6)`, `Delete(1)` the key 1 is
not stored. -/
theorem delete_absent_witness :
    latest [Call.put 1 5, Call.put 2 6, Call.delete 1] 1 = none ∧
    latestLA [LACall.put 1 5, LACall.putNP 2 6 4, LACall.delete 1] 1 = none ∧
    ((∃ sl rs sl1, (NewBasicSkipList (fun _ => 0)).run
        [Call.put 1 5, Call.put 2 6, Call.delete 1] = some (sl, rs) ∧
      sl.Contains 1 = some false ∧ sl.Delete 1 = some sl1 ∧
      sl1.mem = sl.mem ∧ sl1.head = sl.head ∧ sl1.rand = sl.rand ∧
      sl1.GetMaxStats.2 = sl.GetMaxStats.2) ∧
    (∃ sl rs sl1, (NewLASkipList (fun _ => 0)).run
        [LACall.put 1 5, LACall.putNP 2 6 4, LACall.delete 1] = some (sl, rs) ∧
      sl.Contains 1 = some false ∧ sl.Delete 1 = some sl1 ∧
      sl1.mem = sl.mem ∧ sl1.head = sl.head ∧ sl1.rand = sl.rand ∧
      LASkipList.lowerLevel sl.mem sl.head sl.level = some sl1.level ∧
      sl1.GetMaxStats.2 ≤ sl.GetMaxStats.2)) :=
  ⟨by decide, by decide, delete_absent (fun _ => 0) [Call.put 1 5, Call.put 2 6, Call.delete 1]
    [LACall.put 1 5, LACall.putNP 2 6 4, LACall.delete 1] 1 (by decide) (by decide)⟩

/-- C16, the claim as stated fails: on the empty `BasicSkipList` the key 1 is not stored and
`Delete(1)` lowers the entry count of `GetMaxStats` from 0 to -1; on the empty `LASkipList`
`Delete(1)` changes `GetMaxStats` from `(0, 1)` to `(-1, 0)`. -/
theorem delete_absent_counterexample :
    (∃ sl, (NewBasicSkipList (fun _ => 0)).Delete 1 = some sl ∧
      (NewBasicSkipList (fun _ => 0)).Contains 1 = some false ∧
      (NewBasicSkipList (fun _ => 0)).GetMaxStats = (0, 1) ∧ sl.GetMaxStats = (-1, 1)) ∧
    (∃ sl, (NewLASkipList (fun _ => 0)).Delete 1 = some sl ∧
      (NewLASkipList (fun _ => 0)).Contains 1 = some false ∧
      (NewLASkipList (fun _ => 0)).GetMaxStats = (0, 1) ∧ sl.GetMaxStats = (-1, 0)) :=
  ⟨⟨_, by rfl, by rfl, by rfl, by rfl⟩, ⟨_, by rfl, by rfl, by rfl, by rfl⟩⟩

end Skiplist

namespace Skiplist

/-! ## Entry counts -/

/-- C17, the code at the failing input `n = 1`: after `Put(1, 0)` on a new `BasicSkipList`
`GetMaxStats` reports the entry count 2 (the draw gives height 0, and the splice loop runs
`sl.size++` on levels 1 and 0); after a second new key it reports 4. -/
theorem basic_entry_count_after_put :
    ((NewBasicSkipList (fun _ => 4503599627370496)).Put 1 0).map (fun s => s.GetMaxStats)
      = some (2, 1) ∧
    (((NewBasicSkipList (fun _ => 4503599627370496)).Put 1 0).bind
      (fun s => (s.Put 2 0).map (fun s2 => s2.GetMaxStats))) = some (4, 1) :=
  ⟨by rfl, by rfl⟩

/-- C19, the code at the failing inputs `Put(1, 5)`, `Put(1, 5)` and `Put(1, 5)`,
`Delete(1)`, `Delete(1)` (span 4): the second `Put` of the stored key runs `sl.size++`
again, so `GetMaxStats` reports size 2 while level 0 holds the one key 1; the second `Delete`
runs `sl.size--` again, so the size is -1 while no key is stored. -/
theorem tlist_size_after_repeats :
    (((NewSkipList 4).Put 1 5).bind (fun s => (s.Put 1 5).map
        (fun s2 => (s2.GetMaxStats.1, levelKeys (nodesOf s2.mem) s2.head 0))))
      = some (2, some [1]) ∧
    (((NewSkipList 4).Put 1 5).bind (fun s => (s.Put 1 5).bind
        (fun s2 => (s2.Contains 1).map (fun r => r.2)))) = some true ∧
    (((NewSkipList 4).Put 1 5).bind (fun s => (s.Delete 1).bind (fun s2 => (s2.Delete 1).map
        (fun s3 => s3.GetMaxStats.1)))) = some (-1) ∧
    (((NewSkipList 4).Put 1 5).bind (fun s => (s.Delete 1).bind (fun s2 => (s2.Delete 1).bind
        (fun s3 => (s3.Contains 1).map (fun r => r.2))))) = some false :=
  ⟨by rfl, by rfl, by rfl, by rfl⟩

/-! ## Clamped heights -/

/-- C20: height draws are clamped to 32. For every state of the random source and every
predicted count `np`, `BasicSkipList.randomLevel`, `LASkipList.randomLevel` and
`LASkipList.randomLevelWithNP` return, with a height of at most 32 (and at least 0, being a
natural number). So after every sequence of calls (`cb`, and `cl` which may hold `PutWithNP`)
the calls have returned without an out-of-range index, the head has 33 link slots or more and
every node met on level 0 has at most 33. -/
theorem heights_clamped (b : BasicSkipList) (la : LASkipList) (np : ℚ) (draws : Nat → Nat)
    (cb : List Call) (cl : List LACall) :
    (∃ res, b.randomLevel = some res ∧ res.1 ≤ 32) ∧
    (∃ res, la.randomLevel = some res ∧ res.1 ≤ 32) ∧
    (∃ res, la.randomLevelWithNP np = some res ∧ res.1 ≤ 32) ∧
    (∃ sl rs nodes, (NewBasicSkipList draws).run cb = some (sl, rs) ∧
      33 ≤ lenAt sl.mem sl.head ∧ levelNodes sl.mem sl.head 0 = some nodes ∧
      ∀ a ∈ nodes, GetLevel sl.mem a ≤ 32) ∧
    (∃ sl rs nodes, (NewLASkipList draws).run cl = some (sl, rs) ∧
      33 ≤ lenAt sl.mem sl.head ∧ levelNodes sl.mem sl.head 0 = some nodes ∧
      ∀ a ∈ nodes, GetLevel sl.mem a ≤ 32) := by
  refine ⟨?_, ?_, ?_, ?_, ?_⟩
  · obtain ⟨res, h1, h2⟩ := randomLevel_isSome b.rand
    exact ⟨res, h1, h2⟩
  · obtain ⟨res, h1, h2⟩ := randomLevel_isSome la.rand
    exact ⟨res, h1, h2⟩
  · obtain ⟨res, h1, _, h3⟩ := randomLevelWithNPLoop_isSome np (maxLevel + 1) la.rand 0
      (Nat.zero_le _) (by omega)
    exact ⟨res, h1, h3⟩
  · obtain ⟨sl, l, rs, h1, h2, _⟩ :=
      BasicSkipList.basic_run_good cb (BasicSkipList.NewBasicSkipList_good draws)
    refine ⟨sl, rs, l, h1, h2.headLen, ?_, ?_⟩
    · rw [h2.toRep.levelNodes_eq (Nat.zero_le _),
        atLevel_zero (fun a ha => (h2.lenPos a ha).1)]
    · intro a ha
      have := (h2.lenPos a ha).2
      unfold GetLevel
      unfold maxLevel at this
      omega
  · obtain ⟨sl, l, rs, h1, h2, _⟩ :=
      LASkipList.la_run_good cl (LASkipList.NewLASkipList_good draws)
    refine ⟨sl, rs, l, h1, h2.headLen, ?_, ?_⟩
    · rw [h2.toRep.levelNodes_eq (Nat.zero_le _),
        atLevel_zero (fun a ha => (h2.lenPos a ha).1)]
    · intro a ha
      have := (h2.lenPos a ha).2
      unfold GetLevel
      unfold maxLevel at this
      omega

end Skiplist

namespace Skiplist

/-! ## The descent threshold -/

theorem wrap32_of_range {x : Int} (h1 : -(2 ^ 31) ≤ x) (h2 : x < 2 ^ 31) : wrap32 x = x := by
  unfold wrap32
  omega

theorem descentThreshold_nat (k : Nat) (M : Int) (h1 : 1 ≤ k) (h2 : k ≤ 31) (hM : 0 ≤ M)
    (hM2 : M < 2 ^ 31) : getDescentThreshold (32 - (k : Int)) M = some (M / 2 ^ k) := by
  have e : (32 : Int) - (32 - (k : Int)) = (k : Int) := by ring
  simp only [getDescentThreshold, shl32, MAX_LEVEL, div32, e, Int.toNat_ofNat]
  have hk : ¬ ((k : Int) < 0) := by omega
  rw [if_neg hk]
  simp only
  rcases Nat.lt_or_ge k 31 with h3 | h3
  · have hw : wrap32 (2 ^ k) = 2 ^ k := by
      interval_cases k <;> simp only [wrap32] <;> norm_num
    have hp : (0 : Int) < 2 ^ k := by positivity
    rw [hw, if_neg (by omega), Int.tdiv_eq_ediv hM hp.le]
    have hle : M / 2 ^ k ≤ M := Int.ediv_le_self _ hM
    have hge : 0 ≤ M / 2 ^ k := Int.ediv_nonneg hM hp.le
    rw [wrap32_of_range (by omega) (by omega)]
  · have hk31 : k = 31 := by omega
    subst hk31
    have hw : wrap32 (2 ^ 31) = -(2 ^ 31) := by simp only [wrap32]; norm_num
    rw [hw, if_neg (by norm_num), Int.tdiv_neg, Int.tdiv_eq_ediv hM (by norm_num)]
    have h0 : M / 2 ^ 31 = 0 := Int.ediv_eq_zero_of_lt hM hM2
    rw [h0]
    simp only [wrap32]
    norm_num

theorem descentThreshold_pos (h M : Int) (h1 : 1 ≤ h) (h2 : h ≤ 31) (hM : 0 ≤ M)
    (hM2 : M < 2 ^ 31) : getDescentThreshold h M = some (M / 2 ^ (32 - h).toNat) := by
  have := descentThreshold_nat (32 - h).toNat M (by omega) (by omega) hM hM2
  have e : (32 : Int) - (((32 - h).toNat : Nat) : Int) = h := by omega
  rwa [e] at this

theorem descentThreshold_zero (M : Int) : getDescentThreshold 0 M = none := by
  have e : ((32 : Int) - 0).toNat = 32 := rfl
  simp only [getDescentThreshold, shl32, MAX_LEVEL, div32, wrap32, e]
  norm_num

/-- C30: at level 0 the divisor `1 << 32` of `getDescentThreshold` is 0 as an `int32`, so
the call panics for every `M`; at the levels 1 to 31 and `0 <= M < 2^31` it returns
`floor(M / 2^(32 - h))`. -/
theorem getDescentThreshold_level_zero :
    (∀ M : Int, getDescentThreshold 0 M = none) ∧
    (∀ h M : Int, 1 ≤ h → h ≤ 31 → 0 ≤ M → M < 2 ^ 31 →
      getDescentThreshold h M = some (M / 2 ^ (32 - h).toNat)) :=
  ⟨descentThreshold_zero, descentThreshold_pos⟩

/-! ## The height drawn by `randomLevelWithNP` -/

/-- The rounds of `randomLevelWithNP` that draw: entered at height `d + j` after `j` draws
below 0.5. -/
theorem npLoop_draws (np : ℚ) (draws : Nat → Nat) (p0 d g : Nat)
    (hd2 : d < maxLevel → ¬ np ≥ (2 : ℚ) ^ d)
    (hg : ∀ i, i < g → belowProbability (draws (p0 + i)) = true)
    (hg2 : d + g < maxLevel → belowProbability (draws (p0 + g)) = false) :
    ∀ (fuel j : Nat), j ≤ g → d + j ≤ maxLevel → maxLevel - (d + j) < fuel →
      LASkipList.randomLevelWithNPLoop np fuel { draws := draws, pos := p0 + j } (d + j)
        = some (min maxLevel (d + g),
            { draws := draws, pos := p0 + (if d + g < maxLevel then g + 1 else maxLevel - d) })
  | 0, j, _, _, hf => by omega
  | fuel + 1, j, hj, hle, hf => by
    unfold LASkipList.randomLevelWithNPLoop
    by_cases hlt : d + j < maxLevel
    · have hnp : ¬ np ≥ (2 : ℚ) ^ (d + j + 1 - 1) := by
        intro hc
        apply hd2 (by omega)
        refine le_trans ?_ hc
        exact pow_le_pow_right₀ (by norm_num) (by omega)
      rw [if_pos hlt, if_neg hnp]
      simp only [Rand.Float64]
      rcases Nat.lt_or_ge j g with hjg | hjg
      · rw [hg j hjg]
        simp only [if_true]
        have := npLoop_draws np draws p0 d g hd2 hg hg2 fuel (j + 1) hjg (by omega) (by omega)
        rw [← this]
        rfl
      · have hjeq : j = g := by omega
        subst hjeq
        rw [hg2 hlt]
        simp only [Bool.false_eq_true, if_false, if_pos hlt]
        rw [Nat.min_eq_right (by omega)]
        rfl
    · rw [if_neg hlt]
      have h1 : ¬ d + g < maxLevel := by omega
      rw [if_neg h1, Nat.min_eq_left (by omega)]
      have h2 : d + j = maxLevel := by omega
      have h3 : p0 + j = p0 + (maxLevel - d) := by omega
      rw [h2, h3]

/-- The rounds of `randomLevelWithNP` that raise the height without a draw. -/
theorem npLoop_det (np : ℚ) (r : Rand) (d g : Nat)
    (hd : ∀ l, l < d → np ≥ (2 : ℚ) ^ l)
    (hd2 : d < maxLevel → ¬ np ≥ (2 : ℚ) ^ d)
    (hg : ∀ i, i < g → belowProbability (r.draws (r.pos + i)) = true)
    (hg2 : d + g < maxLevel → belowProbability (r.draws (r.pos + g)) = false) :
    ∀ (fuel lvl : Nat), lvl ≤ d → lvl ≤ maxLevel → maxLevel - lvl < fuel →
      LASkipList.randomLevelWithNPLoop np fuel r lvl
        = some (min maxLevel (d + g),
            { r with pos := r.pos + (if d + g < maxLevel then g + 1 else maxLevel - d) })
  | 0, lvl, _, _, hf => by omega
  | fuel + 1, lvl, hl, hle, hf => by
    rcases Nat.lt_or_ge lvl d with h1 | h1
    · unfold LASkipList.randomLevelWithNPLoop
      by_cases hlt : lvl < maxLevel
      · rw [if_pos hlt, if_pos (by simpa using hd lvl h1)]
        exact npLoop_det np r d g hd hd2 hg hg2 fuel (lvl + 1) h1 (by omega) (by omega)
      · rw [if_neg hlt]
        have h2 : ¬ d + g < maxLevel := by omega
        rw [if_neg h2, Nat.min_eq_left (by omega)]
        have h3 : maxLevel - d = 0 := by omega
        have h4 : lvl = maxLevel := by omega
        rw [h3, h4]
        rfl
    · have h2 : lvl = d := by omega
      subst h2
      exact npLoop_draws np r.draws r.pos lvl g hd2 hg hg2 (fuel + 1) 0 (Nat.zero_le _) hle hf

/-- The loop of `randomLevel` after `j` draws below 0.5. -/
theorem randomLevelLoop_run (draws : Nat → Nat) (p0 g : Nat)
    (hg : ∀ i, i < g → belowProbability (draws (p0 + i)) = true)
    (hg2 : g < maxLevel → belowProbability (draws (p0 + g)) = false) :
    ∀ (fuel j : Nat), j ≤ g → j ≤ maxLevel → maxLevel - j < fuel →
      ∃ r2, randomLevelLoop fuel { draws := draws, pos := p0 + j } j
        = some (min maxLevel g, r2)
  | 0, j, _, _, hf => by omega
  | fuel + 1, j, hj, hle, hf => by
    unfold randomLevelLoop
    simp only [Rand.Float64]
    by_cases hlt : j < maxLevel
    · rcases Nat.lt_or_ge j g with hjg | hjg
      · rw [hg j hjg]
        simp only [hlt, decide_True, Bool.and_self, if_true]
        exact randomLevelLoop_run draws p0 g hg hg2 fuel (j + 1) hjg (by omega) (by omega)
      · have hjeq : j = g := by omega
        subst hjeq
        rw [hg2 hlt]
        simp only [Bool.false_and, Bool.false_eq_true, if_false]
        rw [Nat.min_eq_right (by omega)]
        exact ⟨_, rfl⟩
    · simp only [hlt, decide_False, Bool.and_false, Bool.false_eq_true, if_false]
      rw [Nat.min_eq_left (by omega)]
      have : j = maxLevel := by omega
      rw [this]
      exact ⟨_, rfl⟩

/-- C29: with `d` the number of consecutive levels `l = 1, 2, ...` that have
`np >= 2^(l-1)` and `g` the number of consecutive draws below 0.5 at the cursor of the
source (both only needed up to the cap: `d` may stop at a level that holds once it is 32,
and `g` once `d + g` is 32), `randomLevelWithNP(np)` returns `min(32, d + g)` and moves the
source by the draws of the coin rounds only, `g + 1` of them below the cap and `32 - d` at
it; for `np < 1` the height is the one `randomLevel` returns on the same source. -/
theorem randomLevelWithNP_height (sl : LASkipList) (np : ℚ) (d g : Nat)
    (hd : ∀ l, l < d → np ≥ (2 : ℚ) ^ l)
    (hd2 : d < maxLevel → ¬ np ≥ (2 : ℚ) ^ d)
    (hg : ∀ i, i < g → belowProbability (sl.rand.draws (sl.rand.pos + i)) = true)
    (hg2 : d + g < maxLevel → belowProbability (sl.rand.draws (sl.rand.pos + g)) = false) :
    sl.randomLevelWithNP np
        = some (min 32 (d + g),
            { sl.rand with pos := sl.rand.pos + (if d + g < 32 then g + 1 else 32 - d) }) ∧
      (np < 1 → ∃ r2, sl.randomLevel = some (min 32 (d + g), r2)) := by
  constructor
  · exact npLoop_det np sl.rand d g hd hd2 hg hg2 (maxLevel + 1) 0 (Nat.zero_le _)
      (Nat.zero_le _) (by omega)
  · intro hnp
    have hd0 : d = 0 := by
      rcases Nat.eq_zero_or_pos d with h | h
      · exact h
      · have := hd 0 h
        simp only [pow_zero] at this
        exact absurd this (not_le.2 hnp)
    subst hd0
    have := randomLevelLoop_run sl.rand.draws sl.rand.pos g hg
      (fun h => hg2 (by omega)) (maxLevel + 1) 0 (Nat.zero_le _) (Nat.zero_le _) (by omega)
    simpa [LASkipList.randomLevel, randomLevel] using this

/-- A witness for `randomLevelWithNP_height`: `np = 5` gives three levels without a draw, the
first draw is below 0.5 and the second is not, so the height is 4 after two draws. -/
theorem randomLevelWithNP_height_witness :
    (NewLASkipList (fun i => if i = 0 then 0 else drawScale)).randomLevelWithNP 5
      = some (min 32 (3 + 1),
          { draws := fun i => if i = 0 then 0 else drawScale,
            pos := 0 + (if 3 + 1 < 32 then 1 + 1 else 32 - 3) }) ∧
      ((5 : ℚ) < 1 → ∃ r2, (NewLASkipList (fun i => if i = 0 then 0 else drawScale)).randomLevel
        = some (min 32 (3 + 1), r2)) :=
  randomLevelWithNP_height (NewLASkipList (fun i => if i = 0 then 0 else drawScale)) 5 3 1
    (by intro l hl; interval_cases l <;> norm_num)
    (by intro _; norm_num)
    (by intro i hi; interval_cases i; decide)
    (by intro _; decide)

/-! ## The key of the head sentinel -/

/-- C24: the heads of `LASkipList` and `SplayList` are built with key 0, so once key 0 is
stored the traversal of level 0 from `GetHead()` meets the key 0 twice, at the head and at
the node after it. -/
theorem head_key_zero_stored :
    (∃ sl, (NewLASkipList (fun _ => drawScale)).Put 0 1 = some sl ∧
      keyAt sl.mem sl.head = 0 ∧ levelKeys sl.mem sl.head 0 = some [0]) ∧
    (∃ sl sl2 h n, (NewSplayList 1 (fun _ => 0)).Put 0 1 = some sl ∧
      sl.GetHead = some (some h, sl2) ∧ sKey sl2.mem h = some 0 ∧
      sl2.nodeNextAt h 0 = some (some n) ∧ sKey sl2.mem n = some 0) :=
  ⟨⟨_, by rfl, by rfl, by rfl⟩,
    ⟨_, _, _, _, by with_unfolding_all rfl, by with_unfolding_all rfl,
      by with_unfolding_all rfl, by with_unfolding_all rfl, by with_unfolding_all rfl⟩⟩

/-! ## Lazy synchronisation of a node -/

theorem setIdx_length {α : Type} {xs ys : List α} {i : Int} {v : α}
    (h : setIdx xs i v = some ys) : ys.length = xs.length := by
  unfold setIdx at h
  split at h
  · cases h
  · cases h
    simp

theorem setIdx_isSome {α : Type} (xs : List α) {i : Int} (v : α) (h0 : 0 ≤ i)
    (h1 : i < xs.length) : setIdx xs i v = some (xs.set i.toNat v) := by
  unfold setIdx
  rw [if_neg (by omega)]

theorem idx_set {α : Type} (xs : List α) {i : Int} (v : α) (h0 : 0 ≤ i)
    (h1 : i < xs.length) (l : Int) :
    idx (xs.set i.toNat v) l = if l = i then some v else idx xs l := by
  unfold idx
  by_cases hl : l < 0
  · rw [if_pos hl, if_pos hl, if_neg (by omega)]
  · rw [if_neg hl, if_neg hl]
    by_cases he : l = i
    · subst he
      rw [if_pos rfl, List.getElem?_set_self]
      omega
    · rw [if_neg he, List.getElem?_set_ne]
      omega

theorem idx_isSome {α : Type} (xs : List α) {i : Int} (h0 : 0 ≤ i) (h1 : i < xs.length) :
    ∃ v, idx xs i = some v := by
  unfold idx
  rw [if_neg (by omega)]
  have : i.toNat < xs.length := by omega
  exact ⟨xs[i.toNat], List.getElem?_eq_getElem this⟩

end Skiplist

namespace Skiplist

/-- What the loop of `updateUpToLevel` does to a node whose arrays have the 33 entries of
the Go type and whose `zeroLevel` is an index of them. -/
theorem syncNode_spec (L : Int) (hL : 0 ≤ L) : ∀ (fuel : Nat) (nd : SplayNode),
    nd.next.length = 33 → nd.hits.length = 33 → nd.zeroLevel ≤ 32 →
    (nd.zeroLevel - L).toNat < fuel →
    ∃ nd1, syncNode L fuel nd = some nd1 ∧ nd1.zeroLevel = min nd.zeroLevel L ∧
      nd1.topLevel = nd.topLevel ∧ nd1.selfhits = nd.selfhits ∧ nd1.key = nd.key ∧
      nd1.value = nd.value ∧ nd1.deleted = nd.deleted ∧
      nd1.next.length = 33 ∧ nd1.hits.length = 33 ∧
      (∀ l, idx nd1.next l
        = if L ≤ l ∧ l < nd.zeroLevel then idx nd.next nd.zeroLevel else idx nd.next l) ∧
      (∀ l, idx nd1.hits l = if L ≤ l ∧ l < nd.zeroLevel then some 0 else idx nd.hits l)
  | 0, _, _, _, _, hf => by omega
  | fuel + 1, nd, hn, hh, hz, hf => by
    unfold syncNode
    by_cases hgt : nd.zeroLevel > L
    · rw [if_pos hgt]
      have hz1 : (0 : Int) ≤ nd.zeroLevel - 1 := by omega
      rw [setIdx_isSome nd.hits 0 hz1 (by rw [hh]; omega)]
      obtain ⟨p, hp⟩ := idx_isSome nd.next (i := nd.zeroLevel) (by omega) (by rw [hn]; omega)
      rw [hp]
      simp only
      rw [setIdx_isSome nd.next p hz1 (by rw [hn]; omega)]
      simp only
      rw [wrap32_of_range (x := nd.zeroLevel - 1) (by omega) (by omega)]
      obtain ⟨nd1, h1, h2, h3, h4, h5, h6, h7, h8, h9, h10, h11⟩ :=
        syncNode_spec L hL fuel
          { nd with hits := nd.hits.set (nd.zeroLevel - 1).toNat 0,
                    next := nd.next.set (nd.zeroLevel - 1).toNat p,
                    zeroLevel := nd.zeroLevel - 1 }
          (by simp [hn]) (by simp [hh]) (by simp only; omega) (by simp only; omega)
      refine ⟨nd1, h1, ?_, h3, h4, h5, h6, h7, h8, h9, ?_, ?_⟩
      · rw [h2]
        simp only
        omega
      · intro l
        rw [h10 l]
        simp only
        rw [idx_set nd.next p hz1 (by rw [hn]; omega), idx_set nd.next p hz1 (by rw [hn]; omega),
          if_pos rfl]
        by_cases c1 : L ≤ l ∧ l < nd.zeroLevel - 1
        · rw [if_pos c1, if_pos ⟨c1.1, by omega⟩]
        · rw [if_neg c1]
          by_cases c2 : l = nd.zeroLevel - 1
          · rw [if_pos c2, if_pos ⟨by omega, by omega⟩]
          · rw [if_neg c2, if_neg (by omega)]
      · intro l
        rw [h11 l]
        simp only
        rw [idx_set nd.hits 0 hz1 (by rw [hh]; omega)]
        by_cases c1 : L ≤ l ∧ l < nd.zeroLevel - 1
        · rw [if_pos c1, if_pos ⟨c1.1, by omega⟩]
        · rw [if_neg c1]
          by_cases c2 : l = nd.zeroLevel - 1
          · rw [if_pos c2, if_pos ⟨by omega, by omega⟩]
          · rw [if_neg c2, if_neg (by omega)]
    · rw [if_neg hgt]
      refine ⟨nd, rfl, ?_, rfl, rfl, rfl, rfl, rfl, hn, hh, ?_, ?_⟩
      · omega
      · intro l
        rw [if_neg (by omega)]
      · intro l
        rw [if_neg (by omega)]

theorem set_same {α : Type} {xs : List α} {a : Nat} {x : α} (h : xs[a]? = some x) :
    xs.set a x = xs := by
  apply List.ext_getElem?
  intro i
  by_cases hi : a = i
  · subst hi
    rw [List.getElem?_set_self (by
      rcases Nat.lt_or_ge a xs.length with h1 | h1
      · exact h1
      · rw [List.getElem?_eq_none h1] at h; cases h), h]
  · rw [List.getElem?_set_ne hi]

theorem updateUpToLevel_noop {mem : List SplayNode} {a : Nat} {nd : SplayNode} {L : Int}
    (hnd : mem[a]? = some nd) (hz : nd.zeroLevel ≤ L) :
    updateUpToLevel mem (some a) L = some mem := by
  unfold updateUpToLevel
  simp only [hnd]
  unfold syncNode
  rw [if_neg (by omega)]
  simp only
  rw [set_same hnd]

/-- C26: `updateUpToLevel(node, L)` on a node whose private baseline is `z`: nothing changes
when `z <= L`; when `0 <= L < z` (with `z` an index of the arrays) the baseline becomes `L`,
`next[l]` becomes the old `next[z]` and `hits[l]` becomes 0 for `L <= l < z`, every other
entry of `next` and `hits` and the fields `topLevel`, `selfhits`, `key`, `value`, `deleted`
stay, and a second call with the same `L` changes nothing. -/
theorem updateUpToLevel_sync (mem : List SplayNode) (a : Nat) (nd : SplayNode) (L : Int)
    (hnd : mem[a]? = some nd) (hn : nd.next.length = 33) (hh : nd.hits.length = 33) :
    (nd.zeroLevel ≤ L → updateUpToLevel mem (some a) L = some mem) ∧
    (0 ≤ L → L < nd.zeroLevel → nd.zeroLevel ≤ 32 →
      ∃ nd1, updateUpToLevel mem (some a) L = some (mem.set a nd1) ∧
        nd1.zeroLevel = L ∧
        (∀ l, L ≤ l → l < nd.zeroLevel →
          idx nd1.next l = idx nd.next nd.zeroLevel ∧ idx nd1.hits l = some 0) ∧
        (∀ l, nd.zeroLevel ≤ l ∨ l < L →
          idx nd1.next l = idx nd.next l ∧ idx nd1.hits l = idx nd.hits l) ∧
        nd1.topLevel = nd.topLevel ∧ nd1.selfhits = nd.selfhits ∧ nd1.key = nd.key ∧
        nd1.value = nd.value ∧ nd1.deleted = nd.deleted ∧
        updateUpToLevel (mem.set a nd1) (some a) L = some (mem.set a nd1)) := by
  refine ⟨updateUpToLevel_noop hnd, ?_⟩
  intro hL hlt hz
  obtain ⟨nd1, h1, h2, h3, h4, h5, h6, h7, _, _, h10, h11⟩ :=
    syncNode_spec L hL 40 nd hn hh hz (by omega)
  have ha : a < mem.length := by
    rcases Nat.lt_or_ge a mem.length with h | h
    · exact h
    · rw [List.getElem?_eq_none h] at hnd; cases hnd
  refine ⟨nd1, ?_, ?_, ?_, ?_, h3, h4, h5, h6, h7, ?_⟩
  · unfold updateUpToLevel
    simp only [hnd, h1]
  · rw [h2]; omega
  · intro l hl1 hl2
    rw [h10 l, h11 l, if_pos ⟨hl1, hl2⟩, if_pos ⟨hl1, hl2⟩]
    exact ⟨rfl, rfl⟩
  · intro l hl
    rw [h10 l, h11 l, if_neg (by omega), if_neg (by omega)]
    exact ⟨rfl, rfl⟩
  · have hget : (mem.set a nd1)[a]? = some nd1 := List.getElem?_set_self ha
    have := updateUpToLevel_noop hget (L := L) (by rw [h2]; omega)
    exact this

/-- A witness for `updateUpToLevel_sync`: a node with baseline 3, whose `next[3]` is the node
0 and whose hit counters are all 7, synchronised to level 1. -/
theorem updateUpToLevel_sync_witness :
    ((0 : Int) ≤ 1 ∧ (1 : Int) < 3 ∧ (3 : Int) ≤ 32) ∧
    ∃ nd1,
      updateUpToLevel
        [({ key := 5, value := 0, zeroLevel := 3, topLevel := 4, selfhits := 1,
            next := List.replicate 3 none ++ some 0 :: List.replicate 29 none,
            hits := List.replicate 33 7, deleted := false } : SplayNode)]
        (some 0) 1
        = some (List.set
        [({ key := 5, value := 0, zeroLevel := 3, topLevel := 4, selfhits := 1,
            next := List.replicate 3 none ++ some 0 :: List.replicate 29 none,
            hits := List.replicate 33 7, deleted := false } : SplayNode)]
        0 nd1) ∧
      nd1.zeroLevel = 1 ∧
      (∀ l, 1 ≤ l → l < 3 → idx nd1.next l = some (some 0) ∧ idx nd1.hits l = some 0) ∧
      nd1.topLevel = 4 ∧ nd1.selfhits = 1 ∧ nd1.key = 5 ∧ nd1.value = 0 ∧
      nd1.deleted = false :=
  ⟨by decide,
    match (updateUpToLevel_sync
        [({ key := 5, value := 0, zeroLevel := 3, topLevel := 4, selfhits := 1,
            next := List.replicate 3 none ++ some 0 :: List.replicate 29 none,
            hits := List.replicate 33 7, deleted := false } : SplayNode)]
        0
        ({ key := 5, value := 0, zeroLevel := 3, topLevel := 4, selfhits := 1,
            next := List.replicate 3 none ++ some 0 :: List.replicate 29 none,
            hits := List.replicate 33 7, deleted := false } : SplayNode)
        1 rfl rfl rfl).2 (by decide) (by decide) (by decide) with
    | ⟨nd1, h1, h2, h3, _, h5, h6, h7, h8, h9, _⟩ =>
      ⟨nd1, h1, h2, fun l g1 g2 => h3 l g1 g2, h5, h6, h7, h8, h9⟩⟩

end Skiplist

namespace Skiplist

/-! ## The level fields of a `SplayList` -/

theorem levelsOf_length (mem : List SplayNode) : (levelsOf mem).length = mem.length := by
  simp [levelsOf]

theorem levelsOf_get (mem : List SplayNode) (a : Nat) :
    (levelsOf mem)[a]? = (mem[a]?).map
      (fun nd => (nd.zeroLevel, nd.topLevel, nd.next.length, nd.hits.length)) := by
  simp [levelsOf]

theorem levelsOf_set (mem : List SplayNode) (a : Nat) (nd : SplayNode) :
    levelsOf (mem.set a nd)
      = (levelsOf mem).set a (nd.zeroLevel, nd.topLevel, nd.next.length, nd.hits.length) := by
  simp [levelsOf, List.map_set]

/-- Replacing a node by one with the same level fields does not change `levelsOf`. -/
theorem levelsOf_set_same {mem : List SplayNode} {a : Nat} {nd : SplayNode}
    (nd1 : SplayNode) (hnd : mem[a]? = some nd) (hz : nd1.zeroLevel = nd.zeroLevel)
    (ht : nd1.topLevel = nd.topLevel) (hn : nd1.next.length = nd.next.length)
    (hh : nd1.hits.length = nd.hits.length) : levelsOf (mem.set a nd1) = levelsOf mem := by
  rw [levelsOf_set, hz, ht, hn, hh]
  apply set_same
  rw [levelsOf_get, hnd]
  rfl

theorem LevelsOK.lower {lv : List (Int × Int × Nat × Nat)} {zero zero1 : Int} {head : Nat}
    (h : LevelsOK lv zero head) (hz : zero1 ≤ zero) : LevelsOK lv zero1 head := by
  refine ⟨h.1, ?_⟩
  intro a e he
  obtain ⟨h1, h2, h3, h4⟩ := h.2 a e he
  exact ⟨h1, h2, h3, fun hne => ⟨le_trans hz (h4 hne).1, (h4 hne).2⟩⟩

theorem LevelsOK.set {lv : List (Int × Int × Nat × Nat)} {zero : Int} {head : Nat}
    (h : LevelsOK lv zero head) (a : Nat) (e1 : Int × Int × Nat × Nat)
    (h1 : e1.2.2.1 = 33 ∧ e1.2.2.2 = 33 ∧ (a = head → e1.2.1 = 32) ∧
      (a ≠ head → zero ≤ e1.1 ∧ e1.1 ≤ e1.2.1 ∧ e1.2.1 ≤ 31)) :
    LevelsOK (lv.set a e1) zero head := by
  refine ⟨by rw [List.length_set]; exact h.1, ?_⟩
  intro b e he
  by_cases hb : a = b
  · subst hb
    by_cases hlt : a < lv.length
    · rw [List.getElem?_set_self hlt] at he
      cases he
      exact h1
    · rw [List.getElem?_eq_none (by simp; omega)] at he
      cases he
  · rw [List.getElem?_set_ne hb] at he
    exact h.2 b e he

theorem setHits_levels {mem mem1 : List SplayNode} {a : Nat} {l v : Int}
    (h : setHits mem a l v = some mem1) : levelsOf mem1 = levelsOf mem := by
  unfold setHits at h
  split at h
  · cases h
  · rename_i nd hnd
    split at h
    · cases h
    · rename_i hits1 hs
      cases h
      exact levelsOf_set_same _ hnd rfl rfl rfl (setIdx_length hs)

theorem bumpHits_levels {mem mem1 : List SplayNode} {a : Nat} {l : Int}
    (h : bumpHits mem a l = some mem1) : levelsOf mem1 = levelsOf mem := by
  unfold bumpHits at h
  split at h
  · cases h
  · rename_i nd hnd
    split at h
    · cases h
    · split at h
      · cases h
      · rename_i hits1 hs
        cases h
        exact levelsOf_set_same _ hnd rfl rfl rfl (setIdx_length hs)

theorem sSetNext_levels {mem mem1 : List SplayNode} {a : Nat} {l : Int} {p : Ptr}
    (h : sSetNext mem a l p = some mem1) : levelsOf mem1 = levelsOf mem := by
  unfold sSetNext at h
  split at h
  · cases h
  · rename_i nd hnd
    split at h
    · cases h
    · rename_i next1 hs
      cases h
      exact levelsOf_set_same _ hnd rfl rfl (setIdx_length hs) rfl

theorem syncNode_levels (L : Int) : ∀ (fuel : Nat) (nd nd1 : SplayNode),
    syncNode L fuel nd = some nd1 → nd.next.length = 33 → nd.hits.length = 33 →
    nd1.topLevel = nd.topLevel ∧ nd1.next.length = 33 ∧ nd1.hits.length = 33 ∧
      nd1.zeroLevel = min nd.zeroLevel L
  | 0, _, _, h, _, _ => by cases h
  | fuel + 1, nd, nd1, h, hn, hh => by
    unfold syncNode at h
    split at h
    · rename_i hgt
      split at h
      · cases h
      · rename_i hits1 hs1
        split at h
        · cases h
        · split at h
          · cases h
          · rename_i next1 hs2
            have hr : 0 ≤ nd.zeroLevel - 1 ∧ nd.zeroLevel - 1 < 33 := by
              unfold setIdx at hs1
              split at hs1
              · cases hs1
              · rw [hh] at *
                omega
            rw [wrap32_of_range (x := nd.zeroLevel - 1) (by omega) (by omega)] at h
            obtain ⟨h1, h2, h3, h4⟩ := syncNode_levels L fuel _ nd1 h
              (by rw [setIdx_length hs2, hn]) (by rw [setIdx_length hs1, hh])
            refine ⟨h1, h2, h3, ?_⟩
            rw [h4]
            simp only
            omega
    · rename_i hle
      cases h
      refine ⟨rfl, hn, hh, ?_⟩
      omega

/-- What `updateUpToLevel` does to the level fields: the node it is called on gets
`zeroLevel = min zeroLevel L`, nothing else changes. -/
theorem updateUpToLevel_levels {mem mem1 : List SplayNode} {p : Ptr} {L : Int}
    (h : updateUpToLevel mem p L = some mem1)
    (hlen : ∀ (b : Nat) (e : Int × Int × Nat × Nat), (levelsOf mem)[b]? = some e →
      e.2.2.1 = 33 ∧ e.2.2.2 = 33) :
    (levelsOf mem1).length = (levelsOf mem).length ∧
    ∀ b e, (levelsOf mem)[b]? = some e →
      ∃ z1, (levelsOf mem1)[b]? = some (z1, e.2) ∧ z1 ≤ e.1 ∧ min e.1 L ≤ z1 ∧
        (p = some b → z1 ≤ L) := by
  cases p with
  | none =>
    simp only [updateUpToLevel] at h
    cases h
    exact ⟨rfl, fun b e he => ⟨e.1, he, le_refl _, min_le_left _ _, fun hc => by cases hc⟩⟩
  | some a =>
    simp only [updateUpToLevel] at h
    split at h
    · cases h
    · rename_i nd hnd
      split at h
      · cases h
      · rename_i nd1 hs
        cases h
        have hl := hlen a (nd.zeroLevel, nd.topLevel, nd.next.length, nd.hits.length)
          (by rw [levelsOf_get, hnd]; rfl)
        obtain ⟨h1, h2, h3, h4⟩ := syncNode_levels L 40 nd nd1 hs hl.1 hl.2
        refine ⟨by simp [levelsOf], ?_⟩
        intro b e he
        rw [levelsOf_set]
        by_cases hb : a = b
        · subst hb
          rw [levelsOf_get, hnd] at he
          cases he
          have hlt : a < (levelsOf mem).length := by
            rw [levelsOf_length]
            rcases Nat.lt_or_ge a mem.length with h5 | h5
            · exact h5
            · rw [List.getElem?_eq_none h5] at hnd; cases hnd
          rw [List.getElem?_set_self hlt]
          refine ⟨nd1.zeroLevel, ?_, ?_, ?_, ?_⟩
          · have hl1 : nd.next.length = 33 := hl.1
            have hl2 : nd.hits.length = 33 := hl.2
            rw [h1, h2, h3]
            show some (nd1.zeroLevel, nd.topLevel, 33, 33)
              = some (nd1.zeroLevel, nd.topLevel, nd.next.length, nd.hits.length)
            rw [hl1, hl2]
          · rw [h4]; exact min_le_left _ _
          · rw [h4]
          · intro _; rw [h4]; exact min_le_right _ _
        · rw [List.getElem?_set_ne hb]
          exact ⟨e.1, he, le_refl _, min_le_left _ _, fun hc => by cases hc; exact absurd rfl hb⟩

theorem LevelsOK.lens {lv : List (Int × Int × Nat × Nat)} {zero : Int} {head : Nat}
    (h : LevelsOK lv zero head) :
    ∀ (b : Nat) (e : Int × Int × Nat × Nat), lv[b]? = some e → e.2.2.1 = 33 ∧ e.2.2.2 = 33 :=
  fun b e he => ⟨(h.2 b e he).1, (h.2 b e he).2.1⟩

theorem getElem?_of_length_eq {α β : Type} {xs : List α} {ys : List β}
    (hl : xs.length = ys.length) {a : Nat} {x : α} (hx : xs[a]? = some x) :
    ∃ y, ys[a]? = some y := by
  have hlt : a < ys.length := by
    rw [← hl]
    rcases Nat.lt_or_ge a xs.length with h5 | h5
    · exact h5
    · rw [List.getElem?_eq_none h5] at hx; cases hx
  exact ⟨ys[a], List.getElem?_eq_getElem hlt⟩

/-- Synchronising a node to a level at or above the shared baseline keeps the level fields
in range. -/
theorem LevelsOK.sync {mem mem1 : List SplayNode} {p : Ptr} {L zero : Int} {head : Nat}
    (hok : LevelsOK (levelsOf mem) zero head) (h : updateUpToLevel mem p L = some mem1)
    (hz : zero ≤ L) : LevelsOK (levelsOf mem1) zero head := by
  obtain ⟨hl, hf⟩ := updateUpToLevel_levels h hok.lens
  refine ⟨by rw [hl]; exact hok.1, ?_⟩
  intro a e1 he1
  obtain ⟨e, he⟩ := getElem?_of_length_eq hl he1
  obtain ⟨z1, h1, h2, h3, _⟩ := hf a e he
  rw [h1] at he1
  cases he1
  obtain ⟨g1, g2, g3, g4⟩ := hok.2 a e he
  refine ⟨g1, g2, g3, fun hne => ?_⟩
  obtain ⟨g5, g6, g7⟩ := g4 hne
  refine ⟨?_, ?_, g7⟩
  · exact le_trans (le_min g5 hz) h3
  · exact le_trans h2 g6

end Skiplist

namespace Skiplist

theorem findWalk_levels {key : K} {level zero : Int} {head : Nat} (hz : zero ≤ level) :
    ∀ (fuel : Nat) (mem : List SplayNode) (pred succ : Nat) (r : List SplayNode × Nat × Ptr),
      findWalk key level fuel mem pred succ = some r →
      LevelsOK (levelsOf mem) zero head → LevelsOK (levelsOf r.1) zero head
  | 0, _, _, _, _, h, _ => by cases h
  | fuel + 1, mem, pred, succ, r, h, hok => by
    unfold findWalk at h
    split at h
    · cases h
    · split at h
      · split at h
        · cases h
        · cases h; exact hok
        · split at h
          · cases h
          · rename_i mem1 hu
            exact findWalk_levels hz fuel _ _ _ r h (hok.sync hu hz)
      · cases h; exact hok

theorem findLevel_levels {key : K} {level zero : Int} {head : Nat} (hz : zero ≤ level)
    {mem : List SplayNode} {pred : Nat} {r : List SplayNode × Nat × Ptr}
    (h : findLevel key level mem pred = some r) (hok : LevelsOK (levelsOf mem) zero head) :
    LevelsOK (levelsOf r.1) zero head := by
  unfold findLevel at h
  split at h
  · cases h
  · rename_i mem1 hu1
    have hok1 := hok.sync hu1 hz
    split at h
    · cases h
    · cases h; exact hok1
    · split at h
      · cases h
      · rename_i mem2 hu2
        have hok2 := hok1.sync hu2 hz
        split at h
        · cases h
        · rename_i mem3 pred1 hw
          cases h
          exact findWalk_levels hz _ _ _ _ _ hw hok2
        · rename_i mem3 pred1 s hw
          have hok3 := findWalk_levels hz _ _ _ _ _ hw hok2
          split at h
          · cases h
          · split at h <;> (cases h; exact hok3)

theorem findLevels_levels {key : K} {zero : Int} {head : Nat} :
    ∀ (lv : Nat) (mem : List SplayNode) (pred : Nat) (r : List SplayNode × Ptr),
      findLevels key zero lv mem pred = some r →
      LevelsOK (levelsOf mem) zero head → LevelsOK (levelsOf r.1) zero head
  | 0, mem, pred, r, h, hok => by
    unfold findLevels at h
    split at h
    · rename_i hge
      split at h
      · cases h
      · rename_i mem1 _ s hl
        cases h
        exact findLevel_levels (by omega) hl hok
      · rename_i mem1 _ hl
        split at h
        · cases h
        · cases h
          exact findLevel_levels (by omega) hl hok
    · cases h; exact hok
  | lv + 1, mem, pred, r, h, hok => by
    unfold findLevels at h
    split at h
    · rename_i hge
      split at h
      · cases h
      · rename_i mem1 _ s hl
        cases h
        exact findLevel_levels (by omega) hl hok
      · rename_i mem1 pred1 hl
        exact findLevels_levels lv _ _ r h (findLevel_levels (by omega) hl hok)
    · cases h; exact hok

/-- The level invariant of a list: baseline in `0..31` and the node fields in range. -/
theorem find_levels {list list1 : SplayList} {key : K} {r : Ptr}
    (h : list.find key = some (list1, r))
    (hok : LevelsOK (levelsOf list.mem) list.zeroLevel list.head) :
    LevelsOK (levelsOf list1.mem) list1.zeroLevel list1.head ∧
      list1.zeroLevel = list.zeroLevel ∧ list1.head = list.head ∧ list1.m = list.m := by
  unfold SplayList.find at h
  split at h
  · cases h
  · rename_i mem1 r1 hl
    cases h
    exact ⟨findLevels_levels _ _ _ _ hl hok, rfl, rfl, rfl⟩

theorem insertWalk_levels {key : K} {level zero : Int} {head : Nat} (hz : zero ≤ level) :
    ∀ (fuel : Nat) (mem : List SplayNode) (pred : Nat) (curr : Ptr)
      (r : List SplayNode × Nat × Ptr),
      insertWalk key level fuel mem pred curr = some r →
      LevelsOK (levelsOf mem) zero head → LevelsOK (levelsOf r.1) zero head
  | 0, _, _, _, _, h, _ => by cases h
  | fuel + 1, mem, pred, none, r, h, hok => by
    unfold insertWalk at h
    cases h; exact hok
  | fuel + 1, mem, pred, some curr, r, h, hok => by
    unfold insertWalk at h
    split at h
    · cases h
    · split at h
      · split at h
        · cases h
        · split at h
          · cases h
          · rename_i mem1 hu
            exact insertWalk_levels hz fuel _ _ _ r h (hok.sync hu hz)
      · cases h; exact hok

theorem insertLevel_levels {key : K} {nw : Nat} {level h zero : Int} {head : Nat}
    (hz : zero ≤ h) {mem : List SplayNode} {pred : Nat} {r : List SplayNode × Nat}
    (hr : insertLevel key nw level h mem pred = some r)
    (hok : LevelsOK (levelsOf mem) zero head) : LevelsOK (levelsOf r.1) zero head := by
  unfold insertLevel at hr
  split at hr
  · cases hr
  · rename_i mem1 hu1
    have hok1 := hok.sync hu1 hz
    split at hr
    · cases hr
    · split at hr
      · cases hr
      · rename_i mem2 pred1 curr1 hw
        have hok2 := insertWalk_levels hz _ _ _ _ _ hw hok1
        split at hr
        · split at hr
          · cases hr
          · rename_i mem3 hs1
            split at hr
            · cases hr
            · rename_i mem4 hs2
              cases hr
              show LevelsOK (levelsOf mem4) zero head
              rw [sSetNext_levels hs2, sSetNext_levels hs1]
              exact hok2
        · cases hr
          exact hok2

theorem insertLevels_levels {key : K} {nw : Nat} {level zero : Int} {head : Nat} :
    ∀ (lv : Nat) (mem : List SplayNode) (pred : Nat) (r : List SplayNode),
      insertLevels key nw level zero lv mem pred = some r →
      LevelsOK (levelsOf mem) zero head → LevelsOK (levelsOf r) zero head
  | 0, mem, pred, r, h, hok => by
    unfold insertLevels at h
    split at h
    · split at h
      · cases h
      · rename_i mem1 _ hl
        split at h
        · cases h
        · cases h
          exact insertLevel_levels (by omega) hl hok
    · cases h; exact hok
  | lv + 1, mem, pred, r, h, hok => by
    unfold insertLevels at h
    split at h
    · split at h
      · cases h
      · rename_i mem1 pred1 hl
        exact insertLevels_levels lv _ _ r h (insertLevel_levels (by omega) hl hok)
    · cases h; exact hok

theorem levelsOf_append (mem : List SplayNode) (nd : SplayNode) :
    levelsOf (mem ++ [nd])
      = levelsOf mem ++ [(nd.zeroLevel, nd.topLevel, nd.next.length, nd.hits.length)] := by
  simp [levelsOf]

theorem LevelsOK.append {lv : List (Int × Int × Nat × Nat)} {zero : Int} {head : Nat}
    (h : LevelsOK lv zero head) (e1 : Int × Int × Nat × Nat)
    (h1 : e1.2.2.1 = 33 ∧ e1.2.2.2 = 33 ∧ zero ≤ e1.1 ∧ e1.1 ≤ e1.2.1 ∧ e1.2.1 ≤ 31) :
    LevelsOK (lv ++ [e1]) zero head := by
  have hh := h.1
  refine ⟨by rw [List.length_append]; omega, ?_⟩
  intro b e he
  rcases Nat.lt_or_ge b lv.length with hb | hb
  · rw [List.getElem?_append_left hb] at he
    exact h.2 b e he
  · rw [List.getElem?_append_right hb] at he
    have hb0 : b - lv.length = 0 := by
      rcases Nat.eq_zero_or_pos (b - lv.length) with h0 | h0
      · exact h0
      · rw [List.getElem?_eq_none (by simp; omega)] at he
        cases he
    rw [hb0] at he
    cases he
    exact ⟨h1.1, h1.2.1, fun hc => by omega, fun _ => h1.2.2⟩

theorem insertNewNode_levels {list list1 : SplayList} {key : K} {value : V}
    (h : list.insertNewNode key value = some list1)
    (hok : LevelsOK (levelsOf list.mem) list.zeroLevel list.head)
    (hz : list.zeroLevel ≤ 31) :
    LevelsOK (levelsOf list1.mem) list1.zeroLevel list1.head ∧
      list1.zeroLevel = list.zeroLevel ∧ list1.head = list.head ∧ list1.m = list.m := by
  unfold SplayList.insertNewNode at h
  simp only at h
  split at h
  · cases h
  · rename_i mem2 hl
    cases h
    refine ⟨?_, rfl, rfl, rfl⟩
    refine insertLevels_levels _ _ _ _ hl ?_
    rw [levelsOf_append]
    exact hok.append _ ⟨by simp, by simp, le_refl _, le_refl _, hz⟩

end Skiplist

namespace Skiplist

theorem getElem?_lt {α : Type} {xs : List α} {a : Nat} {x : α} (h : xs[a]? = some x) :
    a < xs.length := by
  rcases Nat.lt_or_ge a xs.length with h5 | h5
  · exact h5
  · rw [List.getElem?_eq_none h5] at h; cases h

/-- The ascent condition holds only for a node whose `topLevel + 1` stays below 32. -/
theorem ascentCond_true {mem : List SplayNode} {m : Int} {curr prepred : Nat}
    (h : ascentCond mem m curr prepred = some true) :
    ∃ c, mem[curr]? = some c ∧ wrap32 (c.topLevel + 1) < 32 := by
  unfold ascentCond at h
  split at h
  · rename_i c pp hc hpp
    split at h
    · rename_i hcond
      exact ⟨c, hc, hcond.1⟩
    · cases h
  · cases h

/-- The ascent step raises `topLevel` of `curr` by one and leaves the other level fields. -/
theorem ascentStep_levels {mem mem1 : List SplayNode} {curr prepred : Nat}
    (h : ascentStep mem curr prepred = some mem1) :
    ∃ c, mem[curr]? = some c ∧ levelsOf mem1 = (levelsOf mem).set curr
      (c.zeroLevel, wrap32 (c.topLevel + 1), c.next.length, c.hits.length) := by
  unfold ascentStep at h
  split at h
  · cases h
  · rename_i c hc
    simp only at h
    split at h
    · split at h
      · cases h
      · rename_i mem2 h2
        split at h
        · cases h
        · split at h
          · cases h
          · rename_i mem3 h3
            split at h
            · cases h
            · split at h
              · cases h
              · rename_i mem4 h4
                refine ⟨c, hc, ?_⟩
                rw [sSetNext_levels h, setHits_levels h4, sSetNext_levels h3, setHits_levels h2,
                  levelsOf_set]
    · cases h

theorem LevelsOK.ascent {mem mem1 : List SplayNode} {m zero : Int} {head curr prepred : Nat}
    (hok : LevelsOK (levelsOf mem) zero head) (h0 : 0 ≤ zero)
    (hc : ascentCond mem m curr prepred = some true)
    (hs : ascentStep mem curr prepred = some mem1) : LevelsOK (levelsOf mem1) zero head := by
  obtain ⟨c, hc1, hlt⟩ := ascentCond_true hc
  obtain ⟨c2, hc2, hl⟩ := ascentStep_levels hs
  rw [hc1] at hc2
  cases hc2
  rw [hl]
  have he : (levelsOf mem)[curr]? = some (c.zeroLevel, c.topLevel, c.next.length, c.hits.length) := by
    rw [levelsOf_get, hc1]; rfl
  obtain ⟨g1, g2, g3, g4⟩ := hok.2 curr _ he
  simp only at g1 g2 g3 g4
  have hne : curr ≠ head := by
    intro heq
    have := g3 heq
    rw [this] at hlt
    simp [wrap32] at hlt
  obtain ⟨g5, g6, g7⟩ := g4 hne
  have hw : wrap32 (c.topLevel + 1) = c.topLevel + 1 :=
    wrap32_of_range (by omega) (by omega)
  apply hok.set
  rw [hw] at hlt ⊢
  exact ⟨g1, g2, fun heq => absurd heq hne, fun _ => ⟨g5, by simp only; omega, by simp only; omega⟩⟩

theorem ascentLoop_levels {m zero : Int} {head curr prepred : Nat} (h0 : 0 ≤ zero) :
    ∀ (fuel : Nat) (mem mem1 : List SplayNode), ascentLoop m curr prepred fuel mem = some mem1 →
      LevelsOK (levelsOf mem) zero head → LevelsOK (levelsOf mem1) zero head
  | 0, _, _, h, _ => by cases h
  | fuel + 1, mem, mem1, h, hok => by
    unfold ascentLoop at h
    split at h
    · cases h
    · cases h; exact hok
    · rename_i hc
      split at h
      · cases h
      · rename_i mem2 hs
        exact ascentLoop_levels h0 fuel _ _ h (hok.ascent h0 hc hs)

/-- The descent condition holds only on the top level of `curr`, and only where the
threshold can be computed, which excludes level 0. -/
theorem descentCond_true {mem : List SplayNode} {m : Int} {key : K} {level : Int}
    {curr pred : Nat} (h : descentCond mem m key level curr pred = some true)
    (h0 : 0 ≤ level) : ∃ c, mem[curr]? = some c ∧ c.topLevel = level ∧ 1 ≤ level := by
  unfold descentCond at h
  split at h
  · cases h
  · rename_i c hc
    split at h
    · rename_i htop
      split at h
      · cases h
      · cases h
      · split at h
        · cases h
        · split at h
          · split at h
            · rename_i t _ _ ht
              refine ⟨c, hc, htop, ?_⟩
              by_contra hlt
              have hl0 : level = 0 := by omega
              rw [hl0, descentThreshold_zero] at ht
              cases ht
            · cases h
          · cases h
    · cases h

theorem descentStep_levels {mem mem1 : List SplayNode} {zero zero1 level : Int}
    {curr pred head : Nat} (h : descentStep mem zero level curr pred = some (mem1, zero1))
    (hok : LevelsOK (levelsOf mem) zero head) (h0 : 0 ≤ zero) (hz : zero ≤ level)
    (h1 : 1 ≤ level) (h31 : level ≤ 31) {c : SplayNode} (hc : mem[curr]? = some c)
    (htop : c.topLevel = level) :
    LevelsOK (levelsOf mem1) zero1 head ∧ 0 ≤ zero1 ∧ zero1 ≤ zero := by
  unfold descentStep at h
  simp only at h
  rw [wrap32_of_range (x := level - 1) (by omega) (by omega)] at h
  split at h
  · cases h
  · rename_i m1 hu1
    split at h
    · cases h
    · rename_i m2 hu2
      split at h
      · rename_i ph ch _ _
        split at h
        · cases h
        · rename_i m3 hs3
          split at h
          · cases h
          · rename_i m4 hs4
            split at h
            · cases h
            · rename_i q _
              split at h
              · cases h
              · rename_i m5 hs5
                split at h
                · cases h
                · rename_i m6 hs6
                  split at h
                  · cases h
                  · rename_i c6 hc6
                    cases h
                    have hzero1 : (if level = zero then wrap32 (zero - 1) else zero) ≤ level - 1
                        ∧ 0 ≤ (if level = zero then wrap32 (zero - 1) else zero)
                        ∧ (if level = zero then wrap32 (zero - 1) else zero) ≤ zero := by
                      by_cases he : level = zero
                      · rw [if_pos he, wrap32_of_range (by omega) (by omega)]
                        omega
                      · rw [if_neg he]
                        omega
                    refine ⟨?_, hzero1.2.1, hzero1.2.2⟩
                    have hokz := hok.lower hzero1.2.2
                    have hok1 := hokz.sync hu1 hzero1.1
                    have hok2 := hok1.sync hu2 hzero1.1
                    obtain ⟨_, hf1⟩ := updateUpToLevel_levels hu1 hokz.lens
                    obtain ⟨_, hf2⟩ := updateUpToLevel_levels hu2 hok1.lens
                    have he0 : (levelsOf mem)[curr]?
                        = some (c.zeroLevel, c.topLevel, c.next.length, c.hits.length) := by
                      rw [levelsOf_get, hc]; rfl
                    obtain ⟨z1, he1, _, _, hz1⟩ := hf1 curr _ he0
                    obtain ⟨z2, he2, hz2, _, _⟩ := hf2 curr _ he1
                    have hl6 : levelsOf m6 = levelsOf m2 := by
                      rw [sSetNext_levels hs6, sSetNext_levels hs5, setHits_levels hs4,
                        setHits_levels hs3]
                    have he6 : (levelsOf m6)[curr]?
                        = some (c6.zeroLevel, c6.topLevel, c6.next.length, c6.hits.length) := by
                      rw [levelsOf_get, hc6]; rfl
                    rw [hl6, he2] at he6
                    simp only [Option.some.injEq, Prod.mk.injEq] at he6
                    obtain ⟨e1, e2, e3, e4⟩ := he6
                    rw [levelsOf_set, hl6]
                    simp only
                    have hz1le := hz1 rfl
                    obtain ⟨g1, g2, g3, g4⟩ := hok2.2 curr _ he2
                    simp only at g1 g2 g3 g4
                    have hne : curr ≠ head := by
                      intro heq
                      have := g3 heq
                      omega
                    obtain ⟨g5, g6, g7⟩ := g4 hne
                    apply hok2.set
                    rw [← e1, ← e2, ← e3, ← e4, htop,
                      wrap32_of_range (x := level - 1) (by omega) (by omega)]
                    exact ⟨g1, g2, fun heq => absurd heq hne,
                      fun _ => ⟨g5, by simp only; omega, by simp only; omega⟩⟩
      · cases h

end Skiplist

namespace Skiplist

theorem updateWalk_levels {m : Int} {key : K} {level : Int} {head : Nat} (hl0 : 0 ≤ level)
    (hl31 : level ≤ 31) :
    ∀ (fuel : Nat) (mem : List SplayNode) (zero : Int) (pred prepred : Nat) (curr : Ptr)
      (r : List SplayNode × Int × Nat × Bool),
      updateWalk m key level fuel mem zero pred prepred curr = some r →
      LevelsOK (levelsOf mem) zero head → 0 ≤ zero → zero ≤ level →
      LevelsOK (levelsOf r.1) r.2.1 head ∧ 0 ≤ r.2.1 ∧ r.2.1 ≤ zero
  | 0, _, _, _, _, _, _, h, _, _, _ => by cases h
  | fuel + 1, mem, zero, pred, prepred, none, r, h, hok, h0, hz => by
    unfold updateWalk at h
    cases h
    exact ⟨hok, h0, le_refl _⟩
  | fuel + 1, mem, zero, pred, prepred, some curr, r, h, hok, h0, hz => by
    unfold updateWalk at h
    split at h
    · cases h
    · split at h
      · split at h
        · cases h
        · rename_i mem1 hu
          have hok1 := hok.sync hu hz
          split at h
          · cases h
          · split at h
            · cases h
            · split at h
              · split at h
                · cases h
                · rename_i c hc
                  cases h
                  refine ⟨?_, h0, le_refl _⟩
                  have hs := levelsOf_set_same
                    { c with selfhits := wrap32 (c.selfhits + 1) } hc rfl rfl rfl rfl
                  show LevelsOK (levelsOf (mem1.set curr _)) zero head
                  rw [hs]
                  exact hok1
              · split at h
                · cases h
                · rename_i mem2 hb
                  cases h
                  refine ⟨?_, h0, le_refl _⟩
                  show LevelsOK (levelsOf mem2) zero head
                  rw [bumpHits_levels hb]
                  exact hok1
            · split at h
              · cases h
              · rename_i hac
                split at h
                · cases h
                · rename_i mem2 hal
                  have hok2 := ascentLoop_levels h0 _ _ _ hal hok1
                  split at h
                  · cases h
                  · exact updateWalk_levels hl0 hl31 fuel _ _ _ _ _ r h hok2 h0 hz
              · split at h
                · cases h
                · rename_i hdc
                  obtain ⟨c, hc, htop, h1⟩ := descentCond_true hdc hl0
                  split at h
                  · cases h
                  · rename_i mem2 zero1 hds
                    obtain ⟨hok2, g1, g2⟩ := descentStep_levels hds hok1 h0 hz h1 hl31 hc htop
                    split at h
                    · cases h
                    · obtain ⟨r1, r2, r3⟩ := updateWalk_levels hl0 hl31 fuel _ _ _ _ _ r h hok2 g1
                        (le_trans g2 hz)
                      exact ⟨r1, r2, le_trans r3 g2⟩
                · split at h
                  · cases h
                  · exact updateWalk_levels hl0 hl31 fuel _ _ _ _ _ r h hok1 h0 hz
      · cases h
        exact ⟨hok, h0, le_refl _⟩

theorem updateLevel_levels {m : Int} {key : K} {level : Int} {head : Nat} (hl0 : 0 ≤ level)
    (hl31 : level ≤ 31) {mem : List SplayNode} {zero : Int} {pred : Nat}
    {r : List SplayNode × Int × Nat × Bool}
    (h : updateLevel m key level mem zero pred = some r)
    (hok : LevelsOK (levelsOf mem) zero head) (h0 : 0 ≤ zero) (hz : zero ≤ level) :
    LevelsOK (levelsOf r.1) r.2.1 head ∧ 0 ≤ r.2.1 ∧ r.2.1 ≤ zero := by
  unfold updateLevel at h
  split at h
  · cases h
  · rename_i mem1 hu1
    have hok1 := hok.sync hu1 hz
    split at h
    · cases h
    · split at h
      · cases h
      · rename_i mem2 hu2
        have hok2 := hok1.sync hu2 hz
        split at h
        · cases h
        · split at h
          · cases h
          · rename_i mem3 hb
            cases h
            refine ⟨?_, h0, le_refl _⟩
            show LevelsOK (levelsOf mem3) zero head
            rw [bumpHits_levels hb]
            exact hok2
        · exact updateWalk_levels hl0 hl31 _ _ _ _ _ _ r h hok2 h0 hz

theorem updateLevels_levels {m : Int} {key : K} {head : Nat} :
    ∀ (lv : Nat) (mem : List SplayNode) (zero : Int) (pred : Nat) (r : List SplayNode × Int),
      lv ≤ 31 → updateLevels m key lv mem zero pred = some r →
      LevelsOK (levelsOf mem) zero head → 0 ≤ zero → zero ≤ 31 →
      LevelsOK (levelsOf r.1) r.2 head ∧ 0 ≤ r.2 ∧ r.2 ≤ zero
  | 0, mem, zero, pred, r, hlv, h, hok, h0, h31 => by
    unfold updateLevels at h
    split at h
    · rename_i hge
      split at h
      · cases h
      · rename_i mem1 zero1 _ hl
        cases h
        exact updateLevel_levels (le_refl _) (by omega) hl hok h0 hge
      · rename_i mem1 zero1 _ hl
        split at h
        · cases h
        · cases h
          exact updateLevel_levels (le_refl _) (by omega) hl hok h0 hge
    · cases h
      exact ⟨hok, h0, le_refl _⟩
  | lv + 1, mem, zero, pred, r, hlv, h, hok, h0, h31 => by
    unfold updateLevels at h
    split at h
    · rename_i hge
      split at h
      · cases h
      · rename_i mem1 zero1 _ hl
        cases h
        exact updateLevel_levels (by omega) (by omega) hl hok h0 hge
      · rename_i mem1 zero1 pred1 hl
        obtain ⟨g1, g2, g3⟩ := updateLevel_levels (by omega) (by omega) hl hok h0 hge
        obtain ⟨r1, r2, r3⟩ := updateLevels_levels lv _ _ _ r (by omega) h g1 g2 (by simp only at g3; omega)
        exact ⟨r1, r2, le_trans r3 g3⟩
    · cases h
      exact ⟨hok, h0, le_refl _⟩

/-- The invariant of the level fields of a `SplayList`: the shared baseline is in `0..31`
and the node fields are in range for it. -/
theorem update_levels {list list1 : SplayList} {key : K} (h : list.update key = some list1)
    (hok : LevelsOK (levelsOf list.mem) list.zeroLevel list.head) (h0 : 0 ≤ list.zeroLevel)
    (h31 : list.zeroLevel ≤ 31) :
    LevelsOK (levelsOf list1.mem) list1.zeroLevel list1.head ∧ 0 ≤ list1.zeroLevel ∧
      list1.zeroLevel ≤ list.zeroLevel ∧ list1.head = list.head := by
  unfold SplayList.update at h
  simp only at h
  split at h
  · cases h
  · rename_i mem1 hb
    split at h
    · cases h
    · rename_i mem2 zero hl
      cases h
      have hok1 : LevelsOK (levelsOf mem1) list.zeroLevel list.head := by
        rw [bumpHits_levels hb]; exact hok
      obtain ⟨g1, g2, g3⟩ := updateLevels_levels 31 _ _ _ _ (le_refl _) hl hok1 h0 h31
      exact ⟨g1, g2, g3, rfl⟩

theorem tryUpdate_levels {list list1 : SplayList} {key : K}
    (h : list.tryUpdate key = some list1)
    (hok : LevelsOK (levelsOf list.mem) list.zeroLevel list.head) (h0 : 0 ≤ list.zeroLevel)
    (h31 : list.zeroLevel ≤ 31) :
    LevelsOK (levelsOf list1.mem) list1.zeroLevel list1.head ∧ 0 ≤ list1.zeroLevel ∧
      list1.zeroLevel ≤ list.zeroLevel ∧ list1.head = list.head := by
  unfold SplayList.tryUpdate at h
  simp only at h
  split at h
  · cases h
    exact ⟨hok, h0, le_refl _, rfl⟩
  · exact @update_levels { list with rand := list.rand.Float64.2 } list1 key h hok h0 h31

end Skiplist

namespace Skiplist

namespace SplayList

theorem NewSplayList_levelInv (p : ℚ) (draws : Nat → Nat) : (NewSplayList p draws).LevelInv := by
  refine ⟨⟨by simp [NewSplayList, levelsOf], ?_⟩, by simp [NewSplayList, MAX_LEVEL],
    by simp [NewSplayList, MAX_LEVEL]⟩
  intro a e he
  have ha : a = 0 := by
    have := getElem?_lt he
    simp [NewSplayList, levelsOf] at this
    exact this
  subst ha
  simp [NewSplayList, levelsOf, MAX_LEVEL] at he
  subst he
  simp [NewSplayList]

theorem find_levelInv {list list1 : SplayList} {key : K} {r : Ptr}
    (h : list.find key = some (list1, r)) (hi : list.LevelInv) :
    list1.LevelInv ∧ list1.zeroLevel = list.zeroLevel := by
  obtain ⟨h1, h2, _, _⟩ := find_levels h hi.1
  exact ⟨⟨h1, by rw [h2]; exact hi.2.1, by rw [h2]; exact hi.2.2⟩, h2⟩

theorem tryUpdate_levelInv {list list1 : SplayList} {key : K}
    (h : list.tryUpdate key = some list1) (hi : list.LevelInv) :
    list1.LevelInv ∧ list1.zeroLevel ≤ list.zeroLevel := by
  obtain ⟨h1, h2, h3, _⟩ := tryUpdate_levels h hi.1 hi.2.1 hi.2.2
  exact ⟨⟨h1, h2, le_trans h3 hi.2.2⟩, h3⟩

theorem update_levelInv {list list1 : SplayList} {key : K}
    (h : list.update key = some list1) (hi : list.LevelInv) :
    list1.LevelInv ∧ list1.zeroLevel ≤ list.zeroLevel := by
  obtain ⟨h1, h2, h3, _⟩ := update_levels h hi.1 hi.2.1 hi.2.2
  exact ⟨⟨h1, h2, le_trans h3 hi.2.2⟩, h3⟩

/-- Writing the payload fields of a node keeps the level invariant. -/
theorem LevelInv.setNode {list : SplayList} (hi : list.LevelInv) {a : Nat} {nd : SplayNode}
    (nd1 : SplayNode) (hnd : list.mem[a]? = some nd) (hz : nd1.zeroLevel = nd.zeroLevel)
    (ht : nd1.topLevel = nd.topLevel) (hn : nd1.next.length = nd.next.length)
    (hh : nd1.hits.length = nd.hits.length) (size : Int) :
    ({ list with mem := list.mem.set a nd1, size := size } : SplayList).LevelInv := by
  refine ⟨?_, hi.2.1, hi.2.2⟩
  show LevelsOK (levelsOf (list.mem.set a nd1)) list.zeroLevel list.head
  rw [levelsOf_set_same nd1 hnd hz ht hn hh]
  exact hi.1

theorem Put_levelInv {list list1 : SplayList} {key : K} {value : V}
    (h : list.Put key value = some list1) (hi : list.LevelInv) :
    list1.LevelInv ∧ list1.zeroLevel ≤ list.zeroLevel := by
  unfold Put at h
  split at h
  · cases h
  · rename_i l1 node hf
    obtain ⟨hi1, hz1⟩ := find_levelInv hf hi
    split at h
    · cases h
    · rename_i nd hnd
      simp only at h
      have hi2 := hi1.setNode { nd with deleted := false, value := value } hnd rfl rfl
        rfl rfl (if nd.deleted then wrap32 (l1.size + 1) else l1.size)
      obtain ⟨g1, g2⟩ := tryUpdate_levelInv h hi2
      exact ⟨g1, by rw [← hz1]; exact g2⟩
  · rename_i l1 hf
    obtain ⟨hi1, hz1⟩ := find_levelInv hf hi
    split at h
    · cases h
    · rename_i l2 hins
      obtain ⟨g1, g2, _, _⟩ := insertNewNode_levels hins hi1.1 hi1.2.2
      have hi2 : l2.LevelInv := ⟨g1, by rw [g2]; exact hi1.2.1, by rw [g2]; exact hi1.2.2⟩
      split at h
      · cases h
      · rename_i l3 hu
        obtain ⟨g3, g4⟩ := update_levelInv hu hi2
        cases h
        exact ⟨g3, by rw [← hz1, ← g2]; exact g4⟩

theorem Delete_levelInv {list list1 : SplayList} {key : K}
    (h : list.Delete key = some list1) (hi : list.LevelInv) :
    list1.LevelInv ∧ list1.zeroLevel ≤ list.zeroLevel := by
  unfold Delete at h
  split at h
  · cases h
  · rename_i l1 hf
    obtain ⟨hi1, hz1⟩ := find_levelInv hf hi
    cases h
    exact ⟨hi1, le_of_eq hz1⟩
  · rename_i l1 node hf
    obtain ⟨hi1, hz1⟩ := find_levelInv hf hi
    split at h
    · cases h
    · rename_i nd hnd
      simp only at h
      have hi2 := hi1.setNode { nd with deleted := true } hnd rfl rfl rfl rfl l1.size
      split at h
      · cases h
      · rename_i l3 hu
        obtain ⟨g1, g2⟩ := tryUpdate_levelInv hu hi2
        cases h
        exact ⟨g1, by rw [← hz1]; exact g2⟩

theorem Get_levelInv {list : SplayList} {key : K} {r : SplayList × V × Bool}
    (h : list.Get key = some r) (hi : list.LevelInv) :
    r.1.LevelInv ∧ r.1.zeroLevel ≤ list.zeroLevel := by
  unfold Get at h
  split at h
  · cases h
  · rename_i l1 hf
    obtain ⟨hi1, hz1⟩ := find_levelInv hf hi
    cases h
    exact ⟨hi1, le_of_eq hz1⟩
  · rename_i l1 node hf
    obtain ⟨hi1, hz1⟩ := find_levelInv hf hi
    split at h
    · cases h
    · rename_i l2 hu
      obtain ⟨g1, g2⟩ := tryUpdate_levelInv hu hi1
      split at h
      · cases h
      · split at h <;> (cases h; exact ⟨g1, by rw [← hz1]; exact g2⟩)

theorem Contains_levelInv {list : SplayList} {key : K} {r : SplayList × Bool}
    (h : list.Contains key = some r) (hi : list.LevelInv) :
    r.1.LevelInv ∧ r.1.zeroLevel ≤ list.zeroLevel := by
  unfold Contains at h
  split at h
  · cases h
  · rename_i l1 hf
    obtain ⟨hi1, hz1⟩ := find_levelInv hf hi
    cases h
    exact ⟨hi1, le_of_eq hz1⟩
  · rename_i l1 node hf
    obtain ⟨hi1, hz1⟩ := find_levelInv hf hi
    split at h
    · cases h
    · rename_i l2 hu
      obtain ⟨g1, g2⟩ := tryUpdate_levelInv hu hi1
      split at h
      · cases h
      · cases h; exact ⟨g1, by rw [← hz1]; exact g2⟩

theorem call_levelInv {sl : SplayList} {c : Call} {r : SplayList × Reply}
    (h : sl.call c = some r) (hi : sl.LevelInv) :
    r.1.LevelInv ∧ r.1.zeroLevel ≤ sl.zeroLevel := by
  cases c with
  | put k v =>
    simp only [call, Option.map_eq_some'] at h
    obtain ⟨s, hs, rfl⟩ := h
    exact Put_levelInv hs hi
  | get k =>
    simp only [call, Option.map_eq_some'] at h
    obtain ⟨s, hs, rfl⟩ := h
    exact Get_levelInv hs hi
  | contains k =>
    simp only [call, Option.map_eq_some'] at h
    obtain ⟨s, hs, rfl⟩ := h
    exact Contains_levelInv hs hi
  | delete k =>
    simp only [call, Option.map_eq_some'] at h
    obtain ⟨s, hs, rfl⟩ := h
    exact Delete_levelInv hs hi

theorem run_levelInv : ∀ (cs : List Call) {sl : SplayList} {r : SplayList × List Reply},
    sl.run cs = some r → sl.LevelInv → r.1.LevelInv ∧ r.1.zeroLevel ≤ sl.zeroLevel
  | [], sl, r, h, hi => by
    simp only [run] at h
    cases h
    exact ⟨hi, le_refl _⟩
  | c :: cs, sl, r, h, hi => by
    unfold run at h
    split at h
    · cases h
    · rename_i s r1 hc
      obtain ⟨g1, g2⟩ := call_levelInv hc hi
      split at h
      · cases h
      · rename_i s1 rs hr
        cases h
        obtain ⟨g3, g4⟩ := run_levelInv cs hr g1
        exact ⟨g3, le_trans g4 g2⟩

theorem updateAllFrom_levels {zero : Int} {head : Nat} :
    ∀ (fuel : Nat) (mem : List SplayNode) (p : Ptr) (mem1 : List SplayNode),
      updateAllFrom zero fuel mem p = some mem1 →
      LevelsOK (levelsOf mem) zero head → LevelsOK (levelsOf mem1) zero head
  | 0, _, _, _, h, _ => by cases h
  | fuel + 1, mem, none, mem1, h, hok => by
    unfold updateAllFrom at h
    cases h; exact hok
  | fuel + 1, mem, some a, mem1, h, hok => by
    unfold updateAllFrom at h
    split at h
    · cases h
    · rename_i m1 hu
      split at h
      · cases h
      · exact updateAllFrom_levels fuel _ _ _ h (hok.sync hu (le_refl _))

theorem UpdateAllLvl_levelInv {sl sl1 : SplayList} (h : sl.UpdateAllLvl = some sl1)
    (hi : sl.LevelInv) : sl1.LevelInv ∧ sl1.zeroLevel = sl.zeroLevel := by
  unfold UpdateAllLvl at h
  split at h
  · cases h
  · rename_i mem1 hu
    cases h
    exact ⟨⟨updateAllFrom_levels _ _ _ _ hu hi.1, hi.2.1, hi.2.2⟩, rfl⟩

end SplayList

end Skiplist

namespace Skiplist

/-- C27: in every state a `SplayList` reaches from `NewSplayList` by calls of `Put`, `Get`,
`Contains` and `Delete` that return, and in the state `UpdateAllLvl` (run by `GetHead` and
`GetMaxStats`) leaves from there, every node other than the head has
`list.zeroLevel <= zeroLevel <= topLevel <= 31`. -/
theorem splay_node_levels (p : ℚ) (draws : Nat → Nat) (calls : List Call) (sl : SplayList)
    (rs : List Reply) (h : (NewSplayList p draws).run calls = some (sl, rs)) :
    (∀ a nd, sl.mem[a]? = some nd → a ≠ sl.head →
      sl.zeroLevel ≤ nd.zeroLevel ∧ nd.zeroLevel ≤ nd.topLevel ∧ nd.topLevel ≤ 31) ∧
    (∀ sl1, sl.UpdateAllLvl = some sl1 → ∀ a nd, sl1.mem[a]? = some nd → a ≠ sl1.head →
      sl1.zeroLevel ≤ nd.zeroLevel ∧ nd.zeroLevel ≤ nd.topLevel ∧ nd.topLevel ≤ 31) := by
  obtain ⟨hi, _⟩ := SplayList.run_levelInv calls h (SplayList.NewSplayList_levelInv p draws)
  have key : ∀ s : SplayList, s.LevelInv → ∀ a nd, s.mem[a]? = some nd → a ≠ s.head →
      s.zeroLevel ≤ nd.zeroLevel ∧ nd.zeroLevel ≤ nd.topLevel ∧ nd.topLevel ≤ 31 := by
    intro s hs a nd hnd hne
    have he : (levelsOf s.mem)[a]?
        = some (nd.zeroLevel, nd.topLevel, nd.next.length, nd.hits.length) := by
      rw [levelsOf_get, hnd]; rfl
    exact (hs.1.2 a _ he).2.2.2 hne
  refine ⟨key sl hi, ?_⟩
  intro sl1 h1
  exact key sl1 (SplayList.UpdateAllLvl_levelInv h1 hi).1

/-- A witness for `splay_node_levels`: four insertions, the last of which lowers the shared
baseline to 30. -/
theorem splay_node_levels_witness :
    ∃ sl rs, (NewSplayList 1 (fun _ => 0)).run
        [Call.put 1 1, Call.put 2 1, Call.put 3 1, Call.put 4 1] = some (sl, rs) ∧
      sl.zeroLevel = 30 ∧
      ((∀ a nd, sl.mem[a]? = some nd → a ≠ sl.head →
        sl.zeroLevel ≤ nd.zeroLevel ∧ nd.zeroLevel ≤ nd.topLevel ∧ nd.topLevel ≤ 31) ∧
      (∀ sl1, sl.UpdateAllLvl = some sl1 → ∀ a nd, sl1.mem[a]? = some nd → a ≠ sl1.head →
        sl1.zeroLevel ≤ nd.zeroLevel ∧ nd.zeroLevel ≤ nd.topLevel ∧ nd.topLevel ≤ 31)) :=
  ⟨_, _, by with_unfolding_all rfl, by with_unfolding_all rfl,
    splay_node_levels 1 (fun _ => 0) [Call.put 1 1, Call.put 2 1, Call.put 3 1, Call.put 4 1]
      _ _ (by with_unfolding_all rfl)⟩

end Skiplist

namespace Skiplist

/-- C22: after `Put(0, 1)` and `Put(1, 1)` on `NewSplayList(1)`, `AnalyzeStep` with the
distribution `0 -> 1/2, 1 -> 1/2` returns the score 5/3, while `FindStep` reports 2 steps
for key 0 and 3 for key 1, whose weighted average is 5/2: the head, whose key is 0 and
whose level equals the level `GetMaxStats` reports, is counted as a first arrival at key 0
with 0 steps, so the probability of key 0 enters the sums twice. -/
theorem splay_analyzeStep_head_counted :
    ∃ sl rs, (NewSplayList 1 (fun _ => 0)).run [Call.put 0 1, Call.put 1 1] = some (sl, rs) ∧
      (∃ sm s1, AnalyzeStep SplayList.analyable sl [(0, 1 / 2), (1, 1 / 2)]
        = some (((5 : ℚ) / 3, sm), s1)) ∧
      (∃ lv s1, FindStep SplayList.analyable sl 0 = some ((2, lv), s1)) ∧
      (∃ lv s1, FindStep SplayList.analyable sl 1 = some ((3, lv), s1)) ∧
      ((1 : ℚ) / 2 * 2 + 1 / 2 * 3) / (1 / 2 + 1 / 2) = 5 / 2 :=
  ⟨_, _, by with_unfolding_all rfl, ⟨_, _, by with_unfolding_all rfl⟩,
    ⟨_, _, by with_unfolding_all rfl⟩, ⟨_, _, by with_unfolding_all rfl⟩, by norm_num⟩

end Skiplist

namespace Skiplist

/-! ## The search path on a good heap -/

theorem searchCost_eq (mem : List Node) (key : K) (lv : Nat) (rest : List Nat) :
    searchCost mem key lv rest = levelCost mem key lv (downCost mem key lv) rest rest := by
  cases lv with
  | zero => rfl
  | succ n => rfl

theorem levelCost_skip (mem : List Node) (key : K) (lv : Nat) (down : List Nat → Int) :
    ∀ (pre r cur : List Nat), (∀ a ∈ pre, lenAt mem a ≤ lv) →
      levelCost mem key lv down (pre ++ r) cur = levelCost mem key lv down r cur
  | [], _, _, _ => rfl
  | a :: pre, r, cur, h => by
    show levelCost mem key lv down (a :: (pre ++ r)) cur = _
    rw [levelCost, if_pos (h a (List.mem_cons_self _ _))]
    exact levelCost_skip mem key lv down pre r cur (fun b hb => h b (List.mem_cons_of_mem _ hb))

/-- The search on a level whose first node in `rest` is `n`. -/
theorem searchCost_step (mem : List Node) (key : K) (lv : Nat) {pre : List Nat} {n : Nat}
    {post : List Nat} (hpre : ∀ a ∈ pre, lenAt mem a ≤ lv) (hn : lv < lenAt mem n) :
    searchCost mem key lv (pre ++ n :: post)
      = if keyAt mem n < key then 1 + searchCost mem key lv post
        else if keyAt mem n = key then 1
        else downCost mem key lv (pre ++ n :: post) := by
  rw [searchCost_eq, levelCost_skip mem key lv _ pre _ _ hpre, levelCost,
    if_neg (by omega), ← searchCost_eq]

/-- The search on a level that has no node in `rest`. -/
theorem searchCost_none (mem : List Node) (key : K) (lv : Nat) {rest : List Nat}
    (h : ∀ a ∈ rest, lenAt mem a ≤ lv) :
    searchCost mem key lv rest = downCost mem key lv rest := by
  rw [searchCost_eq]
  have := levelCost_skip mem key lv (downCost mem key lv) rest [] rest h
  rw [List.append_nil] at this
  rw [this]
  rfl

/-- The first node of `rest` on level `lv`, with the nodes before it. -/
theorem atLevel_head_split (mem : List Node) (lv : Nat) :
    ∀ (rest : List Nat),
      ((atLevel mem lv rest).head? = none ∧ ∀ a ∈ rest, lenAt mem a ≤ lv) ∨
      ∃ pre n post, rest = pre ++ n :: post ∧ (∀ a ∈ pre, lenAt mem a ≤ lv) ∧
        lv < lenAt mem n ∧ (atLevel mem lv rest).head? = some n
  | [] => Or.inl ⟨rfl, fun a ha => by cases ha⟩
  | b :: rest => by
    by_cases hb : lv < lenAt mem b
    · right
      refine ⟨[], b, rest, rfl, (fun a ha => by cases ha), hb, ?_⟩
      simp [atLevel, List.filter_cons, hb]
    · have hf : atLevel mem lv (b :: rest) = atLevel mem lv rest := by
        simp [atLevel, List.filter_cons, hb]
      rcases atLevel_head_split mem lv rest with ⟨h1, h2⟩ | ⟨pre, n, post, h1, h2, h3, h4⟩
      · left
        refine ⟨by rw [hf]; exact h1, ?_⟩
        intro a ha
        rcases List.mem_cons.1 ha with h5 | h5
        · rw [h5]; omega
        · exact h2 a h5
      · right
        refine ⟨b :: pre, n, post, by rw [h1]; rfl, ?_, h3, by rw [hf]; exact h4⟩
        intro a ha
        rcases List.mem_cons.1 ha with h5 | h5
        · rw [h5]; omega
        · exact h2 a h5

end Skiplist

namespace Skiplist

theorem Good.lenLe {mem : List Node} {head level : Nat} {l : List Nat}
    (hg : Good mem head level l) : ∀ a ∈ head :: l, lenAt mem a ≤ maxLevel + 2 := by
  intro a ha
  rcases List.mem_cons.1 ha with h1 | h1
  · rw [h1]; exact hg.headLe
  · exact le_trans (hg.lenPos a h1).2 (Nat.le_succ _)

/-- On a good heap the link of a node on a level is the next node that has the level. -/
theorem Good.next_on_level {mem : List Node} {head level : Nat} {l : List Nat}
    (hg : Good mem head level l) {pre0 : List Nat} {c : Nat} {rest : List Nat}
    (hl : head :: l = pre0 ++ c :: rest) {lv : Nat} (hc : lv < lenAt mem c) :
    GetNextAt mem c (lv : Int) = some (atLevel mem lv rest).head? := by
  have hch := hg.chain lv
  rw [hl, atLevel_append, atLevel_cons_pos rest hc] at hch
  have := chain_next_mid _ _ _ hch
  exact getNextAt_eq_nextAt this (hg.lenLe c (by rw [hl]; simp))

theorem GetKey_of_lt {mem : List Node} {a : Nat} (h : a < mem.length) :
    GetKey mem a = some (keyAt mem a) := by
  unfold GetKey keyAt
  rw [List.getElem?_eq_getElem h]

theorem GetLevelAt_of_lt {mem : List Node} {a : Nat} (h : a < mem.length)
    (h1 : 1 ≤ lenAt mem a) (h2 : lenAt mem a ≤ maxLevel + 2) :
    GetLevelAt mem a = some (((lenAt mem a - 1 : Nat) : Int)) := by
  unfold GetLevelAt
  unfold lenAt at h1 h2 ⊢
  rw [List.getElem?_eq_getElem h] at h1 h2 ⊢
  simp only at h1 h2 ⊢
  rw [wrap32_of_small (by omega) (by unfold maxLevel at h2; omega)]
  congr 1
  omega

theorem Good.allocated {mem : List Node} {head level : Nat} {l : List Nat}
    (hg : Good mem head level l) {pre0 : List Nat} {c : Nat} {rest : List Nat}
    (hl : head :: l = pre0 ++ c :: rest) : c < mem.length :=
  hg.bound c (by rw [hl]; simp)

theorem Good.rest_length {mem : List Node} {head level : Nat} {l : List Nat}
    (hg : Good mem head level l) {pre0 : List Nat} {c : Nat} {rest : List Nat}
    (hl : head :: l = pre0 ++ c :: rest) : rest.length < mem.length := by
  have h1 := nodup_length_le hg.nodup hg.bound
  rw [hl] at h1
  simp at h1
  omega

/-- The walk of `FindStep` on one level, against `searchCost`: it stops at a node `c1`
followed by `rest1`, after `m` steps, where the search on this level has no step to the
right left. -/
theorem findStepWalk_cost {σ : Type} {A : Analyable σ} {s : σ} {mem : List Node}
    {head level : Nat} {l : List Nat} (hg : Good mem head level l) (hr : Reads A s mem)
    (key : K) (lv : Nat) (hlv : lv ≤ maxLevel + 1) :
    ∀ (fuel : Nat) (c : Nat) (rest pre0 : List Nat) (ls : Int),
      head :: l = pre0 ++ c :: rest → lv < lenAt mem c → rest.length < fuel →
      ∃ c1 rest1 pre1 m, findStepWalk A s key lv fuel c ls = some (c1, ls + m) ∧
        head :: l = pre1 ++ c1 :: rest1 ∧ lv < lenAt mem c1 ∧
        searchCost mem key lv rest = m + searchCost mem key lv rest1 ∧
        ((atLevel mem lv rest1).head? = none ∨
          ∃ n, (atLevel mem lv rest1).head? = some n ∧ ¬ keyAt mem n < key)
  | 0, _, _, _, _, _, _, hf => by omega
  | fuel + 1, c, rest, pre0, ls, hl, hc, hf => by
    have hw : wrap32 (lv : Int) = (lv : Int) :=
      wrap32_nat (by unfold maxLevel at hlv; omega)
    have hnx := hg.next_on_level hl hc
    unfold findStepWalk
    rw [hw, hr.next, hnx]
    rcases atLevel_head_split mem lv rest with ⟨h1, h2⟩ | ⟨pre, n, post, h1, h2, h3, h4⟩
    · rw [h1]
      exact ⟨c, rest, pre0, 0, by simp, hl, hc, by simp, Or.inl h1⟩
    · rw [h4]
      simp only
      have hl2 : head :: l = (pre0 ++ c :: pre) ++ n :: post := by rw [hl, h1]; simp
      rw [hr.key, GetKey_of_lt (hg.allocated hl2)]
      simp only
      by_cases hk : keyAt mem n ≥ key
      · rw [if_pos hk]
        exact ⟨c, rest, pre0, 0, by simp, hl, hc, by simp, Or.inr ⟨n, h4, not_lt.2 hk⟩⟩
      · rw [if_neg hk]
        obtain ⟨c1, rest1, pre1, m, g1, g2, g3, g4, g5⟩ :=
          findStepWalk_cost hg hr key lv hlv fuel n post _ (ls + 1) hl2 h3
            (by rw [h1] at hf; simp at hf; omega)
        refine ⟨c1, rest1, pre1, 1 + m, ?_, g2, g3, ?_, g5⟩
        · rw [g1, add_assoc]
        · rw [h1, searchCost_step mem key lv h2 h3, if_pos (lt_of_not_ge hk), g4]
          ring

end Skiplist

namespace Skiplist

/-- One round of the level loop of `FindStep`, against `searchCost`. -/
theorem findStepLevel_cost {σ : Type} {A : Analyable σ} {s : σ} {mem : List Node}
    {head level : Nat} {l : List Nat} (hg : Good mem head level l) (hr : Reads A s mem)
    (key : K) (lv : Nat) (hlv : lv ≤ maxLevel + 1) (c : Nat) (rest pre0 : List Nat) (T : Int)
    (per : List Int) (hl : head :: l = pre0 ++ c :: rest) (hc : lv < lenAt mem c)
    (hper : lv < per.length) :
    ∃ found c1 rest1 pre1 per1 m,
      findStepLevel A s key lv c T per = some (found, c1, T + (m + 1), per1) ∧
      per1.length = per.length ∧ head :: l = pre1 ++ c1 :: rest1 ∧ lv < lenAt mem c1 ∧
      searchCost mem key lv rest = m + searchCost mem key lv rest1 ∧
      (found = true → searchCost mem key lv rest1 = 1) ∧
      (found = false → searchCost mem key lv rest1 = downCost mem key lv rest1) := by
  obtain ⟨c1, rest1, pre1, m, g1, g2, g3, g4, g5⟩ :=
    findStepWalk_cost hg hr key lv hlv (A.steps s + 1) c rest pre0 0 hl hc
      (by rw [hr.steps]; have := hg.rest_length hl; omega)
  have hw : wrap32 (lv : Int) = (lv : Int) :=
    wrap32_nat (by unfold maxLevel at hlv; omega)
  have hnx := hg.next_on_level g2 g3
  have hset : ∀ v : Int, setIdx per (lv : Int) v = some (per.set lv v) := by
    intro v
    have := setIdx_isSome per v (i := (lv : Int)) (by omega) (by omega)
    simpa using this
  unfold findStepLevel
  rw [g1, zero_add]
  simp only
  rw [hw, hr.next, hnx]
  simp only
  rcases atLevel_head_split mem lv rest1 with ⟨h1, h2⟩ | ⟨pre, n, post, h1, h2, h3, h4⟩
  · rw [h1]
    simp only [hset]
    exact ⟨false, c1, rest1, pre1, _, m, rfl, by simp, g2, g3, g4, (fun hc => by cases hc),
      fun _ => searchCost_none mem key lv h2⟩
  · rw [h4]
    simp only
    have hl2 : head :: l = (pre1 ++ c1 :: pre) ++ n :: post := by rw [g2, h1]; simp
    rw [hr.key, GetKey_of_lt (hg.allocated hl2)]
    simp only [Option.map_some']
    have hnlt : ¬ keyAt mem n < key := by
      rcases g5 with h5 | ⟨n1, h5, h6⟩
      · rw [h4] at h5; cases h5
      · rw [h4] at h5; cases h5; exact h6
    by_cases hk : keyAt mem n = key
    · simp only [hk, decide_True, hset]
      refine ⟨true, c1, rest1, pre1, _, m, rfl, by simp, g2, g3, g4, fun _ => ?_,
        (fun hc => by cases hc)⟩
      rw [h1, searchCost_step mem key lv h2 h3, if_neg (by rw [hk]; exact lt_irrefl _),
        if_pos hk]
    · simp only [hk, decide_False, hset]
      refine ⟨false, c1, rest1, pre1, _, m, rfl, by simp, g2, g3, g4, (fun hc => by cases hc),
        fun _ => ?_⟩
      rw [h1, searchCost_step mem key lv h2 h3, if_neg hnlt, if_neg hk]

/-- The level loop of `FindStep` entered on level `lv` at a node followed by `rest` adds
`searchCost lv rest` to the total. -/
theorem findStepLevels_cost {σ : Type} {A : Analyable σ} {s : σ} {mem : List Node}
    {head level : Nat} {l : List Nat} (hg : Good mem head level l) (hr : Reads A s mem)
    (key : K) :
    ∀ (lv : Nat), lv ≤ maxLevel + 1 → ∀ (c : Nat) (rest pre0 : List Nat) (T : Int)
      (per : List Int), head :: l = pre0 ++ c :: rest → lv < lenAt mem c → lv < per.length →
      ∃ per1, findStepLevels A s key lv c T per
        = some (T + searchCost mem key lv rest, per1)
  | 0, hlv, c, rest, pre0, T, per, hl, hc, hper => by
    obtain ⟨found, c1, rest1, pre1, per1, m, g1, _, _, _, g5, g6, g7⟩ :=
      findStepLevel_cost hg hr key 0 hlv c rest pre0 T per hl hc hper
    unfold findStepLevels
    rw [g1]
    refine ⟨per1, ?_⟩
    have h1 : searchCost mem key 0 rest1 = 1 := by
      cases found with
      | true => exact g6 rfl
      | false => rw [g7 rfl]; rfl
    rw [g5, h1]
  | lv + 1, hlv, c, rest, pre0, T, per, hl, hc, hper => by
    obtain ⟨found, c1, rest1, pre1, per1, m, g1, g2, g3, g4, g5, g6, g7⟩ :=
      findStepLevel_cost hg hr key (lv + 1) hlv c rest pre0 T per hl hc hper
    unfold findStepLevels
    rw [g1]
    cases found with
    | true =>
      refine ⟨per1, ?_⟩
      simp only
      rw [g5, g6 rfl]
    | false =>
      obtain ⟨per2, h2⟩ := findStepLevels_cost hg hr key lv (by omega) c1 rest1 pre1
        (T + (m + 1)) per1 g3 (by omega) (by omega)
      refine ⟨per2, ?_⟩
      simp only
      rw [h2, g5, g7 rfl]
      show _ = some (T + (m + (1 + searchCost mem key lv rest1)), per2)
      rw [add_assoc, add_assoc]

/-- `FindStep` on a good heap returns `searchCost` from the head on the top level. -/
theorem FindStep_cost {σ : Type} {A : Analyable σ} {sl : σ} {mem : List Node}
    {head level : Nat} {l : List Nat} (hg : Good mem head level l) (hr : Reads A sl mem)
    (hhead : A.GetHead sl = some (some head, sl)) {size : Int}
    (hmax : A.GetMaxStats sl = some ((size, (level : Int)), sl)) (key : K) :
    ∃ per, FindStep A sl key = some ((searchCost mem key level l, per), sl) := by
  have hlev := hg.levelLe
  have hh := hg.headLen
  obtain ⟨per, hp⟩ := findStepLevels_cost hg hr key level (by omega) head l [] 0
    (List.replicate (level + 1) 0) rfl (by omega) (by simp)
  refine ⟨per, ?_⟩
  unfold FindStep
  rw [hhead]
  simp only
  rw [hmax]
  simp only
  rw [if_neg (by omega), if_neg (by omega)]
  have e1 : ((level : Int)).toNat = level := by simp
  have e2 : ((level : Int) + 1).toNat = level + 1 := by omega
  rw [e1, e2, hp, zero_add]
  rfl

end Skiplist

namespace Skiplist

theorem foldl_congr_mem {α β : Type} (f g : α → β → α) :
    ∀ (xs : List β) (a : α), (∀ a x, x ∈ xs → f a x = g a x) → xs.foldl f a = xs.foldl g a
  | [], _, _ => rfl
  | x :: xs, a, h => by
    simp only [List.foldl_cons]
    rw [h a x (List.mem_cons_self _ _)]
    exact foldl_congr_mem f g xs _ (fun b y hy => h b y (List.mem_cons_of_mem _ hy))

theorem region_all (mem : List Node) (lv : Nat) :
    ∀ (rest : List Nat), (∀ a ∈ rest, lenAt mem a ≤ lv + 1) → region mem lv rest = rest
  | [], _ => rfl
  | a :: rest, h => by
    unfold region
    rw [List.takeWhile_cons_of_pos (by simpa using h a (List.mem_cons_self _ _))]
    congr 1
    exact region_all mem lv rest (fun b hb => h b (List.mem_cons_of_mem _ hb))

theorem region_prefix (mem : List Node) (lv : Nat) {n : Nat} {post : List Nat}
    (hn : lv + 1 < lenAt mem n) :
    ∀ (pre : List Nat), (∀ a ∈ pre, lenAt mem a ≤ lv + 1) →
      region mem lv (pre ++ n :: post) = pre
  | [], _ => by
    unfold region
    rw [List.nil_append, List.takeWhile_cons_of_neg (by simpa using hn)]
  | a :: pre, h => by
    unfold region
    rw [List.cons_append,
      List.takeWhile_cons_of_pos (by simpa using h a (List.mem_cons_self _ _))]
    congr 1
    exact region_prefix mem lv hn pre (fun b hb => h b (List.mem_cons_of_mem _ hb))

theorem region_cons_eq (mem : List Node) (lv : Nat) {n : Nat} {post : List Nat}
    (hn : lenAt mem n ≤ lv + 1) :
    ∀ (pre : List Nat), (∀ a ∈ pre, lenAt mem a ≤ lv + 1) →
      region mem lv (pre ++ n :: post) = pre ++ n :: region mem lv post
  | [], _ => by
    unfold region
    rw [List.nil_append, List.takeWhile_cons_of_pos (by simpa using hn)]
    rfl
  | a :: pre, h => by
    have ih := @region_cons_eq mem lv n post hn pre
      (fun b hb => h b (List.mem_cons_of_mem _ hb))
    unfold region at ih ⊢
    rw [List.cons_append,
      List.takeWhile_cons_of_pos (by simpa using h a (List.mem_cons_self _ _)), ih]
    rfl

/-- The first statement of `dfs` on a node of a good heap. -/
theorem dfsVisit_eq {σ : Type} {A : Analyable σ} {st : σ} {mem : List Node}
    {head level : Nat} {l : List Nat} (hg : Good mem head level l) (hr : Reads A st mem)
    (keys : List (K × ℚ)) {pre0 : List Nat} {c : Nat} {rest : List Nat}
    (hl : head :: l = pre0 ++ c :: rest) {lv : Nat} (hc : lv < lenAt mem c)
    (hlv : lv ≤ maxLevel + 1) (steps : Int) (acc : StepAcc) :
    dfsVisit A st keys c (lv : Int) steps acc = some (visitAcc mem keys c lv steps acc) := by
  have hw : wrap32 (lv : Int) = (lv : Int) :=
    wrap32_nat (by unfold maxLevel at hlv; omega)
  have hlen := hg.lenLe c (by rw [hl]; simp)
  unfold dfsVisit visitAcc
  rw [hr.level, GetLevelAt_of_lt (hg.allocated hl) (by omega) hlen, hw]
  simp only
  by_cases he : lenAt mem c = lv + 1
  · rw [if_pos (by omega), if_pos he, hr.key, GetKey_of_lt (hg.allocated hl)]
    simp only
    unfold recNode
    cases probOf keys (keyAt mem c) <;> rfl
  · rw [if_neg (by omega), if_neg he]

end Skiplist

namespace Skiplist

theorem Good.rest_sorted {mem : List Node} {head level : Nat} {l : List Nat}
    (hg : Good mem head level l) {pre0 : List Nat} {c : Nat} {rest : List Nat}
    (hl : head :: l = pre0 ++ c :: rest) :
    rest.Pairwise (fun a b => keyAt mem a < keyAt mem b) ∧ ∀ a ∈ rest, a ∈ l := by
  cases pre0 with
  | nil =>
    simp only [List.nil_append, List.cons.injEq] at hl
    rw [← hl.2]
    exact ⟨hg.sorted, fun a ha => ha⟩
  | cons b p =>
    simp only [List.cons_append, List.cons.injEq] at hl
    have hs := hg.sorted
    rw [hl.2] at hs
    refine ⟨(List.pairwise_append.1 hs).2.1.of_cons, ?_⟩
    intro a ha
    rw [hl.2]
    simp [ha]

/-- The descent of `dfs` from a node on level `lv + 1`, as a fold over the nodes before
the next node of that level. -/
theorem down_fold_eq (mem : List Node) (keys : List (K × ℚ)) (s : Int) (lv : Nat)
    (rest pre : List Nat) (acc : StepAcc) (hreg : region mem lv rest = pre)
    (hcost : ∀ x ∈ pre, searchCost mem (keyAt mem x) (lv + 1) rest
      = 1 + searchCost mem (keyAt mem x) lv rest) :
    (region mem lv rest).foldl
        (fun a x => recNode mem keys (s + 1 + searchCost mem (keyAt mem x) lv rest) a x) acc
      = pre.foldl
        (fun a x => recNode mem keys (s + searchCost mem (keyAt mem x) (lv + 1) rest) a x)
        acc := by
  rw [hreg]
  apply foldl_congr_mem
  intro a x hx
  rw [hcost x hx, add_assoc]

/-- The closure `dfs` on a good heap: from a node `c` on level `lv` followed by `rest`, it
visits `c` and then records every node of `region lv rest`, in order, with the steps of
the search for its key added to `s`. -/
theorem dfs_cost {σ : Type} {A : Analyable σ} {st : σ} {mem : List Node}
    {head level : Nat} {l : List Nat} (hg : Good mem head level l) (hr : Reads A st mem)
    (keys : List (K × ℚ)) :
    ∀ (fuel lv c : Nat) (rest pre0 : List Nat) (s : Int) (acc : StepAcc),
      head :: l = pre0 ++ c :: rest → lv < lenAt mem c → lv ≤ maxLevel + 1 →
      lv + rest.length < fuel →
      dfs A st keys fuel (some c) (lv : Int) s acc
        = some ((region mem lv rest).foldl
            (fun a x => recNode mem keys (s + searchCost mem (keyAt mem x) lv rest) a x)
            (visitAcc mem keys c lv s acc))
  | 0, _, _, _, _, _, _, _, _, _, hf => by omega
  | fuel + 1, lv, c, rest, pre0, s, acc, hl, hc, hlv, hf => by
    have hw : wrap32 (lv : Int) = (lv : Int) :=
      wrap32_nat (by unfold maxLevel at hlv; omega)
    obtain ⟨hsorted, hsub⟩ := hg.rest_sorted hl
    have hpos : ∀ a ∈ rest, 1 ≤ lenAt mem a := fun a ha => (hg.lenPos a (hsub a ha)).1
    unfold dfs
    rw [dfsVisit_eq hg hr keys hl hc hlv]
    simp only
    rw [hw, hr.next, hg.next_on_level hl hc]
    generalize hacc1 : visitAcc mem keys c lv s acc = acc1
    -- the descent, as a fold over the nodes `pre1` before the next node of the level
    have hdown : ∀ pre1 : List Nat, (∀ a ∈ pre1, lenAt mem a ≤ lv) →
        (∀ lv1, lv = lv1 + 1 → region mem lv1 rest = pre1) →
        (∀ x ∈ pre1, ∀ lv1, lv = lv1 + 1 → searchCost mem (keyAt mem x) lv rest
          = 1 + searchCost mem (keyAt mem x) lv1 rest) →
        (∀ x ∈ pre1, x ∈ rest) →
        (if (lv : Int) > 0 then dfs A st keys fuel (some c) ((lv : Int) - 1) (s + 1) acc1
          else some acc1)
          = some (pre1.foldl
            (fun a x => recNode mem keys (s + searchCost mem (keyAt mem x) lv rest) a x)
            acc1) := by
      intro pre1 hp1 hreg hcost hmem
      cases lv with
      | zero =>
        have : pre1 = [] := by
          cases pre1 with
          | nil => rfl
          | cons a p =>
            have h1 := hp1 a (List.mem_cons_self _ _)
            have h2 := hpos a (hmem a (List.mem_cons_self _ _))
            omega
        rw [this]
        simp
      | succ lv1 =>
        have e : (((lv1 + 1 : Nat) : Int) - 1) = (lv1 : Int) := by push_cast; ring
        rw [if_pos (by push_cast; omega), e,
          dfs_cost hg hr keys fuel lv1 c rest pre0 (s + 1) acc1 hl (by omega) (by omega)
            (by omega)]
        have hv : visitAcc mem keys c lv1 (s + 1) acc1 = acc1 := by
          unfold visitAcc
          rw [if_neg (by omega)]
        rw [hv, down_fold_eq mem keys s lv1 rest pre1 acc1 (hreg lv1 rfl)
          (fun x hx => hcost x hx lv1 rfl)]
    rcases atLevel_head_split mem lv rest with ⟨h1, h2⟩ | ⟨pre, n, post, h1, h2, h3, h4⟩
    · rw [hdown rest h2 (fun lv1 he => region_all mem lv1 rest (fun a ha => by
          have := h2 a ha; omega))
        (fun x _ lv1 he => by
          rw [searchCost_none mem _ lv h2]
          subst he
          rfl)
        (fun x hx => hx)]
      simp only
      rw [h1, region_all mem lv rest (fun a ha => by have := h2 a ha; omega)]
    · have hpw := List.pairwise_append.1 (h1 ▸ hsorted)
      have hlt : ∀ x ∈ pre, keyAt mem x < keyAt mem n :=
        fun x hx => hpw.2.2 x hx n (List.mem_cons_self _ _)
      have hgt : ∀ x ∈ post, keyAt mem n < keyAt mem x :=
        fun x hx => List.rel_of_pairwise_cons hpw.2.1 hx
      rw [hdown pre h2 (fun lv1 he => by
          rw [h1]
          exact region_prefix mem lv1 (by omega) pre (fun a ha => by
            have := h2 a ha; omega))
        (fun x hx lv1 he => by
          rw [h1, searchCost_step mem _ lv h2 h3, if_neg (not_lt.2 (le_of_lt (hlt x hx))),
            if_neg (ne_of_gt (hlt x hx))]
          subst he
          rfl)
        (fun x hx => by rw [h1]; simp [hx])]
      simp only
      rw [h4]
      simp only
      have hl2 : head :: l = (pre0 ++ c :: pre) ++ n :: post := by rw [hl, h1]; simp
      have hlen := hg.lenLe n (by rw [hl2]; simp)
      rw [hr.level, GetLevelAt_of_lt (hg.allocated hl2) (by omega) hlen]
      simp only
      by_cases he : lenAt mem n = lv + 1
      · rw [if_pos (by omega),
          dfs_cost hg hr keys fuel lv n post _ (s + 1) _ hl2 h3 hlv (by
            rw [h1] at hf; simp at hf; omega)]
        have hv : ∀ a0, visitAcc mem keys n lv (s + 1) a0 = recNode mem keys (s + 1) a0 n := by
          intro a0
          unfold visitAcc
          rw [if_pos he]
        rw [hv, h1, region_cons_eq mem lv (by omega) pre (fun a ha => by
          have := h2 a ha; omega), List.foldl_append, List.foldl_cons]
        have hn1 : searchCost mem (keyAt mem n) lv (pre ++ n :: post) = 1 := by
          rw [searchCost_step mem _ lv h2 h3, if_neg (lt_irrefl _), if_pos rfl]
        rw [hn1]
        refine congrArg some ?_
        apply foldl_congr_mem
        intro a x hx
        have hxp : x ∈ post := (List.takeWhile_sublist _).subset hx
        rw [searchCost_step mem _ lv h2 h3, if_pos (hgt x hxp), add_assoc]
      · rw [if_neg (by omega), h1, region_prefix mem lv (by omega) pre (fun a ha => by
          have := h2 a ha; omega)]

end Skiplist

namespace Skiplist

/-! ## The sums and the step map that `dfs` builds -/

theorem probOf_mem : ∀ (keys : List (K × ℚ)), (keys.map Prod.fst).Nodup →
    ∀ kp ∈ keys, probOf keys kp.1 = some kp.2
  | [], _, kp, h => by cases h
  | e :: keys, hn, kp, h => by
    rw [List.map_cons, List.nodup_cons] at hn
    unfold probOf
    rcases List.mem_cons.1 h with h1 | h1
    · rw [h1]
      simp [List.find?_cons]
    · have hne : e.1 ≠ kp.1 := by
        intro he
        apply hn.1
        rw [he]
        exact List.mem_map_of_mem _ h1
      rw [List.find?_cons]
      simp only [hne, decide_False]
      exact probOf_mem keys hn.2 kp h1

theorem probOf_none : ∀ (keys : List (K × ℚ)) (k : K), k ∉ keys.map Prod.fst →
    probOf keys k = none
  | [], _, _ => rfl
  | e :: keys, k, h => by
    rw [List.map_cons, List.mem_cons, not_or] at h
    unfold probOf
    rw [List.find?_cons]
    have hne : e.1 ≠ k := fun he => h.1 he.symm
    simp only [hne, decide_False]
    exact probOf_none keys k h.2

theorem probOf_some_mem {keys : List (K × ℚ)} {k : K} {p : ℚ} (h : probOf keys k = some p) :
    k ∈ keys.map Prod.fst := by
  by_contra hc
  rw [probOf_none keys k hc] at h
  cases h

/-- The two sums after a fold of `recNode` over the nodes `l`. -/
theorem fold_sums (mem : List Node) (keys : List (K × ℚ)) (cost : K → Int) :
    ∀ (l : List Nat) (init : StepAcc),
      (l.foldl (fun a x => recNode mem keys (cost (keyAt mem x)) a x) init).totalProbability
        = init.totalProbability
          + (l.map (fun x => (probOf keys (keyAt mem x)).getD 0)).sum ∧
      (l.foldl (fun a x => recNode mem keys (cost (keyAt mem x)) a x) init).totalExpectedSteps
        = init.totalExpectedSteps
          + (l.map (fun x => (cost (keyAt mem x) : ℚ) * (probOf keys (keyAt mem x)).getD 0)).sum
  | [], init => by simp
  | x :: l, init => by
    obtain ⟨h1, h2⟩ := fold_sums mem keys cost l
      (recNode mem keys (cost (keyAt mem x)) init x)
    simp only [List.foldl_cons, List.map_cons, List.sum_cons]
    rw [h1, h2]
    unfold recNode
    cases probOf keys (keyAt mem x) with
    | none => simp
    | some p => simp only [Option.getD_some]; constructor <;> ring

/-- A sum over stored keys of a term weighted by the probability of the key is the sum over
the entries of the distribution, when the distribution has distinct keys, all stored. -/
theorem sum_over_keys (ks : List K) (keys : List (K × ℚ)) (g : K → ℚ) (hks : ks.Nodup)
    (hkeys : (keys.map Prod.fst).Nodup) (hsub : ∀ kp ∈ keys, kp.1 ∈ ks) :
    (ks.map (fun k => g k * (probOf keys k).getD 0)).sum
      = (keys.map (fun kp => g kp.1 * kp.2)).sum := by
  rw [← List.sum_toFinset _ hks]
  have hsubset : (keys.map Prod.fst).toFinset ⊆ ks.toFinset := by
    intro k hk
    rw [List.mem_toFinset] at hk ⊢
    obtain ⟨kp, h1, h2⟩ := List.mem_map.1 hk
    rw [← h2]
    exact hsub kp h1
  rw [← Finset.sum_subset hsubset (by
    intro k _ hk
    rw [List.mem_toFinset] at hk
    rw [probOf_none keys k hk]
    simp)]
  rw [List.sum_toFinset _ hkeys, List.map_map]
  congr 1
  apply List.map_congr_left
  intro kp hkp
  simp only [Function.comp]
  rw [probOf_mem keys hkeys kp hkp]
  rfl

theorem stepGet_stepPut (m : StepMap) (k : K) (v : Int) (k1 : K) :
    stepGet (stepPut m k v) k1 = if k1 = k then some v else stepGet m k1 := by
  unfold stepGet stepPut
  by_cases h : k1 = k
  · subst h
    simp [List.find?_cons]
  · rw [if_neg h, List.find?_cons]
    have hne : ¬ (k = k1) := fun he => h he.symm
    simp only [hne, decide_False]
    rw [List.find?_filter]
    congr 2
    funext e
    by_cases he : e.1 = k1
    · simp [he, h]
    · simp [he]

theorem keys_stepPut (m : StepMap) (k : K) (v : Int) :
    ((stepPut m k v).map Prod.fst).Nodup ↔ (((m.filter (fun e => decide (e.1 ≠ k))).map
      Prod.fst).Nodup) := by
  unfold stepPut
  rw [List.map_cons, List.nodup_cons]
  constructor
  · exact fun h => h.2
  · intro h
    refine ⟨?_, h⟩
    intro hc
    obtain ⟨e, h1, h2⟩ := List.mem_map.1 hc
    have := (List.mem_filter.1 h1).2
    simp at this
    exact this h2

theorem stepPut_nodup {m : StepMap} (h : (m.map Prod.fst).Nodup) (k : K) (v : Int) :
    ((stepPut m k v).map Prod.fst).Nodup := by
  rw [keys_stepPut]
  exact (h.sublist ((List.filter_sublist _).map _))

theorem mem_stepPut (m : StepMap) (k : K) (v : Int) (k1 : K) :
    k1 ∈ (stepPut m k v).map Prod.fst ↔ k1 = k ∨ k1 ∈ m.map Prod.fst := by
  unfold stepPut
  rw [List.map_cons, List.mem_cons]
  constructor
  · rintro (h | h)
    · exact Or.inl h
    · obtain ⟨e, h1, h2⟩ := List.mem_map.1 h
      exact Or.inr (List.mem_map.2 ⟨e, (List.mem_filter.1 h1).1, h2⟩)
  · rintro (h | h)
    · exact Or.inl h
    · by_cases hk : k1 = k
      · exact Or.inl hk
      · obtain ⟨e, h1, h2⟩ := List.mem_map.1 h
        refine Or.inr (List.mem_map.2 ⟨e, List.mem_filter.2 ⟨h1, ?_⟩, h2⟩)
        simp only [decide_eq_true_eq]
        rw [h2]
        exact hk

/-- The step map after a fold of `recNode` over the nodes `l`: every key of `l` that the
distribution has is mapped to its cost, the other keys are as before. -/
theorem fold_stepGet (mem : List Node) (keys : List (K × ℚ)) (cost : K → Int) (k : K) :
    ∀ (l : List Nat) (init : StepAcc),
      stepGet (l.foldl (fun a x => recNode mem keys (cost (keyAt mem x)) a x) init).step k
        = if k ∈ l.map (keyAt mem) ∧ (probOf keys k).isSome then some (cost k)
          else stepGet init.step k
  | [], init => by simp
  | x :: l, init => by
    simp only [List.foldl_cons]
    rw [fold_stepGet mem keys cost k l]
    have hx : stepGet (recNode mem keys (cost (keyAt mem x)) init x).step k
        = if k = keyAt mem x ∧ (probOf keys k).isSome then some (cost k)
          else stepGet init.step k := by
      unfold recNode
      by_cases hk : k = keyAt mem x
      · subst hk
        cases probOf keys (keyAt mem x) with
        | none => simp
        | some p => simp [stepGet_stepPut]
      · cases probOf keys (keyAt mem x) with
        | none => simp [hk]
        | some p => simp [stepGet_stepPut, hk]
    rw [hx]
    by_cases h1 : k ∈ l.map (keyAt mem) ∧ (probOf keys k).isSome
    · rw [if_pos h1, if_pos ⟨by simp [List.mem_map.1 h1.1], h1.2⟩]
    · rw [if_neg h1]
      by_cases h2 : k = keyAt mem x ∧ (probOf keys k).isSome
      · rw [if_pos h2, if_pos ⟨by simp [h2.1], h2.2⟩]
      · rw [if_neg h2, if_neg]
        rintro ⟨h3, h4⟩
        rw [List.map_cons, List.mem_cons] at h3
        rcases h3 with h3 | h3
        · exact h2 ⟨h3, h4⟩
        · exact h1 ⟨h3, h4⟩

/-- The keys of the step map after a fold of `recNode`: distinct, and those of before
together with the keys of `l` that the distribution has. -/
theorem fold_keys (mem : List Node) (keys : List (K × ℚ)) (cost : K → Int) :
    ∀ (l : List Nat) (init : StepAcc), (init.step.map Prod.fst).Nodup →
      ((l.foldl (fun a x => recNode mem keys (cost (keyAt mem x)) a x) init).step.map
        Prod.fst).Nodup ∧
      ∀ k, k ∈ (l.foldl (fun a x => recNode mem keys (cost (keyAt mem x)) a x) init).step.map
          Prod.fst ↔
        k ∈ init.step.map Prod.fst ∨ (k ∈ l.map (keyAt mem) ∧ (probOf keys k).isSome)
  | [], init, h => by simp [h]
  | x :: l, init, h => by
    simp only [List.foldl_cons]
    have hx : ((recNode mem keys (cost (keyAt mem x)) init x).step.map Prod.fst).Nodup ∧
        ∀ k, k ∈ (recNode mem keys (cost (keyAt mem x)) init x).step.map Prod.fst ↔
          k ∈ init.step.map Prod.fst ∨ (k = keyAt mem x ∧ (probOf keys k).isSome) := by
      unfold recNode
      cases hp : probOf keys (keyAt mem x) with
      | none =>
        refine ⟨h, fun k => ⟨fun hk => Or.inl hk, ?_⟩⟩
        rintro (hk | ⟨hk1, hk2⟩)
        · exact hk
        · rw [hk1, hp] at hk2
          cases hk2
      | some p =>
        refine ⟨stepPut_nodup h _ _, fun k => ?_⟩
        simp only
        rw [mem_stepPut]
        constructor
        · rintro (hk | hk)
          · exact Or.inr ⟨hk, by rw [hk, hp]; rfl⟩
          · exact Or.inl hk
        · rintro (hk | ⟨hk1, _⟩)
          · exact Or.inr hk
          · exact Or.inl hk1
    obtain ⟨g1, g2⟩ := fold_keys mem keys cost l _ hx.1
    refine ⟨g1, fun k => ?_⟩
    rw [g2 k, hx.2 k, List.map_cons, List.mem_cons]
    tauto

end Skiplist

namespace Skiplist

/-- `AnalyzeStep` on a good heap: the accumulators are the fold of `recNode` over all nodes,
each with the steps of the search for its key, after the visit of the head. -/
theorem AnalyzeStep_fold {σ : Type} {A : Analyable σ} {sl : σ} {mem : List Node}
    {head level : Nat} {l : List Nat} (hg : Good mem head level l) (hr : Reads A sl mem)
    (hhead : A.GetHead sl = some (some head, sl)) {size : Int}
    (hmax : A.GetMaxStats sl = some ((size, (level : Int)), sl)) (keys : List (K × ℚ))
    (hne : keys ≠ []) :
    ∃ acc, acc = l.foldl
        (fun a x => recNode mem keys (searchCost mem (keyAt mem x) level l) a x)
        (visitAcc mem keys head level 0 (StepAcc.mk 0 0 [])) ∧
      AnalyzeStep A sl keys
        = some ((if acc.totalProbability > 0 then acc.totalExpectedSteps / acc.totalProbability
            else 0, acc.step), sl) := by
  have hlev := hg.levelLe
  have hh := hg.headLen
  have hlen := @Good.rest_length mem head level l hg [] head l rfl
  have hd := dfs_cost hg hr keys (A.steps sl + level + 1) level head l [] 0
    (StepAcc.mk 0 0 []) rfl (by omega) (by omega) (by rw [hr.steps]; omega)
  rw [region_all mem level l (fun a ha => hg.cover a ha)] at hd
  simp only [zero_add] at hd
  refine ⟨_, rfl, ?_⟩
  unfold AnalyzeStep
  have hk : ¬ keys.length = 0 := by
    intro h0
    exact hne (List.length_eq_zero.1 h0)
  rw [if_neg hk, hmax]
  simp only
  rw [hhead]
  simp only [Int.toNat_ofNat]
  rw [hd]
  simp only
  split <;> rfl

namespace BasicSkipList

theorem call_headKey {sl : BasicSkipList} {l : List Nat}
    (hg : Good sl.mem sl.head sl.level l) (c : Call) {sl1 : BasicSkipList} {r : Reply}
    (h : sl.call c = some (sl1, r)) :
    sl1.head = sl.head ∧ keyAt sl1.mem sl1.head = keyAt sl.mem sl.head := by
  have hhl : sl.head < sl.mem.length := hg.bound sl.head (List.mem_cons_self _ _)
  cases c with
  | put k v =>
    simp only [call, Option.map_eq_some'] at h
    obtain ⟨s, hs, he⟩ := h
    cases he
    unfold Put find at hs
    rw [hg.find_eq k] at hs
    cases ht : target sl.mem k l with
    | some cur =>
      obtain ⟨m1, h1, _, _⟩ := hg.update ht v
      simp only [ht, h1, Option.map_some'] at hs
      cases hs
      exact ⟨rfl, setValue_keyAt h1 _⟩
    | none =>
      obtain ⟨res, h1, h2⟩ := randomLevel_isSome sl.rand
      obtain ⟨m2, h3, _, _, h6, _, _⟩ := hg.toRep.insert_rep k v
        (le_max_right sl.level res.1) (max_le hg.levelLe h2) ht
      simp only [ht, Option.map_none', BasicSkipList.randomLevel, h1] at hs
      rw [putFrom_eq, h3] at hs
      simp only [Option.map_some'] at hs
      cases hs
      refine ⟨rfl, ?_⟩
      show keyAt m2 sl.head = _
      rw [h6, if_neg (by omega)]
  | get k =>
    simp only [call, Option.map_eq_some'] at h
    obtain ⟨s, _, he⟩ := h
    cases he
    exact ⟨rfl, rfl⟩
  | contains k =>
    simp only [call, Option.map_eq_some'] at h
    obtain ⟨s, _, he⟩ := h
    cases he
    exact ⟨rfl, rfl⟩
  | delete k =>
    simp only [call, Option.map_eq_some'] at h
    obtain ⟨s, hs, he⟩ := h
    cases he
    obtain ⟨m2, h1, _, _, h4, _⟩ := hg.delete_good k
    unfold Delete at hs
    rw [h1] at hs
    cases hs
    refine ⟨rfl, ?_⟩
    show keyAt m2 sl.head = _
    rw [h4.key]

/-- The key of the head is the same in every state a `BasicSkipList` reaches. -/
theorem run_headKey : ∀ (cs : List Call) {sl : BasicSkipList} {l : List Nat},
    Good sl.mem sl.head sl.level l → ∀ {sl1 : BasicSkipList} {rs : List Reply},
      sl.run cs = some (sl1, rs) → keyAt sl1.mem sl1.head = keyAt sl.mem sl.head
  | [], sl, l, _, sl1, rs, h => by
    simp only [run] at h
    cases h
    rfl
  | c :: cs, sl, l, hg, sl1, rs, h => by
    obtain ⟨s, l1, r, h1, h2, _⟩ := basic_call_good hg c
    unfold run at h
    rw [h1] at h
    simp only at h
    split at h
    · cases h
    · rename_i s1 rs1 hr
      cases h
      rw [run_headKey cs h2 hr, (call_headKey hg c h1).2]

end BasicSkipList

end Skiplist

namespace Skiplist

theorem tGet_isSome_mem {mem : List Node} {l : List Nat} {k : K}
    (h : (tGet (towers mem l) k).isSome = true) : k ∈ l.map (keyAt mem) := by
  unfold tGet at h
  rw [Option.isSome_map'] at h
  obtain ⟨t, ht⟩ := Option.isSome_iff_exists.1 h
  have h1 := List.mem_of_find?_eq_some ht
  have h2 := List.find?_some ht
  simp only [decide_eq_true_eq] at h2
  unfold towers at h1
  obtain ⟨a, ha, he⟩ := List.mem_map.1 h1
  rw [← h2, ← he]
  exact List.mem_map_of_mem _ ha

theorem Good.keys_nodup {mem : List Node} {head level : Nat} {l : List Nat}
    (hg : Good mem head level l) : (l.map (keyAt mem)).Nodup := by
  have := hg.sorted
  rw [List.Nodup, List.pairwise_map]
  exact this.imp (fun h => ne_of_lt h)

theorem probOf_isSome {keys : List (K × ℚ)} (hn : (keys.map Prod.fst).Nodup) {k : K}
    (h : k ∈ keys.map Prod.fst) : (probOf keys k).isSome = true := by
  obtain ⟨kp, h1, h2⟩ := List.mem_map.1 h
  rw [← h2, probOf_mem keys hn kp h1]
  rfl

/-- C21: on every `BasicSkipList` reached by calls, for every distribution with distinct
non-negative keys, all stored, and positive total weight, `FindStep` returns a total
`f k` for every key `k` of the distribution, `AnalyzeStep` returns the score
`(sum of p(k) * f k) / (sum of p(k))`, and the step map it returns maps every such `k` to
`f k`; the arithmetic is that of the rationals. -/
theorem basic_analyzeStep (draws : Nat → Nat) (calls : List Call) (dist : List (K × ℚ))
    (hd : (dist.map Prod.fst).Nodup)
    (hst : ∀ kp ∈ dist, (latest calls kp.1).isSome = true)
    (hnn : ∀ kp ∈ dist, 0 ≤ kp.1) (hpos : 0 < (dist.map Prod.snd).sum) :
    ∃ (sl : BasicSkipList) (rs : List Reply) (f : K → Int) (sm : StepMap),
      (NewBasicSkipList draws).run calls = some (sl, rs) ∧
      (∀ kp ∈ dist, ∃ per,
        FindStep BasicSkipList.analyable sl kp.1 = some ((f kp.1, per), sl)) ∧
      AnalyzeStep BasicSkipList.analyable sl dist
        = some (((dist.map (fun kp => kp.2 * (f kp.1 : ℚ))).sum / (dist.map Prod.snd).sum,
            sm), sl) ∧
      ∀ kp ∈ dist, stepGet sm kp.1 = some (f kp.1) := by
  obtain ⟨sl, l, rs, h1, hg, h3⟩ := BasicSkipList.basic_run_latest draws calls
  have hkey : keyAt sl.mem sl.head = -1 := by
    rw [BasicSkipList.run_headKey calls (BasicSkipList.NewBasicSkipList_good draws) h1]
    simp [NewBasicSkipList, keyAt, newNode]
  have hr : Reads BasicSkipList.analyable sl sl.mem :=
    ⟨fun _ => rfl, fun _ => rfl, fun _ _ => rfl, rfl⟩
  have hne : dist ≠ [] := by
    intro h0
    rw [h0] at hpos
    simp at hpos
  obtain ⟨acc, hacc, hA⟩ := @AnalyzeStep_fold _ BasicSkipList.analyable sl sl.mem sl.head
    sl.level l hg hr rfl sl.size rfl dist hne
  have hvis : visitAcc sl.mem dist sl.head sl.level 0 (StepAcc.mk 0 0 []) = StepAcc.mk 0 0 [] := by
    unfold visitAcc recNode
    rw [hkey, probOf_none dist (-1) (by
      intro hc
      obtain ⟨kp, hk1, hk2⟩ := List.mem_map.1 hc
      have h0 : (0 : Int) ≤ -1 := by rw [← hk2]; exact hnn kp hk1
      exact absurd h0 (by decide))]
    simp
  rw [hvis] at hacc
  have hsub : ∀ kp ∈ dist, kp.1 ∈ l.map (keyAt sl.mem) := by
    intro kp hkp
    apply tGet_isSome_mem
    rw [h3]
    exact hst kp hkp
  obtain ⟨hs1, hs2⟩ := fold_sums sl.mem dist (fun k => searchCost sl.mem k sl.level l) l
    (StepAcc.mk 0 0 [])
  rw [← hacc] at hs1 hs2
  have e1 := sum_over_keys (l.map (keyAt sl.mem)) dist (fun _ => 1) hg.keys_nodup hd hsub
  have e2 := sum_over_keys (l.map (keyAt sl.mem)) dist
    (fun k => ((searchCost sl.mem k sl.level l : Int) : ℚ)) hg.keys_nodup hd hsub
  simp only [List.map_map, one_mul, Function.comp] at e1 e2
  have hp : acc.totalProbability = (dist.map Prod.snd).sum := by
    rw [hs1]
    simp only [zero_add]
    exact e1
  have he : acc.totalExpectedSteps
      = (dist.map (fun kp => kp.2 * ((searchCost sl.mem kp.1 sl.level l : Int) : ℚ))).sum := by
    rw [hs2]
    simp only [zero_add]
    refine Eq.trans e2 ?_
    congr 1
    apply List.map_congr_left
    intro kp _
    exact mul_comm _ _
  refine ⟨sl, rs, fun k => searchCost sl.mem k sl.level l, acc.step, h1, ?_, ?_, ?_⟩
  · intro kp _
    exact @FindStep_cost _ BasicSkipList.analyable sl sl.mem sl.head sl.level l hg hr rfl
      sl.size rfl kp.1
  · rw [hA, if_pos (by rw [hp]; exact hpos), hp, he]
  · intro kp hkp
    rw [hacc, fold_stepGet sl.mem dist (fun k => searchCost sl.mem k sl.level l) kp.1 l,
      if_pos ⟨hsub kp hkp, probOf_isSome hd (List.mem_map_of_mem _ hkp)⟩]

/-- A witness for `basic_analyzeStep`: the keys 0, 1, 5, 3 inserted in this order with every
third draw below 0.5, and the weights 1/2, 1/4, 1/8, 1/8. -/
theorem basic_analyzeStep_witness :
    ∃ (sl : BasicSkipList) (rs : List Reply) (f : K → Int) (sm : StepMap),
      (NewBasicSkipList (fun i => if i % 3 = 0 then 0 else drawScale)).run
        [Call.put 0 1, Call.put 1 1, Call.put 5 1, Call.put 3 1] = some (sl, rs) ∧
      (∀ kp ∈ [((0 : K), (1 / 2 : ℚ)), (1, 1 / 4), (3, 1 / 8), (5, 1 / 8)], ∃ per,
        FindStep BasicSkipList.analyable sl kp.1 = some ((f kp.1, per), sl)) ∧
      AnalyzeStep BasicSkipList.analyable sl [(0, 1 / 2), (1, 1 / 4), (3, 1 / 8), (5, 1 / 8)]
        = some ((([((0 : K), (1 / 2 : ℚ)), (1, 1 / 4), (3, 1 / 8), (5, 1 / 8)].map
              (fun kp => kp.2 * (f kp.1 : ℚ))).sum
            / ([((0 : K), (1 / 2 : ℚ)), (1, 1 / 4), (3, 1 / 8), (5, 1 / 8)].map Prod.snd).sum,
            sm), sl) ∧
      ∀ kp ∈ [((0 : K), (1 / 2 : ℚ)), (1, 1 / 4), (3, 1 / 8), (5, 1 / 8)],
        stepGet sm kp.1 = some (f kp.1) :=
  basic_analyzeStep (fun i => if i % 3 = 0 then 0 else drawScale)
    [Call.put 0 1, Call.put 1 1, Call.put 5 1, Call.put 3 1]
    [(0, 1 / 2), (1, 1 / 4), (3, 1 / 8), (5, 1 / 8)] (by decide) (by decide) (by decide)
    (by norm_num)

/-- C23: on every `LASkipList` reached by calls that store every key of a distribution with
distinct keys (as one `PutWithNP` per key does, in any order), `AnalyzeStep` returns a
step map with exactly the keys of the distribution, one entry each, so its length is the
length of the distribution. -/
theorem la_analyzeStep_entries (draws : Nat → Nat) (calls : List LACall)
    (dist : List (K × ℚ)) (hd : (dist.map Prod.fst).Nodup)
    (hst : ∀ kp ∈ dist, (latestLA calls kp.1).isSome = true) :
    ∃ (sl : LASkipList) (rs : List Reply) (score : ℚ) (sm : StepMap),
      (NewLASkipList draws).run calls = some (sl, rs) ∧
      AnalyzeStep LASkipList.analyable sl dist = some ((score, sm), sl) ∧
      (sm.map Prod.fst).Nodup ∧ (∀ k, k ∈ sm.map Prod.fst ↔ k ∈ dist.map Prod.fst) ∧
      sm.length = dist.length := by
  obtain ⟨sl, l, rs, h1, hg, h3⟩ := LASkipList.la_run_latest draws calls
  by_cases hne : dist = []
  · subst hne
    exact ⟨sl, rs, 0, [], h1, rfl, by simp, by simp, rfl⟩
  · have hr : Reads LASkipList.analyable sl sl.mem :=
      ⟨fun _ => rfl, fun _ => rfl, fun _ _ => rfl, rfl⟩
    obtain ⟨acc, hacc, hA⟩ := @AnalyzeStep_fold _ LASkipList.analyable sl sl.mem sl.head
      sl.level l hg hr rfl sl.size rfl dist hne
    have hsub : ∀ kp ∈ dist, kp.1 ∈ l.map (keyAt sl.mem) := by
      intro kp hkp
      apply tGet_isSome_mem
      rw [h3]
      exact hst kp hkp
    have hvis : ∃ l0 : List Nat, visitAcc sl.mem dist sl.head sl.level 0 (StepAcc.mk 0 0 [])
        = l0.foldl (fun a x => recNode sl.mem dist ((fun _ => (0 : Int)) (keyAt sl.mem x)) a x)
          (StepAcc.mk 0 0 []) := by
      unfold visitAcc
      by_cases hc : lenAt sl.mem sl.head = sl.level + 1
      · exact ⟨[sl.head], by rw [if_pos hc]; rfl⟩
      · exact ⟨[], by rw [if_neg hc]; rfl⟩
    obtain ⟨l0, hl0⟩ := hvis
    obtain ⟨n0, m0⟩ := fold_keys sl.mem dist (fun _ => 0) l0 (StepAcc.mk 0 0 [])
      (by simp)
    rw [← hl0] at n0 m0
    obtain ⟨n1, m1⟩ := fold_keys sl.mem dist (fun k => searchCost sl.mem k sl.level l) l _ n0
    rw [← hacc] at n1 m1
    have hmem : ∀ k, k ∈ acc.step.map Prod.fst ↔ k ∈ dist.map Prod.fst := by
      intro k
      rw [m1 k, m0 k]
      constructor
      · rintro ((h | ⟨_, h⟩) | ⟨_, h⟩)
        · simp at h
        · obtain ⟨p, hp⟩ := Option.isSome_iff_exists.1 h
          exact probOf_some_mem hp
        · obtain ⟨p, hp⟩ := Option.isSome_iff_exists.1 h
          exact probOf_some_mem hp
      · intro hk
        obtain ⟨kp, hk1, hk2⟩ := List.mem_map.1 hk
        exact Or.inr ⟨by rw [← hk2]; exact hsub kp hk1, probOf_isSome hd hk⟩
    refine ⟨sl, rs, _, acc.step, h1, hA, n1, hmem, ?_⟩
    have hperm := (List.perm_ext_iff_of_nodup n1 hd).2 hmem
    have := hperm.length_eq
    simpa using this

/-- A witness for `la_analyzeStep_entries`: one `PutWithNP` per key of a distribution over
the keys 0, 1, 2, with `np` three times the weight. -/
theorem la_analyzeStep_entries_witness :
    ∃ (sl : LASkipList) (rs : List Reply) (score : ℚ) (sm : StepMap),
      (NewLASkipList (fun i => if i % 2 = 0 then 0 else drawScale)).run
        [LACall.putNP 1 1 (3 / 4), LACall.putNP 0 0 (3 / 2), LACall.putNP 2 2 (3 / 4)]
        = some (sl, rs) ∧
      AnalyzeStep LASkipList.analyable sl [(0, 1 / 2), (1, 1 / 4), (2, 1 / 4)]
        = some ((score, sm), sl) ∧
      (sm.map Prod.fst).Nodup ∧
      (∀ k, k ∈ sm.map Prod.fst
        ↔ k ∈ [((0 : K), (1 / 2 : ℚ)), (1, 1 / 4), (2, 1 / 4)].map Prod.fst) ∧
      sm.length = [((0 : K), (1 / 2 : ℚ)), (1, 1 / 4), (2, 1 / 4)].length :=
  la_analyzeStep_entries (fun i => if i % 2 = 0 then 0 else drawScale)
    [LACall.putNP 1 1 (3 / 4), LACall.putNP 0 0 (3 / 2), LACall.putNP 2 2 (3 / 4)]
    [(0, 1 / 2), (1, 1 / 4), (2, 1 / 4)] (by decide) (by decide)

end Skiplist

namespace Skiplist

/-! ## When `tryUpdate` runs the balancing pass -/

theorem tryUpdate_of_le {list : SplayList} (key : K)
    (h : ¬ ((list.rand.draws list.rand.pos : ℚ) / (drawScale : ℚ)) > list.p) :
    list.tryUpdate key = ({ list with rand := list.rand.Float64.2 } : SplayList).update key := by
  unfold SplayList.tryUpdate
  simp only [Rand.Float64]
  rw [if_neg h]

theorem tryUpdate_of_gt {list : SplayList} (key : K)
    (h : ((list.rand.draws list.rand.pos : ℚ) / (drawScale : ℚ)) > list.p) :
    list.tryUpdate key = some { list with rand := list.rand.Float64.2 } := by
  unfold SplayList.tryUpdate
  simp only [Rand.Float64]
  rw [if_pos h]

theorem drawScale_pos : (0 : ℚ) < (drawScale : ℚ) := by
  unfold drawScale
  norm_num

theorem update_m {list list1 : SplayList} {key : K} (h : list.update key = some list1) :
    list1.m = wrap32 (list.m + 1) := by
  unfold SplayList.update at h
  simp only at h
  split at h
  · cases h
  · split at h
    · cases h
    · cases h
      rfl

/-- C33: `tryUpdate` skips the balancing pass only when the draw is greater than `p`. With
`p = 1` every draw in [0, 1) runs it, and a `Put` of a key that `find` does not find runs
`update` whatever `p` is, so `M` grows by one; with `p = 0` a draw above 0 skips it and
leaves the list as it is but for the source, while the draw 0 runs it: after `Put(1, 1)`
on `NewSplayList(0)`, a `Get(1)` with the draw 0 raises `M` from 1 to 2. -/
theorem tryUpdate_zero_probability :
    (∀ (list : SplayList) (key : K), list.p = 1 → list.rand.draws list.rand.pos < drawScale →
      list.tryUpdate key
        = ({ list with rand := list.rand.Float64.2 } : SplayList).update key) ∧
    (∀ (list l1 l3 : SplayList) (key : K) (value : V), list.find key = some (l1, none) →
      list.Put key value = some l3 → l3.m = wrap32 (list.m + 1)) ∧
    (∀ (list : SplayList) (key : K), list.p = 0 → 0 < list.rand.draws list.rand.pos →
      list.tryUpdate key = some { list with rand := list.rand.Float64.2 }) ∧
    (∀ (list : SplayList) (key : K), list.p = 0 → list.rand.draws list.rand.pos = 0 →
      list.tryUpdate key
        = ({ list with rand := list.rand.Float64.2 } : SplayList).update key) ∧
    (∃ sl sl1 v, (NewSplayList 0 (fun _ => 0)).Put 1 1 = some sl ∧ sl.m = 1 ∧
      sl.Get 1 = some (sl1, v, true) ∧ sl1.m = 2) := by
  refine ⟨?_, ?_, ?_, ?_, ?_⟩
  · intro list key hp hd
    apply tryUpdate_of_le
    rw [hp, gt_iff_lt, not_lt, div_le_one drawScale_pos]
    exact_mod_cast hd.le
  · intro list l1 l3 key value hf hput
    unfold SplayList.Put at hput
    rw [hf] at hput
    simp only at hput
    split at hput
    · cases hput
    · rename_i l2 hins
      split at hput
      · cases hput
      · rename_i l4 hu
        cases hput
        show l4.m = _
        rw [update_m hu]
        have h1 : l2.m = l1.m := by
          unfold SplayList.insertNewNode at hins
          simp only at hins
          split at hins
          · cases hins
          · cases hins; rfl
        have h2 : l1.m = list.m := by
          unfold SplayList.find at hf
          split at hf
          · cases hf
          · cases hf; rfl
        rw [h1, h2]
  · intro list key hp hd
    apply tryUpdate_of_gt
    rw [hp, gt_iff_lt]
    apply div_pos _ drawScale_pos
    exact_mod_cast hd
  · intro list key hp hd
    apply tryUpdate_of_le
    rw [hp, hd]
    simp
  · exact ⟨_, _, _, by with_unfolding_all rfl, by with_unfolding_all rfl,
      by with_unfolding_all rfl, by with_unfolding_all rfl⟩

/-! ## `PutWithNP` on a stored key -/

/-- C39: on every `LASkipList` state reached by calls that leave `k` stored, and for every
`np`, `PutWithNP(k, v, np)` returns and only writes `v` into the node that holds `k`: the
heights and links of all nodes, the keys, the other values, `level`, `size` (so
`GetMaxStats`) and the random source are as before, so no draw is consumed. -/
theorem la_putWithNP_stored (draws : Nat → Nat) (calls : List LACall) (k : K) (v : V)
    (np : ℚ) (hst : (latestLA calls k).isSome = true) :
    ∃ sl rs sl1 cur, (NewLASkipList draws).run calls = some (sl, rs) ∧
      sl.PutWithNP k v np = some sl1 ∧ keyAt sl.mem cur = k ∧
      sl1.rand = sl.rand ∧ sl1.level = sl.level ∧ sl1.size = sl.size ∧ sl1.head = sl.head ∧
      sl1.GetMaxStats = sl.GetMaxStats ∧ sl1.mem.length = sl.mem.length ∧
      (∀ a, lenAt sl1.mem a = lenAt sl.mem a) ∧
      (∀ a h, nextAt sl1.mem a h = nextAt sl.mem a h) ∧
      (∀ a, keyAt sl1.mem a = keyAt sl.mem a) ∧
      (∀ a, valAt sl1.mem a = if a = cur then v else valAt sl.mem a) := by
  obtain ⟨sl, l, rs, h1, hg, h3⟩ := LASkipList.la_run_latest draws calls
  have hv : (tGet (towers sl.mem l) k).isSome = true := by rw [h3]; exact hst
  rw [tGet_towers hg.sorted] at hv
  cases ht : target sl.mem k l with
  | none => rw [ht] at hv; cases hv
  | some cur =>
    obtain ⟨m1, g1, _, _⟩ := hg.update ht v
    refine ⟨sl, rs, { sl with mem := m1 }, cur, h1, ?_, (target_some ht).2, rfl, rfl, rfl, rfl,
      rfl, setValue_length g1, setValue_lenAt g1, setValue_nextAt g1, setValue_keyAt g1,
      setValue_valAt g1⟩
    unfold LASkipList.PutWithNP LASkipList.find
    rw [hg.find_eq k, ht]
    simp only [g1]

/-- A witness for `la_putWithNP_stored`: with every draw 0.5, key 3 is stored with a tower
of height 0 and put again with `np = 16`, which gives a new key a tower of height 5. -/
theorem la_putWithNP_stored_witness :
    ∃ sl rs sl1 cur, (NewLASkipList (fun _ => 2 ^ 52)).run
        [LACall.putNP 3 1 0, LACall.put 5 2] = some (sl, rs) ∧
      sl.PutWithNP 3 9 16 = some sl1 ∧ keyAt sl.mem cur = 3 ∧
      sl1.rand = sl.rand ∧ sl1.level = sl.level ∧ sl1.size = sl.size ∧ sl1.head = sl.head ∧
      sl1.GetMaxStats = sl.GetMaxStats ∧ sl1.mem.length = sl.mem.length ∧
      (∀ a, lenAt sl1.mem a = lenAt sl.mem a) ∧
      (∀ a h, nextAt sl1.mem a h = nextAt sl.mem a h) ∧
      (∀ a, keyAt sl1.mem a = keyAt sl.mem a) ∧
      (∀ a, valAt sl1.mem a = if a = cur then 9 else valAt sl.mem a) :=
  la_putWithNP_stored (fun _ => 2 ^ 52) [LACall.putNP 3 1 0, LACall.put 5 2] 3 9 16
    (by decide)

/-! ## `CheckStruct` on a broken tower -/

/-- C40: on a structure whose node claims level 1 while the head has no forward node on
level 1, `CheckStruct` does not return false: its failure branch prints
`nextAtLevel.GetKey()`, a method call on the nil interface value, which panics. -/
theorem checkStruct_nil_successor :
    BasicSkipList.analyable.GetLevel brokenTower 1 = some 1 ∧
    BasicSkipList.analyable.GetNextAt brokenTower brokenTower.head 1 = some none ∧
    CheckStruct BasicSkipList.analyable brokenTower = none :=
  ⟨by rfl, by rfl, by rfl⟩

end Skiplist

namespace Skiplist

/-! ## The operation stream of `WriteBenchFileFromZipf` -/

theorem zipfSearch_total (cdf : List ℚ) (r : ℚ) : ∀ (fuel : Nat) (lo hi : Int), 0 ≤ lo →
    hi < cdf.length → (hi - lo).toNat < fuel → ∃ x, zipfSearch cdf r fuel lo hi = some x
  | 0, _, _, _, _, h => by omega
  | fuel + 1, lo, hi, h0, h1, h2 => by
    unfold zipfSearch
    by_cases hl : lo < hi
    · rw [if_pos hl]
      have e : (lo + hi).tdiv 2 = (lo + hi) / 2 :=
        Int.tdiv_eq_ediv (by omega) (by decide)
      simp only [e]
      have hm0 : ¬ (lo + hi) / 2 < 0 := by omega
      rw [if_neg hm0]
      have hm1 : ((lo + hi) / 2).toNat < cdf.length := by omega
      rw [List.getElem?_eq_getElem hm1]
      simp only
      split
      · exact zipfSearch_total cdf r fuel _ _ (by omega) h1 (by omega)
      · exact zipfSearch_total cdf r fuel _ _ h0 (by omega) (by omega)
    · rw [if_neg hl]
      exact ⟨_, rfl⟩

theorem Next_total (z : ZipfDataGenerator) (h : z.n ≤ z.cdf.length) :
    ∃ idx, z.Next = some (idx, { z with rng := z.rng.Float64.2 }) := by
  unfold ZipfDataGenerator.Next
  by_cases hn : 0 < z.n
  · obtain ⟨x, hx⟩ := zipfSearch_total z.cdf ((z.rng.Float64.1 : ℚ) / (drawScale : ℚ))
      (z.n.toNat + 1) 0 (z.n - 1) (le_refl _) (by omega) (by omega)
    simp only [hx]
    exact ⟨_, rfl⟩
  · have : zipfSearch z.cdf ((z.rng.Float64.1 : ℚ) / (drawScale : ℚ)) (z.n.toNat + 1) 0
        (z.n - 1) = some 0 := by
      unfold zipfSearch
      rw [if_neg (by omega)]
    simp only [this]
    exact ⟨_, rfl⟩

theorem StreamOK.cons {seen : List Int} {ops : List (OperationType × Int)}
    {op : OperationType} {idx : Int} (h : StreamOK (idx :: seen) ops)
    (h1 : op ≠ OperationType.OpDelete) (h2 : idx ∉ seen → op = OperationType.OpInsert) :
    StreamOK seen ((op, idx) :: ops) := by
  intro i op1 key hi
  cases i with
  | zero =>
    simp only [List.getElem?_cons_zero, Option.some.injEq, Prod.mk.injEq] at hi
    obtain ⟨rfl, rfl⟩ := hi
    exact ⟨h1, fun hk _ => h2 hk⟩
  | succ i =>
    simp only [List.getElem?_cons_succ] at hi
    obtain ⟨a, b⟩ := h i op1 key hi
    refine ⟨a, fun hk hj => b ?_ ?_⟩
    · intro hm
      rcases List.mem_cons.1 hm with e | e
      · exact hj 0 (op, idx) (Nat.succ_pos _) (by simp) e.symm
      · exact hk e
    · intro j e hji hje
      exact hj (j + 1) e (Nat.succ_lt_succ hji) (by simpa using hje)

theorem StreamOK.weaken {seen : List Int} {ops : List (OperationType × Int)} {idx : Int}
    (h : StreamOK seen ops) : StreamOK (idx :: seen) ops := by
  intro i op key hi
  obtain ⟨a, b⟩ := h i op key hi
  exact ⟨a, fun hk hj => b (fun hm => hk (List.mem_cons_of_mem _ hm)) hj⟩

theorem benchLoop_spec : ∀ (k : Nat) (gen : ZipfDataGenerator) (seen : List Int),
    gen.n ≤ gen.cdf.length →
    ∃ ops, benchLoop k gen seen = some ops ∧ ops.length = k ∧ StreamOK seen ops
  | 0, gen, seen, _ => ⟨[], rfl, rfl, fun i op key hi => by simp at hi⟩
  | k + 1, gen, seen, h => by
    obtain ⟨idx, hn⟩ := Next_total gen h
    unfold benchLoop
    rw [hn]
    simp only
    by_cases hs : idx ∈ seen
    · rw [if_neg (not_not.2 hs)]
      obtain ⟨ops, e, hl, hok⟩ := benchLoop_spec k
        { gen with rng := (gen.rng.Float64.2).Float64.2 } seen h
      simp only [e]
      refine ⟨_, rfl, by simp [hl], hok.weaken.cons ?_ (fun hk => absurd hs hk)⟩
      split <;> simp
    · rw [if_pos hs]
      obtain ⟨ops, e, hl, hok⟩ := benchLoop_spec k
        { gen with rng := gen.rng.Float64.2 } (idx :: seen) h
      simp only [e]
      exact ⟨_, rfl, by simp [hl], hok.cons (by simp) (fun _ => rfl)⟩

/-- C37: for a generator whose `cdf` has `n` entries and every `k >= 0`, whatever the draws
are, `WriteBenchFileFromZipf` writes exactly `k` operations, none of them a `Delete` (each is
a `Query` or an `Insert`), and a record whose key is in no earlier record is an `Insert`. -/
theorem writeBenchFile_stream (gen : ZipfDataGenerator) (k : Int)
    (hn : gen.n ≤ gen.cdf.length) (hk : 0 ≤ k) :
    ∃ ops, WriteBenchFileFromZipf (some gen) k = some ops ∧ (ops.length : Int) = k ∧
      ∀ (i : Nat) (op : OperationType) (key : Int), ops[i]? = some (op, key) →
        op ≠ OperationType.OpDelete ∧
        (op = OperationType.OpQuery ∨ op = OperationType.OpInsert) ∧
        ((∀ (j : Nat) (e : OperationType × Int), j < i → ops[j]? = some e → e.2 ≠ key) →
          op = OperationType.OpInsert) := by
  obtain ⟨ops, e, hl, hok⟩ := benchLoop_spec k.toNat gen [] hn
  refine ⟨ops, ?_, by omega, ?_⟩
  · unfold WriteBenchFileFromZipf
    simp only
    rw [if_neg (by omega), e]
  · intro i op key hi
    obtain ⟨a, b⟩ := hok i op key hi
    refine ⟨a, ?_, b (by simp)⟩
    cases op
    · exact Or.inl rfl
    · exact Or.inr rfl
    · exact absurd rfl a

/-- A witness for `writeBenchFile_stream`: three keys with cumulative weights 1/2, 3/4, 1,
the draws 0, 1/4, 1/2, 3/4 in turn, and five operations. -/
theorem writeBenchFile_stream_witness :
    ∃ ops, WriteBenchFileFromZipf
        (some { n := 3, cdf := [1/2, 3/4, 1], rng := { draws := fun i => i % 4 * 2 ^ 51, pos := 0 } })
        5 = some ops ∧ (ops.length : Int) = 5 ∧
      ∀ (i : Nat) (op : OperationType) (key : Int), ops[i]? = some (op, key) →
        op ≠ OperationType.OpDelete ∧
        (op = OperationType.OpQuery ∨ op = OperationType.OpInsert) ∧
        ((∀ (j : Nat) (e : OperationType × Int), j < i → ops[j]? = some e → e.2 ≠ key) →
          op = OperationType.OpInsert) :=
  writeBenchFile_stream
    { n := 3, cdf := [1/2, 3/4, 1], rng := { draws := fun i => i % 4 * 2 ^ 51, pos := 0 } } 5
    (by decide) (by decide)

end Skiplist

namespace Skiplist

/-! ## The totals of `FindStep` -/

theorem findStepLevelsAt_forget {σ : Type} (A : Analyable σ) (s : σ) (key : K) :
    ∀ (h cur : Nat) (total : Int) (per : List Int),
      (findStepLevelsAt A s key h cur total per).map (fun r => r.2)
        = findStepLevels A s key h cur total per
  | 0, cur, total, per => by
    rw [findStepLevelsAt, findStepLevels]
    cases findStepLevel A s key 0 cur total per with
    | none => rfl
    | some r =>
      obtain ⟨b, c1, t1, p1⟩ := r
      cases b <;> rfl
  | h + 1, cur, total, per => by
    rw [findStepLevelsAt, findStepLevels]
    cases findStepLevel A s key (h + 1) cur total per with
    | none => rfl
    | some r =>
      obtain ⟨b, c1, t1, p1⟩ := r
      cases b
      · exact findStepLevelsAt_forget A s key h c1 t1 p1
      · rfl

theorem FindStepAt_forget {σ : Type} (A : Analyable σ) (sl : σ) (key : K) :
    (FindStepAt A sl key).map (fun r => (r.1.2, r.2)) = FindStep A sl key := by
  unfold FindStepAt FindStep
  cases A.GetHead sl with
  | none => rfl
  | some r =>
    obtain ⟨p, s1⟩ := r
    cases p with
    | none => rfl
    | some cur =>
      simp only
      cases A.GetMaxStats s1 with
      | none => rfl
      | some q =>
        obtain ⟨⟨sz, maxLevel⟩, s2⟩ := q
        simp only
        split
        · rfl
        · split
          · rfl
          · rw [← findStepLevelsAt_forget]
            simp only [Option.map_map]
            rfl

theorem sum_set_zero : ∀ (per : List Int) (h : Nat) (v : Int), per[h]? = some 0 →
    (per.set h v).sum = per.sum + v
  | [], h, v, hz => by simp at hz
  | x :: per, 0, v, hz => by
    simp only [List.getElem?_cons_zero, Option.some.injEq] at hz
    subst hz
    simp only [List.set_cons_zero, List.sum_cons]
    ring
  | x :: per, h + 1, v, hz => by
    simp only [List.getElem?_cons_succ] at hz
    simp only [List.set_cons_succ, List.sum_cons, sum_set_zero per h v hz]
    ring

/-- One round of `FindStep` writes one entry of the breakdown and adds one more to the total
than to the breakdown unless it returns. -/
theorem findStepLevel_books {σ : Type} {A : Analyable σ} {s : σ} {key : K} {h cur : Nat}
    {total : Int} {per : List Int} {b : Bool} {c1 : Nat} {t1 : Int} {p1 : List Int}
    (hf : findStepLevel A s key h cur total per = some (b, c1, t1, p1)) :
    h < per.length ∧ ∃ ls : Int, t1 = total + (ls + 1) ∧
      p1 = per.set h (if b = true then ls + 1 else ls) := by
  unfold findStepLevel at hf
  split at hf
  · cases hf
  · rename_i cur1 ls hw
    split at hf
    · cases hf
    · split at hf
      · cases hf
      · split at hf
        · cases hf
        · rename_i per1 hs
          cases hf
          unfold setIdx at hs
          split at hs
          · cases hs
          · rename_i hc
            cases hs
            exact ⟨by omega, ls, rfl, by simp⟩
      · split at hf
        · cases hf
        · rename_i per1 hs
          cases hf
          unfold setIdx at hs
          split at hs
          · cases hs
          · rename_i hc
            cases hs
            exact ⟨by omega, ls, rfl, by simp⟩

theorem findStepLevelsAt_books {σ : Type} {A : Analyable σ} {s : σ} {key : K} :
    ∀ (h cur : Nat) (total : Int) (per : List Int) (found : Option Nat) (t1 : Int)
      (p1 : List Int), findStepLevelsAt A s key h cur total per = some (found, t1, p1) →
      (∀ i, i ≤ h → i < per.length → per[i]? = some 0) →
      p1.length = per.length ∧ h < per.length ∧
      match found with
      | some g => g ≤ h ∧ t1 - p1.sum = total - per.sum + ((h : Int) - g)
      | none => t1 - p1.sum = total - per.sum + ((h : Int) + 1)
  | 0, cur, total, per, found, t1, p1, hf, hz => by
    rw [findStepLevelsAt] at hf
    split at hf
    · cases hf
    · rename_i c1 t2 p2 hl
      cases hf
      obtain ⟨hlt, ls, e1, e2⟩ := findStepLevel_books hl
      subst e1 e2
      refine ⟨by simp, hlt, le_refl _, ?_⟩
      rw [sum_set_zero per 0 _ (hz 0 (le_refl _) hlt)]
      simp
    · rename_i c1 t2 p2 hl
      cases hf
      obtain ⟨hlt, ls, e1, e2⟩ := findStepLevel_books hl
      subst e1 e2
      refine ⟨by simp, hlt, ?_⟩
      rw [sum_set_zero per 0 _ (hz 0 (le_refl _) hlt)]
      simp only [Bool.false_eq_true, if_false]
      push_cast
      ring
  | h + 1, cur, total, per, found, t1, p1, hf, hz => by
    rw [findStepLevelsAt] at hf
    split at hf
    · cases hf
    · rename_i c1 t2 p2 hl
      cases hf
      obtain ⟨hlt, ls, e1, e2⟩ := findStepLevel_books hl
      subst e1 e2
      refine ⟨by simp, hlt, le_refl _, ?_⟩
      rw [sum_set_zero per (h + 1) _ (hz (h + 1) (le_refl _) hlt)]
      simp
    · rename_i c1 t2 p2 hl
      obtain ⟨hlt, ls, e1, e2⟩ := findStepLevel_books hl
      subst e1 e2
      have hz1 : ∀ i, i ≤ h → i < (per.set (h + 1) ls).length →
          (per.set (h + 1) ls)[i]? = some 0 := by
        intro i hi hil
        rw [List.getElem?_set_ne (by omega)]
        exact hz i (by omega) (by simpa using hil)
      simp only [Bool.false_eq_true, if_false] at hf
      obtain ⟨a, b, c⟩ := findStepLevelsAt_books h c1 _ _ found t1 p1 hf hz1
      rw [sum_set_zero per (h + 1) _ (hz (h + 1) (le_refl _) hlt)] at c
      refine ⟨by simpa using a, hlt, ?_⟩
      cases found with
      | some g =>
        simp only at c ⊢
        refine ⟨by omega, ?_⟩
        rw [c.2]
        push_cast
        ring
      | none =>
        simp only at c ⊢
        rw [c]
        push_cast
        ring

end Skiplist

namespace Skiplist

theorem FindStepAt_books {σ : Type} {A : Analyable σ} {sl : σ} {key : K} {cur : Nat}
    {s1 s2 s3 : σ} {size maxLevel : Int} {found : Option Nat} {total : Int} {per : List Int}
    (hh : A.GetHead sl = some (some cur, s1))
    (hm : A.GetMaxStats s1 = some ((size, maxLevel), s2))
    (hf : FindStepAt A sl key = some ((found, total, per), s3)) :
    (per.length : Int) = maxLevel + 1 ∧
      (∀ h : Nat, found = some h → (h : Int) ≤ maxLevel ∧ total = per.sum + (maxLevel - h)) ∧
      (found = none → total = per.sum + maxLevel + 1) := by
  unfold FindStepAt at hf
  rw [hh] at hf
  simp only at hf
  rw [hm] at hf
  simp only at hf
  split at hf
  · cases hf
  · rename_i h1
    split at hf
    · rename_i h2
      cases hf
      have e : maxLevel = -1 := by omega
      subst e
      exact ⟨rfl, (fun h hc => by cases hc), fun _ => rfl⟩
    · rename_i h2
      cases hr : findStepLevelsAt A s2 key maxLevel.toNat cur 0
          (List.replicate (maxLevel + 1).toNat 0) with
      | none => rw [hr] at hf; cases hf
      | some r =>
        rw [hr] at hf
        cases hf
        obtain ⟨a, b, c⟩ := findStepLevelsAt_books maxLevel.toNat cur 0 _ found total per hr
          (by
            intro i _ hi
            rw [List.getElem?_eq_getElem hi]
            simp)
        simp only [List.length_replicate] at a
        refine ⟨by omega, ?_⟩
        have hs : (List.replicate (maxLevel + 1).toNat (0 : Int)).sum = 0 := by simp
        rw [hs] at c
        cases found with
        | some g =>
          simp only at c
          refine ⟨?_, fun hc => by cases hc⟩
          intro h hh1
          cases hh1
          exact ⟨by omega, by omega⟩
        | none =>
          simp only at c
          refine ⟨(fun h hc => by cases hc), fun _ => ?_⟩
          omega

end Skiplist

namespace Skiplist

/-! ## One ascent step of `update` -/

theorem sHits_of {mem : List SplayNode} {a : Nat} {nd : SplayNode} (h : mem[a]? = some nd)
    (l : Int) : sHits mem a l = idx nd.hits l := by
  unfold sHits
  rw [h]

theorem sNext_of {mem : List SplayNode} {a : Nat} {nd : SplayNode} (h : mem[a]? = some nd)
    (l : Int) : sNext mem a l = idx nd.next l := by
  unfold sNext
  rw [h]

theorem setHits_of {mem : List SplayNode} {a : Nat} {nd : SplayNode} (h : mem[a]? = some nd)
    {l : Int} (h0 : 0 ≤ l) (h1 : l < nd.hits.length) (v : Int) :
    setHits mem a l v = some (mem.set a { nd with hits := nd.hits.set l.toNat v }) := by
  unfold setHits
  rw [h]
  simp only
  rw [setIdx_isSome _ _ h0 h1]

theorem sSetNext_of {mem : List SplayNode} {a : Nat} {nd : SplayNode} (h : mem[a]? = some nd)
    {l : Int} (h0 : 0 ≤ l) (h1 : l < nd.next.length) (p : Ptr) :
    sSetNext mem a l p = some (mem.set a { nd with next := nd.next.set l.toNat p }) := by
  unfold sSetNext
  rw [h]
  simp only
  rw [setIdx_isSome _ _ h0 h1]

theorem set_get_self {α : Type} {mem : List α} {a : Nat} {nd : α} (h : mem[a]? = some nd)
    (x : α) : (mem.set a x)[a]? = some x := by
  have hl : a < mem.length := by
    by_contra hc
    rw [List.getElem?_eq_none (by omega)] at h
    cases h
  rw [List.getElem?_set_self hl]

theorem set_get_ne {α : Type} (mem : List α) {a b : Nat} (hne : a ≠ b) (x : α) :
    (mem.set a x)[b]? = mem[b]? :=
  List.getElem?_set_ne hne

/-- The heap after one ascent step, written out. -/
theorem ascentStep_eq {mem : List SplayNode} {curr prepred : Nat} {c q : SplayNode}
    (hc : mem[curr]? = some c) (hq : mem[prepred]? = some q) (hne : curr ≠ prepred)
    (h0 : 0 ≤ c.topLevel) (h1 : c.topLevel ≤ 31) (hcn : c.next.length = 33)
    (hch : c.hits.length = 33) (hqn : q.next.length = 33) (hqh : q.hits.length = 33)
    {a b : Int} {qn : Ptr} (ha : idx q.hits (c.topLevel + 1) = some a)
    (hb : idx q.hits c.topLevel = some b) (hn : idx q.next (c.topLevel + 1) = some qn) :
    ascentStep mem curr prepred = some
      ((mem.set curr
          { c with topLevel := c.topLevel + 1
                   hits := c.hits.set (c.topLevel + 1).toNat
                     (wrap32 (wrap32 (a - b) - c.selfhits))
                   next := c.next.set (c.topLevel + 1).toNat qn }).set prepred
          { q with hits := q.hits.set (c.topLevel + 1).toNat b
                   next := q.next.set (c.topLevel + 1).toNat (some curr) }) := by
  have hw : wrap32 (c.topLevel + 1) = c.topLevel + 1 := wrap32_of_range (by omega) (by omega)
  have hw1 : wrap32 (c.topLevel + 1 - 1) = c.topLevel := by
    rw [add_sub_cancel_right]
    exact wrap32_of_range (by omega) (by omega)
  unfold ascentStep
  rw [hc]
  simp only
  rw [hw, hw1]
  have q1 : (mem.set curr { c with topLevel := c.topLevel + 1 })[prepred]? = some q := by
    rw [set_get_ne mem hne, hq]
  have c1 := set_get_self hc { c with topLevel := c.topLevel + 1 }
  rw [sHits_of q1, sHits_of q1, ha, hb, c1]
  simp only
  rw [setHits_of c1 (by omega) (by simp only; omega)]
  simp only [List.set_set]
  have c2 := set_get_self hc
    { c with topLevel := c.topLevel + 1
             hits := c.hits.set (c.topLevel + 1).toNat (wrap32 (wrap32 (a - b) - c.selfhits)) }
  have q2 : (mem.set curr
      { c with topLevel := c.topLevel + 1
               hits := c.hits.set (c.topLevel + 1).toNat
                 (wrap32 (wrap32 (a - b) - c.selfhits)) })[prepred]? = some q := by
    rw [set_get_ne mem hne, hq]
  rw [sNext_of q2, hn]
  simp only
  rw [sSetNext_of c2 (by omega) (by simp only; omega)]
  simp only [List.set_set]
  have q3 : (mem.set curr
      { c with topLevel := c.topLevel + 1
               hits := c.hits.set (c.topLevel + 1).toNat
                 (wrap32 (wrap32 (a - b) - c.selfhits))
               next := c.next.set (c.topLevel + 1).toNat qn })[prepred]? = some q := by
    rw [set_get_ne mem hne, hq]
  rw [sHits_of q3, hb]
  simp only
  rw [setHits_of q3 (by omega) (by omega)]
  simp only
  have hq0 := set_get_self hq
  have q4 := set_get_self q3 { q with hits := q.hits.set (c.topLevel + 1).toNat b }
  rw [sSetNext_of q4 (by omega) (by simp only; omega)]
  simp only [List.set_set]

end Skiplist

namespace Skiplist

theorem idx_set_self {α : Type} (xs : List α) {i : Int} (v : α) (h0 : 0 ≤ i)
    (h1 : i < xs.length) : idx (xs.set i.toNat v) i = some v := by
  rw [idx_set xs v h0 h1, if_pos rfl]

theorem idx_set_ne {α : Type} (xs : List α) {i l : Int} (v : α) (h0 : 0 ≤ i)
    (h1 : i < xs.length) (hne : l ≠ i) : idx (xs.set i.toNat v) l = idx xs l := by
  rw [idx_set xs v h0 h1, if_neg hne]

theorem wrap32_share (s a b t : Int) :
    wrap32 (wrap32 (s + b) + wrap32 (t + wrap32 (wrap32 (a - b) - t))) = wrap32 (s + a) ∧
    wrap32 (t + wrap32 (wrap32 (a - b) - t)) = wrap32 (a - b) := by
  unfold wrap32
  omega

/-- C31: one ascent step on a node `c` at `curr` with `0 <= c.topLevel <= 31` under the
prepred `q`, both with arrays of 33 entries, returns; with `n = c.topLevel + 1` afterwards
`c.topLevel = n`, `c.next[n]` is the old `q.next[n]`, `q.next[n] = c`,
`c.hits[n] = old q.hits[n] - q.hits[n-1] - c.selfhits` and `q.hits[n] = q.hits[n-1]` in
`int32` arithmetic, all other fields, entries and nodes are as before, and when both private
baselines are at most `n` the sum `getHits(q, n) + getHits(c, n)` after the step is
`getHits(q, n)` before it, with `getHits(c, n) = old q.hits[n] - q.hits[n-1]`. -/
theorem ascentStep_conserves (mem : List SplayNode) (curr prepred : Nat) (c q : SplayNode)
    (hc : mem[curr]? = some c) (hq : mem[prepred]? = some q) (hne : curr ≠ prepred)
    (h0 : 0 ≤ c.topLevel) (h1 : c.topLevel ≤ 31) (hcn : c.next.length = 33)
    (hch : c.hits.length = 33) (hqn : q.next.length = 33) (hqh : q.hits.length = 33) :
    ∃ mem1 c1 q1 a b, ascentStep mem curr prepred = some mem1 ∧
      mem1[curr]? = some c1 ∧ mem1[prepred]? = some q1 ∧
      idx q.hits (c.topLevel + 1) = some a ∧ idx q.hits c.topLevel = some b ∧
      c1.topLevel = c.topLevel + 1 ∧
      idx c1.next (c.topLevel + 1) = idx q.next (c.topLevel + 1) ∧
      idx q1.next (c.topLevel + 1) = some (some curr) ∧
      idx c1.hits (c.topLevel + 1) = some (wrap32 (wrap32 (a - b) - c.selfhits)) ∧
      idx q1.hits (c.topLevel + 1) = some b ∧ idx q1.hits c.topLevel = some b ∧
      c1.selfhits = c.selfhits ∧ q1.selfhits = q.selfhits ∧ c1.zeroLevel = c.zeroLevel ∧
      q1.zeroLevel = q.zeroLevel ∧ q1.topLevel = q.topLevel ∧ c1.key = c.key ∧
      q1.key = q.key ∧
      (∀ l : Int, l ≠ c.topLevel + 1 → idx c1.hits l = idx c.hits l ∧
        idx c1.next l = idx c.next l ∧ idx q1.hits l = idx q.hits l ∧
        idx q1.next l = idx q.next l) ∧
      (∀ x : Nat, x ≠ curr → x ≠ prepred → mem1[x]? = mem[x]?) ∧
      (c.zeroLevel ≤ c.topLevel + 1 → q.zeroLevel ≤ c.topLevel + 1 →
        ∃ g g1 gc, getHits mem prepred (c.topLevel + 1) = some g ∧
          getHits mem1 prepred (c.topLevel + 1) = some g1 ∧
          getHits mem1 curr (c.topLevel + 1) = some gc ∧
          wrap32 (g1 + gc) = g ∧ gc = wrap32 (a - b)) := by
  obtain ⟨a, ha⟩ := idx_isSome q.hits (i := c.topLevel + 1) (by omega) (by omega)
  obtain ⟨b, hb⟩ := idx_isSome q.hits h0 (by omega)
  obtain ⟨qn, hn⟩ := idx_isSome q.next (i := c.topLevel + 1) (by omega) (by omega)
  have hs := ascentStep_eq hc hq hne h0 h1 hcn hch hqn hqh ha hb hn
  have hq1 := @set_get_self SplayNode (mem.set curr
      { c with topLevel := c.topLevel + 1
               hits := c.hits.set (c.topLevel + 1).toNat (wrap32 (wrap32 (a - b) - c.selfhits))
               next := c.next.set (c.topLevel + 1).toNat qn }) prepred q
    (by rw [set_get_ne mem hne, hq])
    { q with hits := q.hits.set (c.topLevel + 1).toNat b
             next := q.next.set (c.topLevel + 1).toNat (some curr) }
  have hc1 : ((mem.set curr
      { c with topLevel := c.topLevel + 1
               hits := c.hits.set (c.topLevel + 1).toNat (wrap32 (wrap32 (a - b) - c.selfhits))
               next := c.next.set (c.topLevel + 1).toNat qn }).set prepred
      { q with hits := q.hits.set (c.topLevel + 1).toNat b
               next := q.next.set (c.topLevel + 1).toNat (some curr) })[curr]? = some
      { c with topLevel := c.topLevel + 1
               hits := c.hits.set (c.topLevel + 1).toNat (wrap32 (wrap32 (a - b) - c.selfhits))
               next := c.next.set (c.topLevel + 1).toNat qn } := by
    rw [set_get_ne _ (Ne.symm hne)]
    exact set_get_self hc _
  have p0 : (0 : Int) ≤ c.topLevel + 1 := by omega
  refine ⟨_, _, _, a, b, hs, hc1, hq1, ha, hb, rfl, ?_, ?_, ?_, ?_, ?_, rfl, rfl, rfl, rfl, rfl,
    rfl, rfl, ?_, ?_, ?_⟩
  · show idx (c.next.set (c.topLevel + 1).toNat qn) (c.topLevel + 1) = _
    rw [idx_set_self _ _ p0 (by omega), hn]
  · show idx (q.next.set (c.topLevel + 1).toNat (some curr)) (c.topLevel + 1) = _
    rw [idx_set_self _ _ p0 (by omega)]
  · show idx (c.hits.set (c.topLevel + 1).toNat _) (c.topLevel + 1) = _
    rw [idx_set_self _ _ p0 (by omega)]
  · show idx (q.hits.set (c.topLevel + 1).toNat b) (c.topLevel + 1) = _
    rw [idx_set_self _ _ p0 (by omega)]
  · show idx (q.hits.set (c.topLevel + 1).toNat b) c.topLevel = _
    rw [idx_set_ne _ _ p0 (by omega) (by omega), hb]
  · intro l hl
    refine ⟨?_, ?_, ?_, ?_⟩
    · show idx (c.hits.set (c.topLevel + 1).toNat _) l = _
      rw [idx_set_ne _ _ p0 (by omega) hl]
    · show idx (c.next.set (c.topLevel + 1).toNat _) l = _
      rw [idx_set_ne _ _ p0 (by omega) hl]
    · show idx (q.hits.set (c.topLevel + 1).toNat _) l = _
      rw [idx_set_ne _ _ p0 (by omega) hl]
    · show idx (q.next.set (c.topLevel + 1).toNat _) l = _
      rw [idx_set_ne _ _ p0 (by omega) hl]
  · intro x hx1 hx2
    rw [set_get_ne _ (Ne.symm hx2), set_get_ne _ (Ne.symm hx1)]
  · intro hzc hzq
    refine ⟨wrap32 (q.selfhits + a), wrap32 (q.selfhits + b),
      wrap32 (c.selfhits + wrap32 (wrap32 (a - b) - c.selfhits)), ?_, ?_, ?_,
      (wrap32_share _ _ _ _).1, (wrap32_share q.selfhits a b _).2⟩
    · unfold getHits
      rw [hq]
      simp only
      rw [if_neg (by omega), ha]
    · unfold getHits
      rw [hq1]
      simp only
      rw [if_neg (by omega), idx_set_self _ _ p0 (by omega)]
    · unfold getHits
      rw [hc1]
      simp only
      rw [if_neg (by omega), idx_set_self _ _ p0 (by omega)]

/-- A witness for `ascentStep_conserves`: `midNode` at address 1 is raised from level 1 to
level 2 under `towerNode` at address 0. -/
theorem ascentStep_conserves_witness :
    ∃ mem1 c1 q1 a b, ascentStep sampleHeap 1 0 = some mem1 ∧
      mem1[1]? = some c1 ∧ mem1[0]? = some q1 ∧
      idx towerNode.hits (midNode.topLevel + 1) = some a ∧ idx towerNode.hits midNode.topLevel = some b ∧
      c1.topLevel = midNode.topLevel + 1 ∧
      idx c1.next (midNode.topLevel + 1) = idx towerNode.next (midNode.topLevel + 1) ∧
      idx q1.next (midNode.topLevel + 1) = some (some 1) ∧
      idx c1.hits (midNode.topLevel + 1) = some (wrap32 (wrap32 (a - b) - midNode.selfhits)) ∧
      idx q1.hits (midNode.topLevel + 1) = some b ∧ idx q1.hits midNode.topLevel = some b ∧
      c1.selfhits = midNode.selfhits ∧ q1.selfhits = towerNode.selfhits ∧ c1.zeroLevel = midNode.zeroLevel ∧
      q1.zeroLevel = towerNode.zeroLevel ∧ q1.topLevel = towerNode.topLevel ∧ c1.key = midNode.key ∧
      q1.key = towerNode.key ∧
      (∀ l : Int, l ≠ midNode.topLevel + 1 → idx c1.hits l = idx midNode.hits l ∧
        idx c1.next l = idx midNode.next l ∧ idx q1.hits l = idx towerNode.hits l ∧
        idx q1.next l = idx towerNode.next l) ∧
      (∀ x : Nat, x ≠ 1 → x ≠ 0 → mem1[x]? = sampleHeap[x]?) ∧
      (midNode.zeroLevel ≤ midNode.topLevel + 1 → towerNode.zeroLevel ≤ midNode.topLevel + 1 →
        ∃ g g1 gc, getHits sampleHeap 0 (midNode.topLevel + 1) = some g ∧
          getHits mem1 0 (midNode.topLevel + 1) = some g1 ∧
          getHits mem1 1 (midNode.topLevel + 1) = some gc ∧
          wrap32 (g1 + gc) = g ∧ gc = wrap32 (a - b)) :=
  ascentStep_conserves sampleHeap 1 0 midNode towerNode (by rfl) (by rfl) (by decide)
    (by decide) (by decide) (by rfl) (by rfl) (by rfl) (by rfl)

end Skiplist

namespace Skiplist

/-! ## One descent step of `update` -/

theorem TwoNodes.setCurr {mem1 mem : List SplayNode} {curr pred : Nat} {c1 q1 : SplayNode}
    (h : TwoNodes mem1 mem curr pred c1 q1) (hne : curr ≠ pred) (y : SplayNode) :
    TwoNodes (mem1.set curr y) mem curr pred y q1 := by
  refine ⟨set_get_self h.1 y, ?_, ?_⟩
  · rw [set_get_ne _ hne]
    exact h.2.1
  · intro x hx1 hx2
    rw [set_get_ne _ (Ne.symm hx1)]
    exact h.2.2 x hx1 hx2

theorem TwoNodes.setPred {mem1 mem : List SplayNode} {curr pred : Nat} {c1 q1 : SplayNode}
    (h : TwoNodes mem1 mem curr pred c1 q1) (hne : curr ≠ pred) (y : SplayNode) :
    TwoNodes (mem1.set pred y) mem curr pred c1 y := by
  refine ⟨?_, set_get_self h.2.1 y, ?_⟩
  · rw [set_get_ne _ (Ne.symm hne)]
    exact h.1
  · intro x hx1 hx2
    rw [set_get_ne _ (Ne.symm hx2)]
    exact h.2.2 x hx1 hx2

/-- The call `updateUpToLevel(node, L)` on a node with full arrays: it returns, and the node
afterwards is described by `syncNode_spec`. -/
theorem updateUpToLevel_spec {mem : List SplayNode} {a : Nat} {nd : SplayNode}
    (hnd : mem[a]? = some nd) {L : Int} (hL : 0 ≤ L) (hn : nd.next.length = 33)
    (hh : nd.hits.length = 33) (hz : nd.zeroLevel ≤ 32) :
    ∃ nd1, updateUpToLevel mem (some a) L = some (mem.set a nd1) ∧
      nd1.zeroLevel = min nd.zeroLevel L ∧
      nd1.topLevel = nd.topLevel ∧ nd1.selfhits = nd.selfhits ∧ nd1.key = nd.key ∧
      nd1.value = nd.value ∧ nd1.deleted = nd.deleted ∧
      nd1.next.length = 33 ∧ nd1.hits.length = 33 ∧
      (∀ l, idx nd1.next l
        = if L ≤ l ∧ l < nd.zeroLevel then idx nd.next nd.zeroLevel else idx nd.next l) ∧
      (∀ l, idx nd1.hits l = if L ≤ l ∧ l < nd.zeroLevel then some 0 else idx nd.hits l) := by
  obtain ⟨nd1, h1, hrest⟩ := syncNode_spec L hL 40 nd hn hh hz (by omega)
  refine ⟨nd1, ?_, hrest⟩
  unfold updateUpToLevel
  simp only [hnd, h1]

/-- The descent step written out on the two nodes it touches. -/
theorem descentStep_two {mem : List SplayNode} {zero l : Int} {curr pred : Nat}
    {c q : SplayNode} (hc : mem[curr]? = some c) (hq : mem[pred]? = some q)
    (hne : curr ≠ pred) (hl1 : 1 ≤ l) (hl2 : l ≤ 31) (hzc : c.zeroLevel ≤ l)
    (hzq : q.zeroLevel ≤ l) (hcn : c.next.length = 33)
    (hch : c.hits.length = 33) (hqn : q.next.length = 33) (hqh : q.hits.length = 33) :
    ∃ (mem1 : List SplayNode) (cs qs : SplayNode) (ph x : Int) (cn : Ptr),
      descentStep mem zero l curr pred
        = some (mem1, if l = zero then wrap32 (zero - 1) else zero) ∧
      TwoNodes mem1 mem curr pred
        { cs with hits := cs.hits.set l.toNat 0, next := cs.next.set l.toNat none,
                  topLevel := wrap32 (c.topLevel - 1) }
        { qs with hits := qs.hits.set l.toNat (wrap32 (ph + wrap32 (c.selfhits + x))),
                  next := qs.next.set l.toNat cn } ∧
      idx q.hits l = some ph ∧ idx c.hits l = some x ∧ idx c.next l = some cn ∧
      getHits mem curr l = some (wrap32 (c.selfhits + x)) ∧
      (cs.zeroLevel = min c.zeroLevel (l - 1) ∧ cs.selfhits = c.selfhits ∧ cs.key = c.key ∧
        cs.value = c.value ∧ cs.deleted = c.deleted ∧ cs.next.length = 33 ∧
        cs.hits.length = 33 ∧
        (∀ i, idx cs.next i = if l - 1 ≤ i ∧ i < c.zeroLevel then idx c.next c.zeroLevel
          else idx c.next i) ∧
        (∀ i, idx cs.hits i = if l - 1 ≤ i ∧ i < c.zeroLevel then some 0 else idx c.hits i)) ∧
      (qs.zeroLevel = min q.zeroLevel (l - 1) ∧ qs.topLevel = q.topLevel ∧
        qs.selfhits = q.selfhits ∧ qs.key = q.key ∧
        qs.value = q.value ∧ qs.deleted = q.deleted ∧ qs.next.length = 33 ∧
        qs.hits.length = 33 ∧
        (∀ i, idx qs.next i = if l - 1 ≤ i ∧ i < q.zeroLevel then idx q.next q.zeroLevel
          else idx q.next i) ∧
        (∀ i, idx qs.hits i = if l - 1 ≤ i ∧ i < q.zeroLevel then some 0
          else idx q.hits i)) := by
  have hw : wrap32 (l - 1) = l - 1 := wrap32_of_range (by omega) (by omega)
  obtain ⟨cs, u1, c2, c3, c4, c5, c6, c7, c8, c9, c10, c11⟩ :=
    updateUpToLevel_spec hc (L := l - 1) (by omega) hcn hch (by omega)
  have t1 : TwoNodes (mem.set curr cs) mem curr pred cs q :=
    TwoNodes.setCurr ⟨hc, hq, fun _ _ _ => rfl⟩ hne cs
  obtain ⟨qs, u2, q2, q3, q4, q5, q6, q7, q8, q9, q10, q11⟩ :=
    updateUpToLevel_spec t1.2.1 (L := l - 1) (by omega) hqn hqh (by omega)
  have t2 := t1.setPred hne qs
  obtain ⟨ph, hph⟩ := idx_isSome q.hits (i := l) (by omega) (by omega)
  obtain ⟨x, hx⟩ := idx_isSome c.hits (i := l) (by omega) (by omega)
  obtain ⟨cn, hcnx⟩ := idx_isSome c.next (i := l) (by omega) (by omega)
  have hph2 : idx qs.hits l = some ph := by rw [q11 l, if_neg (by omega), hph]
  have hx2 : idx cs.hits l = some x := by rw [c11 l, if_neg (by omega), hx]
  have hcn2 : idx cs.next l = some cn := by rw [c10 l, if_neg (by omega), hcnx]
  have g0 : getHits mem curr l = some (wrap32 (c.selfhits + x)) := by
    unfold getHits
    rw [hc]
    simp only
    rw [if_neg (by omega), hx]
  have g2 : getHits ((mem.set curr cs).set pred qs) curr l
      = some (wrap32 (c.selfhits + x)) := by
    unfold getHits
    rw [t2.1]
    simp only
    rw [if_neg (by rw [c2]; omega), hx2, c4]
  have t3 := t2.setPred hne
    { qs with hits := qs.hits.set l.toNat (wrap32 (ph + wrap32 (c.selfhits + x))) }
  have t4 := t3.setCurr hne { cs with hits := cs.hits.set l.toNat 0 }
  have t5 := t4.setPred hne
    { qs with hits := qs.hits.set l.toNat (wrap32 (ph + wrap32 (c.selfhits + x)))
              next := qs.next.set l.toNat cn }
  have t6 := t5.setCurr hne
    { cs with hits := cs.hits.set l.toNat 0, next := cs.next.set l.toNat none }
  have t7 := t6.setCurr hne
    { cs with hits := cs.hits.set l.toNat 0, next := cs.next.set l.toNat none
              topLevel := wrap32 (c.topLevel - 1) }
  refine ⟨_, cs, qs, ph, x, cn, ?_, t7, hph, hx, hcnx, g0,
    ⟨c2, c4, c5, c6, c7, c8, c9, c10, c11⟩, ⟨q2, q3, q4, q5, q6, q7, q8, q9, q10, q11⟩⟩
  unfold descentStep
  simp only
  rw [hw, u1]
  simp only
  rw [u2]
  simp only
  rw [sHits_of t2.2.1, hph2, g2]
  simp only
  rw [setHits_of t2.2.1 (by omega) (by omega)]
  simp only
  rw [setHits_of t3.1 (by omega) (by omega)]
  simp only
  rw [sNext_of t4.1]
  simp only
  rw [hcn2]
  simp only
  rw [sSetNext_of t4.2.1 (by omega) (by simp only; omega)]
  simp only
  rw [sSetNext_of t5.1 (by omega) (by simp only; omega)]
  simp only
  rw [t6.1]
  simp only [c3]

end Skiplist

namespace Skiplist

theorem linkedAt_congr {mem mem1 : List SplayNode} {level : Int} :
    ∀ (via : List Nat) (a b : Nat),
      (∀ x ∈ a :: via, sNext mem1 x level = sNext mem x level) →
      linkedAt mem level a via b → linkedAt mem1 level a via b
  | [], a, b, hs, h => by
    unfold linkedAt at h ⊢
    rw [hs a (List.mem_cons_self _ _)]
    exact h
  | x :: via, a, b, hs, h => by
    unfold linkedAt at h ⊢
    rw [hs a (List.mem_cons_self _ _)]
    exact ⟨h.1, linkedAt_congr via x b (fun y hy => hs y (List.mem_cons_of_mem _ hy)) h.2⟩

/-- C32: one descent step at a level `1 <= l <= 31` on a node `c` with `c.topLevel = l` and
its predecessor `q`, both with baseline at most `l` and arrays of 33 entries, returns;
afterwards `q.next[l]` is the old `c.next[l]`, `c.next[l]` is nil, `c.topLevel = l - 1`,
`q.hits[l]` has grown by `getHits(c, l)` in `int32` arithmetic, `c.hits[l] = 0`, the zero
level of the list is one less exactly when `l` equalled it, both baselines are the minimum
of the old one and `l - 1`, no other node changes, and `q` reaches `c` on level `l - 1`:
by `q.next[l-1]` when `q` had baseline `l` and `q.next[l] = c`, and otherwise along every
chain of level `l - 1` links that led from `q` to `c` before. -/
theorem descentStep_splice (mem : List SplayNode) (zero l : Int) (curr pred : Nat)
    (c q : SplayNode) (hc : mem[curr]? = some c) (hq : mem[pred]? = some q)
    (hne : curr ≠ pred) (hl1 : 1 ≤ l) (hl2 : l ≤ 31) (htop : c.topLevel = l)
    (hzc : c.zeroLevel ≤ l) (hzq : q.zeroLevel ≤ l) (hcn : c.next.length = 33)
    (hch : c.hits.length = 33) (hqn : q.next.length = 33) (hqh : q.hits.length = 33) :
    ∃ (mem1 : List SplayNode) (zero1 : Int) (c1 q1 : SplayNode) (ph ch : Int),
      descentStep mem zero l curr pred = some (mem1, zero1) ∧
      mem1[curr]? = some c1 ∧ mem1[pred]? = some q1 ∧
      (∀ x : Nat, x ≠ curr → x ≠ pred → mem1[x]? = mem[x]?) ∧
      idx q1.next l = idx c.next l ∧ idx c1.next l = some none ∧ c1.topLevel = l - 1 ∧
      idx q.hits l = some ph ∧ getHits mem curr l = some ch ∧
      idx q1.hits l = some (wrap32 (ph + ch)) ∧ idx c1.hits l = some 0 ∧
      zero1 = (if l = zero then zero - 1 else zero) ∧
      c1.zeroLevel = min c.zeroLevel (l - 1) ∧ q1.zeroLevel = min q.zeroLevel (l - 1) ∧
      c1.zeroLevel ≤ l - 1 ∧ q1.zeroLevel ≤ l - 1 ∧
      c1.key = c.key ∧ q1.key = q.key ∧ c1.selfhits = c.selfhits ∧
      q1.selfhits = q.selfhits ∧ q1.topLevel = q.topLevel ∧
      (idx q.next l = some (some curr) → q.zeroLevel = l →
        linkedAt mem1 (l - 1) pred [] curr) ∧
      (∀ via : List Nat, q.zeroLevel ≤ l - 1 → linkedAt mem (l - 1) pred via curr →
        curr ∉ via → pred ∉ via → linkedAt mem1 (l - 1) pred via curr) := by
  obtain ⟨mem1, cs, qs, ph, x, cn, hd, t, hph, hx, hcnx, g0,
    ⟨c2, c4, c5, c6, c7, c8, c9, c10, c11⟩, ⟨q2, q3, q4, q5, q6, q7, q8, q9, q10, q11⟩⟩ :=
    @descentStep_two mem zero l curr pred c q hc hq hne hl1 hl2 hzc hzq hcn hch hqn hqh
  have hz1 : (if l = zero then wrap32 (zero - 1) else zero)
      = (if l = zero then zero - 1 else zero) := by
    by_cases he : l = zero
    · rw [if_pos he, if_pos he]
      exact wrap32_of_range (by omega) (by omega)
    · rw [if_neg he, if_neg he]
  have hl0 : (0 : Int) ≤ l := by omega
  have hnl : l - 1 ≠ l := by omega
  have hqlow : ∀ i, i ≠ l → idx (qs.next.set l.toNat cn) i
      = if l - 1 ≤ i ∧ i < q.zeroLevel then idx q.next q.zeroLevel else idx q.next i := by
    intro i hi
    rw [idx_set_ne _ _ hl0 (by omega) hi, q10 i]
  refine ⟨mem1, _, _, _, ph, wrap32 (c.selfhits + x), hd, t.1, t.2.1, t.2.2, ?_, ?_, ?_, hph,
    g0, ?_, ?_, hz1, c2, q2, ?_, ?_, c5, q5, c4, q4, q3, ?_, ?_⟩
  · show idx (qs.next.set l.toNat cn) l = _
    rw [idx_set_self _ _ hl0 (by omega), hcnx]
  · show idx (cs.next.set l.toNat none) l = _
    rw [idx_set_self _ _ hl0 (by omega)]
  · show wrap32 (c.topLevel - 1) = _
    rw [htop]
    exact wrap32_of_range (by omega) (by omega)
  · show idx (qs.hits.set l.toNat _) l = _
    rw [idx_set_self _ _ hl0 (by omega)]
  · show idx (cs.hits.set l.toNat 0) l = _
    rw [idx_set_self _ _ hl0 (by omega)]
  · show cs.zeroLevel ≤ l - 1
    rw [c2]
    exact min_le_right _ _
  · show qs.zeroLevel ≤ l - 1
    rw [q2]
    exact min_le_right _ _
  · intro hqc hzl
    unfold linkedAt
    rw [sNext_of t.2.1]
    show idx (qs.next.set l.toNat cn) (l - 1) = _
    rw [hqlow _ hnl, if_pos ⟨le_refl _, by omega⟩, hzl, hqc]
  · intro via hzl hp hv1 hv2
    refine linkedAt_congr via pred curr ?_ hp
    intro y hy
    rcases List.mem_cons.1 hy with e | e
    · subst e
      rw [sNext_of t.2.1, sNext_of hq]
      show idx (qs.next.set l.toNat cn) (l - 1) = _
      rw [hqlow _ hnl, if_neg (by omega)]
    · have h1 : y ≠ curr := fun h => hv1 (h ▸ e)
      have h2 : y ≠ pred := fun h => hv2 (h ▸ e)
      unfold sNext
      rw [t.2.2 y h1 h2]

/-- A witness for `descentStep_splice`: `midNode` at address 1 leaves level 1 under
`towerNode` at address 0. -/
theorem descentStep_splice_witness :
    ∃ (mem1 : List SplayNode) (zero1 : Int) (c1 q1 : SplayNode) (ph ch : Int),
      descentStep sampleHeap 0 1 1 0 = some (mem1, zero1) ∧
      mem1[1]? = some c1 ∧ mem1[0]? = some q1 ∧
      (∀ x : Nat, x ≠ 1 → x ≠ 0 → mem1[x]? = sampleHeap[x]?) ∧
      idx q1.next 1 = idx midNode.next 1 ∧ idx c1.next 1 = some none ∧ c1.topLevel = 1 - 1 ∧
      idx towerNode.hits 1 = some ph ∧ getHits sampleHeap 1 1 = some ch ∧
      idx q1.hits 1 = some (wrap32 (ph + ch)) ∧ idx c1.hits 1 = some 0 ∧
      zero1 = (if (1 : Int) = 0 then 0 - 1 else 0) ∧
      c1.zeroLevel = min midNode.zeroLevel (1 - 1) ∧ q1.zeroLevel = min towerNode.zeroLevel (1 - 1) ∧
      c1.zeroLevel ≤ 1 - 1 ∧ q1.zeroLevel ≤ 1 - 1 ∧
      c1.key = midNode.key ∧ q1.key = towerNode.key ∧ c1.selfhits = midNode.selfhits ∧
      q1.selfhits = towerNode.selfhits ∧ q1.topLevel = towerNode.topLevel ∧
      (idx towerNode.next 1 = some (some 1) → towerNode.zeroLevel = 1 →
        linkedAt mem1 (1 - 1) 0 [] 1) ∧
      (∀ via : List Nat, towerNode.zeroLevel ≤ 1 - 1 → linkedAt sampleHeap (1 - 1) 0 via 1 →
        1 ∉ via → 0 ∉ via → linkedAt mem1 (1 - 1) 0 via 1) :=
  descentStep_splice sampleHeap 0 1 1 0 midNode towerNode (by rfl) (by rfl) (by decide)
    (by decide) (by decide) (by rfl) (by decide) (by decide) (by rfl) (by rfl) (by rfl) (by rfl)

end Skiplist

namespace Skiplist

/-! ## TList: a traversal below the span threshold -/

theorem pureWalk_ge (mem : List tNode) (key : K) (h : Nat) :
    ∀ (fuel curr hops c1 n : Nat), pureWalk mem key h fuel curr hops = some (c1, n) → hops ≤ n
  | 0, _, _, _, _, hw => by unfold pureWalk at hw; cases hw
  | fuel + 1, curr, hops, c1, n, hw => by
    unfold pureWalk at hw
    split at hw
    · cases hw
    · cases hw; exact le_refl _
    · split at hw
      · cases hw
      · split at hw
        · have := pureWalk_ge mem key h fuel _ _ c1 n hw
          omega
        · cases hw; exact le_refl _

/-- While the hop count stays below `span`, the inner loop of `buildTravel` only moves
`curr` and counts. -/
theorem travelWalk_quiet (key : K) (span : Int) (hs : span < 2 ^ 31) (h : Nat) :
    ∀ (fuel : Nat) (t : Travel) (hops c1 n : Nat),
      pureWalk t.mem key h fuel t.curr hops = some (c1, n) → (n : Int) < span →
      t.stepCounter = hops →
      travelWalk key span h fuel t = some { t with curr := c1, stepCounter := n }
  | 0, _, _, _, _, hw, _, _ => by unfold pureWalk at hw; cases hw
  | fuel + 1, t, hops, c1, n, hw, hn, hc => by
    unfold pureWalk at hw
    unfold travelWalk
    cases hnx : tNextAt t.mem t.curr h with
    | none => rw [hnx] at hw; cases hw
    | some p =>
      rw [hnx] at hw
      cases p with
      | none =>
        simp only at hw ⊢
        cases hw
        rw [← hc]
      | some nx =>
        simp only at hw ⊢
        cases hnd : t.mem[nx]? with
        | none => rw [hnd] at hw; cases hw
        | some nd =>
          rw [hnd] at hw
          simp only at hw ⊢
          by_cases hlt : nd.key < key
          · rw [if_pos hlt] at hw ⊢
            have hge := pureWalk_ge t.mem key h fuel _ _ c1 n hw
            have hwr : wrap32 (t.stepCounter + 1) = ((hops + 1 : Nat) : Int) := by
              rw [hc]
              push_cast
              exact wrap32_of_range (by omega) (by omega)
            rw [hwr]
            rw [if_neg (by
              intro hcon
              have := hcon.1
              simp only at this
              omega)]
            exact travelWalk_quiet key span hs h fuel
              { t with curr := nx, stepCounter := ((hops + 1 : Nat) : Int) } (hops + 1) c1 n
              hw hn rfl
          · rw [if_neg hlt] at hw ⊢
            cases hw
            rw [← hc]

theorem pureFrom_mem (mem : List tNode) (key : K) :
    ∀ (h curr : Nat) (hs : List Nat) (node : Nat) (found : Bool) (hs1 : List Nat),
      pureFrom mem key h curr hs = some (node, found, hs1) → ∀ x ∈ hs, x ∈ hs1
  | 0, curr, hs, node, found, hs1, hf => by
    unfold pureFrom at hf
    split at hf
    · cases hf
    · split at hf
      · cases hf
      · cases hf
        intro x hx
        exact List.mem_cons_of_mem _ hx
      · cases hf
        intro x hx
        exact List.mem_cons_of_mem _ hx
  | h + 1, curr, hs, node, found, hs1, hf => by
    unfold pureFrom at hf
    split at hf
    · cases hf
    · split at hf
      · cases hf
      · cases hf
        intro x hx
        exact List.mem_cons_of_mem _ hx
      · intro x hx
        exact pureFrom_mem mem key h _ _ node found hs1 hf x (List.mem_cons_of_mem _ hx)

theorem travelFrom_quiet (key : K) (span : Int) (hs : span < 2 ^ 31) :
    ∀ (h : Nat) (t : Travel) (hl : List Nat) (node : Nat) (found : Bool) (hl1 : List Nat),
      pureFrom t.mem key h t.curr hl = some (node, found, hl1) →
      (∀ n ∈ hl1, (n : Int) < span) → t.stepCounter = 0 →
      travelFrom key span h t = some (t.mem, t.level, node, found)
  | 0, t, hl, node, found, hl1, hf, hall, hc => by
    unfold pureFrom at hf
    unfold travelFrom
    cases hw : pureWalk t.mem key 0 t.mem.length t.curr 0 with
    | none => rw [hw] at hf; cases hf
    | some r =>
      obtain ⟨c1, n⟩ := r
      rw [hw] at hf
      simp only at hf
      cases hh : tHitAt t.mem key 0 c1 with
      | none => rw [hh] at hf; cases hf
      | some q =>
        rw [hh] at hf
        have hn : (n : Int) < span := by
          cases q with
          | none => cases hf; exact hall n (List.mem_cons_self _ _)
          | some nx => cases hf; exact hall n (List.mem_cons_self _ _)
        rw [travelWalk_quiet key span hs 0 _ t 0 c1 n hw hn (by rw [hc]; rfl)]
        simp only
        rw [hh]
        cases q with
        | none => cases hf; rfl
        | some nx => cases hf; rfl
  | h + 1, t, hl, node, found, hl1, hf, hall, hc => by
    unfold pureFrom at hf
    unfold travelFrom
    cases hw : pureWalk t.mem key (h + 1) t.mem.length t.curr 0 with
    | none => rw [hw] at hf; cases hf
    | some r =>
      obtain ⟨c1, n⟩ := r
      rw [hw] at hf
      simp only at hf
      cases hh : tHitAt t.mem key (h + 1) c1 with
      | none => rw [hh] at hf; cases hf
      | some q =>
        rw [hh] at hf
        have hn : (n : Int) < span := by
          cases q with
          | none =>
            exact hall n (pureFrom_mem t.mem key h _ _ node found hl1 hf n
              (List.mem_cons_self _ _))
          | some nx => cases hf; exact hall n (List.mem_cons_self _ _)
        rw [travelWalk_quiet key span hs (h + 1) _ t 0 c1 n hw hn (by rw [hc]; rfl)]
        simp only
        rw [hh]
        cases q with
        | none =>
          exact travelFrom_quiet key span hs h
            { mem := t.mem, level := t.level, curr := c1, stepCounter := 0, station := c1 }
            (n :: hl) node found hl1 hf hall rfl
        | some nx => cases hf; rfl

/-- When every level is left after fewer than `span` hops, `buildTravel` returns what
`pureTravel` returns and leaves the list as it is. -/
theorem TList.buildTravel_quiet {sl : TList} {key : K} {node : Nat} {found : Bool}
    {hops : List Nat} (hs : sl.span < 2 ^ 31)
    (hp : sl.pureTravel key = some (node, found, hops))
    (hall : ∀ n ∈ hops, (n : Int) < sl.span) :
    sl.buildTravel key = some (sl, node, found) := by
  unfold TList.pureTravel at hp
  unfold TList.buildTravel
  split at hp
  · rename_i h0
    cases hp
    simp only [h0]
  · rename_i top h0
    simp only [h0]
    have := travelFrom_quiet key sl.span hs top
      { mem := sl.mem, level := top + 1, curr := sl.head, stepCounter := 0, station := sl.head }
      [] node found hops hp hall rfl
    rw [this]
    simp only
    congr 2
    cases sl
    simp only at h0
    subst h0
    rfl

end Skiplist

namespace Skiplist

theorem links_set {β : Type} {mem : List tNode} {a : Nat} {nd : tNode}
    (h : mem[a]? = some nd) (x : tNode) (f : tNode → β) (hx : f x = f nd) (b : Nat) :
    ((mem.set a x)[b]?).map f = (mem[b]?).map f := by
  by_cases hb : a = b
  · subst hb
    rw [set_get_self h, h]
    simp [hx]
  · rw [set_get_ne mem hb]

theorem drop_one_set_zero {α : Type} (xs : List α) (x : α) :
    (xs.set 0 x).drop 1 = xs.drop 1 := by
  cases xs <;> rfl

/-- C36: when `pureTravel` for `key` makes fewer than `span` hops on every level it visits,
`buildTravel` returns the same node and leaves the list as it is: no node is promoted.
Hence `Get` and `Contains` return the list unchanged, `Delete` keeps the level count and
every link slice, and `Put` keeps the level count, the height of every node and every link
above level 0, a node it adds having one link slot; and on a well-formed list the four
methods do return. -/
theorem tlist_no_promotion (sl : TList) (key : K) (node : Nat) (found : Bool)
    (hops : List Nat) (hs : sl.span < 2 ^ 31)
    (hp : sl.pureTravel key = some (node, found, hops))
    (hall : ∀ n ∈ hops, (n : Int) < sl.span) :
    sl.buildTravel key = some (sl, node, found) ∧
    (∀ r, sl.Get key = some r → r.1 = sl) ∧
    (∀ r, sl.Contains key = some r → r.1 = sl) ∧
    (∀ sl1 : TList, sl.Delete key = some sl1 → sl1.level = sl.level ∧
      sl1.GetMaxStats.2 = sl.GetMaxStats.2 ∧ sl1.mem.length = sl.mem.length ∧
      ∀ a : Nat, (sl1.mem[a]?).map tNode.next = (sl.mem[a]?).map tNode.next) ∧
    (∀ (v : V) (sl1 : TList), sl.Put key v = some sl1 → sl1.level = sl.level ∧
      sl1.GetMaxStats.2 = sl.GetMaxStats.2 ∧
      (∀ a : Nat, a < sl.mem.length →
        (sl1.mem[a]?).map (fun nd => nd.next.length)
          = (sl.mem[a]?).map (fun nd => nd.next.length) ∧
        (sl1.mem[a]?).map (fun nd => nd.next.drop 1)
          = (sl.mem[a]?).map (fun nd => nd.next.drop 1)) ∧
      (∀ (a : Nat) (nd : tNode), sl.mem.length ≤ a → sl1.mem[a]? = some nd →
        nd.next.length = 1)) ∧
    (∀ l, TGood sl l → (∃ r, sl.Get key = some r) ∧ (∃ r, sl.Contains key = some r) ∧
      (∃ s, sl.Delete key = some s) ∧ ∀ v, ∃ s, sl.Put key v = some s) := by
  have hb := TList.buildTravel_quiet hs hp hall
  refine ⟨hb, ?_, ?_, ?_, ?_, ?_⟩
  · intro r hr
    unfold TList.Get at hr
    rw [hb] at hr
    cases found with
    | true =>
      simp only at hr
      split at hr
      · cases hr
      · split at hr
        · cases hr; rfl
        · cases hr; rfl
    | false =>
      cases hr; rfl
  · intro r hr
    unfold TList.Contains at hr
    rw [hb] at hr
    cases found with
    | true =>
      simp only at hr
      split at hr
      · cases hr
      · cases hr; rfl
    | false =>
      cases hr; rfl
  · intro sl1 hr
    unfold TList.Delete at hr
    rw [hb] at hr
    cases found with
    | true =>
      simp only at hr
      split at hr
      · cases hr
      · rename_i nd hnd
        cases hr
        refine ⟨rfl, rfl, by simp, ?_⟩
        intro a
        exact links_set hnd { nd with del := true } tNode.next rfl a
    | false =>
      cases hr
      exact ⟨rfl, rfl, rfl, fun _ => rfl⟩
  · intro v sl1 hr
    unfold TList.Put at hr
    rw [hb] at hr
    cases found with
    | true =>
      simp only at hr
      split at hr
      · cases hr
      · rename_i nd hnd
        cases hr
        refine ⟨rfl, rfl, ?_, ?_⟩
        · intro a _
          exact ⟨links_set hnd { nd with value := v, del := false }
              (fun nd => nd.next.length) rfl a,
            links_set hnd { nd with value := v, del := false }
              (fun nd => nd.next.drop 1) rfl a⟩
        · intro a nd1 ha h1
          rw [List.getElem?_eq_none (by simpa using ha)] at h1
          cases h1
    | false =>
      simp only at hr
      split at hr
      · cases hr
      · rename_i nd hnd
        split at hr
        · cases hr
        · rename_i q hq
          cases hr
          have hlt : node < sl.mem.length := getElem?_lt hnd
          have hnd2 : (sl.mem ++ [tNode.mk key v [q] false])[node]? = some nd := by
            rw [List.getElem?_append_left hlt]
            exact hnd
          refine ⟨rfl, rfl, ?_, ?_⟩
          · intro a ha
            have e1 := links_set hnd2 { nd with next := nd.next.set 0 (some sl.mem.length) }
              (fun nd => nd.next.length) (by simp) a
            have e2 := links_set hnd2 { nd with next := nd.next.set 0 (some sl.mem.length) }
              (fun nd => nd.next.drop 1) (drop_one_set_zero _ _) a
            rw [List.getElem?_append_left ha] at e1 e2
            exact ⟨e1, e2⟩
          · intro a nd1 ha h1
            have hne : node ≠ a := by omega
            simp only at h1
            rw [set_get_ne _ hne] at h1
            rcases Nat.lt_or_ge sl.mem.length a with h2 | h2
            · rw [List.getElem?_eq_none (by simp; omega)] at h1
              cases h1
            · have e : a = sl.mem.length := by omega
              subst e
              rw [List.getElem?_append_right (le_refl _)] at h1
              simp at h1
              subst h1
              rfl
  · intro l hg
    obtain ⟨s1, g1, _⟩ := TList.tlist_Get_spec hg key
    obtain ⟨s2, g2, _⟩ := TList.tlist_Contains_spec hg key
    obtain ⟨s3, g3, _⟩ := TList.tlist_Delete_spec hg key
    refine ⟨⟨_, g1⟩, ⟨_, g2⟩, ⟨_, g3⟩, ?_⟩
    intro v
    obtain ⟨s4, _, g4, _⟩ := TList.tlist_Put_spec hg key v
    exact ⟨_, g4⟩

/-- A witness for `tlist_no_promotion`: on `spanList`, whose span is 3, the traversal for
key 5 makes two hops on level 0 and ends at the node of key 2. -/
theorem tlist_no_promotion_witness :
    spanList.buildTravel 5 = some (spanList, 2, false) ∧
    (∀ r, spanList.Get 5 = some r → r.1 = spanList) ∧
    (∀ r, spanList.Contains 5 = some r → r.1 = spanList) ∧
    (∀ sl1 : TList, spanList.Delete 5 = some sl1 → sl1.level = spanList.level ∧
      sl1.GetMaxStats.2 = spanList.GetMaxStats.2 ∧ sl1.mem.length = spanList.mem.length ∧
      ∀ a : Nat, (sl1.mem[a]?).map tNode.next = (spanList.mem[a]?).map tNode.next) ∧
    (∀ (v : V) (sl1 : TList), spanList.Put 5 v = some sl1 → sl1.level = spanList.level ∧
      sl1.GetMaxStats.2 = spanList.GetMaxStats.2 ∧
      (∀ a : Nat, a < spanList.mem.length →
        (sl1.mem[a]?).map (fun nd => nd.next.length)
          = (spanList.mem[a]?).map (fun nd => nd.next.length) ∧
        (sl1.mem[a]?).map (fun nd => nd.next.drop 1)
          = (spanList.mem[a]?).map (fun nd => nd.next.drop 1)) ∧
      (∀ (a : Nat) (nd : tNode), spanList.mem.length ≤ a → sl1.mem[a]? = some nd →
        nd.next.length = 1)) ∧
    (∀ l, TGood spanList l → (∃ r, spanList.Get 5 = some r) ∧ (∃ r, spanList.Contains 5 = some r) ∧
      (∃ s, spanList.Delete 5 = some s) ∧ ∀ v, ∃ s, spanList.Put 5 v = some s) :=
  tlist_no_promotion spanList 5 2 false [2] (by decide) (by rfl) (by decide)

end Skiplist

namespace Skiplist

/-! ## TList: how levels grow -/

/-- A call of `upgrade` leaves every height but that of `nd`, which it raises by one or
leaves. -/
theorem upgrade_one {mem mem1 : List tNode} {nd parent : Nat}
    (h : upgrade mem nd parent = some mem1) (a : Nat) :
    lenAt (nodesOf mem1) a = lenAt (nodesOf mem) a ∨
      (a = nd ∧ lenAt (nodesOf mem1) a = lenAt (nodesOf mem) a + 1) := by
  unfold upgrade at h
  split at h
  · rename_i ln lp n p h1 h2 h3 h4
    split at h
    · cases h; exact Or.inl rfl
    · rename_i hlt
      split at h
      · cases h
      · rename_i q hq
        simp only at h
        split at h
        · cases h
        · rename_i p1 hp1
          split at h
          · rename_i hc
            cases h
            have hndlt : nd < mem.length := getElem?_lt h3
            have hne : nd ≠ parent := by
              intro he
              subst he
              rw [h1] at h2
              cases h2
              exact hlt (le_refl _)
            rw [set_get_ne _ hne] at hp1
            rw [h4] at hp1
            cases hp1
            rw [lenAt_nodesOf_set, lenAt_nodesOf_set]
            have hn := lenAt_nodesOf h3
            have hpp := lenAt_nodesOf h4
            simp only [List.length_set, List.length_append, List.length_singleton]
            by_cases hap : a = parent
            · left
              rw [hap]
              simp only [true_and, getElem?_lt h4, if_true]
              exact hpp.symm
            · simp only [hap, false_and, if_false]
              by_cases han : a = nd
              · right
                simp only [han, true_and, hndlt, if_true]
                rw [hn]
              · left
                simp only [han, false_and, if_false]
          · cases h
  · cases h

theorem applyUpgrades_append : ∀ (ups : List (Nat × Nat)) (m m1 m2 : List tNode)
    (ups2 : List (Nat × Nat)), applyUpgrades m ups = some m1 →
    applyUpgrades m1 ups2 = some m2 → applyUpgrades m (ups ++ ups2) = some m2
  | [], m, m1, m2, ups2, h1, h2 => by
    unfold applyUpgrades at h1
    cases h1
    exact h2
  | (nd, parent) :: ups, m, m1, m2, ups2, h1, h2 => by
    unfold applyUpgrades at h1
    show applyUpgrades m ((nd, parent) :: (ups ++ ups2)) = some m2
    unfold applyUpgrades
    split at h1
    · cases h1
    · rename_i m3 hu
      exact applyUpgrades_append ups m3 m1 m2 ups2 h1 h2

theorem promote_upgrades {t t1 : Travel} {h : Nat} (hp : promote t h = some t1) :
    ∃ ups, applyUpgrades t.mem ups = some t1.mem := by
  unfold promote at hp
  split at hp
  · cases hp
  · split at hp
    · cases hp
    · split at hp
      · cases hp
      · rename_i mem1 hu
        cases hp
        refine ⟨[(t.curr, t.station)], ?_⟩
        unfold applyUpgrades
        rw [hu]
        rfl
    · cases hp
      exact ⟨[], rfl⟩

theorem travelWalk_upgrades (key : K) (span : Int) (h : Nat) :
    ∀ (fuel : Nat) (t t1 : Travel), travelWalk key span h fuel t = some t1 →
      ∃ ups, applyUpgrades t.mem ups = some t1.mem
  | 0, _, _, hw => by unfold travelWalk at hw; cases hw
  | fuel + 1, t, t1, hw => by
    unfold travelWalk at hw
    split at hw
    · cases hw
    · cases hw; exact ⟨[], rfl⟩
    · split at hw
      · cases hw
      · split at hw
        · simp only at hw
          split at hw
          · split at hw
            · cases hw
            · rename_i t2 hp
              obtain ⟨u1, g1⟩ := promote_upgrades hp
              obtain ⟨u2, g2⟩ := travelWalk_upgrades key span h fuel t2 t1 hw
              exact ⟨u1 ++ u2, applyUpgrades_append u1 _ _ _ u2 g1 g2⟩
          · exact travelWalk_upgrades key span h fuel
              { t with curr := _, stepCounter := wrap32 (t.stepCounter + 1) } t1 hw
        · cases hw; exact ⟨[], rfl⟩

theorem travelFrom_upgrades (key : K) (span : Int) :
    ∀ (h : Nat) (t : Travel) (res : List tNode × Nat × Nat × Bool),
      travelFrom key span h t = some res → ∃ ups, applyUpgrades t.mem ups = some res.1
  | 0, t, res, hf => by
    unfold travelFrom at hf
    split at hf
    · cases hf
    · rename_i t1 hw
      have := travelWalk_upgrades key span 0 _ t t1 hw
      split at hf
      · cases hf
      · cases hf; exact this
      · cases hf; exact this
  | h + 1, t, res, hf => by
    unfold travelFrom at hf
    split at hf
    · cases hf
    · rename_i t1 hw
      obtain ⟨u1, g1⟩ := travelWalk_upgrades key span (h + 1) _ t t1 hw
      split at hf
      · cases hf
      · cases hf; exact ⟨u1, g1⟩
      · obtain ⟨u2, g2⟩ := travelFrom_upgrades key span h _ res hf
        exact ⟨u1 ++ u2, applyUpgrades_append u1 _ _ _ u2 g1 g2⟩

/-- The heap after `buildTravel` is the heap before it after a sequence of `upgrade`
calls. -/
theorem TList.buildTravel_upgrades {sl sl1 : TList} {key : K} {node : Nat} {found : Bool}
    (hb : sl.buildTravel key = some (sl1, node, found)) :
    ∃ ups, applyUpgrades sl.mem ups = some sl1.mem := by
  unfold TList.buildTravel at hb
  split at hb
  · cases hb; exact ⟨[], rfl⟩
  · split at hb
    · cases hb
    · rename_i mem1 level1 nd f hf
      cases hb
      exact travelFrom_upgrades key sl.span _ _ _ hf

end Skiplist

namespace Skiplist

theorem lenAt_set_keep {mem : List tNode} {a : Nat} {nd : tNode} (h : mem[a]? = some nd)
    (x : tNode) (hx : x.next.length = nd.next.length) (b : Nat) :
    lenAt (nodesOf (mem.set a x)) b = lenAt (nodesOf mem) b := by
  rw [lenAt_nodesOf_set]
  by_cases hb : b = a
  · subst hb
    rw [if_pos ⟨rfl, getElem?_lt h⟩, hx, lenAt_nodesOf h]
  · rw [if_neg (fun hc => hb hc.1)]

namespace TList

/-- After its traversal `Put` changes no height; a node it adds has one link slot. -/
theorem Put_frame {sl sl0 sl1 : TList} {key : K} {v : V} {node : Nat} {found : Bool}
    (hb : sl.buildTravel key = some (sl0, node, found)) (hp : sl.Put key v = some sl1) :
    sl1.level = sl0.level ∧
    ∀ a, lenAt (nodesOf sl1.mem) a = lenAt (nodesOf sl0.mem) a ∨
      (a = sl0.mem.length ∧ sl1.mem.length = sl0.mem.length + 1 ∧
        lenAt (nodesOf sl1.mem) a = 1) := by
  unfold Put at hp
  rw [hb] at hp
  cases found with
  | true =>
    simp only at hp
    split at hp
    · cases hp
    · rename_i nd hnd
      cases hp
      exact ⟨rfl, fun a => Or.inl
        (lenAt_set_keep hnd { nd with value := v, del := false } rfl a)⟩
  | false =>
    simp only at hp
    split at hp
    · cases hp
    · rename_i nd hnd
      split at hp
      · cases hp
      · rename_i q hq
        cases hp
        refine ⟨rfl, ?_⟩
        intro a
        have hlt : node < sl0.mem.length := getElem?_lt hnd
        have hnd2 : (sl0.mem ++ [tNode.mk key v [q] false])[node]? = some nd := by
          rw [List.getElem?_append_left hlt]
          exact hnd
        show lenAt (nodesOf ((sl0.mem ++ [tNode.mk key v [q] false]).set node
          { nd with next := nd.next.set 0 (some sl0.mem.length) })) a = _ ∨ _
        rw [lenAt_set_keep hnd2 _ (by simp) a, nodesOf_append, alloc_lenAt, nodesOf_length]
        by_cases ha : a = sl0.mem.length
        · right
          rw [if_pos ha]
          exact ⟨ha, by simp, rfl⟩
        · left
          rw [if_neg ha]

theorem Delete_frame {sl sl0 sl1 : TList} {key : K} {node : Nat} {found : Bool}
    (hb : sl.buildTravel key = some (sl0, node, found)) (hp : sl.Delete key = some sl1) :
    sl1.level = sl0.level ∧ ∀ a, lenAt (nodesOf sl1.mem) a = lenAt (nodesOf sl0.mem) a := by
  unfold Delete at hp
  rw [hb] at hp
  cases found with
  | true =>
    simp only at hp
    split at hp
    · cases hp
    · rename_i nd hnd
      cases hp
      exact ⟨rfl, fun a => lenAt_set_keep hnd { nd with del := true } rfl a⟩
  | false =>
    cases hp
    exact ⟨rfl, fun _ => rfl⟩

theorem Get_frame {sl sl0 : TList} {key : K} {node : Nat} {found : Bool}
    (hb : sl.buildTravel key = some (sl0, node, found)) {r : TList × V × Bool}
    (hp : sl.Get key = some r) : r.1 = sl0 := by
  unfold Get at hp
  rw [hb] at hp
  cases found with
  | true =>
    simp only at hp
    split at hp
    · cases hp
    · split at hp
      · cases hp; rfl
      · cases hp; rfl
  | false =>
    cases hp; rfl

theorem Contains_frame {sl sl0 : TList} {key : K} {node : Nat} {found : Bool}
    (hb : sl.buildTravel key = some (sl0, node, found)) {r : TList × Bool}
    (hp : sl.Contains key = some r) : r.1 = sl0 := by
  unfold Contains at hp
  rw [hb] at hp
  cases found with
  | true =>
    simp only at hp
    split at hp
    · cases hp
    · cases hp; rfl
  | false =>
    cases hp; rfl

theorem buildTravel_of_Put {sl sl1 : TList} {key : K} {v : V} (hp : sl.Put key v = some sl1) :
    ∃ sl0 node found, sl.buildTravel key = some (sl0, node, found) := by
  unfold Put at hp
  cases hb : sl.buildTravel key with
  | none => rw [hb] at hp; cases hp
  | some r => exact ⟨r.1, r.2.1, r.2.2, rfl⟩

theorem buildTravel_of_Delete {sl sl1 : TList} {key : K} (hp : sl.Delete key = some sl1) :
    ∃ sl0 node found, sl.buildTravel key = some (sl0, node, found) := by
  unfold Delete at hp
  cases hb : sl.buildTravel key with
  | none => rw [hb] at hp; cases hp
  | some r => exact ⟨r.1, r.2.1, r.2.2, rfl⟩

theorem buildTravel_of_Get {sl : TList} {key : K} {r : TList × V × Bool}
    (hp : sl.Get key = some r) :
    ∃ sl0 node found, sl.buildTravel key = some (sl0, node, found) := by
  unfold Get at hp
  cases hb : sl.buildTravel key with
  | none => rw [hb] at hp; cases hp
  | some r => exact ⟨r.1, r.2.1, r.2.2, rfl⟩

theorem buildTravel_of_Contains {sl : TList} {key : K} {r : TList × Bool}
    (hp : sl.Contains key = some r) :
    ∃ sl0 node found, sl.buildTravel key = some (sl0, node, found) := by
  unfold Contains at hp
  cases hb : sl.buildTravel key with
  | none => rw [hb] at hp; cases hp
  | some r => exact ⟨r.1, r.2.1, r.2.2, rfl⟩

/-- No call lowers a node. -/
theorem call_raised {sl sl1 : TList} {c : Call} {r : Reply} (hc : sl.call c = some (sl1, r)) :
    Raised sl1.mem sl.mem := by
  cases c with
  | put k v =>
    unfold call at hc
    simp only at hc
    cases hp : sl.Put k v with
    | none => rw [hp] at hc; cases hc
    | some s =>
      rw [hp] at hc
      cases hc
      obtain ⟨sl0, node, found, hb⟩ := buildTravel_of_Put hp
      have h1 := buildTravel_raised hb
      have h2 := (Put_frame hb hp).2
      intro a
      rcases h2 a with e | e
      · rw [e]; exact h1 a
      · have h3 := h1 a
        have h4 : lenAt (nodesOf sl0.mem) a = 0 := by
          unfold lenAt
          rw [nodesOf_getElem?, e.1, List.getElem?_eq_none (le_refl _)]
          rfl
        rw [e.2.2]
        omega
  | get k =>
    unfold call at hc
    simp only at hc
    cases hp : sl.Get k with
    | none => rw [hp] at hc; cases hc
    | some s =>
      rw [hp] at hc
      cases hc
      obtain ⟨sl0, node, found, hb⟩ := buildTravel_of_Get hp
      rw [Get_frame hb hp]
      exact buildTravel_raised hb
  | contains k =>
    unfold call at hc
    simp only at hc
    cases hp : sl.Contains k with
    | none => rw [hp] at hc; cases hc
    | some s =>
      rw [hp] at hc
      cases hc
      obtain ⟨sl0, node, found, hb⟩ := buildTravel_of_Contains hp
      rw [Contains_frame hb hp]
      exact buildTravel_raised hb
  | delete k =>
    unfold call at hc
    simp only at hc
    cases hp : sl.Delete k with
    | none => rw [hp] at hc; cases hc
    | some s =>
      rw [hp] at hc
      cases hc
      obtain ⟨sl0, node, found, hb⟩ := buildTravel_of_Delete hp
      have h2 := (Delete_frame hb hp).2
      intro a
      rw [h2 a]
      exact buildTravel_raised hb a

theorem run_raised : ∀ (calls : List Call) (sl sl1 : TList) (rs : List Reply),
    sl.run calls = some (sl1, rs) → Raised sl1.mem sl.mem
  | [], sl, sl1, rs, h => by
    unfold run at h
    cases h
    exact Raised.raisedRefl _
  | c :: cs, sl, sl1, rs, h => by
    unfold run at h
    split at h
    · cases h
    · rename_i s r hc
      split at h
      · cases h
      · rename_i s1 rs1 hr
        cases h
        exact (run_raised cs s _ rs1 hr).raisedTrans (call_raised hc)

end TList

end Skiplist

namespace Skiplist

namespace TList

/-- The method `Put` on a key that no node holds: it returns and appends one node with one
link slot, spliced into the node list at `key`. -/
theorem tlist_Put_fresh {sl : TList} {l : List Nat} (hg : TGood sl l) (key : K) (value : V)
    (habs : target (nodesOf sl.mem) key l = none) :
    ∃ sl1 q, sl.Put key value = some sl1 ∧
      TGood sl1 (withNew (nodesOf sl.mem) key sl.mem.length l) ∧
      sl1.mem.length = sl.mem.length + 1 ∧
      sl1.mem[sl.mem.length]? = some (tNode.mk key value [q] false) ∧
      sl1.head = sl.head := by
  obtain ⟨sl1, node, found, h1, hg1, hhead, _, hkv, hf, hn⟩ := buildTravel_spec hg key
  have hwn : withNew (nodesOf sl.mem) key sl.mem.length l
      = withNew (nodesOf sl1.mem) key sl1.mem.length l := by
    unfold withNew
    rw [hkv.kvBelow, hkv.kvNotBelow, hkv.length]
  rw [hwn, ← hkv.length]
  unfold Put
  rw [h1]
  cases found with
  | true =>
    have ht := hf rfl
    rw [hkv.kvTarget, habs] at ht
    cases ht
  | false =>
    obtain ⟨ht, hnode⟩ := hn rfl
    rw [← hhead] at hnode
    have hmem : node ∈ sl1.head :: l := by
      rw [hnode]
      rcases List.mem_cons.1 (stopAt_mem (nodesOf sl1.mem) key sl1.head l 0) with h2 | h2
      · rw [h2]; simp
      · exact List.mem_cons_of_mem _ (below_subset (mem_atLevel.1 h2).1)
    have hlt := hg1.lt hmem
    obtain ⟨nd, hnd⟩ := getElem?_of_lt hlt
    have hlen1 : 1 ≤ nd.next.length := by
      rw [← lenAt_nodesOf hnd]
      rcases List.mem_cons.1 hmem with h2 | h2
      · rw [h2, hg1.headFull]; omega
      · exact (hg1.rep.lenPos node h2).1
    have hq : nd.next[0]? = some nd.next[0] := List.getElem?_eq_getElem hlen1
    simp only [hnd, hq]
    have hc : (nodesOf sl1.mem)[stopAt (nodesOf sl1.mem) key sl1.head l 0]?
        = some nd.toNode := by
      rw [← hnode, nodesOf_getElem?, hnd]; rfl
    have hq2 : nd.toNode.next[0]? = some nd.next[0] := hq
    obtain ⟨m2, e1, e2, e3, e4, e5⟩ := hg1.rep.insert_bottom key value ht hc hq2
    rw [← hnode, nodesOf_length] at e1
    have hm2 : nodesOf ((sl1.mem ++ [tNode.mk key value [nd.next[0]] false]).set node
        { nd with next := nd.next.set 0 (some sl1.mem.length) }) = m2 := by
      rw [e1, nodesOf_set, nodesOf_append]
      rfl
    rw [nodesOf_length] at e2 e3 e4 e5
    have hne : ∀ a ∈ sl1.head :: l, a ≠ sl1.mem.length :=
      fun a ha => Nat.ne_of_lt (hg1.lt ha)
    refine ⟨_, nd.next[0], rfl, ⟨?_, hg1.levelPos, hg1.levelLe, ?_, ?_⟩, ?_, ?_, hhead⟩
    · show Rep (nodesOf ((sl1.mem ++ [tNode.mk key value [nd.next[0]] false]).set node
        { nd with next := nd.next.set 0 (some sl1.mem.length) })) sl1.head _
      rw [hm2]; exact e2
    · intro a ha
      show lenAt (nodesOf ((sl1.mem ++ [tNode.mk key value [nd.next[0]] false]).set node
        { nd with next := nd.next.set 0 (some sl1.mem.length) })) a ≤ sl1.level
      rw [hm2, e5]
      rcases mem_withNew.1 ha with h3 | h3
      · rw [if_pos h3]; exact hg1.levelPos
      · rw [if_neg (hne a (List.mem_cons_of_mem _ h3))]; exact hg1.cover a h3
    · show lenAt (nodesOf ((sl1.mem ++ [tNode.mk key value [nd.next[0]] false]).set node
        { nd with next := nd.next.set 0 (some sl1.mem.length) })) sl1.head = maxLevel + 2
      rw [hm2, e5, if_neg (hne _ (List.mem_cons_self _ _))]
      exact hg1.headFull
    · show ((sl1.mem ++ [tNode.mk key value [nd.next[0]] false]).set node
        { nd with next := nd.next.set 0 (some sl1.mem.length) }).length = _
      simp
    · show ((sl1.mem ++ [tNode.mk key value [nd.next[0]] false]).set node
        { nd with next := nd.next.set 0 (some sl1.mem.length) })[sl1.mem.length]? = _
      rw [set_get_ne _ (Nat.ne_of_lt hlt), List.getElem?_append_right (le_refl _)]
      simp

/-- The method `Put` on a key that a node holds adds no node. -/
theorem tlist_Put_held {sl : TList} {l : List Nat} (hg : TGood sl l) (key : K) (value : V)
    (hheld : (target (nodesOf sl.mem) key l).isSome = true) :
    ∃ sl1, sl.Put key value = some sl1 ∧ sl1.mem.length = sl.mem.length := by
  obtain ⟨sl1, node, found, h1, hg1, hhead, _, hkv, hf, hn⟩ := buildTravel_spec hg key
  unfold Put
  rw [h1]
  cases found with
  | true =>
    have ht := hf rfl
    have hlt := hg1.lt (List.mem_cons_of_mem _ (target_some ht).1)
    obtain ⟨nd, hnd⟩ := getElem?_of_lt hlt
    simp only [hnd]
    refine ⟨_, rfl, ?_⟩
    show (sl1.mem.set node _).length = _
    rw [List.length_set, hkv.length]
  | false =>
    have ht := (hn rfl).1
    rw [hkv.kvTarget] at ht
    rw [ht] at hheld
    cases hheld

end TList

end Skiplist

namespace Skiplist

theorem TGood.chain_zero {sl : TList} {l : List Nat} (hg : TGood sl l) :
    Chain (nodesOf sl.mem) 0 (sl.head :: l) := by
  have h := hg.rep.chain 0
  rw [atLevel_zero] at h
  · exact h
  · intro a ha
    rcases List.mem_cons.1 ha with e | e
    · rw [e, hg.headFull]
      omega
    · exact (hg.rep.lenPos a e).1

/-- C35: on every `TList` reached by calls from `NewSkipList(span)`, `Put(k, v)` returns.
When no node holds `k` it adds exactly one node, with one link slot (level 0), key `k` and
value `v`, spliced into the level-0 chain at `k` and on no higher level; when a node holds
`k` it adds none. Every later sequence of calls returns and lowers no node; the heap after a
traversal is the heap before it after a sequence of `upgrade` calls, each of which raises
one node by one level or changes no height, and outside the traversal `Put` and `Delete`
change no height while `Get` and `Contains` change nothing. -/
theorem tlist_new_key_level (span : Int) (calls : List Call) (k : K) (v : V) :
    ∃ (sl : TList) (rs : List Reply) (l : List Nat) (sl1 : TList),
      (NewSkipList span).run calls = some (sl, rs) ∧ TGood sl l ∧ sl.Put k v = some sl1 ∧
      (target (nodesOf sl.mem) k l = none →
        ∃ q, sl1.mem.length = sl.mem.length + 1 ∧
          sl1.mem[sl.mem.length]? = some (tNode.mk k v [q] false) ∧
          lenAt (nodesOf sl1.mem) sl.mem.length = 1 ∧
          TGood sl1 (withNew (nodesOf sl.mem) k sl.mem.length l) ∧
          Chain (nodesOf sl1.mem) 0
            (sl1.head :: withNew (nodesOf sl.mem) k sl.mem.length l) ∧
          ∀ h, 1 ≤ h → sl.mem.length ∉ atLevel (nodesOf sl1.mem) h
            (sl1.head :: withNew (nodesOf sl.mem) k sl.mem.length l)) ∧
      ((target (nodesOf sl.mem) k l).isSome = true → sl1.mem.length = sl.mem.length) ∧
      (∀ later : List Call, ∃ sl2 rs2, sl1.run later = some (sl2, rs2) ∧
        ∀ a, lenAt (nodesOf sl1.mem) a ≤ lenAt (nodesOf sl2.mem) a) ∧
      (∀ (s s0 : TList) (key : K) (node : Nat) (found : Bool),
        s.buildTravel key = some (s0, node, found) →
        ∃ ups, applyUpgrades s.mem ups = some s0.mem) ∧
      (∀ (mem mem1 : List tNode) (nd parent : Nat), upgrade mem nd parent = some mem1 →
        ∀ a, lenAt (nodesOf mem1) a = lenAt (nodesOf mem) a ∨
          (a = nd ∧ lenAt (nodesOf mem1) a = lenAt (nodesOf mem) a + 1)) ∧
      (∀ (s s0 s1 : TList) (key : K) (w : V) (node : Nat) (found : Bool),
        s.buildTravel key = some (s0, node, found) → s.Put key w = some s1 →
        ∀ a, lenAt (nodesOf s1.mem) a = lenAt (nodesOf s0.mem) a ∨
          (a = s0.mem.length ∧ s1.mem.length = s0.mem.length + 1 ∧
            lenAt (nodesOf s1.mem) a = 1)) ∧
      (∀ (s s0 s1 : TList) (key : K) (node : Nat) (found : Bool),
        s.buildTravel key = some (s0, node, found) → s.Delete key = some s1 →
        ∀ a, lenAt (nodesOf s1.mem) a = lenAt (nodesOf s0.mem) a) ∧
      (∀ (s s0 : TList) (key : K) (node : Nat) (found : Bool) (r : TList × V × Bool),
        s.buildTravel key = some (s0, node, found) → s.Get key = some r → r.1 = s0) ∧
      (∀ (s s0 : TList) (key : K) (node : Nat) (found : Bool) (r : TList × Bool),
        s.buildTravel key = some (s0, node, found) → s.Contains key = some r → r.1 = s0) := by
  obtain ⟨hg0, _⟩ := TList.NewSkipList_good span
  obtain ⟨sl, l, rs, h1, hg, _⟩ := TList.tlist_run_spec calls hg0
  obtain ⟨sl1, l1, hp, hg1, _⟩ := TList.tlist_Put_spec hg k v
  refine ⟨sl, rs, l, sl1, h1, hg, hp, ?_, ?_, ?_,
    fun s s0 key node found hb => TList.buildTravel_upgrades hb,
    fun mem mem1 nd parent hu a => upgrade_one hu a,
    fun s s0 s1 key w node found hb hq => (TList.Put_frame hb hq).2,
    fun s s0 s1 key node found hb hq => (TList.Delete_frame hb hq).2,
    fun s s0 key node found r hb hq => TList.Get_frame hb hq,
    fun s s0 key node found r hb hq => TList.Contains_frame hb hq⟩
  · intro habs
    obtain ⟨s1, q, g1, g2, g3, g4, g5⟩ := TList.tlist_Put_fresh hg k v habs
    rw [hp] at g1
    cases g1
    have hlen : lenAt (nodesOf sl1.mem) sl.mem.length = 1 := by
      rw [lenAt_nodesOf g4]
      rfl
    refine ⟨q, g3, g4, hlen, g2, g2.chain_zero, ?_⟩
    intro h hh hmem
    have := (mem_atLevel.1 hmem).2
    omega
  · intro hheld
    obtain ⟨s1, g1, g2⟩ := TList.tlist_Put_held hg k v hheld
    rw [hp] at g1
    cases g1
    exact g2
  · intro later
    obtain ⟨sl2, l2, rs2, g1, _, _⟩ := TList.tlist_run_spec later hg1
    exact ⟨sl2, rs2, g1, TList.run_raised later sl1 sl2 rs2 g1⟩

end Skiplist

namespace Skiplist

/-! ## The search path of `FindStep` on a good heap -/

theorem takeWhile_reverse_split {α : Type} (p : α → Bool) (X Y : List α)
    (hY : ∀ a ∈ Y, p a = true)
    (hX : X = [] ∨ ∃ X1 c, X = X1 ++ [c] ∧ p c = false) :
    (X ++ Y).reverse.takeWhile p = Y.reverse := by
  rw [List.reverse_append, List.takeWhile_append_of_pos (fun a ha => hY a (List.mem_reverse.1 ha))]
  rcases hX with h | ⟨X1, c, h, hc⟩
  · rw [h]
    simp
  · rw [h, List.reverse_append]
    simp [List.takeWhile, hc]

/-- The hops on level `lv` when the nodes before `key` split into a part ending in a node
taller than `lv` and a part of nodes that are not. -/
theorem hopsOn_split (mem : List Node) (key : K) (l : List Nat) (lv : Nat) (X Y : List Nat)
    (hB : below mem key l = X ++ Y) (hY : ∀ a ∈ Y, lenAt mem a ≤ lv + 1)
    (hX : X = [] ∨ ∃ X1 c, X = X1 ++ [c] ∧ lv + 1 < lenAt mem c) :
    hopsOn mem key l lv = (Y.filter (fun a => decide (lv < lenAt mem a))).length := by
  unfold hopsOn
  rw [hB, takeWhile_reverse_split _ X Y (fun a ha => by simpa using hY a ha)
    (by
      rcases hX with h | ⟨X1, c, h, hc⟩
      · exact Or.inl h
      · exact Or.inr ⟨X1, c, h, by simp; omega⟩)]
  rw [List.filter_reverse, List.length_reverse]

theorem below_append_of_lt (mem : List Node) (key : K) (X R : List Nat)
    (hX : ∀ a ∈ X, keyAt mem a < key) : below mem key (X ++ R) = X ++ below mem key R := by
  unfold below
  exact List.takeWhile_append_of_pos (fun a ha => by simpa using hX a ha)

theorem mem_below {mem : List Node} {key : K} {l : List Nat} {a : Nat}
    (ha : a ∈ below mem key l) : a ∈ l ∧ keyAt mem a < key :=
  ⟨below_subset ha, below_lt ha⟩

/-- In a list sorted by key, the first node on a level has the least key of that level. -/
theorem atLevel_head_le {mem : List Node} {lv : Nat} {R : List Nat}
    (hs : R.Pairwise (fun a b => keyAt mem a < keyAt mem b)) {n a : Nat}
    (hn : (atLevel mem lv R).head? = some n) (ha : a ∈ R) (hl : lv < lenAt mem a) :
    keyAt mem n ≤ keyAt mem a := by
  have hsub : (atLevel mem lv R).Pairwise (fun a b => keyAt mem a < keyAt mem b) :=
    hs.sublist (atLevel_sublist mem lv R)
  have hmem : a ∈ atLevel mem lv R := mem_atLevel.2 ⟨ha, hl⟩
  cases hF : atLevel mem lv R with
  | nil => rw [hF] at hmem; cases hmem
  | cons b F =>
    rw [hF] at hn hmem hsub
    simp only [List.head?_cons, Option.some.injEq] at hn
    subst hn
    rcases List.mem_cons.1 hmem with e | e
    · rw [e]
    · exact le_of_lt ((List.pairwise_cons.1 hsub).1 a e)

/-- The walk of `FindStep` on one level of a good heap: it passes the nodes `seg`, all before
`key`, stops at the last of them on the level (or where it started), and has counted the
nodes of `seg` on the level. -/
theorem findStepWalk_path {σ : Type} {A : Analyable σ} {s : σ} {mem : List Node}
    {head level : Nat} {l : List Nat} (hg : Good mem head level l) (hr : Reads A s mem)
    (key : K) (lv : Nat) (hlv : lv ≤ maxLevel + 1) :
    ∀ (fuel : Nat) (c : Nat) (rest pre0 : List Nat) (ls : Int),
      head :: l = pre0 ++ c :: rest → lv < lenAt mem c → rest.length < fuel →
      ∃ seg c1 rest1 pre1,
        findStepWalk A s key lv fuel c ls = some (c1, ls +
          (((seg.filter (fun a => decide (lv < lenAt mem a))).length : Nat) : Int)) ∧
        pre1 ++ [c1] = pre0 ++ c :: seg ∧ rest = seg ++ rest1 ∧
        (∀ a ∈ seg, keyAt mem a < key) ∧ lv < lenAt mem c1 ∧
        ((atLevel mem lv rest1).head? = none ∨
          ∃ n, (atLevel mem lv rest1).head? = some n ∧ ¬ keyAt mem n < key)
  | 0, _, _, _, _, _, _, hf => by omega
  | fuel + 1, c, rest, pre0, ls, hl, hc, hf => by
    have hw : wrap32 (lv : Int) = (lv : Int) :=
      wrap32_nat (by unfold maxLevel at hlv; omega)
    have hnx := hg.next_on_level hl hc
    unfold findStepWalk
    rw [hw, hr.next, hnx]
    rcases atLevel_head_split mem lv rest with ⟨h1, h2⟩ | ⟨pre, n, post, h1, h2, h3, h4⟩
    · rw [h1]
      exact ⟨[], c, rest, pre0, by simp, rfl, rfl, (fun a ha => by cases ha), hc, Or.inl h1⟩
    · rw [h4]
      simp only
      have hl2 : head :: l = (pre0 ++ c :: pre) ++ n :: post := by rw [hl, h1]; simp
      rw [hr.key, GetKey_of_lt (hg.allocated hl2)]
      simp only
      by_cases hk : keyAt mem n ≥ key
      · rw [if_pos hk]
        exact ⟨[], c, rest, pre0, by simp, rfl, rfl, (fun a ha => by cases ha), hc,
          Or.inr ⟨n, h4, not_lt.2 hk⟩⟩
      · rw [if_neg hk]
        obtain ⟨seg, c1, rest1, pre1, g1, g2, g3, g4, g5, g6⟩ :=
          findStepWalk_path hg hr key lv hlv fuel n post _ (ls + 1) hl2 h3
            (by rw [h1] at hf; simp at hf; omega)
        have hsort := (hg.rest_sorted hl).1
        rw [h1] at hsort
        have hpre : ∀ a ∈ pre, keyAt mem a < key := by
          intro a ha
          have h5 := (List.pairwise_append.1 hsort).2.2 a ha n (List.mem_cons_self _ _)
          exact lt_trans h5 (lt_of_not_ge hk)
        have hcnt : ((pre ++ n :: seg).filter (fun a => decide (lv < lenAt mem a))).length
            = 1 + (seg.filter (fun a => decide (lv < lenAt mem a))).length := by
          rw [List.filter_append]
          have e1 : pre.filter (fun a => decide (lv < lenAt mem a)) = [] := by
            rw [List.filter_eq_nil_iff]
            intro a ha
            have := h2 a ha
            simp
            omega
          rw [e1, List.filter_cons_of_pos (by simpa using h3)]
          simp
          omega
        refine ⟨pre ++ n :: seg, c1, rest1, pre1, ?_, ?_, ?_, ?_, g5, g6⟩
        · rw [g1, hcnt]
          push_cast
          rw [add_assoc]
        · rw [g2]
          simp
        · rw [h1, g3]
          simp
        · intro a ha
          rcases List.mem_append.1 ha with e | e
          · exact hpre a e
          · rcases List.mem_cons.1 e with e2 | e2
            · rw [e2]
              exact lt_of_not_ge hk
            · exact g4 a e2

end Skiplist

namespace Skiplist

theorem tail_split {α : Type} (P R : List α) (hP : P ≠ []) : (P ++ R).tail = P.tail ++ R := by
  cases P with
  | nil => exact absurd rfl hP
  | cons a P => rfl

/-- One round of the level loop of `FindStep` on a good heap, entered at the node where the
level above was left: it counts `hopsOn`, and it returns in this round exactly when the node
that holds `key` has this level as its top level. -/
theorem findStepLevel_path {σ : Type} {A : Analyable σ} {s : σ} {mem : List Node}
    {head level : Nat} {l : List Nat} (hg : Good mem head level l) (hr : Reads A s mem)
    (key : K) (lv : Nat) (hlv : lv ≤ maxLevel + 1) (c : Nat) (rest pre0 : List Nat) (T : Int)
    (per : List Int) (hl : head :: l = pre0 ++ c :: rest) (hc : lv < lenAt mem c)
    (hc2 : pre0 = [] ∨ lv + 1 < lenAt mem c)
    (hb : ∀ a ∈ below mem key rest, lenAt mem a ≤ lv + 1)
    (hk : ∀ a ∈ (pre0 ++ [c]).tail, keyAt mem a < key)
    (hd : ∀ x, target mem key l = some x → lenAt mem x ≤ lv + 1)
    (hper : lv < per.length) :
    ∃ b c1 rest1 pre1,
      findStepLevel A s key lv c T per
        = some (b, c1, T + ((hopsOn mem key l lv : Int) + 1),
            per.set lv (if b = true then (hopsOn mem key l lv : Int) + 1
              else (hopsOn mem key l lv : Int))) ∧
      head :: l = pre1 ++ c1 :: rest1 ∧ lv < lenAt mem c1 ∧
      (∀ a ∈ below mem key rest1, lenAt mem a ≤ lv) ∧
      (∀ a ∈ (pre1 ++ [c1]).tail, keyAt mem a < key) ∧
      (b = true → ∃ x, target mem key l = some x ∧ lenAt mem x = lv + 1) ∧
      (b = false → ∀ x, target mem key l = some x → lenAt mem x ≤ lv) := by
  obtain ⟨seg, c1, rest1, pre1, g1, g2, g3, g4, g5, g6⟩ :=
    findStepWalk_path hg hr key lv hlv (A.steps s + 1) c rest pre0 0 hl hc
      (by rw [hr.steps]; have := hg.rest_length hl; omega)
  have hl1 : head :: l = pre1 ++ c1 :: rest1 := by
    rw [hl, g3]
    have : pre1 ++ c1 :: rest1 = (pre1 ++ [c1]) ++ rest1 := by simp
    rw [this, g2]
    simp
  have hsort1 := hg.rest_sorted hl1
  have hb1 : ∀ a ∈ below mem key rest1, lenAt mem a ≤ lv := by
    intro a ha
    obtain ⟨ha1, ha2⟩ := mem_below ha
    by_contra hcon
    have hlt : lv < lenAt mem a := by omega
    rcases g6 with h0 | ⟨n, h0, h1⟩
    · have : a ∈ atLevel mem lv rest1 := mem_atLevel.2 ⟨ha1, hlt⟩
      cases hF : atLevel mem lv rest1 with
      | nil => rw [hF] at this; cases this
      | cons b F => rw [hF] at h0; cases h0
    · have := atLevel_head_le hsort1.1 h0 ha1 hlt
      exact h1 (lt_of_le_of_lt this ha2)
  have hlist : l = (pre0 ++ [c]).tail ++ rest := by
    have h1 : (head :: l).tail = l := rfl
    rw [← h1, hl]
    have : pre0 ++ c :: rest = (pre0 ++ [c]) ++ rest := by simp
    rw [this, tail_split _ _ (by simp)]
  have hlist1 : l = (pre1 ++ [c1]).tail ++ rest1 := by
    have h1 : (head :: l).tail = l := rfl
    rw [← h1, hl1]
    have : pre1 ++ c1 :: rest1 = (pre1 ++ [c1]) ++ rest1 := by simp
    rw [this, tail_split _ _ (by simp)]
  have htail1 : (pre1 ++ [c1]).tail = (pre0 ++ [c]).tail ++ seg := by
    rw [g2]
    have : pre0 ++ c :: seg = (pre0 ++ [c]) ++ seg := by simp
    rw [this, tail_split _ _ (by simp)]
  have hk1 : ∀ a ∈ (pre1 ++ [c1]).tail, keyAt mem a < key := by
    intro a ha
    rw [htail1] at ha
    rcases List.mem_append.1 ha with e | e
    · exact hk a e
    · exact g4 a e
  have hbr : below mem key rest = seg ++ below mem key rest1 := by
    rw [g3]
    exact below_append_of_lt mem key seg rest1 g4
  have hB : below mem key l = (pre0 ++ [c]).tail ++ (seg ++ below mem key rest1) := by
    rw [← hbr]
    have := below_append_of_lt mem key (pre0 ++ [c]).tail rest hk
    rw [← hlist] at this
    exact this
  have hops : hopsOn mem key l lv
      = (seg.filter (fun a => decide (lv < lenAt mem a))).length := by
    rw [hopsOn_split mem key l lv _ _ hB (by rw [← hbr]; exact hb) (by
      cases pre0 with
      | nil => exact Or.inl rfl
      | cons p ps =>
        right
        refine ⟨ps, c, rfl, ?_⟩
        rcases hc2 with h | h
        · cases h
        · exact h)]
    rw [List.filter_append]
    have e1 : (below mem key rest1).filter (fun a => decide (lv < lenAt mem a)) = [] := by
      rw [List.filter_eq_nil_iff]
      intro a ha
      have := hb1 a ha
      simp
      omega
    rw [e1]
    simp
  have hw : wrap32 (lv : Int) = (lv : Int) :=
    wrap32_nat (by unfold maxLevel at hlv; omega)
  have hnx := hg.next_on_level hl1 g5
  have hset : ∀ v : Int, setIdx per (lv : Int) v = some (per.set lv v) := by
    intro v
    have := setIdx_isSome per v (i := (lv : Int)) (by omega) (by omega)
    simpa using this
  have hxin : ∀ x, target mem key l = some x → lv < lenAt mem x → x ∈ atLevel mem lv rest1 := by
    intro x hx hlt
    obtain ⟨hx1, hx2⟩ := target_some hx
    rw [hlist1] at hx1
    rcases List.mem_append.1 hx1 with e | e
    · have := hk1 x e
      rw [hx2] at this
      exact absurd this (lt_irrefl _)
    · exact mem_atLevel.2 ⟨e, hlt⟩
  unfold findStepLevel
  rw [g1, zero_add, ← hops]
  simp only
  rw [hw, hr.next, hnx]
  simp only
  rcases atLevel_head_split mem lv rest1 with ⟨h1, h2⟩ | ⟨pre, n, post, h1, h2, h3, h4⟩
  · rw [h1]
    simp only [hset]
    refine ⟨false, c1, rest1, pre1, rfl, hl1, g5, hb1, hk1, (fun hc => by cases hc), ?_⟩
    intro _ x hx
    by_contra hcon
    have := hxin x hx (by omega)
    have h5 := h2 x (mem_atLevel.1 this).1
    omega
  · rw [h4]
    simp only
    have hl2 : head :: l = (pre1 ++ c1 :: pre) ++ n :: post := by rw [hl1, h1]; simp
    rw [hr.key, GetKey_of_lt (hg.allocated hl2)]
    simp only [Option.map_some']
    have hnlt : ¬ keyAt mem n < key := by
      rcases g6 with h5 | ⟨n1, h5, h6⟩
      · rw [h4] at h5; cases h5
      · rw [h4] at h5; cases h5; exact h6
    have hnin : n ∈ rest1 := by rw [h1]; simp
    by_cases hkn : keyAt mem n = key
    · simp only [hkn, decide_True, hset]
      refine ⟨true, c1, rest1, pre1, rfl, hl1, g5, hb1, hk1, ?_, (fun hc => by cases hc)⟩
      intro _
      have ht := target_of_mem hg.sorted (hsort1.2 n hnin) hkn
      have := hd n ht
      exact ⟨n, ht, by omega⟩
    · simp only [hkn, decide_False, hset]
      refine ⟨false, c1, rest1, pre1, rfl, hl1, g5, hb1, hk1, (fun hc => by cases hc), ?_⟩
      intro _ x hx
      by_contra hcon
      have hxa := hxin x hx (by omega)
      obtain ⟨hx1, hx2⟩ := mem_atLevel.1 hxa
      have hle := atLevel_head_le hsort1.1 h4 hx1 hx2
      rw [(target_some hx).2] at hle
      rcases lt_or_eq_of_le hle with e | e
      · exact hnlt e
      · exact hkn e

end Skiplist

namespace Skiplist

theorem eq_range_map {top : Nat} {per : List Int} {f : Nat → Int} (hlen : per.length = top + 1)
    (h : ∀ i, i ≤ top → per[i]? = some (f i)) : per = (List.range (top + 1)).map f := by
  apply List.ext_getElem?
  intro i
  by_cases hi : i ≤ top
  · rw [h i hi, List.getElem?_map, List.getElem?_range (by omega)]
    rfl
  · rw [List.getElem?_eq_none (by omega), List.getElem?_eq_none (by simp; omega)]

theorem breakdownAt_above (hops : Nat → Nat) {found : Option Nat} {i : Nat}
    (h : ∀ g, found = some g → g < i) : breakdownAt hops found i = (hops i : Int) := by
  unfold breakdownAt
  cases found with
  | none => rfl
  | some g =>
    have := h g rfl
    simp only
    rw [if_neg (by omega), if_neg (by omega)]

/-- The level loop of `FindStep` on a good heap, entered on level `lv` where the level above
was left: it returns the level of the node that holds `key`, if any, and the breakdown
`breakdownAt hopsOn`. -/
theorem findStepLevelsAt_path {σ : Type} {A : Analyable σ} {s : σ} {mem : List Node}
    {head level : Nat} {l : List Nat} (hg : Good mem head level l) (hr : Reads A s mem)
    (key : K) (top : Nat) (htop : top ≤ maxLevel + 1) (F : Option Nat)
    (hF : F = (target mem key l).map (fun x => lenAt mem x - 1)) :
    ∀ (lv : Nat), lv ≤ top → ∀ (c : Nat) (rest pre0 : List Nat) (T : Int) (per : List Int),
      head :: l = pre0 ++ c :: rest → lv < lenAt mem c →
      (pre0 = [] ∨ lv + 1 < lenAt mem c) →
      (∀ a ∈ below mem key rest, lenAt mem a ≤ lv + 1) →
      (∀ a ∈ (pre0 ++ [c]).tail, keyAt mem a < key) →
      (∀ x, target mem key l = some x → lenAt mem x ≤ lv + 1) →
      per.length = top + 1 →
      (∀ i, lv < i → i ≤ top → per[i]? = some (breakdownAt (hopsOn mem key l) F i)) →
      (∀ i, i ≤ lv → per[i]? = some 0) →
      ∃ T1, findStepLevelsAt A s key lv c T per
        = some (F, T1, (List.range (top + 1)).map (breakdownAt (hopsOn mem key l) F))
  | 0, hle, c, rest, pre0, T, per, hl, hc, hc2, hb, hk, hd, hlen, hhi, hlo => by
    obtain ⟨b, c1, rest1, pre1, g1, g2, g3, g4, g5, g6, g7⟩ :=
      findStepLevel_path hg hr key 0 (by omega) c rest pre0 T per hl hc hc2 hb hk hd
        (by omega)
    rw [findStepLevelsAt, g1]
    cases b with
    | true =>
      obtain ⟨x, hx1, hx2⟩ := g6 rfl
      have hF0 : F = some 0 := by rw [hF, hx1, Option.map_some', hx2]
      refine ⟨T + (((hopsOn mem key l 0 : Nat) : Int) + 1), ?_⟩
      simp only [if_true]
      rw [← hF0]
      refine congrArg (fun p => some (F, T + (((hopsOn mem key l 0 : Nat) : Int) + 1), p)) ?_
      apply eq_range_map (by simp [hlen])
      intro i hi
      by_cases h0 : i = 0
      · subst h0
        rw [List.getElem?_set_self (by omega), hF0]
        simp [breakdownAt]
      · rw [List.getElem?_set_ne (by omega)]
        exact hhi i (by omega) hi
    | false =>
      have hnone : target mem key l = none := by
        cases ht : target mem key l with
        | none => rfl
        | some x =>
          have h1 := g7 rfl x ht
          have h2 := (hg.lenPos x (target_some ht).1).1
          omega
      have hF0 : F = none := by rw [hF, hnone]; rfl
      refine ⟨T + (((hopsOn mem key l 0 : Nat) : Int) + 1), ?_⟩
      simp only [Bool.false_eq_true, if_false]
      rw [← hF0]
      refine congrArg (fun p => some (F, T + (((hopsOn mem key l 0 : Nat) : Int) + 1), p)) ?_
      apply eq_range_map (by simp [hlen])
      intro i hi
      by_cases h0 : i = 0
      · subst h0
        rw [List.getElem?_set_self (by omega), hF0]
        rfl
      · rw [List.getElem?_set_ne (by omega)]
        exact hhi i (by omega) hi
  | lv + 1, hle, c, rest, pre0, T, per, hl, hc, hc2, hb, hk, hd, hlen, hhi, hlo => by
    obtain ⟨b, c1, rest1, pre1, g1, g2, g3, g4, g5, g6, g7⟩ :=
      findStepLevel_path hg hr key (lv + 1) (by omega) c rest pre0 T per hl hc hc2 hb hk hd
        (by omega)
    rw [findStepLevelsAt, g1]
    cases b with
    | true =>
      obtain ⟨x, hx1, hx2⟩ := g6 rfl
      have hF0 : F = some (lv + 1) := by
        rw [hF, hx1, Option.map_some', hx2]
        rfl
      refine ⟨T + (((hopsOn mem key l (lv + 1) : Nat) : Int) + 1), ?_⟩
      simp only [if_true]
      rw [← hF0]
      refine congrArg
        (fun p => some (F, T + (((hopsOn mem key l (lv + 1) : Nat) : Int) + 1), p)) ?_
      apply eq_range_map (by simp [hlen])
      intro i hi
      by_cases h0 : i = lv + 1
      · subst h0
        rw [List.getElem?_set_self (by omega), hF0]
        simp [breakdownAt]
      · rw [List.getElem?_set_ne (by omega)]
        by_cases h1 : lv + 1 < i
        · exact hhi i h1 hi
        · rw [hlo i (by omega), hF0]
          simp only [breakdownAt]
          rw [if_pos (by omega)]
    | false =>
      simp only [Bool.false_eq_true, if_false]
      have hd1 := g7 rfl
      refine findStepLevelsAt_path hg hr key top htop F hF lv (by omega) c1 rest1 pre1 _ _ g2
        (by omega) (Or.inr g3) g4 g5 hd1 (by simp [hlen]) ?_ ?_
      · intro i h1 h2
        by_cases h0 : i = lv + 1
        · subst h0
          rw [List.getElem?_set_self (by omega)]
          rw [breakdownAt_above]
          intro g hgF
          rw [hF] at hgF
          cases ht : target mem key l with
          | none => rw [ht] at hgF; cases hgF
          | some x =>
            rw [ht] at hgF
            simp only [Option.map_some', Option.some.injEq] at hgF
            have := hd1 x ht
            omega
        · rw [List.getElem?_set_ne (by omega)]
          exact hhi i (by omega) h2
      · intro i h1
        rw [List.getElem?_set_ne (by omega)]
        exact hlo i (by omega)

/-- What `FindStep` returns when the state left by `GetHead` and `GetMaxStats` reads as a
good heap and the list reports `top` as its highest level:
the level of the node that holds `key`, if any, and the breakdown `breakdownAt hopsOn`. -/
theorem FindStepAt_path {σ : Type} {A : Analyable σ} {sl s1 s2 : σ} {mem : List Node}
    {head level : Nat} {l : List Nat} (hg : Good mem head level l) (hr : Reads A s2 mem)
    (hhead : A.GetHead sl = some (some head, s1)) {size : Int} {top : Nat}
    (hmax : A.GetMaxStats s1 = some ((size, (top : Int)), s2)) (htop : top ≤ maxLevel + 1)
    (hth : top < lenAt mem head) (hcov : ∀ a ∈ l, lenAt mem a ≤ top + 1) (key : K) :
    ∃ total, FindStepAt A sl key
      = some (((target mem key l).map (fun x => lenAt mem x - 1), total,
          (List.range (top + 1)).map (breakdownAt (hopsOn mem key l)
            ((target mem key l).map (fun x => lenAt mem x - 1)))), s2) := by
  obtain ⟨T1, hT⟩ := findStepLevelsAt_path hg hr key top htop _ rfl top (le_refl _) head l []
    0 (List.replicate (top + 1) 0) rfl hth (Or.inl rfl)
    (fun a ha => hcov a (below_subset ha)) (fun a ha => by cases ha)
    (fun x hx => hcov x (target_some hx).1) (by simp) (fun i h1 h2 => by omega)
    (fun i hi => by
      rw [List.getElem?_eq_getElem (by simp; omega)]
      simp)
  refine ⟨T1, ?_⟩
  unfold FindStepAt
  rw [hhead]
  simp only
  rw [hmax]
  simp only
  rw [if_neg (by omega), if_neg (by omega)]
  have e1 : ((top : Int)).toNat = top := by simp
  have e2 : ((top : Int) + 1).toNat = top + 1 := by omega
  rw [e1, e2, hT]
  rfl

end Skiplist

namespace Skiplist

/-- On a good heap `FindStep` returns; it finds the key exactly when a node holds it, on the
top level of that node; the breakdown lists the hops of each level, one more on the level of
the find and nothing below it; and the total is as `FindStepAt_books` says. -/
theorem FindStepAt_full {σ : Type} {A : Analyable σ} {sl s1 s2 : σ} {mem : List Node}
    {head level : Nat} {l : List Nat} (hg : Good mem head level l) (hr : Reads A s2 mem)
    (hhead : A.GetHead sl = some (some head, s1)) {size : Int} {top : Nat}
    (hmax : A.GetMaxStats s1 = some ((size, (top : Int)), s2)) (htop : top ≤ maxLevel + 1)
    (hth : top < lenAt mem head) (hcov : ∀ a ∈ l, lenAt mem a ≤ top + 1) (key : K) :
    ∃ (found : Option Nat) (total : Int) (per : List Int),
      FindStepAt A sl key = some ((found, total, per), s2) ∧
      FindStep A sl key = some ((total, per), s2) ∧
      found.isSome = (target mem key l).isSome ∧
      (∀ h, found = some h → ∃ x ∈ l, keyAt mem x = key ∧ lenAt mem x = h + 1) ∧
      (found = none → ∀ x ∈ l, keyAt mem x ≠ key) ∧
      per = (List.range (top + 1)).map (breakdownAt (hopsOn mem key l) found) ∧
      (per.length : Int) = (top : Int) + 1 ∧
      (∀ h : Nat, found = some h →
        (h : Int) ≤ (top : Int) ∧ total = per.sum + ((top : Int) - h)) ∧
      (found = none → total = per.sum + (top : Int) + 1) := by
  obtain ⟨total, hT⟩ := FindStepAt_path hg hr hhead hmax htop hth hcov key
  have hb := FindStepAt_books hhead hmax hT
  have hfg := FindStepAt_forget A sl key
  rw [hT] at hfg
  refine ⟨_, total, _, hT, hfg.symm, ?_, ?_, ?_, rfl, hb.1, hb.2.1, hb.2.2⟩
  · cases target mem key l <;> rfl
  · intro h hh
    cases ht : target mem key l with
    | none => rw [ht] at hh; cases hh
    | some x =>
      rw [ht] at hh
      simp only [Option.map_some', Option.some.injEq] at hh
      obtain ⟨h1, h2⟩ := target_some ht
      have := (hg.lenPos x h1).1
      exact ⟨x, h1, h2, by omega⟩
  · intro hh
    cases ht : target mem key l with
    | none => exact target_none hg.sorted ht
    | some x => rw [ht] at hh; cases hh

theorem TList.reads (sl : TList) : Reads TList.analyable sl (nodesOf sl.mem) := by
  refine ⟨?_, fun a => tLevel_eq_getLevelAt sl.mem a, fun a i => nodeNextAt_eq_getNextAt sl a i,
    (nodesOf_length sl.mem).symm⟩
  intro a
  show (sl.mem[a]?).map (fun nd => nd.key) = GetKey (nodesOf sl.mem) a
  unfold GetKey
  rw [nodesOf_getElem?]
  cases sl.mem[a]? <;> rfl

theorem Good.levelZero_nodes {mem : List Node} {head level : Nat} {l : List Nat}
    (hg : Good mem head level l) : levelNodes mem head 0 = some l := by
  rw [hg.toRep.levelNodes_eq (Nat.zero_le _), atLevel_zero (fun a ha => (hg.lenPos a ha).1)]

/-- C38: `FindStepAt` is `FindStep` with the level of the returning round added, and
whenever the head is not nil and `FindStep` returns, the breakdown has `maxLevel + 1`
entries and the total is the sum of the breakdown plus `maxLevel - h` when the key is found
on level `h`, plus `maxLevel + 1` when it is not found. On every `BasicSkipList`,
`LASkipList` and `TList` reached by calls, with `l` the nodes met on level 0 after the
head, `FindStep` returns for every key; it finds the key exactly when a node of `l` holds it
(for the first two: when the key is stored), on the top level of that node; the entry of the
breakdown on a level is the number of hops of the search on that level (`hopsOn`), one more
on the level of the find and 0 below it. The same holds for every list whose state after
`GetHead` and `GetMaxStats` reads as a well-formed skip list (`Good`) with towers no higher
than the reported level; the last part shows it on a `SplayList` of four keys, whose
baseline is 30, for a key on level 1, a key on level 0 and an absent key. -/
theorem findStep_breakdown (key : K) :
    (∀ (σ : Type) (A : Analyable σ) (sl : σ),
      (FindStepAt A sl key).map (fun r => (r.1.2, r.2)) = FindStep A sl key) ∧
    (∀ (σ : Type) (A : Analyable σ) (sl s1 s2 s3 : σ) (cur : Nat) (size maxLevel : Int)
      (found : Option Nat) (total : Int) (per : List Int),
      A.GetHead sl = some (some cur, s1) → A.GetMaxStats s1 = some ((size, maxLevel), s2) →
      FindStepAt A sl key = some ((found, total, per), s3) →
      (per.length : Int) = maxLevel + 1 ∧
        (∀ h : Nat, found = some h →
          (h : Int) ≤ maxLevel ∧ total = per.sum + (maxLevel - h)) ∧
        (found = none → total = per.sum + maxLevel + 1)) ∧
    (∀ (draws : Nat → Nat) (calls : List Call),
      ∃ (sl : BasicSkipList) (rs : List Reply) (l : List Nat) (found : Option Nat)
        (total : Int) (per : List Int),
      (NewBasicSkipList draws).run calls = some (sl, rs) ∧
      levelNodes sl.mem sl.head 0 = some l ∧
      FindStepAt BasicSkipList.analyable sl key = some ((found, total, per), sl) ∧
      FindStep BasicSkipList.analyable sl key = some ((total, per), sl) ∧
      found.isSome = (latest calls key).isSome ∧
      (∀ h, found = some h → ∃ x ∈ l, keyAt sl.mem x = key ∧ lenAt sl.mem x = h + 1) ∧
      (found = none → ∀ x ∈ l, keyAt sl.mem x ≠ key) ∧
      per = (List.range (sl.level + 1)).map (breakdownAt (hopsOn sl.mem key l) found) ∧
      (per.length : Int) = (sl.level : Int) + 1 ∧
      (∀ h : Nat, found = some h →
        (h : Int) ≤ (sl.level : Int) ∧ total = per.sum + ((sl.level : Int) - h)) ∧
      (found = none → total = per.sum + (sl.level : Int) + 1)) ∧
    (∀ (draws : Nat → Nat) (calls : List LACall),
      ∃ (sl : LASkipList) (rs : List Reply) (l : List Nat) (found : Option Nat)
        (total : Int) (per : List Int),
      (NewLASkipList draws).run calls = some (sl, rs) ∧
      levelNodes sl.mem sl.head 0 = some l ∧
      FindStepAt LASkipList.analyable sl key = some ((found, total, per), sl) ∧
      FindStep LASkipList.analyable sl key = some ((total, per), sl) ∧
      found.isSome = (latestLA calls key).isSome ∧
      (∀ h, found = some h → ∃ x ∈ l, keyAt sl.mem x = key ∧ lenAt sl.mem x = h + 1) ∧
      (found = none → ∀ x ∈ l, keyAt sl.mem x ≠ key) ∧
      per = (List.range (sl.level + 1)).map (breakdownAt (hopsOn sl.mem key l) found) ∧
      (per.length : Int) = (sl.level : Int) + 1 ∧
      (∀ h : Nat, found = some h →
        (h : Int) ≤ (sl.level : Int) ∧ total = per.sum + ((sl.level : Int) - h)) ∧
      (found = none → total = per.sum + (sl.level : Int) + 1)) ∧
    (∀ (span : Int) (calls : List Call),
      ∃ (sl : TList) (rs : List Reply) (l : List Nat) (found : Option Nat)
        (total : Int) (per : List Int),
      (NewSkipList span).run calls = some (sl, rs) ∧
      levelNodes (nodesOf sl.mem) sl.head 0 = some l ∧
      FindStepAt TList.analyable sl key = some ((found, total, per), sl) ∧
      FindStep TList.analyable sl key = some ((total, per), sl) ∧
      (∀ h, found = some h →
        ∃ x ∈ l, keyAt (nodesOf sl.mem) x = key ∧ lenAt (nodesOf sl.mem) x = h + 1) ∧
      (found = none → ∀ x ∈ l, keyAt (nodesOf sl.mem) x ≠ key) ∧
      per = (List.range (sl.level + 1)).map
        (breakdownAt (hopsOn (nodesOf sl.mem) key l) found) ∧
      (per.length : Int) = (sl.level : Int) + 1 ∧
      (∀ h : Nat, found = some h →
        (h : Int) ≤ (sl.level : Int) ∧ total = per.sum + ((sl.level : Int) - h)) ∧
      (found = none → total = per.sum + (sl.level : Int) + 1)) ∧
    (∀ (σ : Type) (A : Analyable σ) (sl s1 s2 : σ) (mem : List Node) (head level : Nat)
      (l : List Nat) (size : Int) (top : Nat),
      Good mem head level l → Reads A s2 mem → A.GetHead sl = some (some head, s1) →
      A.GetMaxStats s1 = some ((size, (top : Int)), s2) → top ≤ maxLevel + 1 →
      top < lenAt mem head → (∀ a ∈ l, lenAt mem a ≤ top + 1) →
      ∃ (found : Option Nat) (total : Int) (per : List Int),
        FindStepAt A sl key = some ((found, total, per), s2) ∧
        FindStep A sl key = some ((total, per), s2) ∧
        (∀ h, found = some h → ∃ x ∈ l, keyAt mem x = key ∧ lenAt mem x = h + 1) ∧
        (found = none → ∀ x ∈ l, keyAt mem x ≠ key) ∧
        per = (List.range (top + 1)).map (breakdownAt (hopsOn mem key l) found) ∧
        (per.length : Int) = (top : Int) + 1 ∧
        (∀ h : Nat, found = some h →
          (h : Int) ≤ (top : Int) ∧ total = per.sum + ((top : Int) - h)) ∧
        (found = none → total = per.sum + (top : Int) + 1)) ∧
    (((NewSplayList 1 (fun _ => 0)).run
        [Call.put 1 1, Call.put 2 1, Call.put 3 1, Call.put 4 1]).bind
        (fun r => (SplayList.GetMaxStats r.1).map (fun q => q.1)) = some (4, 2) ∧
      ((NewSplayList 1 (fun _ => 0)).run
        [Call.put 1 1, Call.put 2 1, Call.put 3 1, Call.put 4 1]).bind
        (fun r => (FindStepAt SplayList.analyable r.1 3).map (fun q => q.1))
        = some (some 1, 3, [0, 2, 0]) ∧
      ((NewSplayList 1 (fun _ => 0)).run
        [Call.put 1 1, Call.put 2 1, Call.put 3 1, Call.put 4 1]).bind
        (fun r => (FindStepAt SplayList.analyable r.1 1).map (fun q => q.1))
        = some (some 0, 3, [1, 0, 0]) ∧
      ((NewSplayList 1 (fun _ => 0)).run
        [Call.put 1 1, Call.put 2 1, Call.put 3 1, Call.put 4 1]).bind
        (fun r => (FindStepAt SplayList.analyable r.1 5).map (fun q => q.1))
        = some (none, 6, [0, 3, 0])) := by
  refine ⟨fun σ A sl => FindStepAt_forget A sl key, ?_, ?_, ?_, ?_, ?_, ?_⟩
  · intro σ A sl s1 s2 s3 cur size maxLevel found total per hh hm hf
    exact FindStepAt_books hh hm hf
  · intro draws calls
    obtain ⟨sl, l, rs, h1, hg, h3⟩ := BasicSkipList.basic_run_latest draws calls
    have hr : Reads BasicSkipList.analyable sl sl.mem :=
      ⟨fun _ => rfl, fun _ => rfl, fun _ _ => rfl, rfl⟩
    have hle := hg.levelLe
    have hhl := hg.headLen
    obtain ⟨found, total, per, g1, g2, g3, g4, g5, g6, g7, g8, g9⟩ :=
      @FindStepAt_full _ BasicSkipList.analyable sl sl sl sl.mem sl.head sl.level l hg hr rfl
        sl.size sl.level rfl (by omega) (by omega) hg.cover key
    refine ⟨sl, rs, l, found, total, per, h1, hg.levelZero_nodes, g1, g2, ?_, g4, g5, g6, g7,
      g8, g9⟩
    rw [g3, ← h3 key, tGet_towers hg.sorted]
    cases target sl.mem key l <;> rfl
  · intro draws calls
    obtain ⟨sl, l, rs, h1, hg, h3⟩ := LASkipList.la_run_latest draws calls
    have hr : Reads LASkipList.analyable sl sl.mem :=
      ⟨fun _ => rfl, fun _ => rfl, fun _ _ => rfl, rfl⟩
    have hle := hg.levelLe
    have hhl := hg.headLen
    obtain ⟨found, total, per, g1, g2, g3, g4, g5, g6, g7, g8, g9⟩ :=
      @FindStepAt_full _ LASkipList.analyable sl sl sl sl.mem sl.head sl.level l hg hr rfl
        sl.size sl.level rfl (by omega) (by omega) hg.cover key
    refine ⟨sl, rs, l, found, total, per, h1, hg.levelZero_nodes, g1, g2, ?_, g4, g5, g6, g7,
      g8, g9⟩
    rw [g3, ← h3 key, tGet_towers hg.sorted]
    cases target sl.mem key l <;> rfl
  · intro span calls
    obtain ⟨hg0, _⟩ := TList.NewSkipList_good span
    obtain ⟨sl, l, rs, h1, hg, _⟩ := TList.tlist_run_spec calls hg0
    have hle := hg.levelLe
    have hhf := hg.headFull
    obtain ⟨found, total, per, g1, g2, g3, g4, g5, g6, g7, g8, g9⟩ :=
      @FindStepAt_full _ TList.analyable sl sl sl (nodesOf sl.mem) sl.head (sl.level - 1) l
        hg.good (TList.reads sl) rfl sl.size sl.level rfl hle (by omega)
        (fun a ha => le_trans (hg.cover a ha) (Nat.le_succ _)) key
    exact ⟨sl, rs, l, found, total, per, h1, hg.good.levelZero_nodes, g1, g2, g4, g5, g6, g7,
      g8, g9⟩
  · intro σ A sl s1 s2 mem head level l size top hg hr hhead hmax htop hth hcov
    obtain ⟨found, total, per, g1, g2, _, g4, g5, g6, g7, g8, g9⟩ :=
      FindStepAt_full hg hr hhead hmax htop hth hcov key
    exact ⟨found, total, per, g1, g2, g4, g5, g6, g7, g8, g9⟩
  · exact ⟨by with_unfolding_all rfl, by with_unfolding_all rfl, by with_unfolding_all rfl,
      by with_unfolding_all rfl⟩

end Skiplist
